import Mathlib

/-!
# LazyDB: a verification development

Shallow embedding of the storage and indexing engine of LazyDB (`BTree.h`, `HashTable.h`,
`Table.h`, `Index.h`, `DbErrors.h`, `Database.h` and the row classes of `model/`) together
with the properties proved about it.

Conventions of the embedding.
* A `std::vector<T>` is a `List T`. A `size_t` or `int` value is a `Nat`: every counter of
  the modelled code is bounded by the number of stored elements or by twice a vector
  length, and sizes are taken to stay below `2^31`, the range of the `int` in which
  `lbIndex` returns a position. The decrements `--count_` and `aliveCount_--` are
  subtractions on `Nat`; the invariants proved below show that they are only executed on
  a positive counter.
* The `double` maximum load factor of `HashTable` is a rational number and the quotient
  `double(count_ + 1) / double(cap)` is the exact quotient (the comparison with `0.75`
  is exact for capacities below `2^52`).
* An access outside a vector (undefined behaviour in C++) makes the operation return
  `none`; a theorem of the form `op s = some s2` therefore also states that every access
  performed by `op` was in bounds. Recursion over the tree that is not structural is
  bounded by a depth argument, which the public operations set to the height of the tree;
  running out of depth is `none` as well.
* A key type is a linear order (`operator<`, `operator==`, `operator>` agree), an id type
  has decidable equality, `std::hash` is an arbitrary function to `Nat`.
* A call that can throw returns an `Outcome`: its value, the exception that left it, or
  `undefined` for undefined behaviour. A file is the list of its lines, `none` when it
  cannot be opened. The `FromCSV` functions of the row classes are parameters
  (`RowParsers`): what is proved about loading holds whatever they do. The `int` fields of
  the rows are `Int` (they are only compared, hashed and printed); the cast `(int)i` of a
  logical row index is `sizeToInt`.
-/

namespace LazyDB

/-! ## Part I. Definitions -/

/-! ### Vector helpers -/

/-- The effect of `v.insert(v.begin() + i, a)` on a vector with `i ≤ v.size()`. -/
def insertAt {α : Type} (i : Nat) (a : α) (l : List α) : List α :=
  l.take i ++ a :: l.drop i

/-- The effect of `v[i] = a` on a vector with `i < v.size()`. -/
def setAt {α : Type} (i : Nat) (a : α) (l : List α) : List α :=
  l.take i ++ a :: l.drop (i + 1)

/-! ### BTree.h -/

section BTreeDefs

/-- The `struct Node` of `BTree`: leaf flag, keys, the ref-list of each key, owned children. -/
inductive Node (K : Type) (Ref : Type) where
  | mk (leaf : Bool) (keys : List K) (values : List (List Ref))
      (children : List (Node K Ref))

variable {K Ref : Type}

/-- Field `leaf`. -/
def Node.leaf : Node K Ref → Bool
  | .mk l _ _ _ => l

/-- Field `keys`. -/
def Node.keys : Node K Ref → List K
  | .mk _ ks _ _ => ks

/-- Field `values`. -/
def Node.values : Node K Ref → List (List Ref)
  | .mk _ _ vs _ => vs

/-- Field `children`. -/
def Node.children : Node K Ref → List (Node K Ref)
  | .mk _ _ _ cs => cs

mutual
/-- Number of node levels on the longest path from a node down to a leaf. -/
def Node.height : Node K Ref → Nat
  | .mk _ _ _ cs => heights cs + 1
/-- Largest height among a list of nodes (0 for the empty list). -/
def heights : List (Node K Ref) → Nat
  | [] => 0
  | c :: cs => max c.height (heights cs)
end

/-- The class `BTree`: minimum degree `t_` and the root node. -/
structure BTree (K : Type) (Ref : Type) where
  t_ : Nat
  root_ : Node K Ref

/-- Constructor `BTree(int minDegree)`: degrees below 2 are clamped to 2, the root is an
empty leaf. -/
def BTree.new (minDegree : Int) : BTree K Ref :=
  ⟨if minDegree < 2 then 2 else minDegree.toNat, .mk true [] [] []⟩

/-- Model of `Clear`: the root becomes a fresh empty leaf. -/
def BTree.Clear (b : BTree K Ref) : BTree K Ref :=
  ⟨b.t_, .mk true [] [] []⟩

/-- Model of `MaxKeys() = 2*t_ - 1`. -/
def MaxKeys (t : Nat) : Nat := 2 * t - 1

/-- The halving loop of `std::lower_bound` on `[first, first + len)`; the first argument
bounds the number of iterations (each iteration shrinks `len`). -/
def lowerBoundLoop [LinearOrder K] (keys : List K) (key : K) : Nat → Nat → Nat → Nat
  | 0, first, _ => first
  | fuel + 1, first, len =>
    if len = 0 then first
    else
      let half := len / 2
      let middle := first + half
      match keys[middle]? with
      | some m =>
        if m < key then lowerBoundLoop keys key fuel (middle + 1) (len - half - 1)
        else lowerBoundLoop keys key fuel first half
      | none => first

/-- Model of `lbIndex`: `std::lower_bound(keys.begin(), keys.end(), key) - keys.begin()`. -/
def lbIndex [LinearOrder K] (keys : List K) (key : K) : Nat :=
  lowerBoundLoop keys key keys.length 0 keys.length

/-- Model of `SplitChild(parent, i)`. The full child `y = parent.children[i]` keeps its first
`t-1` keys, the median `y.keys[t-1]` moves into `parent` at position `i`, the rest goes to
a new node `z` linked as child `i+1`. `none` when a vector is read or written out of
range (or `resize` would have to create null children). -/
def SplitChild (t : Nat) (parent : Node K Ref) (i : Nat) : Option (Node K Ref) :=
  match parent.children[i]? with
  | none => none
  | some y =>
    let mid := t - 1
    match y.keys[mid]?, y.values[mid]? with
    | some medianKey, some medianVal =>
      if y.values.length < y.keys.length then none
      else if (!y.leaf) && decide (y.children.length < mid + 1) then none
      else if i ≤ parent.keys.length ∧ i ≤ parent.values.length then
        let z : Node K Ref := .mk y.leaf (y.keys.drop (mid + 1))
          ((y.values.take y.keys.length).drop (mid + 1))
          (if y.leaf then [] else y.children.drop (mid + 1))
        let y' : Node K Ref := .mk y.leaf (y.keys.take mid) (y.values.take mid)
          (if y.leaf then y.children else y.children.take (mid + 1))
        some (.mk parent.leaf (insertAt i medianKey parent.keys)
          (insertAt i medianVal parent.values)
          (insertAt (i + 1) z (setAt i y' parent.children)))
      else none
    | _, _ => none

/-- The tail call `InsertNonFull(*x.children[i], key, ref)`: the child is updated in
place by `rec`. -/
def descendInto (rec : Node K Ref → Option (Node K Ref)) (x : Node K Ref) (i : Nat) :
    Option (Node K Ref) :=
  match x.children[i]? with
  | none => none
  | some c =>
    match rec c with
    | none => none
    | some c' => some (.mk x.leaf x.keys x.values (setAt i c' x.children))

/-- The statement `x.values[pos].push_back(ref)`. -/
def pushRef (x : Node K Ref) (pos : Nat) (ref : Ref) : Option (Node K Ref) :=
  match x.values[pos]? with
  | none => none
  | some v => some (.mk x.leaf x.keys (setAt pos (v ++ [ref]) x.values) x.children)

/-- Model of `InsertNonFull(x, key, ref)`; the first argument bounds the recursion depth. -/
def InsertNonFull [LinearOrder K] (t : Nat) :
    Nat → Node K Ref → K → Ref → Option (Node K Ref)
  | 0, _, _, _ => none
  | fuel + 1, x, key, ref =>
    let pos := lbIndex x.keys key
    if pos < x.keys.length ∧ x.keys[pos]? = some key then
      pushRef x pos ref
    else if x.leaf then
      if pos ≤ x.keys.length ∧ pos ≤ x.values.length then
        some (.mk x.leaf (insertAt pos key x.keys) (insertAt pos [ref] x.values) x.children)
      else none
    else
      match x.children[pos]? with
      | none => none
      | some c =>
        if c.keys.length = MaxKeys t then
          match SplitChild t x pos with
          | none => none
          | some x' =>
            match x'.keys[pos]? with
            | none => none
            | some m =>
              if key > m then
                descendInto (fun c => InsertNonFull t fuel c key ref) x' (pos + 1)
              else if key = m then pushRef x' pos ref
              else descendInto (fun c => InsertNonFull t fuel c key ref) x' pos
        else descendInto (fun c => InsertNonFull t fuel c key ref) x pos

/-- Model of `Insert(key, ref)`: a full root is split under a fresh root first; the recursion
depth of `InsertNonFull` is bounded by the height of the tree. -/
def BTree.Insert [LinearOrder K] (b : BTree K Ref) (key : K) (ref : Ref) :
    Option (BTree K Ref) :=
  let root1 : Option (Node K Ref) :=
    if b.root_.keys.length = MaxKeys b.t_ then SplitChild b.t_ (.mk false [] [] [b.root_]) 0
    else some b.root_
  match root1 with
  | none => none
  | some r =>
    match InsertNonFull b.t_ r.height r key ref with
    | none => none
    | some r' => some ⟨b.t_, r'⟩

mutual
/-- Model of `FindPtr(x, key)`: `some (some refs)` for a pointer to a ref-list, `some none` for
`nullptr`, `none` for an out-of-range access. -/
def FindPtr [LinearOrder K] : Node K Ref → K → Option (Option (List Ref))
  | .mk leaf keys values children, key =>
    let i := lbIndex keys key
    if i < keys.length ∧ keys[i]? = some key then
      match values[i]? with
      | some v => some (some v)
      | none => none
    else if leaf then some none
    else FindPtrAt children i key
/-- Model of `FindPtr(*children[i], key)`. -/
def FindPtrAt [LinearOrder K] : List (Node K Ref) → Nat → K → Option (Option (List Ref))
  | [], _, _ => none
  | c :: _, 0, key => FindPtr c key
  | _ :: cs, i + 1, key => FindPtrAt cs i key
end

/-- Model of `FindEquals(key)`: a copy of the ref-list found by `FindPtr`, empty for `nullptr`. -/
def BTree.FindEquals [LinearOrder K] (b : BTree K Ref) (key : K) : Option (List Ref) :=
  match FindPtr b.root_ key with
  | none => none
  | some none => some []
  | some (some v) => some v

/-- The `for` loop of `RangeCollect` followed by the visit of the last child. The three
list arguments are the not yet visited parts `keys[i..]`, `values[i..]`, `children[i..]`;
`rec` is the recursive call on a child. -/
def rangeLoop [LinearOrder K] (rec : Node K Ref → List Ref → Option (List Ref))
    (leaf : Bool) (lo hi : K) :
    List K → List (List Ref) → List (Node K Ref) → List Ref → Option (List Ref)
  | [], _, children, out =>
    if leaf then some out
    else
      match children with
      | [] => none
      | c :: _ => rec c out
  | k :: ks, values, children, out =>
    let afterChild : Option (List Ref) :=
      if leaf then some out
      else
        match children with
        | [] => none
        | c :: _ => rec c out
    match afterChild with
    | none => none
    | some out1 =>
      let afterKey : Option (List Ref) :=
        if k ≥ lo ∧ k ≤ hi then
          match values with
          | [] => none
          | v :: _ => some (out1 ++ v)
        else some out1
      match afterKey with
      | none => none
      | some out2 =>
        if k > hi then some out2
        else rangeLoop rec leaf lo hi ks values.tail children.tail out2

/-- Model of `RangeCollect(x, from, to, out)`; the first argument bounds the recursion depth. -/
def RangeCollect [LinearOrder K] :
    Nat → Node K Ref → K → K → List Ref → Option (List Ref)
  | 0, _, _, _, _ => none
  | fuel + 1, x, lo, hi, out =>
    rangeLoop (fun c o => RangeCollect fuel c lo hi o) x.leaf lo hi
      x.keys x.values x.children out

/-- Model of `FindRange(from, to)`. -/
def BTree.FindRange [LinearOrder K] (b : BTree K Ref) (lo hi : K) : Option (List Ref) :=
  RangeCollect b.root_.height b.root_ lo hi []

/-- Run a sequence of `Insert(key, ref)` calls. -/
def BTree.insertAll [LinearOrder K] (b : BTree K Ref) :
    List (K × Ref) → Option (BTree K Ref)
  | [] => some b
  | (k, r) :: ops =>
    match b.Insert k r with
    | none => none
    | some b' => b'.insertAll ops

/-! ### Abstract view of a tree: its entries in key order -/

/-- In-order merge of the entries `es` of a node with the entry lists `cs` of its
children: `cs[0] ++ es[0] :: cs[1] ++ es[1] :: ... ++ cs[n]`. -/
def interleave {α : Type} : List α → List (List α) → List α
  | _, [] => []
  | [], c :: _ => c
  | e :: es, c :: cs => c ++ e :: interleave es cs

/-- The part `cs[0] ++ es[0] :: ... ++ cs[i-1] ++ [es[i-1]]` of an in-order merge. -/
def headI {α : Type} : List α → List (List α) → List α
  | e :: es, c :: cs => c ++ e :: headI es cs
  | _, _ => []

/-- The part `es[i] :: cs[i+1] ++ es[i+1] :: ...` of an in-order merge. -/
def tailI {α : Type} : List α → List (List α) → List α
  | e :: es, c :: cs => e :: c ++ tailI es cs
  | _, _ => []

mutual
/-- All `(key, ref-list)` entries of the subtree of a node, in in-order. -/
def Node.inorder : Node K Ref → List (K × List Ref)
  | .mk leaf keys values children =>
    if leaf then keys.zip values else interleave (keys.zip values) (inorders children)
/-- The in-order entry lists of a list of nodes. -/
def inorders : List (Node K Ref) → List (List (K × List Ref))
  | [] => []
  | c :: cs => c.inorder :: inorders cs
end

/-- Strictly ascending keys. -/
def KeysSorted [LinearOrder K] (l : List (K × List Ref)) : Prop :=
  (l.map Prod.fst).Pairwise (· < ·)

/-- Shape invariant of a subtree of height `h` in a tree of minimum degree `t` whose top
node must hold at least `m` keys: parallel `keys`/`values`, non-empty ref-lists, at most
`2t-1` keys, leaves without children, internal nodes with `keys.size()+1` children, all of
height `h-1` and holding at least `t-1` keys. -/
inductive Node.Inv (t : Nat) : Nat → Nat → Node K Ref → Prop
  | leaf (m : Nat) (keys : List K) (values : List (List Ref)) :
      values.length = keys.length → (∀ v ∈ values, v ≠ []) →
      m ≤ keys.length → keys.length ≤ MaxKeys t →
      Node.Inv t m 1 (.mk true keys values [])
  | inner (m h : Nat) (keys : List K) (values : List (List Ref))
      (children : List (Node K Ref)) :
      values.length = keys.length → (∀ v ∈ values, v ≠ []) →
      m ≤ keys.length → keys.length ≤ MaxKeys t →
      children.length = keys.length + 1 →
      (∀ c ∈ children, Node.Inv t (t - 1) h c) →
      Node.Inv t m (h + 1) (.mk false keys values children)

/-- The invariant of a whole tree: `t_ ≥ 2`, the root is a well-shaped node that may be
an empty leaf but holds a key when it is internal, and the keys are strictly ascending
in in-order. -/
def BTree.Valid [LinearOrder K] (b : BTree K Ref) : Prop :=
  2 ≤ b.t_ ∧ (∃ h, Node.Inv b.t_ (min 1 (h - 1)) h b.root_) ∧ KeysSorted b.root_.inorder

/-- Insert-or-append into a list of entries with ascending keys: `r` is appended to the
ref-list of `k` when `k` is there, otherwise the entry `(k, [r])` is added at its place. -/
def upsert [LinearOrder K] (k : K) (r : Ref) : List (K × List Ref) → List (K × List Ref)
  | [] => [(k, [r])]
  | (k', v) :: rest =>
    if k < k' then (k, [r]) :: (k', v) :: rest
    else if k = k' then (k', v ++ [r]) :: rest
    else (k', v) :: upsert k r rest

/-- The ref-list stored under `k` in a list of entries. -/
def lookupRefs [DecidableEq K] (k : K) : List (K × List Ref) → Option (List Ref)
  | [] => none
  | (k', v) :: rest => if k' = k then some v else lookupRefs k rest

/-- Concatenation of the ref-lists of the entries whose key lies in `[lo, hi]`. -/
def rangeRefs [LinearOrder K] (lo hi : K) : List (K × List Ref) → List Ref
  | [] => []
  | (k, v) :: rest =>
    if lo ≤ k ∧ k ≤ hi then v ++ rangeRefs lo hi rest else rangeRefs lo hi rest

/-- The refs inserted under key `k` by a sequence of `Insert` calls, in call order. -/
def refsOf [DecidableEq K] (ops : List (K × Ref)) (k : K) : List Ref :=
  ops.filterMap (fun p => if p.1 = k then some p.2 else none)

/-- The entries produced by a sequence of `Insert` calls on a list of entries. -/
def upsertAll [LinearOrder K] (l : List (K × List Ref)) (ops : List (K × Ref)) :
    List (K × List Ref) :=
  ops.foldl (fun acc p => upsert p.1 p.2 acc) l

/-- The distinct keys inserted by `ops` that lie in `[lo, hi]`, in ascending order. -/
def keysInRange [LinearOrder K] (ops : List (K × Ref)) (lo hi : K) : List K :=
  ((ops.map Prod.fst).toFinset.filter (fun k => lo ≤ k ∧ k ≤ hi)).sort (· ≤ ·)

end BTreeDefs

/-! ### HashTable.h -/

/-- The `struct KeyValue` of `HashTable`. -/
structure KeyValue (K V : Type) where
  key : K
  value : V

/-- The class `HashTable`: the buckets, the entry counter and the maximum load factor.
The `double` load factor is a rational number: the quotient of two sizes below `2^52` is
compared with it exactly. -/
structure HashTable (K V : Type) where
  buckets_ : List (List (KeyValue K V))
  count_ : Nat
  maxLoadFactor_ : ℚ

section HashTableOps

variable {K V : Type}

/-- Constructor `HashTable(size_t capacity, double maxLoadFactor)`: at least one bucket. -/
def HashTable.new (capacity : Nat) (maxLoadFactor : ℚ) : HashTable K V :=
  ⟨List.replicate (if capacity < 1 then 1 else capacity) [], 0, maxLoadFactor⟩

/-- Model of `Size()`. -/
def HashTable.Size (h : HashTable K V) : Nat := h.count_

/-- Model of `Capacity()`. -/
def HashTable.Capacity (h : HashTable K V) : Nat := h.buckets_.length

/-- Model of `Clear()`: every bucket is emptied, the counter is reset. -/
def HashTable.Clear (h : HashTable K V) : HashTable K V :=
  ⟨h.buckets_.map (fun _ => []), 0, h.maxLoadFactor_⟩

/-- Model of `bucketIndex(key, cap) = std::hash<K>()(key) % cap`; `hash` stands for `std::hash<K>`. -/
def bucketIndex (hash : K → Nat) (key : K) (cap : Nat) : Nat := hash key % cap

/-- The search loop of `GetPtr` in one bucket: the value of the first entry with `key`. -/
def findValue [DecidableEq K] (key : K) : List (KeyValue K V) → Option V
  | [] => none
  | kv :: rest => if kv.key = key then some kv.value else findValue key rest

/-- Model of `GetPtr(key)`: the value pointed to, `none` for `nullptr`. -/
def HashTable.GetPtr [DecidableEq K] (hash : K → Nat) (h : HashTable K V) (key : K) :
    Option V :=
  if h.buckets_.length = 0 then none
  else
    match h.buckets_[bucketIndex hash key h.buckets_.length]? with
    | none => none
    | some bucket => findValue key bucket

/-- Model of `Contains(key)`. -/
def HashTable.Contains [DecidableEq K] (hash : K → Nat) (h : HashTable K V) (key : K) :
    Bool :=
  (h.GetPtr hash key).isSome

/-- Model of `Get(key)`. -/
def HashTable.Get [DecidableEq K] (hash : K → Nat) (h : HashTable K V) (key : K) :
    Option V :=
  h.GetPtr hash key

/-- Model of `ContainsKey(key)`. -/
def HashTable.ContainsKey [DecidableEq K] (hash : K → Nat) (h : HashTable K V) (key : K) :
    Bool :=
  h.Contains hash key

/-- Model of `TryGet(key)`. -/
def HashTable.TryGet [DecidableEq K] (hash : K → Nat) (h : HashTable K V) (key : K) :
    Option V :=
  h.GetPtr hash key

/-- Apply `f` to the bucket with index `i`. -/
def updateBucket {α : Type} (f : α → α) : Nat → List α → List α
  | _, [] => []
  | 0, b :: bs => f b :: bs
  | i + 1, b :: bs => b :: updateBucket f i bs

/-- Model of `Rehash(newCapacity)`: every entry, bucket after bucket, is appended to the bucket of
its new index in a fresh bucket array. -/
def HashTable.Rehash (hash : K → Nat) (h : HashTable K V) (newCapacity : Nat) :
    HashTable K V :=
  let newCapacity := if newCapacity < 1 then 1 else newCapacity
  let newBuckets : List (List (KeyValue K V)) :=
    h.buckets_.foldl
      (fun nb bucket =>
        bucket.foldl
          (fun nb kv => updateBucket (fun b => b ++ [kv]) (bucketIndex hash kv.key newCapacity) nb)
          nb)
      (List.replicate newCapacity [])
  ⟨newBuckets, h.count_, h.maxLoadFactor_⟩

/-- Model of `MaybeRehashForInsert()`: the capacity doubles when `(count_+1)/cap` exceeds the
maximum load factor. -/
def HashTable.MaybeRehashForInsert (hash : K → Nat) (h : HashTable K V) : HashTable K V :=
  let cap := if h.buckets_.length = 0 then 1 else h.buckets_.length
  let loadFactor : ℚ := ((h.count_ + 1 : Nat) : ℚ) / ((cap : Nat) : ℚ)
  if loadFactor > h.maxLoadFactor_ then h.Rehash hash (cap * 2) else h

/-- The assignment `*existing = value` through the pointer returned by `GetPtr`: the
value of the first entry with `key` is replaced. -/
def assignFirst [DecidableEq K] (key : K) (value : V) :
    List (KeyValue K V) → List (KeyValue K V)
  | [] => []
  | kv :: rest =>
    if kv.key = key then ⟨kv.key, value⟩ :: rest else kv :: assignFirst key value rest

/-- Model of `Set(key, value)`. `none` when the bucket index would be computed modulo zero. -/
def HashTable.Set [DecidableEq K] (hash : K → Nat) (h : HashTable K V) (key : K)
    (value : V) : Option (HashTable K V) :=
  match h.GetPtr hash key with
  | some _ =>
    some ⟨updateBucket (assignFirst key value) (bucketIndex hash key h.buckets_.length)
      h.buckets_, h.count_, h.maxLoadFactor_⟩
  | none =>
    let h1 := h.MaybeRehashForInsert hash
    if h1.buckets_.length = 0 then none
    else
      some ⟨updateBucket (fun b => b ++ [⟨key, value⟩])
        (bucketIndex hash key h1.buckets_.length) h1.buckets_, h1.count_ + 1,
        h1.maxLoadFactor_⟩

/-- Model of `Add(key, value)`. -/
def HashTable.Add [DecidableEq K] (hash : K → Nat) (h : HashTable K V) (key : K)
    (value : V) : Option (HashTable K V) :=
  h.Set hash key value

/-- The loop of `Remove` in one bucket: at the first entry with `key`, the last entry of
the whole bucket `back` is moved over it and the bucket loses its last element; `none`
when no entry has `key`. -/
def swapRemove [DecidableEq K] (key : K) (back : Option (KeyValue K V)) :
    List (KeyValue K V) → Option (List (KeyValue K V))
  | [] => none
  | kv :: rest =>
    if kv.key = key then
      match back with
      | none => none
      | some last => some ((last :: rest).dropLast)
    else
      match swapRemove key back rest with
      | none => none
      | some rest' => some (kv :: rest')

/-- Model of `Remove(key)`: the new table and the returned flag. -/
def HashTable.Remove [DecidableEq K] (hash : K → Nat) (h : HashTable K V) (key : K) :
    HashTable K V × Bool :=
  if h.buckets_.length = 0 then (h, false)
  else
    match h.buckets_[bucketIndex hash key h.buckets_.length]? with
    | none => (h, false)
    | some bucket =>
      match swapRemove key bucket.getLast? bucket with
      | none => (h, false)
      | some bucket' =>
        (⟨updateBucket (fun _ => bucket') (bucketIndex hash key h.buckets_.length) h.buckets_,
          h.count_ - 1, h.maxLoadFactor_⟩, true)

/-- Model of `RemoveKey(key)`. -/
def HashTable.RemoveKey [DecidableEq K] (hash : K → Nat) (h : HashTable K V) (key : K) :
    HashTable K V × Bool :=
  h.Remove hash key

/-- Model of `ForEach(fn)`: `fn` is called on every entry, bucket after bucket; the effect of the
callback is a state transformer. -/
def HashTable.ForEach {σ : Type} (h : HashTable K V) (fn : K → V → σ → σ) (init : σ) : σ :=
  h.buckets_.foldl (fun s bucket => bucket.foldl (fun s kv => fn kv.key kv.value s) s) init

/-- The calls made by `ForEach`, in order. -/
def HashTable.visits (h : HashTable K V) : List (K × V) :=
  h.ForEach (fun k v acc => acc ++ [(k, v)]) []

/-- A call of the mutating interface of `HashTable`. -/
inductive HashOp (K V : Type) where
  | set (key : K) (value : V)
  | remove (key : K)
  | clear

/-- Run one call. -/
def HashTable.step [DecidableEq K] (hash : K → Nat) (h : HashTable K V) :
    HashOp K V → Option (HashTable K V)
  | .set k v => h.Set hash k v
  | .remove k => some (h.Remove hash k).1
  | .clear => some h.Clear

/-- Run a sequence of calls. -/
def HashTable.run [DecidableEq K] (hash : K → Nat) (h : HashTable K V) :
    List (HashOp K V) → Option (HashTable K V)
  | [] => some h
  | op :: ops =>
    match h.step hash op with
    | none => none
    | some h' => h'.run hash ops

/-- The mapping a call sequence describes: a key maps to the value of its most recent
`Set` unless a `Remove` of the key or a `Clear` came after it. -/
def specStep [DecidableEq K] (m : K → Option V) : HashOp K V → K → Option V
  | .set k v => fun k' => if k' = k then some v else m k'
  | .remove k => fun k' => if k' = k then none else m k'
  | .clear => fun _ => none

/-- The mapping described by a call sequence on an empty table. -/
def specMap [DecidableEq K] (ops : List (HashOp K V)) : K → Option V :=
  ops.foldl specStep (fun _ => none)

end HashTableOps

/-- Invariant of a `HashTable` for the hash function `hash`: at least one bucket, every
entry in the bucket of its index, no key twice in a bucket, `count_` the number of
entries. -/
def HashTable.Inv {K V : Type} (hash : K → Nat) (h : HashTable K V) : Prop :=
  1 ≤ h.buckets_.length ∧
  (∀ i b, h.buckets_[i]? = some b →
    ∀ kv ∈ b, bucketIndex hash kv.key h.buckets_.length = i) ∧
  (∀ b ∈ h.buckets_, (b.map KeyValue.key).Nodup) ∧
  h.count_ = (h.buckets_.map List.length).sum

/-! ### Table.h -/

/-- The class `Table`: records, the aliveness flag of each slot (`uint8_t` 0/1), the free
list, the number of live rows and the primary-key index from id to slot. The id getter
`idGetter_` and `std::hash<IdT>` are parameters of the operations. -/
structure Table (T IdT : Type) where
  records_ : List T
  alive_ : List Bool
  freeList_ : List Nat
  aliveCount_ : Nat
  pkIndex_ : HashTable IdT Nat

section TableOps

variable {T IdT : Type}

/-- Constructor `Table()`: empty vectors and the primary-key index `pkIndex_{1024}` with
the default maximum load factor 0.75. -/
def Table.new : Table T IdT :=
  ⟨[], [], [], 0, HashTable.new 1024 (3 / 4)⟩

/-- Model of `GetRowCount()`. -/
def Table.GetRowCount (tb : Table T IdT) : Nat := tb.aliveCount_

/-- Model of `ContainsId(id)`. -/
def Table.ContainsId [DecidableEq IdT] (hash : IdT → Nat) (tb : Table T IdT) (id : IdT) :
    Bool :=
  tb.pkIndex_.ContainsKey hash id

/-- Model of `IsAliveSlot(slot)`. -/
def Table.IsAliveSlot (tb : Table T IdT) (slot : Nat) : Bool :=
  decide (slot < tb.alive_.length) && tb.alive_[slot]?.getD false

/-- Model of `GetRowBySlot(slot)`: `none` for the `runtime_error` of a slot that is not alive (or a
read outside `records_`). -/
def Table.GetRowBySlot (tb : Table T IdT) (slot : Nat) : Option T :=
  if tb.IsAliveSlot slot then tb.records_[slot]? else none

/-- Model of `GetAliveSlots()`: the alive slots in ascending order. -/
def Table.GetAliveSlots (tb : Table T IdT) : List Nat :=
  (List.range tb.alive_.length).filter (fun i => tb.alive_[i]?.getD false)

/-- Model of `InsertInternal(row, rowIndexForError, throwOnPkDuplicate)`: a row whose id is present
is dropped; otherwise the row goes to the slot popped from the back of the free list, or
to a new slot when the free list is empty. `none` for a write outside a vector. -/
def Table.InsertInternal [DecidableEq IdT] (idGetter : T → IdT) (hash : IdT → Nat)
    (tb : Table T IdT) (row : T) (_rowIndexForError : Int) (_throwOnPkDuplicate : Bool) :
    Option (Table T IdT) :=
  let id := idGetter row
  if tb.pkIndex_.ContainsKey hash id then some tb
  else
    let placed : Option (Nat × List T × List Bool × List Nat) :=
      match tb.freeList_.getLast? with
      | some slot =>
        if slot < tb.records_.length ∧ slot < tb.alive_.length then
          some (slot, setAt slot row tb.records_, setAt slot true tb.alive_,
            tb.freeList_.dropLast)
        else none
      | none =>
        some (tb.records_.length, tb.records_ ++ [row], tb.alive_ ++ [true], tb.freeList_)
    match placed with
    | none => none
    | some (slot, records, alive, freeList) =>
      match tb.pkIndex_.Add hash id slot with
      | none => none
      | some pk => some ⟨records, alive, freeList, tb.aliveCount_ + 1, pk⟩

/-- Model of `Insert(row)`. -/
def Table.Insert [DecidableEq IdT] (idGetter : T → IdT) (hash : IdT → Nat)
    (tb : Table T IdT) (row : T) : Option (Table T IdT) :=
  tb.InsertInternal idGetter hash row (-1) true

/-- Model of `DeleteById(id)`: the new table and the returned flag. -/
def Table.DeleteById [DecidableEq IdT] (hash : IdT → Nat) (tb : Table T IdT) (id : IdT) :
    Table T IdT × Bool :=
  match tb.pkIndex_.TryGet hash id with
  | none => (tb, false)
  | some slot =>
    if slot ≥ tb.alive_.length ∨ tb.alive_[slot]?.getD false = false then
      (⟨tb.records_, tb.alive_, tb.freeList_, tb.aliveCount_, (tb.pkIndex_.Remove hash id).1⟩,
        false)
    else
      (⟨tb.records_, setAt slot false tb.alive_, tb.freeList_ ++ [slot], tb.aliveCount_ - 1,
        (tb.pkIndex_.Remove hash id).1⟩, true)

/-- Model of `UpdateById(id, newRow)`: the new table and the returned flag; `none` for a write
outside `records_`. -/
def Table.UpdateById [DecidableEq IdT] (idGetter : T → IdT) (hash : IdT → Nat)
    (tb : Table T IdT) (id : IdT) (newRow : T) : Option (Table T IdT × Bool) :=
  match tb.pkIndex_.TryGet hash id with
  | none => some (tb, false)
  | some slot =>
    if slot ≥ tb.alive_.length ∨ tb.alive_[slot]?.getD false = false then some (tb, false)
    else if idGetter newRow ≠ id then some (tb, false)
    else if slot < tb.records_.length then
      some (⟨setAt slot newRow tb.records_, tb.alive_, tb.freeList_, tb.aliveCount_,
        tb.pkIndex_⟩, true)
    else none

/-- A call of the mutating interface of `Table`. -/
inductive TableOp (T IdT : Type) where
  | insert (row : T)
  | deleteById (id : IdT)
  | updateById (id : IdT) (newRow : T)

/-- Run one call. -/
def Table.step [DecidableEq IdT] (idGetter : T → IdT) (hash : IdT → Nat)
    (tb : Table T IdT) : TableOp T IdT → Option (Table T IdT)
  | .insert row => tb.Insert idGetter hash row
  | .deleteById id => some (tb.DeleteById hash id).1
  | .updateById id newRow => (tb.UpdateById idGetter hash id newRow).map Prod.fst

/-- Run a sequence of calls. -/
def Table.run [DecidableEq IdT] (idGetter : T → IdT) (hash : IdT → Nat)
    (tb : Table T IdT) : List (TableOp T IdT) → Option (Table T IdT)
  | [] => some tb
  | op :: ops =>
    match tb.step idGetter hash op with
    | none => none
    | some tb' => tb'.run idGetter hash ops

/-- Number of `Insert` calls of a sequence that added a row (the id was not present when
the call was made). -/
def Table.insertsAdded [DecidableEq IdT] (idGetter : T → IdT) (hash : IdT → Nat)
    (tb : Table T IdT) : List (TableOp T IdT) → Nat
  | [] => 0
  | op :: ops =>
    (match op with
      | .insert row => if tb.ContainsId hash (idGetter row) then 0 else 1
      | _ => 0)
    + (match tb.step idGetter hash op with
      | none => 0
      | some tb' => tb'.insertsAdded idGetter hash ops)

/-- Number of `DeleteById` calls of a sequence that returned `true`. -/
def Table.deletesDone [DecidableEq IdT] (idGetter : T → IdT) (hash : IdT → Nat)
    (tb : Table T IdT) : List (TableOp T IdT) → Nat
  | [] => 0
  | op :: ops =>
    (match op with
      | .deleteById id => if (tb.DeleteById hash id).2 then 1 else 0
      | _ => 0)
    + (match tb.step idGetter hash op with
      | none => 0
      | some tb' => tb'.deletesDone idGetter hash ops)

end TableOps

/-- Invariant of a `Table`: the primary-key index is a well-formed hash table, `alive_`
is parallel to `records_`, every id of the index maps to an alive slot whose record has
that id, every alive slot is the value of some id, the free list holds exactly the dead
slots, each once, and `aliveCount_` is the number of alive slots. -/
def Table.Inv {T IdT : Type} [DecidableEq IdT] (idGetter : T → IdT) (hash : IdT → Nat)
    (tb : Table T IdT) : Prop :=
  tb.pkIndex_.Inv hash ∧
  tb.pkIndex_.maxLoadFactor_ = 3 / 4 ∧
  tb.alive_.length = tb.records_.length ∧
  (∀ id slot, tb.pkIndex_.Get hash id = some slot →
    tb.alive_[slot]? = some true ∧ ∃ r, tb.records_[slot]? = some r ∧ idGetter r = id) ∧
  (∀ slot, tb.alive_[slot]? = some true → ∃ id, tb.pkIndex_.Get hash id = some slot) ∧
  (∀ slot, slot ∈ tb.freeList_ ↔ tb.alive_[slot]? = some false) ∧
  tb.freeList_.Nodup ∧
  tb.aliveCount_ = tb.alive_.count true

/-! ### DbErrors.h and the outcomes of a call -/

/-- The `enum class DbConstraintType`. -/
inductive DbConstraintType where
  | PrimaryKeyDuplicate
  | UniqueViolation
  | ForeignKeyViolation
  | RestrictViolation
  | IoOrParseError
  deriving DecidableEq

/-- The class `DbConstraintError`: the `what()` message of the `std::runtime_error` base,
the constraint type and the table, field and row index of the failure. -/
structure DbConstraintError where
  message : String
  type_ : DbConstraintType
  table_ : String
  field_ : String
  rowIndex_ : Int
  deriving DecidableEq

/-- Model of `GetType()`. -/
def DbConstraintError.GetType (e : DbConstraintError) : DbConstraintType := e.type_

/-- Model of `GetTable()`. -/
def DbConstraintError.GetTable (e : DbConstraintError) : String := e.table_

/-- Model of `GetField()`. -/
def DbConstraintError.GetField (e : DbConstraintError) : String := e.field_

/-- Model of `GetRowIndex()`. -/
def DbConstraintError.GetRowIndex (e : DbConstraintError) : Int := e.rowIndex_

/-- The one-character string of a single quote. -/
def quoteStr : String := String.singleton (Char.ofNat 39)

/-- Factory `DbConstraintError::PrimaryKeyDuplicate(table, field, value, rowIndex)`. -/
def DbConstraintError.PrimaryKeyDuplicate (table field value : String) (rowIndex : Int) :
    DbConstraintError :=
  ⟨"PK duplicate: " ++ table ++ "." ++ field ++ "=" ++ value,
    .PrimaryKeyDuplicate, table, field, rowIndex⟩

/-- Factory `DbConstraintError::Unique(table, field, value, rowIndex)`. -/
def DbConstraintError.Unique (table field value : String) (rowIndex : Int) :
    DbConstraintError :=
  ⟨"UNIQUE violation: " ++ table ++ "." ++ field ++ " value=" ++ quoteStr ++ value
      ++ quoteStr ++ " already exists",
    .UniqueViolation, table, field, rowIndex⟩

/-- Factory `DbConstraintError::ForeignKey(table, field, value, refTable, refField,
rowIndex)`. -/
def DbConstraintError.ForeignKey (table field value refTable refField : String)
    (rowIndex : Int) : DbConstraintError :=
  ⟨"FK violation: " ++ table ++ "." ++ field ++ "=" ++ value ++ "not found in "
      ++ refTable ++ "." ++ refField,
    .ForeignKeyViolation, table, field, rowIndex⟩

/-- Factory `DbConstraintError::Restrict(table, field, value, refTable, refField,
rowIndex)`. -/
def DbConstraintError.Restrict (table field value refTable refField : String)
    (rowIndex : Int) : DbConstraintError :=
  ⟨"RESTRICT violation: cannot delete " ++ refTable ++ "." ++ refField ++ "=" ++ value
      ++ " because it is referenced by " ++ table ++ "." ++ field,
    .RestrictViolation, table, field, rowIndex⟩

/-- A thrown exception: a `DbConstraintError`, or another `std::exception` (a
`std::runtime_error` that is not a `DbConstraintError`, a failure of a parser) with its
message. -/
inductive Exn where
  | constraint (e : DbConstraintError)
  | runtime (what : String)
  deriving DecidableEq

/-- The outcome of a call that may throw: a normal return, a thrown exception, or
undefined behaviour (an access outside a vector). -/
inductive Outcome (α : Type) where
  | ok (a : α)
  | throws (e : Exn)
  | undefined

/-- Sequencing of calls: an exception or undefined behaviour of the first call ends the
execution. -/
def Outcome.andThen {α β : Type} (x : Outcome α) (f : α → Outcome β) : Outcome β :=
  match x with
  | .ok a => f a
  | .throws e => .throws e
  | .undefined => .undefined

/-- The outcome of a call of the embedding that returns `none` for undefined behaviour. -/
def Outcome.ofOption {α : Type} : Option α → Outcome α
  | some a => .ok a
  | none => .undefined

/-! ### Table.h: logical row order and bulk load -/

section TableRows

variable {T IdT : Type}

/-- The loop of `AliveIndexToSlot` over the not yet visited part of `alive_`, at slot
`slot` with `count` alive slots seen; the fall-through `return 0` when the loop ends. -/
def aliveIndexLoop (aliveIndex : Nat) : List Bool → Nat → Nat → Nat
  | [], _, _ => 0
  | a :: rest, slot, count =>
    if a then
      if count = aliveIndex then slot
      else aliveIndexLoop aliveIndex rest (slot + 1) (count + 1)
    else aliveIndexLoop aliveIndex rest (slot + 1) count

/-- Model of `AliveIndexToSlot(aliveIndex)`. -/
def Table.AliveIndexToSlot (tb : Table T IdT) (aliveIndex : Nat) : Nat :=
  aliveIndexLoop aliveIndex tb.alive_ 0 0

/-- Model of `GetRow(aliveIndex)`: `none` for a read outside `records_`. -/
def Table.GetRow (tb : Table T IdT) (aliveIndex : Nat) : Option T :=
  tb.records_[tb.AliveIndexToSlot aliveIndex]?

/-- The `while (std::getline(in, line))` loop of `LoadFromFile` on the remaining lines:
an empty line is skipped, any other line is parsed by `FromCSV` (which may throw) and
inserted by `InsertInternal(row, rowIndex, true)`. -/
def Table.loadLines [DecidableEq IdT] (FromCSV : String → Outcome T) (idGetter : T → IdT)
    (hash : IdT → Nat) : Table T IdT → Int → List String → Outcome (Table T IdT)
  | tb, _, [] => .ok tb
  | tb, rowIndex, line :: rest =>
    if line = "" then Table.loadLines FromCSV idGetter hash tb (rowIndex + 1) rest
    else
      match FromCSV line with
      | .throws e => .throws e
      | .undefined => .undefined
      | .ok row =>
        match tb.InsertInternal idGetter hash row rowIndex true with
        | none => .undefined
        | some tb' => Table.loadLines FromCSV idGetter hash tb' (rowIndex + 1) rest

/-- Model of `LoadFromFile(path, tableName, idGetter)`. The file at `path` is `none` when
it cannot be opened (the table stays empty), otherwise the list of its lines. The name
of the table is not stored in the embedding. -/
def Table.LoadFromFile [DecidableEq IdT] (FromCSV : String → Outcome T) (idGetter : T → IdT)
    (hash : IdT → Nat) (file : Option (List String)) : Outcome (Table T IdT) :=
  match file with
  | none => .ok Table.new
  | some lines => Table.loadLines FromCSV idGetter hash Table.new 0 lines

/-- A slot of the record array that is not alive. -/
def Table.IsFreeSlot (tb : Table T IdT) (slot : Nat) : Bool :=
  decide (slot < tb.alive_.length) && !(tb.alive_[slot]?.getD false)

/-- The slots freed by the `DeleteById` calls of a sequence that returned `true`, in the
order of the calls. -/
def Table.freedLog [DecidableEq IdT] (idGetter : T → IdT) (hash : IdT → Nat) :
    Table T IdT → List (TableOp T IdT) → List Nat
  | _, [] => []
  | tb, op :: ops =>
    (match op with
      | .deleteById id =>
        if (tb.DeleteById hash id).2 then (tb.pkIndex_.TryGet hash id).toList else []
      | _ => [])
    ++ (match tb.step idGetter hash op with
      | none => []
      | some tb' => tb'.freedLog idGetter hash ops)

/-- The most recently freed slot of a log that is free in `tb`. -/
def Table.mostRecentlyFreed (tb : Table T IdT) (log : List Nat) : Option Nat :=
  log.reverse.find? (fun s => tb.IsFreeSlot s)

/-- The last occurrences of the elements of a list, in order. -/
def keepLast : List Nat → List Nat
  | [] => []
  | a :: l => if a ∈ l then keepLast l else a :: keepLast l

/-- The rows parsed from the non-empty lines of a file, in order (`none` when a line
does not parse). -/
def parsedRows (FromCSV : String → Outcome T) : List String → Option (List T)
  | [] => some []
  | line :: rest =>
    if line = "" then parsedRows FromCSV rest
    else
      match FromCSV line, parsedRows FromCSV rest with
      | .ok row, some rows => some (row :: rows)
      | _, _ => none

/-- The rows of a list without those whose id occurred earlier in the list. -/
def dedupById [DecidableEq IdT] (idGetter : T → IdT) : List T → List IdT → List T
  | [], _ => []
  | row :: rest, seen =>
    if idGetter row ∈ seen then dedupById idGetter rest seen
    else row :: dedupById idGetter rest (idGetter row :: seen)

/-- The free list holds, in the order of their last release, the slots of the release log
that are free now. -/
def Table.LogInv (tb : Table T IdT) (log : List Nat) : Prop :=
  tb.freeList_ = keepLast (log.filter (fun s => tb.IsFreeSlot s))

end TableRows

/-! ### Index.h -/

section IndexDefs

variable {K Ref : Type}

/-- The class `HashIndex`: a hash table from keys to ref-lists. -/
structure HashIndex (K Ref : Type) where
  map_ : HashTable K (List Ref)

/-- Constructor `HashIndex(size_t initialCapacity)`: the table is built with its default
maximum load factor 0.75. -/
def HashIndex.new (initialCapacity : Nat) : HashIndex K Ref :=
  ⟨HashTable.new initialCapacity (3 / 4)⟩

/-- Model of `HashIndex::Clear()`. -/
def HashIndex.Clear (idx : HashIndex K Ref) : HashIndex K Ref := ⟨idx.map_.Clear⟩

/-- Model of `HashIndex::Insert(key, ref)`: a missing key gets the one-element list through
`Set`; otherwise `ref` is pushed on the list reached through the pointer of `GetPtr`,
inside its bucket. -/
def HashIndex.Insert [DecidableEq K] (hash : K → Nat) (idx : HashIndex K Ref) (key : K)
    (ref : Ref) : Option (HashIndex K Ref) :=
  match idx.map_.GetPtr hash key with
  | none =>
    match idx.map_.Set hash key [ref] with
    | none => none
    | some m => some ⟨m⟩
  | some vec =>
    some ⟨⟨updateBucket (assignFirst key (vec ++ [ref]))
      (bucketIndex hash key idx.map_.buckets_.length) idx.map_.buckets_,
      idx.map_.count_, idx.map_.maxLoadFactor_⟩⟩

/-- The `for` loop of `HashIndex::Build`: the key selector is called on each ref (it may
throw), then the ref is inserted under that key. -/
def HashIndex.buildLoop [DecidableEq K] (hash : K → Nat) (keySelector : Ref → Outcome K) :
    HashIndex K Ref → List Ref → Outcome (HashIndex K Ref)
  | idx, [] => .ok idx
  | idx, r :: refs =>
    match keySelector r with
    | .throws e => .throws e
    | .undefined => .undefined
    | .ok key =>
      match idx.Insert hash key r with
      | none => .undefined
      | some idx' => HashIndex.buildLoop hash keySelector idx' refs

/-- Model of `HashIndex::Build(refs, keySelector)`: `Clear()`, then the loop. -/
def HashIndex.Build [DecidableEq K] (hash : K → Nat) (idx : HashIndex K Ref)
    (refs : List Ref) (keySelector : Ref → Outcome K) : Outcome (HashIndex K Ref) :=
  HashIndex.buildLoop hash keySelector idx.Clear refs

/-- Model of `HashIndex::FindEquals(key)`. -/
def HashIndex.FindEquals [DecidableEq K] (hash : K → Nat) (idx : HashIndex K Ref) (key : K) :
    List Ref :=
  match idx.map_.Get hash key with
  | none => []
  | some val => val

/-- Model of `HashIndex::FindRange(from, to)`: the callback given to `ForEach` appends the
ref-list of every key `k` with `!(k < from) && !(to < k)`. -/
def HashIndex.FindRange [LinearOrder K] (idx : HashIndex K Ref) (lo hi : K) : List Ref :=
  idx.map_.ForEach
    (fun k refs out => if (!decide (k < lo)) && (!decide (hi < k)) then out ++ refs else out)
    []

/-- The conversion of a `size_t` to `int` (32-bit two-complement wrap-around). -/
def sizeToInt (n : Nat) : Int :=
  if n % 2 ^ 32 < 2 ^ 31 then ((n % 2 ^ 32 : Nat) : Int)
  else ((n % 2 ^ 32 : Nat) : Int) - 2 ^ 32

/-- The class `BTreeIndex`: a B-tree from keys to ref-lists. -/
structure BTreeIndex (K Ref : Type) where
  tree_ : BTree K Ref

/-- Constructor `BTreeIndex(size_t minDegree)`: the argument is passed to `BTree(int)`. -/
def BTreeIndex.new (minDegree : Nat) : BTreeIndex K Ref :=
  ⟨BTree.new (sizeToInt minDegree)⟩

/-- Model of `BTreeIndex::Clear()`. -/
def BTreeIndex.Clear (idx : BTreeIndex K Ref) : BTreeIndex K Ref := ⟨idx.tree_.Clear⟩

/-- Model of `BTreeIndex::Insert(key, ref)`. -/
def BTreeIndex.Insert [LinearOrder K] (idx : BTreeIndex K Ref) (key : K) (ref : Ref) :
    Option (BTreeIndex K Ref) :=
  match idx.tree_.Insert key ref with
  | none => none
  | some t => some ⟨t⟩

/-- The `for` loop of `BTreeIndex::Build`. -/
def BTreeIndex.buildLoop [LinearOrder K] (keySelector : Ref → Outcome K) :
    BTreeIndex K Ref → List Ref → Outcome (BTreeIndex K Ref)
  | idx, [] => .ok idx
  | idx, r :: refs =>
    match keySelector r with
    | .throws e => .throws e
    | .undefined => .undefined
    | .ok key =>
      match idx.tree_.Insert key r with
      | none => .undefined
      | some t => BTreeIndex.buildLoop keySelector ⟨t⟩ refs

/-- Model of `BTreeIndex::Build(refs, keySelector)`: `Clear()`, then the loop. -/
def BTreeIndex.Build [LinearOrder K] (idx : BTreeIndex K Ref) (refs : List Ref)
    (keySelector : Ref → Outcome K) : Outcome (BTreeIndex K Ref) :=
  BTreeIndex.buildLoop keySelector idx.Clear refs

/-- Model of `BTreeIndex::FindEquals(key)`. -/
def BTreeIndex.FindEquals [LinearOrder K] (idx : BTreeIndex K Ref) (key : K) :
    Option (List Ref) :=
  idx.tree_.FindEquals key

/-- Model of `BTreeIndex::FindRange(from, to)`. -/
def BTreeIndex.FindRange [LinearOrder K] (idx : BTreeIndex K Ref) (lo hi : K) :
    Option (List Ref) :=
  idx.tree_.FindRange lo hi

/-- A call of the mutating interface `IIndex`; the key selector of `Build` is a function
that returns normally. -/
inductive IndexOp (K Ref : Type) where
  | clear
  | build (refs : List Ref) (keySelector : Ref → K)
  | insert (key : K) (ref : Ref)

/-- Run one call on a `HashIndex`. -/
def HashIndex.step [DecidableEq K] (hash : K → Nat) (idx : HashIndex K Ref) :
    IndexOp K Ref → Outcome (HashIndex K Ref)
  | .clear => .ok idx.Clear
  | .build refs keySelector => idx.Build hash refs (fun r => .ok (keySelector r))
  | .insert key ref => Outcome.ofOption (idx.Insert hash key ref)

/-- Run a sequence of calls on a `HashIndex`. -/
def HashIndex.run [DecidableEq K] (hash : K → Nat) :
    HashIndex K Ref → List (IndexOp K Ref) → Outcome (HashIndex K Ref)
  | idx, [] => .ok idx
  | idx, op :: ops => (idx.step hash op).andThen (fun idx' => HashIndex.run hash idx' ops)

/-- Run one call on a `BTreeIndex`. -/
def BTreeIndex.step [LinearOrder K] (idx : BTreeIndex K Ref) :
    IndexOp K Ref → Outcome (BTreeIndex K Ref)
  | .clear => .ok idx.Clear
  | .build refs keySelector => idx.Build refs (fun r => .ok (keySelector r))
  | .insert key ref => Outcome.ofOption (idx.Insert key ref)

/-- Run a sequence of calls on a `BTreeIndex`. -/
def BTreeIndex.run [LinearOrder K] :
    BTreeIndex K Ref → List (IndexOp K Ref) → Outcome (BTreeIndex K Ref)
  | idx, [] => .ok idx
  | idx, op :: ops => (idx.step op).andThen (fun idx' => BTreeIndex.run idx' ops)

/-- The `(key, ref)` pairs an index holds after a call sequence, in the order of their
insertion: `Clear` empties, `Build` replaces, `Insert` appends. -/
def indexContent : List (K × Ref) → List (IndexOp K Ref) → List (K × Ref)
  | c, [] => c
  | _, .clear :: ops => indexContent [] ops
  | _, .build refs keySelector :: ops =>
    indexContent (refs.map (fun r => (keySelector r, r))) ops
  | c, .insert key ref :: ops => indexContent (c ++ [(key, ref)]) ops

/-- Abstraction relation of a `HashIndex`: the table is well formed and maps a key to the
refs inserted under it, in insertion order; a key without refs is absent. -/
def HashIndex.Holds [DecidableEq K] (hash : K → Nat) (idx : HashIndex K Ref)
    (content : List (K × Ref)) : Prop :=
  idx.map_.Inv hash ∧
  ∀ k, idx.map_.Get hash k
    = if (refsOf content k).isEmpty then none else some (refsOf content k)

/-- Abstraction relation of a `BTreeIndex`: the tree is well formed and its entries are
those produced by inserting the content into an empty entry list. -/
def BTreeIndex.Holds [LinearOrder K] (idx : BTreeIndex K Ref) (content : List (K × Ref)) :
    Prop :=
  idx.tree_.Valid ∧ idx.tree_.root_.inorder = upsertAll [] content

end IndexDefs

/-! ### model/*.h: the row classes -/

/-- The class `Address`. -/
structure Address where
  id_ : Int
  city_ : String
  street_ : String
  building_ : String
  type_ : String
  deriving DecidableEq

/-- The class `Department`. -/
structure Department where
  id_ : Int
  name_ : String
  addressId_ : Int
  deriving DecidableEq

/-- The class `Employee`. -/
structure Employee where
  id_ : Int
  last_ : String
  first_ : String
  middle_ : String
  birthYear_ : Int
  deptId_ : Int
  deriving DecidableEq

/-- The class `Supplier`. -/
structure Supplier where
  id_ : Int
  name_ : String
  city_ : String
  phone_ : String
  email_ : String
  deriving DecidableEq

/-- The class `Product`. -/
structure Product where
  id_ : Int
  name_ : String
  category_ : String
  unit_ : String
  defaultSupplierId_ : Int
  deriving DecidableEq

/-- The class `Purchase`; the `double` unit price is carried as its 64 bits, it is never
computed with. -/
structure Purchase where
  id_ : Int
  date_ : String
  deptId_ : Int
  supplierId_ : Int
  productId_ : Int
  qty_ : Int
  unitPrice_ : Nat
  deriving DecidableEq

/-- Model of `Address::GetId()`. -/
def Address.GetId (a : Address) : Int := a.id_
/-- Model of `Address::GetCity()`. -/
def Address.GetCity (a : Address) : String := a.city_
/-- Model of `Department::GetId()`. -/
def Department.GetId (d : Department) : Int := d.id_
/-- Model of `Department::GetName()`. -/
def Department.GetName (d : Department) : String := d.name_
/-- Model of `Department::GetAddressId()`. -/
def Department.GetAddressId (d : Department) : Int := d.addressId_
/-- Model of `Employee::GetId()`. -/
def Employee.GetId (e : Employee) : Int := e.id_
/-- Model of `Employee::GetBirthYear()`. -/
def Employee.GetBirthYear (e : Employee) : Int := e.birthYear_
/-- Model of `Employee::GetDeptId()`. -/
def Employee.GetDeptId (e : Employee) : Int := e.deptId_
/-- Model of `Employee::GetFullName()`: last, first and middle name joined by blanks. -/
def Employee.GetFullName (e : Employee) : String :=
  e.last_ ++ " " ++ e.first_ ++ " " ++ e.middle_
/-- Model of `Supplier::GetId()`. -/
def Supplier.GetId (s : Supplier) : Int := s.id_
/-- Model of `Supplier::GetName()`. -/
def Supplier.GetName (s : Supplier) : String := s.name_
/-- Model of `Supplier::GetCity()`. -/
def Supplier.GetCity (s : Supplier) : String := s.city_
/-- Model of `Product::GetId()`. -/
def Product.GetId (p : Product) : Int := p.id_
/-- Model of `Product::GetName()`. -/
def Product.GetName (p : Product) : String := p.name_
/-- Model of `Product::GetDefaultSupplierId()`. -/
def Product.GetDefaultSupplierId (p : Product) : Int := p.defaultSupplierId_
/-- Model of `Purchase::GetId()`. -/
def Purchase.GetId (p : Purchase) : Int := p.id_
/-- Model of `Purchase::GetDate()`. -/
def Purchase.GetDate (p : Purchase) : String := p.date_
/-- Model of `Purchase::GetDeptId()`. -/
def Purchase.GetDeptId (p : Purchase) : Int := p.deptId_
/-- Model of `Purchase::GetSupplierId()`. -/
def Purchase.GetSupplierId (p : Purchase) : Int := p.supplierId_
/-- Model of `Purchase::GetProductId()`. -/
def Purchase.GetProductId (p : Purchase) : Int := p.productId_

/-- The six static functions `T::FromCSV(line)`: each returns a row or throws
(`std::runtime_error` for a short line, the exceptions of `std::stoi`/`std::stod`). They
are parameters of the model: every statement holds for whatever these functions do. -/
structure RowParsers where
  Address : String → Outcome Address
  Department : String → Outcome Department
  Employee : String → Outcome Employee
  Supplier : String → Outcome Supplier
  Product : String → Outcome Product
  Purchase : String → Outcome Purchase

/-! ### Database.h: load, validation, index build -/

/-- Apply a function to the result of a call that returned. -/
def Outcome.map {α β : Type} (f : α → β) : Outcome α → Outcome β
  | .ok a => .ok (f a)
  | .throws e => .throws e
  | .undefined => .undefined

/-- Model of `GetRowBySlot(slot)` with its exception: `std::runtime_error` for a slot that
is not alive. -/
def Table.GetRowBySlotOrThrow {T IdT : Type} (tb : Table T IdT) (slot : Nat) : Outcome T :=
  if tb.IsAliveSlot slot then Outcome.ofOption tb.records_[slot]?
  else .throws (.runtime "GetRowBySlot: slot is not alive")

/-- The alive rows of a table in logical order (the order of `GetRow`). -/
def Table.rows {T IdT : Type} (tb : Table T IdT) : List T :=
  tb.GetAliveSlots.filterMap (fun s => tb.records_[s]?)

/-- Model of `std::to_string(int)`. -/
def to_string (n : Int) : String := toString n

/-- The class `Database`: fifteen secondary indexes over slots and the six tables. -/
structure Database where
  addressesByCity_ : HashIndex String Nat
  addressesById_ : BTreeIndex Int Nat
  departmentsByName_ : HashIndex String Nat
  departmentsByAddressId_ : HashIndex Int Nat
  employeesByFullName_ : HashIndex String Nat
  employeesByBirthYear_ : BTreeIndex Int Nat
  employeesByDeptId_ : HashIndex Int Nat
  suppliersByName_ : HashIndex String Nat
  suppliersByCity_ : HashIndex String Nat
  productsByName_ : HashIndex String Nat
  productsByDefaultSupplierId_ : HashIndex Int Nat
  purchasesByDate_ : BTreeIndex String Nat
  purchasesBySupplierId_ : HashIndex Int Nat
  purchasesByProductId_ : HashIndex Int Nat
  purchasesByDeptId_ : HashIndex Int Nat
  addresses_ : Table Address Int
  departments_ : Table Department Int
  employees_ : Table Employee Int
  suppliers_ : Table Supplier Int
  products_ : Table Product Int
  purchases_ : Table Purchase Int

/-- The default constructor of `Database`: the member initialisers of the indexes, empty
tables. -/
def Database.new : Database where
  addressesByCity_ := HashIndex.new 512
  addressesById_ := BTreeIndex.new 16
  departmentsByName_ := HashIndex.new 256
  departmentsByAddressId_ := HashIndex.new 256
  employeesByFullName_ := HashIndex.new 1024
  employeesByBirthYear_ := BTreeIndex.new 16
  employeesByDeptId_ := HashIndex.new 1024
  suppliersByName_ := HashIndex.new 1024
  suppliersByCity_ := HashIndex.new 512
  productsByName_ := HashIndex.new 1024
  productsByDefaultSupplierId_ := HashIndex.new 1024
  purchasesByDate_ := BTreeIndex.new 16
  purchasesBySupplierId_ := HashIndex.new 2048
  purchasesByProductId_ := HashIndex.new 2048
  purchasesByDeptId_ := HashIndex.new 2048
  addresses_ := Table.new
  departments_ := Table.new
  employees_ := Table.new
  suppliers_ := Table.new
  products_ := Table.new
  purchases_ := Table.new

/-- The loop shared by `ValidateUniqueDepartmentNames`, `ValidateUniqueSupplierNames` and
`ValidateUniqueProductNames`, from logical index `i` with the table `seen` of the names met
so far; the first argument is the number of iterations left. A name already in `seen`
throws `DbConstraintError::Unique(table, "name", name, (int)i)`. -/
def validateUniqueLoop {T : Type} (hashString : String → Nat) (table : String)
    (tb : Table T Int) (GetName : T → String) (GetId : T → Int) :
    Nat → Nat → HashTable String Int → Outcome Unit
  | 0, _, _ => .ok ()
  | n + 1, i, seen =>
    match tb.GetRow i with
    | none => .undefined
    | some row =>
      if seen.ContainsKey hashString (GetName row) then
        .throws (.constraint
          (DbConstraintError.Unique table "name" (GetName row) (sizeToInt i)))
      else
        match seen.Add hashString (GetName row) (GetId row) with
        | none => .undefined
        | some seen' =>
          validateUniqueLoop hashString table tb GetName GetId n (i + 1) seen'

/-- The loop shared by the foreign-key validations, from logical index `i`; `check row i`
is the first constraint error the body throws for the row, if any. -/
def validateFkLoop {T : Type} (tb : Table T Int)
    (check : T → Int → Option DbConstraintError) : Nat → Nat → Outcome Unit
  | 0, _ => .ok ()
  | n + 1, i =>
    match tb.GetRow i with
    | none => .undefined
    | some row =>
      match check row (sizeToInt i) with
      | some e => .throws (.constraint e)
      | none => validateFkLoop tb check n (i + 1)

section DatabaseOps

variable (hashInt : Int → Nat) (hashString : String → Nat)

/-- Model of `ValidateUniqueDepartmentNames()`. -/
def Database.ValidateUniqueDepartmentNames (db : Database) : Outcome Unit :=
  validateUniqueLoop hashString "departments" db.departments_ Department.GetName
    Department.GetId db.departments_.GetRowCount 0 (HashTable.new 128 (3 / 4))

/-- Model of `ValidateUniqueSupplierNames()`. -/
def Database.ValidateUniqueSupplierNames (db : Database) : Outcome Unit :=
  validateUniqueLoop hashString "suppliers" db.suppliers_ Supplier.GetName
    Supplier.GetId db.suppliers_.GetRowCount 0 (HashTable.new 256 (3 / 4))

/-- Model of `ValidateUniqueProductNames()`. -/
def Database.ValidateUniqueProductNames (db : Database) : Outcome Unit :=
  validateUniqueLoop hashString "products" db.products_ Product.GetName
    Product.GetId db.products_.GetRowCount 0 (HashTable.new 512 (3 / 4))

/-- The body of the loop of `ValidateDepartmentsAddressFk`. -/
def Database.checkDepartmentAddress (db : Database) (d : Department) (i : Int) :
    Option DbConstraintError :=
  if !db.addresses_.ContainsId hashInt d.GetAddressId then
    some (DbConstraintError.ForeignKey "departments" "address_id"
      (to_string d.GetAddressId) "addresses" "id" i)
  else none

/-- Model of `ValidateDepartmentsAddressFk()`. -/
def Database.ValidateDepartmentsAddressFk (db : Database) : Outcome Unit :=
  validateFkLoop db.departments_ (db.checkDepartmentAddress hashInt)
    db.departments_.GetRowCount 0

/-- The body of the loop of `ValidateEmployeesDeptFk`. -/
def Database.checkEmployeeDept (db : Database) (e : Employee) (i : Int) :
    Option DbConstraintError :=
  if !db.departments_.ContainsId hashInt e.GetDeptId then
    some (DbConstraintError.ForeignKey "employees" "dept_id"
      (to_string e.GetDeptId) "departments" "id" i)
  else none

/-- Model of `ValidateEmployeesDeptFk()`. -/
def Database.ValidateEmployeesDeptFk (db : Database) : Outcome Unit :=
  validateFkLoop db.employees_ (db.checkEmployeeDept hashInt) db.employees_.GetRowCount 0

/-- The body of the loop of `ValidateProductsDefaultSupplierFk`. -/
def Database.checkProductSupplier (db : Database) (p : Product) (i : Int) :
    Option DbConstraintError :=
  if !db.suppliers_.ContainsId hashInt p.GetDefaultSupplierId then
    some (DbConstraintError.ForeignKey "products" "default_supplier_id"
      (to_string p.GetDefaultSupplierId) "suppliers" "id" i)
  else none

/-- Model of `ValidateProductsDefaultSupplierFk()`. -/
def Database.ValidateProductsDefaultSupplierFk (db : Database) : Outcome Unit :=
  validateFkLoop db.products_ (db.checkProductSupplier hashInt) db.products_.GetRowCount 0

/-- The body of the loop of `ValidatePurchasesFk`: department, then supplier, then
product. -/
def Database.checkPurchase (db : Database) (pur : Purchase) (i : Int) :
    Option DbConstraintError :=
  if !db.departments_.ContainsId hashInt pur.GetDeptId then
    some (DbConstraintError.ForeignKey "purchases" "dept_id"
      (to_string pur.GetDeptId) "departments" "id" i)
  else if !db.suppliers_.ContainsId hashInt pur.GetSupplierId then
    some (DbConstraintError.ForeignKey "purchases" "supplier_id"
      (to_string pur.GetSupplierId) "suppliers" "id" i)
  else if !db.products_.ContainsId hashInt pur.GetProductId then
    some (DbConstraintError.ForeignKey "purchases" "product_id"
      (to_string pur.GetProductId) "products" "id" i)
  else none

/-- Model of `ValidatePurchasesFk()`. -/
def Database.ValidatePurchasesFk (db : Database) : Outcome Unit :=
  validateFkLoop db.purchases_ (db.checkPurchase hashInt) db.purchases_.GetRowCount 0

/-- Model of `BuildIndexes()`: the fifteen `Build` calls in order, each over the alive slots
of its table with a key selector that reads the row through `GetRowBySlot`. An exception
of a selector leaves the call at once. -/
def Database.BuildIndexes (db : Database) : Outcome Database :=
  (db.addressesByCity_.Build hashString db.addresses_.GetAliveSlots
    (fun s => (db.addresses_.GetRowBySlotOrThrow s).map Address.GetCity)).andThen fun i1 =>
  (db.addressesById_.Build db.addresses_.GetAliveSlots
    (fun s => (db.addresses_.GetRowBySlotOrThrow s).map Address.GetId)).andThen fun i2 =>
  (db.departmentsByName_.Build hashString db.departments_.GetAliveSlots
    (fun s => (db.departments_.GetRowBySlotOrThrow s).map Department.GetName)).andThen
  fun i3 =>
  (db.departmentsByAddressId_.Build hashInt db.departments_.GetAliveSlots
    (fun s => (db.departments_.GetRowBySlotOrThrow s).map Department.GetAddressId)).andThen
  fun i4 =>
  (db.employeesByFullName_.Build hashString db.employees_.GetAliveSlots
    (fun s => (db.employees_.GetRowBySlotOrThrow s).map Employee.GetFullName)).andThen
  fun i5 =>
  (db.employeesByBirthYear_.Build db.employees_.GetAliveSlots
    (fun s => (db.employees_.GetRowBySlotOrThrow s).map Employee.GetBirthYear)).andThen
  fun i6 =>
  (db.employeesByDeptId_.Build hashInt db.employees_.GetAliveSlots
    (fun s => (db.employees_.GetRowBySlotOrThrow s).map Employee.GetDeptId)).andThen
  fun i7 =>
  (db.suppliersByName_.Build hashString db.suppliers_.GetAliveSlots
    (fun s => (db.suppliers_.GetRowBySlotOrThrow s).map Supplier.GetName)).andThen fun i8 =>
  (db.suppliersByCity_.Build hashString db.suppliers_.GetAliveSlots
    (fun s => (db.suppliers_.GetRowBySlotOrThrow s).map Supplier.GetCity)).andThen fun i9 =>
  (db.productsByName_.Build hashString db.products_.GetAliveSlots
    (fun s => (db.products_.GetRowBySlotOrThrow s).map Product.GetName)).andThen fun i10 =>
  (db.productsByDefaultSupplierId_.Build hashInt db.products_.GetAliveSlots
    (fun s => (db.products_.GetRowBySlotOrThrow s).map Product.GetDefaultSupplierId)).andThen
  fun i11 =>
  (db.purchasesByDate_.Build db.purchases_.GetAliveSlots
    (fun s => (db.purchases_.GetRowBySlotOrThrow s).map Purchase.GetDate)).andThen fun i12 =>
  (db.purchasesBySupplierId_.Build hashInt db.purchases_.GetAliveSlots
    (fun s => (db.purchases_.GetRowBySlotOrThrow s).map Purchase.GetSupplierId)).andThen
  fun i13 =>
  (db.purchasesByProductId_.Build hashInt db.purchases_.GetAliveSlots
    (fun s => (db.purchases_.GetRowBySlotOrThrow s).map Purchase.GetProductId)).andThen
  fun i14 =>
  (db.purchasesByDeptId_.Build hashInt db.purchases_.GetAliveSlots
    (fun s => (db.purchases_.GetRowBySlotOrThrow s).map Purchase.GetDeptId)).andThen
  fun i15 =>
  .ok { db with
    addressesByCity_ := i1, addressesById_ := i2, departmentsByName_ := i3,
    departmentsByAddressId_ := i4, employeesByFullName_ := i5,
    employeesByBirthYear_ := i6, employeesByDeptId_ := i7, suppliersByName_ := i8,
    suppliersByCity_ := i9, productsByName_ := i10, productsByDefaultSupplierId_ := i11,
    purchasesByDate_ := i12, purchasesBySupplierId_ := i13,
    purchasesByProductId_ := i14, purchasesByDeptId_ := i15 }

/-- Model of `Database::LoadFromFiles(addressesPath, departmentsPath, employeesPath,
suppliersPath, productsPath, purchasesPath)`. A file is given by its lines, `none` when it
cannot be opened. The result is the returned `Database`, or the exception that left the
call (then no `Database` is returned). -/
def Database.LoadFromFiles (P : RowParsers)
    (addresses departments employees suppliers products purchases : Option (List String)) :
    Outcome Database :=
  (Table.LoadFromFile P.Address Address.GetId hashInt addresses).andThen fun ta =>
  (Table.LoadFromFile P.Supplier Supplier.GetId hashInt suppliers).andThen fun ts =>
  (Table.LoadFromFile P.Product Product.GetId hashInt products).andThen fun tp =>
  let db1 : Database :=
    { Database.new with addresses_ := ta, suppliers_ := ts, products_ := tp }
  (db1.ValidateUniqueSupplierNames hashString).andThen fun _ =>
  (db1.ValidateUniqueProductNames hashString).andThen fun _ =>
  (db1.ValidateProductsDefaultSupplierFk hashInt).andThen fun _ =>
  (Table.LoadFromFile P.Department Department.GetId hashInt departments).andThen fun td =>
  let db2 : Database := { db1 with departments_ := td }
  (db2.ValidateUniqueDepartmentNames hashString).andThen fun _ =>
  (db2.ValidateDepartmentsAddressFk hashInt).andThen fun _ =>
  (Table.LoadFromFile P.Employee Employee.GetId hashInt employees).andThen fun te =>
  let db3 : Database := { db2 with employees_ := te }
  (db3.ValidateEmployeesDeptFk hashInt).andThen fun _ =>
  (Table.LoadFromFile P.Purchase Purchase.GetId hashInt purchases).andThen fun tu =>
  let db4 : Database := { db3 with purchases_ := tu }
  (db4.ValidatePurchasesFk hashInt).andThen fun _ =>
  db4.BuildIndexes hashInt hashString

end DatabaseOps

/-- The rows a file yields: none for a file that cannot be opened, else the rows parsed
from its non-empty lines (`none` when a line does not parse). -/
def parsedFile {T : Type} (FromCSV : String → Outcome T) : Option (List String) →
    Option (List T)
  | none => some []
  | some lines => parsedRows FromCSV lines

/-- The rows a table holds after `LoadFromFile` of a file: the parsed rows without those
that repeat the id of an earlier row (`none` when a line does not parse). -/
def fileRows {T IdT : Type} [DecidableEq IdT] (FromCSV : String → Outcome T)
    (idGetter : T → IdT) (file : Option (List String)) : Option (List T) :=
  match parsedFile FromCSV file with
  | none => none
  | some rows => some (dedupById idGetter rows [])

/-! ### model/*.cpp: the `FromCSV` functions -/

/-- The loop `while (std::getline(ss, item, delim)) parts.push_back(item)` of `split` on the
characters left in the stream. `item` holds, in reverse, the characters extracted so far by
the call of `getline` in progress: a delimiter ends the call and is dropped; at the end of
the stream the call succeeds when it has extracted a character and fails otherwise, which
ends the loop (so no empty part follows a final delimiter). -/
def splitLoop (delim : Char) : List Char → List Char → List String
  | [], item => if item = [] then [] else [String.mk item.reverse]
  | c :: cs, item =>
    if c = delim then String.mk item.reverse :: splitLoop delim cs []
    else splitLoop delim cs (c :: item)

/-- Model of the static function `split(s, delim)` of the files `model/*.cpp`. -/
def split (s : String) (delim : Char) : List String :=
  splitLoop delim s.toList []

/-- Model of `isspace` in the "C" locale: the space and the characters 9 to 13. -/
def isspace (c : Char) : Bool :=
  decide (c.toNat = 32) || (decide (9 ≤ c.toNat) && decide (c.toNat ≤ 13))

/-- The value of a list of decimal digits. -/
def digitsValue (ds : List Char) : Nat :=
  ds.foldl (fun acc c => 10 * acc + (c.toNat - 48)) 0

/-- Model of `std::stoi(str)` (base 10, through `strtol`): leading white space is skipped,
then an optional sign (the characters 45 and 43) and the longest run of decimal digits are
read, and what follows is ignored. Without a digit it throws `std::invalid_argument`; for a
value outside the range of `int` it throws `std::out_of_range`. Both are carried as an
exception with the message `stoi` of the library. -/
def stoi (str : String) : Outcome Int :=
  let cs := str.toList.dropWhile isspace
  let signed := decide (cs.head?.map Char.toNat = some 45) ||
    decide (cs.head?.map Char.toNat = some 43)
  let ds := (if signed then cs.tail else cs).takeWhile Char.isDigit
  if ds = [] then .throws (.runtime "stoi")
  else
    let v : Int :=
      if cs.head?.map Char.toNat = some 45 then -(digitsValue ds : Int) else digitsValue ds
    if v < -2147483648 ∨ 2147483647 < v then .throws (.runtime "stoi") else .ok v

/-- Model of `Address::FromCSV(line)`: at least four parts; the type is the fifth part, or
`Unknown` when it is missing or empty. -/
def Address.FromCSV (line : String) : Outcome Address :=
  match split line ';' with
  | p0 :: p1 :: p2 :: p3 :: rest =>
    let type := match rest with
      | p4 :: _ => p4
      | [] => "Unknown"
    (stoi p0).map fun id => ⟨id, p1, p2, p3, if type = "" then "Unknown" else type⟩
  | _ => .throws (.runtime ("Bad Address CSV line: " ++ line))

/-- Model of `Department::FromCSV(line)`. -/
def Department.FromCSV (line : String) : Outcome Department :=
  match split line ';' with
  | p0 :: p1 :: p2 :: _ =>
    (stoi p0).andThen fun id =>
    (stoi p2).andThen fun addressId =>
    .ok ⟨id, p1, addressId⟩
  | _ => .throws (.runtime ("Bad Department CSV line: " ++ line))

/-- Model of `Employee::FromCSV(line)`. -/
def Employee.FromCSV (line : String) : Outcome Employee :=
  match split line ';' with
  | p0 :: p1 :: p2 :: p3 :: p4 :: p5 :: _ =>
    (stoi p0).andThen fun id =>
    (stoi p4).andThen fun birthYear =>
    (stoi p5).andThen fun deptId =>
    .ok ⟨id, p1, p2, p3, birthYear, deptId⟩
  | _ => .throws (.runtime ("Bad Employee CSV line: " ++ line))

/-- Model of `Supplier::FromCSV(line)`: a line with fewer than five parts throws
`std::runtime_error`. -/
def Supplier.FromCSV (line : String) : Outcome Supplier :=
  match split line ';' with
  | p0 :: p1 :: p2 :: p3 :: p4 :: _ => (stoi p0).map fun id => ⟨id, p1, p2, p3, p4⟩
  | _ => .throws (.runtime ("Bad Supplier CSV line: " ++ line))

/-- Model of `Product::FromCSV(line)`: a line with fewer than five parts throws
`std::runtime_error`. -/
def Product.FromCSV (line : String) : Outcome Product :=
  match split line ';' with
  | p0 :: p1 :: p2 :: p3 :: p4 :: _ =>
    (stoi p0).andThen fun id =>
    (stoi p4).andThen fun defaultSupplierId =>
    .ok ⟨id, p1, p2, p3, defaultSupplierId⟩
  | _ => .throws (.runtime ("Bad Product CSV line: " ++ line))

/-- Model of `Purchase::FromCSV(line)`. The conversion `std::stod` of the unit price is a
parameter (it returns the bits of the `double`). The conversions run here in the order of
the arguments; C++ leaves their order open, which shows only when two of them throw. -/
def Purchase.FromCSV (stod : String → Outcome Nat) (line : String) : Outcome Purchase :=
  match split line ';' with
  | p0 :: p1 :: p2 :: p3 :: p4 :: p5 :: p6 :: _ =>
    (stoi p0).andThen fun id =>
    (stoi p2).andThen fun deptId =>
    (stoi p3).andThen fun supplierId =>
    (stoi p4).andThen fun productId =>
    (stoi p5).andThen fun qty =>
    (stod p6).andThen fun unitPrice =>
    .ok ⟨id, p1, deptId, supplierId, productId, qty, unitPrice⟩
  | _ => .throws (.runtime ("Bad Purchase CSV line: " ++ line))

/-- The six `FromCSV` functions of the program, for a conversion `std::stod`. -/
def csvParsers (stod : String → Outcome Nat) : RowParsers where
  Address := Address.FromCSV
  Department := Department.FromCSV
  Employee := Employee.FromCSV
  Supplier := Supplier.FromCSV
  Product := Product.FromCSV
  Purchase := Purchase.FromCSV stod

/-! ### Sample parsers -/

/-- Toy parsers for closed instances of the statements: the id (and the references) of a
row is the length of its line, its name is the first character of the line. -/
def lengthParsers : RowParsers where
  Address := fun line => .ok ⟨line.length, line, "", "", ""⟩
  Department := fun line => .ok ⟨line.length, line.take 1, line.length⟩
  Employee := fun line => .ok ⟨line.length, line, "", "", 0, line.length⟩
  Supplier := fun line => .ok ⟨line.length, line.take 1, "", "", ""⟩
  Product := fun line => .ok ⟨line.length, line.take 1, "", "", line.length⟩
  Purchase := fun line => .ok ⟨line.length, line, line.length, line.length, line.length, 0, 0⟩

/-- Well-formedness of a `Database`: the invariant of each table and of the container
under each index. -/
structure Database.WellFormed (hashInt : Int → Nat) (hashString : String → Nat)
    (db : Database) : Prop where
  addresses : db.addresses_.Inv Address.GetId hashInt
  departments : db.departments_.Inv Department.GetId hashInt
  employees : db.employees_.Inv Employee.GetId hashInt
  suppliers : db.suppliers_.Inv Supplier.GetId hashInt
  products : db.products_.Inv Product.GetId hashInt
  purchases : db.purchases_.Inv Purchase.GetId hashInt
  addressesByCity : db.addressesByCity_.map_.Inv hashString
  addressesById : db.addressesById_.tree_.Valid
  departmentsByName : db.departmentsByName_.map_.Inv hashString
  departmentsByAddressId : db.departmentsByAddressId_.map_.Inv hashInt
  employeesByFullName : db.employeesByFullName_.map_.Inv hashString
  employeesByBirthYear : db.employeesByBirthYear_.tree_.Valid
  employeesByDeptId : db.employeesByDeptId_.map_.Inv hashInt
  suppliersByName : db.suppliersByName_.map_.Inv hashString
  suppliersByCity : db.suppliersByCity_.map_.Inv hashString
  productsByName : db.productsByName_.map_.Inv hashString
  productsByDefaultSupplierId : db.productsByDefaultSupplierId_.map_.Inv hashInt
  purchasesByDate : db.purchasesByDate_.tree_.Valid
  purchasesBySupplierId : db.purchasesBySupplierId_.map_.Inv hashInt
  purchasesByProductId : db.purchasesByProductId_.map_.Inv hashInt
  purchasesByDeptId : db.purchasesByDeptId_.map_.Inv hashInt

/-! ### Database.h: delete operations and queries -/

/-- The logical index of the first element of a list that satisfies `p`. -/
def firstIndexOf {α : Type} (p : α → Bool) : List α → Option Nat
  | [] => none
  | a :: l => if p a then some 0 else (firstIndexOf p l).map (fun j => j + 1)

/-- A scan loop of a delete operation over a referencing table: the first row (in the order
of `GetRow`) whose reference `GetRef row` is `id` throws
`DbConstraintError::Restrict(table, field, std::to_string(id), refTable, "id", (int)i)`. -/
def restrictScan {T : Type} (tb : Table T Int) (GetRef : T → Int)
    (table field refTable : String) (id : Int) : Outcome Unit :=
  validateFkLoop tb
    (fun row i =>
      if GetRef row = id then
        some (DbConstraintError.Restrict table field (to_string id) refTable "id" i)
      else none)
    tb.GetRowCount 0

/-- What a delete operation does after a scan: an exception of the scan leaves the call with
the database as it is. -/
def afterScan (db : Database) (scan : Outcome Unit) (rest : Database × Outcome Unit) :
    Database × Outcome Unit :=
  match scan with
  | .ok _ => rest
  | .throws e => (db, .throws e)
  | .undefined => (db, .undefined)

/-- The statement `if (!t.DeleteById(id)) throw std::runtime_error(what + std::to_string(id))`
that ends a delete operation: the outcome for the flag returned by `DeleteById`. -/
def notFoundUnless (found : Bool) (what : String) (id : Int) : Outcome Unit :=
  if found then .ok () else .throws (.runtime (what ++ to_string id))

section DatabaseDelete

variable (hashInt : Int → Nat) (hashString : String → Nat)

/-- Model of `DeleteDepartment(deptId)`: the database after the call and its outcome. -/
def Database.DeleteDepartment (db : Database) (deptId : Int) : Database × Outcome Unit :=
  afterScan db
    (restrictScan db.employees_ Employee.GetDeptId "employees" "dept_id" "departments" deptId)
    (afterScan db
      (restrictScan db.purchases_ Purchase.GetDeptId "purchases" "dept_id" "departments"
        deptId)
      ({ db with departments_ := (db.departments_.DeleteById hashInt deptId).1 },
        notFoundUnless (db.departments_.DeleteById hashInt deptId).2
          "Department not found: id=" deptId))

/-- Model of `DeleteSupplier(supplierId)`. -/
def Database.DeleteSupplier (db : Database) (supplierId : Int) : Database × Outcome Unit :=
  afterScan db
    (restrictScan db.products_ Product.GetDefaultSupplierId "products" "default_supplier_id"
      "suppliers" supplierId)
    (afterScan db
      (restrictScan db.purchases_ Purchase.GetSupplierId "purchases" "supplier_id"
        "suppliers" supplierId)
      ({ db with suppliers_ := (db.suppliers_.DeleteById hashInt supplierId).1 },
        notFoundUnless (db.suppliers_.DeleteById hashInt supplierId).2
          "Supplier not found: id=" supplierId))

/-- Model of `DeleteProduct(productId)`. -/
def Database.DeleteProduct (db : Database) (productId : Int) : Database × Outcome Unit :=
  afterScan db
    (restrictScan db.purchases_ Purchase.GetProductId "purchases" "product_id" "products"
      productId)
    ({ db with products_ := (db.products_.DeleteById hashInt productId).1 },
      notFoundUnless (db.products_.DeleteById hashInt productId).2
        "Product not found: id=" productId)

/-- Model of `DeleteAddress(addressId)`. -/
def Database.DeleteAddress (db : Database) (addressId : Int) : Database × Outcome Unit :=
  afterScan db
    (restrictScan db.departments_ Department.GetAddressId "departments" "address_id"
      "addresses" addressId)
    ({ db with addresses_ := (db.addresses_.DeleteById hashInt addressId).1 },
      notFoundUnless (db.addresses_.DeleteById hashInt addressId).2
        "Address not found: id=" addressId)

/-- Model of `DeleteEmployee(employeeId)`. -/
def Database.DeleteEmployee (db : Database) (employeeId : Int) : Database × Outcome Unit :=
  ({ db with employees_ := (db.employees_.DeleteById hashInt employeeId).1 },
    notFoundUnless (db.employees_.DeleteById hashInt employeeId).2
      "Employee not found: id=" employeeId)

/-- Model of `DeletePurchase(purchaseId)`. -/
def Database.DeletePurchase (db : Database) (purchaseId : Int) : Database × Outcome Unit :=
  ({ db with purchases_ := (db.purchases_.DeleteById hashInt purchaseId).1 },
    notFoundUnless (db.purchases_.DeleteById hashInt purchaseId).2
      "Purchase not found: id=" purchaseId)

/-- A call of one of the six delete operations. -/
inductive DeleteOp where
  | address (id : Int)
  | department (id : Int)
  | employee (id : Int)
  | supplier (id : Int)
  | product (id : Int)
  | purchase (id : Int)

/-- Run one delete call. -/
def Database.applyDelete (db : Database) : DeleteOp → Database × Outcome Unit
  | .address id => db.DeleteAddress hashInt id
  | .department id => db.DeleteDepartment hashInt id
  | .employee id => db.DeleteEmployee hashInt id
  | .supplier id => db.DeleteSupplier hashInt id
  | .product id => db.DeleteProduct hashInt id
  | .purchase id => db.DeletePurchase hashInt id

/-- The database after a sequence of delete calls, whatever their outcomes (a caller that
catches the exception of a failed call goes on with the database as the call left it). -/
def Database.runDeletes (db : Database) : List DeleteOp → Database
  | [] => db
  | op :: ops => Database.runDeletes (db.applyDelete hashInt op).1 ops

/-- Model of `SlotsToIds(t, slots)`: the ids of the rows at the slots, in order;
`GetRowBySlot` throws at the first slot that is not alive. -/
def SlotsToIds {T : Type} (t : Table T Int) (GetId : T → Int) : List Nat → Outcome (List Int)
  | [] => .ok []
  | s :: slots =>
    match t.GetRowBySlotOrThrow s with
    | .throws e => .throws e
    | .undefined => .undefined
    | .ok row => (SlotsToIds t GetId slots).map (fun ids => GetId row :: ids)

/-- Model of `FindAddressIdsByCity(city)`. -/
def Database.FindAddressIdsByCity (db : Database) (city : String) : Outcome (List Int) :=
  SlotsToIds db.addresses_ Address.GetId (db.addressesByCity_.FindEquals hashString city)

/-- Model of `FindAddressIdsByIdRange(fromId, toId)`. -/
def Database.FindAddressIdsByIdRange (db : Database) (fromId toId : Int) :
    Outcome (List Int) :=
  (Outcome.ofOption (db.addressesById_.FindRange fromId toId)).andThen
    (SlotsToIds db.addresses_ Address.GetId)

/-- Model of `FindDepartmentIdsByName(name)`. -/
def Database.FindDepartmentIdsByName (db : Database) (name : String) : Outcome (List Int) :=
  SlotsToIds db.departments_ Department.GetId (db.departmentsByName_.FindEquals hashString name)

/-- Model of `FindDepartmentIdsByAddressId(addressId)`. -/
def Database.FindDepartmentIdsByAddressId (db : Database) (addressId : Int) :
    Outcome (List Int) :=
  SlotsToIds db.departments_ Department.GetId
    (db.departmentsByAddressId_.FindEquals hashInt addressId)

/-- Model of `FindEmployeeIdsByFullName(fullName)`. -/
def Database.FindEmployeeIdsByFullName (db : Database) (fullName : String) :
    Outcome (List Int) :=
  SlotsToIds db.employees_ Employee.GetId
    (db.employeesByFullName_.FindEquals hashString fullName)

/-- Model of `FindEmployeeIdsByBirthYearRange(y1, y2)`. -/
def Database.FindEmployeeIdsByBirthYearRange (db : Database) (y1 y2 : Int) :
    Outcome (List Int) :=
  (Outcome.ofOption (db.employeesByBirthYear_.FindRange y1 y2)).andThen
    (SlotsToIds db.employees_ Employee.GetId)

/-- Model of `FindEmployeeIdsByDeptId(deptId)`. -/
def Database.FindEmployeeIdsByDeptId (db : Database) (deptId : Int) : Outcome (List Int) :=
  SlotsToIds db.employees_ Employee.GetId (db.employeesByDeptId_.FindEquals hashInt deptId)

/-- Model of `FindSupplierIdsByName(name)`. -/
def Database.FindSupplierIdsByName (db : Database) (name : String) : Outcome (List Int) :=
  SlotsToIds db.suppliers_ Supplier.GetId (db.suppliersByName_.FindEquals hashString name)

/-- Model of `FindSupplierIdsByCity(city)`. -/
def Database.FindSupplierIdsByCity (db : Database) (city : String) : Outcome (List Int) :=
  SlotsToIds db.suppliers_ Supplier.GetId (db.suppliersByCity_.FindEquals hashString city)

/-- Model of `FindProductIdsByName(name)`. -/
def Database.FindProductIdsByName (db : Database) (name : String) : Outcome (List Int) :=
  SlotsToIds db.products_ Product.GetId (db.productsByName_.FindEquals hashString name)

/-- Model of `FindProductIdsByDefaultSupplierId(supplierId)`. -/
def Database.FindProductIdsByDefaultSupplierId (db : Database) (supplierId : Int) :
    Outcome (List Int) :=
  SlotsToIds db.products_ Product.GetId
    (db.productsByDefaultSupplierId_.FindEquals hashInt supplierId)

/-- Model of `FindPurchaseIdsByDateRange(from, to)`. -/
def Database.FindPurchaseIdsByDateRange (db : Database) (lo hi : String) :
    Outcome (List Int) :=
  (Outcome.ofOption (db.purchasesByDate_.FindRange lo hi)).andThen
    (SlotsToIds db.purchases_ Purchase.GetId)

/-- Model of `FindPurchaseIdsBySupplierId(supplierId)`. -/
def Database.FindPurchaseIdsBySupplierId (db : Database) (supplierId : Int) :
    Outcome (List Int) :=
  SlotsToIds db.purchases_ Purchase.GetId
    (db.purchasesBySupplierId_.FindEquals hashInt supplierId)

/-- Model of `FindPurchaseIdsByProductId(productId)`. -/
def Database.FindPurchaseIdsByProductId (db : Database) (productId : Int) :
    Outcome (List Int) :=
  SlotsToIds db.purchases_ Purchase.GetId
    (db.purchasesByProductId_.FindEquals hashInt productId)

/-- Model of `FindPurchaseIdsByDeptId(deptId)`. -/
def Database.FindPurchaseIdsByDeptId (db : Database) (deptId : Int) : Outcome (List Int) :=
  SlotsToIds db.purchases_ Purchase.GetId (db.purchasesByDeptId_.FindEquals hashInt deptId)

end DatabaseDelete

/-- Referential integrity of a `Database`, over the alive rows of its tables. -/
structure Database.RefInt (db : Database) : Prop where
  departmentAddress : ∀ d ∈ db.departments_.rows,
    d.GetAddressId ∈ db.addresses_.rows.map Address.GetId
  employeeDept : ∀ e ∈ db.employees_.rows,
    e.GetDeptId ∈ db.departments_.rows.map Department.GetId
  productSupplier : ∀ p ∈ db.products_.rows,
    p.GetDefaultSupplierId ∈ db.suppliers_.rows.map Supplier.GetId
  purchaseDept : ∀ u ∈ db.purchases_.rows,
    u.GetDeptId ∈ db.departments_.rows.map Department.GetId
  purchaseSupplier : ∀ u ∈ db.purchases_.rows,
    u.GetSupplierId ∈ db.suppliers_.rows.map Supplier.GetId
  purchaseProduct : ∀ u ∈ db.purchases_.rows,
    u.GetProductId ∈ db.products_.rows.map Product.GetId
/-! ### Database.h: the content of the indexes after `BuildIndexes` -/

/-- The `(key, slot)` pairs of the alive rows of a table for a key selector, in ascending
slot order: what `Build` over `GetAliveSlots()` inserts into an index of the table. -/
def Table.keyed {T IdT K : Type} (tb : Table T IdT) (g : T → K) : List (K × Nat) :=
  tb.GetAliveSlots.filterMap (fun s => (tb.records_[s]?).map (fun r => (g r, s)))

/-- The state of a `Database` right after `BuildIndexes`: every index holds the keys of the
alive rows of its table. -/
structure Database.Indexed (hashInt : Int → Nat) (hashString : String → Nat)
    (db : Database) : Prop where
  addressesByCity :
    db.addressesByCity_.Holds hashString (db.addresses_.keyed Address.GetCity)
  addressesById : db.addressesById_.Holds (db.addresses_.keyed Address.GetId)
  departmentsByName :
    db.departmentsByName_.Holds hashString (db.departments_.keyed Department.GetName)
  departmentsByAddressId :
    db.departmentsByAddressId_.Holds hashInt (db.departments_.keyed Department.GetAddressId)
  employeesByFullName :
    db.employeesByFullName_.Holds hashString (db.employees_.keyed Employee.GetFullName)
  employeesByBirthYear :
    db.employeesByBirthYear_.Holds (db.employees_.keyed Employee.GetBirthYear)
  employeesByDeptId :
    db.employeesByDeptId_.Holds hashInt (db.employees_.keyed Employee.GetDeptId)
  suppliersByName :
    db.suppliersByName_.Holds hashString (db.suppliers_.keyed Supplier.GetName)
  suppliersByCity :
    db.suppliersByCity_.Holds hashString (db.suppliers_.keyed Supplier.GetCity)
  productsByName :
    db.productsByName_.Holds hashString (db.products_.keyed Product.GetName)
  productsByDefaultSupplierId :
    db.productsByDefaultSupplierId_.Holds hashInt
      (db.products_.keyed Product.GetDefaultSupplierId)
  purchasesByDate : db.purchasesByDate_.Holds (db.purchases_.keyed Purchase.GetDate)
  purchasesBySupplierId :
    db.purchasesBySupplierId_.Holds hashInt (db.purchases_.keyed Purchase.GetSupplierId)
  purchasesByProductId :
    db.purchasesByProductId_.Holds hashInt (db.purchases_.keyed Purchase.GetProductId)
  purchasesByDeptId :
    db.purchasesByDeptId_.Holds hashInt (db.purchases_.keyed Purchase.GetDeptId)

/-- Toy parsers for a closed instance of the scenario: every line of a file yields the
row of the scenario. -/
def scenarioParsers : RowParsers where
  Address := fun _ => .ok ⟨1, "Riga", "", "", ""⟩
  Department := fun _ => .ok ⟨1, "HR", 1⟩
  Employee := fun _ => .ok ⟨1, "A", "B", "C", 1990, 1⟩
  Supplier := fun _ => .ok ⟨1, "", "", "", ""⟩
  Product := fun _ => .ok ⟨1, "", "", "", 1⟩
  Purchase := fun _ => .ok ⟨1, "", 1, 1, 1, 0, 0⟩

/-! ### BTree.h: the shape of a tree -/

section BTreeShape

variable {K Ref : Type}

mutual
/-- Number of nodes of the subtree of a node. -/
def Node.count : Node K Ref → Nat
  | .mk _ _ _ cs => counts cs + 1
/-- Number of nodes of the subtrees of a list of nodes. -/
def counts : List (Node K Ref) → Nat
  | [] => 0
  | c :: cs => c.count + counts cs
end

mutual
/-- The shape of the subtree of a node: the leaf flag and the key sequence of every node,
without the ref-lists. -/
def Node.skeleton : Node K Ref → Node K Unit
  | .mk leaf keys _ cs => .mk leaf keys [] (skeletons cs)
/-- The shapes of a list of nodes. -/
def skeletons : List (Node K Ref) → List (Node K Unit)
  | [] => []
  | c :: cs => c.skeleton :: skeletons cs
end

mutual
/-- Whether the descent of `InsertNonFull(x, key, ref)` reaches the test
`x.children[i]->keys.size() == MaxKeys()` with a full child before it finds `key` in a node
or ends in a leaf. -/
def Node.splitsOnPath [LinearOrder K] (t : Nat) : Node K Ref → K → Bool
  | .mk leaf keys _ children, key =>
    let pos := lbIndex keys key
    if pos < keys.length ∧ keys[pos]? = some key then false
    else if leaf then false
    else splitsOnPathAt t children pos key
/-- The same for the descent into the child at index `i`. -/
def splitsOnPathAt [LinearOrder K] (t : Nat) : List (Node K Ref) → Nat → K → Bool
  | [], _, _ => false
  | c :: _, 0, key => decide (c.keys.length = MaxKeys t) || c.splitsOnPath t key
  | _ :: cs, i + 1, key => splitsOnPathAt t cs i key
end

end BTreeShape

/-! ### BTree.h: the nodes of a tree -/

section BTreeNodes

variable {K Ref : Type}

mutual
/-- All nodes of the subtree of a node: the node itself, then the nodes of the subtrees of
its children from left to right. -/
def Node.nodes : Node K Ref → List (Node K Ref)
  | .mk leaf keys values children => .mk leaf keys values children :: nodesOf children
/-- All nodes of the subtrees of a list of nodes. -/
def nodesOf : List (Node K Ref) → List (Node K Ref)
  | [] => []
  | c :: cs => c.nodes ++ nodesOf cs
end

mutual
/-- The depth of every leaf of the subtree of a node, counted in edges from the node. -/
def Node.leafDepths : Node K Ref → List Nat
  | .mk leaf _ _ children => if leaf then [0] else (leafDepthsOf children).map (· + 1)
/-- The depths of the leaves of the subtrees of a list of nodes. -/
def leafDepthsOf : List (Node K Ref) → List Nat
  | [] => []
  | c :: cs => c.leafDepths ++ leafDepthsOf cs
end

/-- All keys stored in a tree, node after node: one element for every (node, position). -/
def BTree.storedKeys (b : BTree K Ref) : List K :=
  b.root_.nodes.flatMap Node.keys

end BTreeNodes

/-! ### BTree.h: `Insert` with an entry check -/

section BTreeGuarded

variable {K Ref : Type}

/-- The function `InsertNonFull` with the assertion `x.keys.size() < MaxKeys()` at its
entry: `none` when a call is entered on a full node (or a vector is read or written out of
range), otherwise the result of `InsertNonFull`. -/
def InsertNonFullGuarded [LinearOrder K] (t : Nat) :
    Nat → Node K Ref → K → Ref → Option (Node K Ref)
  | 0, _, _, _ => none
  | fuel + 1, x, key, ref =>
    if x.keys.length < MaxKeys t then
      let pos := lbIndex x.keys key
      if pos < x.keys.length ∧ x.keys[pos]? = some key then
        pushRef x pos ref
      else if x.leaf then
        if pos ≤ x.keys.length ∧ pos ≤ x.values.length then
          some (.mk x.leaf (insertAt pos key x.keys) (insertAt pos [ref] x.values) x.children)
        else none
      else
        match x.children[pos]? with
        | none => none
        | some c =>
          if c.keys.length = MaxKeys t then
            match SplitChild t x pos with
            | none => none
            | some x' =>
              match x'.keys[pos]? with
              | none => none
              | some m =>
                if key > m then
                  descendInto (fun c => InsertNonFullGuarded t fuel c key ref) x' (pos + 1)
                else if key = m then pushRef x' pos ref
                else descendInto (fun c => InsertNonFullGuarded t fuel c key ref) x' pos
          else descendInto (fun c => InsertNonFullGuarded t fuel c key ref) x pos
    else none

/-- The function `Insert` calling `InsertNonFull` with the entry assertion. -/
def BTree.InsertGuarded [LinearOrder K] (b : BTree K Ref) (key : K) (ref : Ref) :
    Option (BTree K Ref) :=
  let root1 : Option (Node K Ref) :=
    if b.root_.keys.length = MaxKeys b.t_ then SplitChild b.t_ (.mk false [] [] [b.root_]) 0
    else some b.root_
  match root1 with
  | none => none
  | some r =>
    match InsertNonFullGuarded b.t_ r.height r key ref with
    | none => none
    | some r' => some ⟨b.t_, r'⟩

end BTreeGuarded

/-! ## Part II. Lemmas and theorems -/

section BTreeTheory

variable {K Ref : Type}

/-! ### Vectors -/

theorem length_insertAt {α : Type} (i : Nat) (a : α) (l : List α) (h : i ≤ l.length) :
    (insertAt i a l).length = l.length + 1 := by
  simp [insertAt]; omega

theorem length_setAt {α : Type} (i : Nat) (a : α) (l : List α) (h : i < l.length) :
    (setAt i a l).length = l.length := by
  simp [setAt]; omega

theorem split_at {α : Type} {l : List α} {i : Nat} {a : α} (h : l[i]? = some a) :
    l = l.take i ++ a :: l.drop (i + 1) := by
  obtain ⟨hi, rfl⟩ := List.getElem?_eq_some.mp h
  rw [← List.drop_eq_getElem_cons hi, List.take_append_drop]

theorem drop_at {α : Type} {l : List α} {i : Nat} {a : α} (h : l[i]? = some a) :
    l.drop i = a :: l.drop (i + 1) := by
  obtain ⟨hi, rfl⟩ := List.getElem?_eq_some.mp h
  exact List.drop_eq_getElem_cons hi

theorem zip_take' {α β : Type} (l₁ : List α) (l₂ : List β) (n : Nat) :
    (l₁.zip l₂).take n = (l₁.take n).zip (l₂.take n) := by
  induction l₁ generalizing l₂ n with
  | nil => simp
  | cons a l₁ ih =>
    cases l₂ with
    | nil => simp
    | cons b l₂ =>
      cases n with
      | zero => simp
      | succ n => simp [ih]

theorem zip_drop' {α β : Type} (l₁ : List α) (l₂ : List β) (n : Nat) :
    (l₁.zip l₂).drop n = (l₁.drop n).zip (l₂.drop n) := by
  induction l₁ generalizing l₂ n with
  | nil => simp
  | cons a l₁ ih =>
    cases l₂ with
    | nil => simp
    | cons b l₂ =>
      cases n with
      | zero => simp
      | succ n => simp [ih]

/-! ### In-order merge -/

theorem interleave_append {α : Type} (es₁ es₂ : List α) (cs₁ cs₂ : List (List α))
    (h : cs₁.length = es₁.length) :
    interleave (es₁ ++ es₂) (cs₁ ++ cs₂) = headI es₁ cs₁ ++ interleave es₂ cs₂ := by
  induction es₁ generalizing cs₁ with
  | nil =>
    cases cs₁ with
    | nil => simp [headI]
    | cons c cs₁ => simp at h
  | cons e es₁ ih =>
    cases cs₁ with
    | nil => simp at h
    | cons c cs₁ =>
      simp only [List.length_cons, Nat.add_right_cancel_iff] at h
      simp [interleave, headI, ih cs₁ h]

theorem interleave_cons_tail {α : Type} (es : List α) (c : List α) (cs : List (List α))
    (h : cs.length = es.length) :
    interleave es (c :: cs) = c ++ tailI es cs := by
  induction es generalizing c cs with
  | nil => simp [interleave, tailI]
  | cons e es ih =>
    cases cs with
    | nil => simp at h
    | cons c' cs =>
      simp only [List.length_cons, Nat.add_right_cancel_iff] at h
      simp [interleave, tailI, ih c' cs h]

theorem interleave_split {α : Type} (es₁ es₂ : List α) (m : α) (cs₁ cs₂ : List (List α))
    (h : cs₁.length = es₁.length + 1) :
    interleave (es₁ ++ m :: es₂) (cs₁ ++ cs₂)
      = interleave es₁ cs₁ ++ m :: interleave es₂ cs₂ := by
  induction es₁ generalizing cs₁ with
  | nil =>
    match cs₁, h with
    | [c], _ => simp [interleave]
  | cons e es₁ ih =>
    match cs₁, h with
    | c :: cs₁, h =>
      simp only [List.length_cons, Nat.add_right_cancel_iff] at h
      simp [interleave, ih cs₁ h]

theorem headI_append {α : Type} (es₁ es₂ : List α) (cs₁ cs₂ : List (List α))
    (h : cs₁.length = es₁.length) :
    headI (es₁ ++ es₂) (cs₁ ++ cs₂) = headI es₁ cs₁ ++ headI es₂ cs₂ := by
  induction es₁ generalizing cs₁ with
  | nil =>
    cases cs₁ with
    | nil => simp [headI]
    | cons c cs₁ => simp at h
  | cons e es₁ ih =>
    cases cs₁ with
    | nil => simp at h
    | cons c cs₁ =>
      simp only [List.length_cons, Nat.add_right_cancel_iff] at h
      simp [headI, ih cs₁ h]

theorem length_interleave {α : Type} (es : List α) (cs : List (List α))
    (h : cs.length = es.length + 1) :
    (interleave es cs).length = es.length + (cs.map List.length).sum := by
  induction es generalizing cs with
  | nil =>
    match cs, h with
    | [c], _ => simp [interleave]
  | cons e es ih =>
    match cs, h with
    | c :: cs, h =>
      simp only [List.length_cons, Nat.add_right_cancel_iff] at h
      simp [interleave, ih cs h]; omega

theorem inorders_eq_map (cs : List (Node K Ref)) : inorders cs = cs.map Node.inorder := by
  induction cs with
  | nil => simp [inorders]
  | cons c cs ih => simp [inorders, ih]

theorem inorder_leaf (keys : List K) (values : List (List Ref)) (cs : List (Node K Ref)) :
    (Node.mk true keys values cs).inorder = keys.zip values := by
  simp [Node.inorder]

theorem inorder_inner (keys : List K) (values : List (List Ref)) (cs : List (Node K Ref)) :
    (Node.mk false keys values cs).inorder
      = interleave (keys.zip values) (cs.map Node.inorder) := by
  simp [Node.inorder, inorders_eq_map]

/-! ### Entry lists with ascending keys -/

theorem keysSorted_append [LinearOrder K] {A B : List (K × List Ref)} :
    KeysSorted (A ++ B) ↔
      KeysSorted A ∧ KeysSorted B ∧ ∀ a ∈ A, ∀ b ∈ B, a.1 < b.1 := by
  simp only [KeysSorted, List.map_append, List.pairwise_append, List.mem_map]
  constructor
  · rintro ⟨h1, h2, h3⟩
    exact ⟨h1, h2, fun a ha b hb => h3 a.1 ⟨a, ha, rfl⟩ b.1 ⟨b, hb, rfl⟩⟩
  · rintro ⟨h1, h2, h3⟩
    refine ⟨h1, h2, ?_⟩
    rintro _ ⟨a, ha, rfl⟩ _ ⟨b, hb, rfl⟩
    exact h3 a ha b hb

theorem keysSorted_cons [LinearOrder K] {e : K × List Ref} {B : List (K × List Ref)} :
    KeysSorted (e :: B) ↔ (∀ b ∈ B, e.1 < b.1) ∧ KeysSorted B := by
  simp only [KeysSorted, List.map_cons, List.pairwise_cons, List.mem_map]
  constructor
  · rintro ⟨h1, h2⟩
    exact ⟨fun b hb => h1 b.1 ⟨b, hb, rfl⟩, h2⟩
  · rintro ⟨h1, h2⟩
    refine ⟨?_, h2⟩
    rintro _ ⟨b, hb, rfl⟩
    exact h1 b hb

theorem keysSorted_nil [LinearOrder K] : KeysSorted ([] : List (K × List Ref)) := by
  simp [KeysSorted]

theorem upsert_append_lt [LinearOrder K] (k : K) (r : Ref) (A B : List (K × List Ref))
    (h : ∀ a ∈ A, a.1 < k) : upsert k r (A ++ B) = A ++ upsert k r B := by
  induction A with
  | nil => rfl
  | cons a A ih =>
    obtain ⟨ka, va⟩ := a
    have h1 : ka < k := h (ka, va) (List.mem_cons_self _ _)
    have h2 : ¬ k < ka := not_lt.mpr h1.le
    have h3 : ¬ k = ka := fun e => (ne_of_lt h1) e.symm
    simp only [List.cons_append, upsert, h2, h3, if_false, List.append_eq]
    rw [ih (fun a ha => h a (List.mem_cons_of_mem _ ha))]

theorem upsert_append_gt [LinearOrder K] (k : K) (r : Ref) (A B : List (K × List Ref))
    (e : K × List Ref) (h : k < e.1) :
    upsert k r (A ++ e :: B) = upsert k r A ++ e :: B := by
  induction A with
  | nil =>
    obtain ⟨ke, ve⟩ := e
    simp only [List.nil_append, upsert]
    simp only at h
    simp [h]
  | cons a A ih =>
    obtain ⟨ka, va⟩ := a
    simp only [List.cons_append, upsert]
    split_ifs <;> simp [ih]

theorem upsert_found [LinearOrder K] (k : K) (r : Ref) (v : List Ref)
    (A B : List (K × List Ref)) (h : KeysSorted (A ++ (k, v) :: B)) :
    upsert k r (A ++ (k, v) :: B) = A ++ (k, v ++ [r]) :: B := by
  rw [upsert_append_lt]
  · simp [upsert]
  · intro a ha
    exact (keysSorted_append.mp h).2.2 a ha (k, v) (List.mem_cons_self _ _)

theorem mem_upsert_keys [LinearOrder K] (k : K) (r : Ref) (L : List (K × List Ref)) (x : K) :
    x ∈ (upsert k r L).map Prod.fst ↔ x = k ∨ x ∈ L.map Prod.fst := by
  induction L with
  | nil => simp [upsert]
  | cons a L ih =>
    obtain ⟨ka, va⟩ := a
    simp only [upsert]
    split_ifs with h1 h2
    · simp
    · subst h2; simp
    · simp only [List.map_cons, List.mem_cons, ih]
      tauto

theorem upsert_sorted [LinearOrder K] (k : K) (r : Ref) (L : List (K × List Ref))
    (h : KeysSorted L) : KeysSorted (upsert k r L) := by
  induction L with
  | nil => simp [upsert, KeysSorted]
  | cons a L ih =>
    obtain ⟨ka, va⟩ := a
    have hc := keysSorted_cons.mp h
    simp only [upsert]
    split_ifs with h1 h2
    · refine keysSorted_cons.mpr ⟨?_, h⟩
      intro b hb
      rcases List.mem_cons.mp hb with rfl | hb
      · exact h1
      · exact lt_trans h1 (hc.1 b hb)
    · exact keysSorted_cons.mpr ⟨hc.1, hc.2⟩
    · refine keysSorted_cons.mpr ⟨?_, ih hc.2⟩
      intro b hb
      have hb' : b.1 ∈ (upsert k r L).map Prod.fst := List.mem_map.mpr ⟨b, hb, rfl⟩
      rcases (mem_upsert_keys k r L b.1).mp hb' with e | hm
      · rw [e]
        exact lt_of_le_of_ne (not_lt.mp h1) (fun e => h2 e.symm)
      · obtain ⟨b', hb1, hb2⟩ := List.mem_map.mp hm
        rw [← hb2]
        exact hc.1 b' hb1

theorem length_upsert_le [LinearOrder K] (k : K) (r : Ref) (L : List (K × List Ref)) :
    (upsert k r L).length ≤ L.length + 1 := by
  induction L with
  | nil => simp [upsert]
  | cons a L ih =>
    obtain ⟨ka, va⟩ := a
    simp only [upsert]
    split_ifs
    · simp
    · simp
    · simpa using ih

theorem lookupRefs_eq_none [DecidableEq K] (k : K) (L : List (K × List Ref))
    (h : k ∉ L.map Prod.fst) : lookupRefs k L = none := by
  induction L with
  | nil => rfl
  | cons a L ih =>
    obtain ⟨ka, va⟩ := a
    simp only [List.map_cons, List.mem_cons, not_or] at h
    simp only [lookupRefs]
    rw [if_neg (fun e => h.1 e.symm)]
    exact ih h.2

theorem lookupRefs_append_left [DecidableEq K] (k : K) (A B : List (K × List Ref))
    (h : k ∉ B.map Prod.fst) : lookupRefs k (A ++ B) = lookupRefs k A := by
  induction A with
  | nil => simpa [lookupRefs] using lookupRefs_eq_none k B h
  | cons a A ih =>
    obtain ⟨ka, va⟩ := a
    simp only [List.cons_append, lookupRefs, List.append_eq, ih]

theorem lookupRefs_append_right [DecidableEq K] (k : K) (A B : List (K × List Ref))
    (h : k ∉ A.map Prod.fst) : lookupRefs k (A ++ B) = lookupRefs k B := by
  induction A with
  | nil => rfl
  | cons a A ih =>
    obtain ⟨ka, va⟩ := a
    simp only [List.map_cons, List.mem_cons, not_or] at h
    simp only [List.cons_append, lookupRefs]
    rw [if_neg (fun e => h.1 e.symm)]
    exact ih h.2

theorem lookupRefs_upsert [LinearOrder K] (k k' : K) (r : Ref) (L : List (K × List Ref))
    (h : KeysSorted L) :
    lookupRefs k' (upsert k r L)
      = if k = k' then some ((lookupRefs k L).getD [] ++ [r]) else lookupRefs k' L := by
  induction L with
  | nil =>
    simp [upsert, lookupRefs]
  | cons a L ih =>
    obtain ⟨ka, va⟩ := a
    have hc := keysSorted_cons.mp h
    rcases lt_trichotomy k ka with h1 | h1 | h1
    · have hk : k ∉ ((ka, va) :: L).map Prod.fst := by
        intro hm
        rcases List.mem_map.mp hm with ⟨b, hb, hbe⟩
        rcases List.mem_cons.mp hb with rfl | hb
        · simp only at hbe; exact (ne_of_lt h1) hbe.symm
        · have := hc.1 b hb
          simp only at this
          rw [hbe] at this
          exact lt_asymm h1 this
      rw [lookupRefs_eq_none k _ hk]
      simp only [upsert, if_pos h1, lookupRefs]
      split_ifs <;> simp
    · subst h1
      simp only [upsert, lt_irrefl, if_false, if_true, lookupRefs]
      split_ifs <;> simp
    · have h2 : ¬ k < ka := not_lt.mpr h1.le
      have h3 : ¬ k = ka := fun e => (ne_of_lt h1) e.symm
      have h4 : ¬ ka = k := fun e => (ne_of_lt h1) e
      simp only [upsert, if_neg h2, if_neg h3, lookupRefs, ih hc.2, if_neg h4]
      split_ifs with h5 h6
      · subst h5; exact absurd h6 h3
      · rfl
      · rfl
      · rfl

theorem rangeRefs_append [LinearOrder K] (lo hi : K) (A B : List (K × List Ref)) :
    rangeRefs lo hi (A ++ B) = rangeRefs lo hi A ++ rangeRefs lo hi B := by
  induction A with
  | nil => rfl
  | cons a A ih =>
    obtain ⟨ka, va⟩ := a
    simp only [List.cons_append, rangeRefs]
    split_ifs <;> simp [ih]

theorem rangeRefs_eq_nil [LinearOrder K] (lo hi : K) (A : List (K × List Ref))
    (h : ∀ a ∈ A, hi < a.1) : rangeRefs lo hi A = [] := by
  induction A with
  | nil => rfl
  | cons a A ih =>
    obtain ⟨ka, va⟩ := a
    have h1 : hi < ka := h (ka, va) (List.mem_cons_self _ _)
    simp only [rangeRefs]
    rw [if_neg (fun c => absurd c.2 (not_le.mpr h1))]
    exact ih (fun a ha => h a (List.mem_cons_of_mem _ ha))

/-! ### `lbIndex` on ascending keys -/

theorem pairwise_getElem? [LinearOrder K] {keys : List K} (hs : keys.Pairwise (· < ·))
    {i j : Nat} {a b : K} (hij : i < j) (ha : keys[i]? = some a) (hb : keys[j]? = some b) :
    a < b := by
  obtain ⟨hi, rfl⟩ := List.getElem?_eq_some.mp ha
  obtain ⟨hj, rfl⟩ := List.getElem?_eq_some.mp hb
  exact List.pairwise_iff_getElem.mp hs i j hi hj hij

theorem lowerBoundLoop_spec [LinearOrder K] (keys : List K) (key : K)
    (hs : keys.Pairwise (· < ·)) (fuel first len : Nat)
    (hf : len ≤ fuel) (hlen : first + len ≤ keys.length)
    (hlt : ∀ i k, i < first → keys[i]? = some k → k < key)
    (hge : ∀ i k, first + len ≤ i → keys[i]? = some k → key ≤ k) :
    lowerBoundLoop keys key fuel first len ≤ keys.length ∧
    (∀ i k, i < lowerBoundLoop keys key fuel first len → keys[i]? = some k → k < key) ∧
    (∀ i k, lowerBoundLoop keys key fuel first len ≤ i → keys[i]? = some k → key ≤ k) := by
  induction fuel generalizing first len with
  | zero =>
    have h0 : len = 0 := by omega
    subst h0
    simp only [lowerBoundLoop]
    exact ⟨by omega, hlt, fun i k hi => hge i k (by omega)⟩
  | succ fuel ih =>
    simp only [lowerBoundLoop]
    split_ifs with h0
    · subst h0
      exact ⟨by omega, hlt, fun i k hi => hge i k (by omega)⟩
    · have hmid : first + len / 2 < keys.length := by
        have : len / 2 < len := Nat.div_lt_self (Nat.pos_of_ne_zero h0) (by decide)
        omega
      have hm : keys[first + len / 2]? = some (keys[first + len / 2]) :=
        List.getElem?_eq_getElem hmid
      rw [hm]
      simp only
      have hhalf : len / 2 < len := Nat.div_lt_self (Nat.pos_of_ne_zero h0) (by decide)
      split_ifs with hc
      · apply ih
        · omega
        · omega
        · intro i k hi hk
          by_cases hie : i = first + len / 2
          · subst hie
            rw [hm] at hk
            cases hk
            exact hc
          · exact lt_trans (pairwise_getElem? hs (by omega) hk hm) hc
        · intro i k hi hk
          exact hge i k (by omega) hk
      · apply ih
        · omega
        · omega
        · exact hlt
        · intro i k hi hk
          by_cases hie : i = first + len / 2
          · subst hie
            rw [hm] at hk
            cases hk
            exact not_lt.mp hc
          · by_cases hbig : first + len ≤ i
            · exact hge i k hbig hk
            · exact le_trans (not_lt.mp hc) (pairwise_getElem? hs (by omega) hm hk).le

theorem lbIndex_le [LinearOrder K] (keys : List K) (key : K) (hs : keys.Pairwise (· < ·)) :
    lbIndex keys key ≤ keys.length :=
  (lowerBoundLoop_spec keys key hs keys.length 0 keys.length (le_refl _) (by omega)
    (fun i k hi => absurd hi (Nat.not_lt_zero i))
    (fun i k hi hk => by
      rw [List.getElem?_eq_none (by omega)] at hk; cases hk)).1

theorem lbIndex_lt [LinearOrder K] (keys : List K) (key : K) (hs : keys.Pairwise (· < ·)) :
    ∀ k ∈ keys.take (lbIndex keys key), k < key := by
  intro k hk
  obtain ⟨i, hi⟩ := List.mem_iff_getElem?.mp hk
  rw [List.getElem?_take] at hi
  split_ifs at hi with hlt
  exact (lowerBoundLoop_spec keys key hs keys.length 0 keys.length (le_refl _) (by omega)
    (fun i k hi => absurd hi (Nat.not_lt_zero i))
    (fun i k hi hk => by
      rw [List.getElem?_eq_none (by omega)] at hk; cases hk)).2.1 i k hlt hi

theorem lbIndex_ge [LinearOrder K] (keys : List K) (key : K) (hs : keys.Pairwise (· < ·)) :
    ∀ k ∈ keys.drop (lbIndex keys key), key ≤ k := by
  intro k hk
  obtain ⟨i, hi⟩ := List.mem_iff_getElem?.mp hk
  rw [List.getElem?_drop] at hi
  exact (lowerBoundLoop_spec keys key hs keys.length 0 keys.length (le_refl _) (by omega)
    (fun i k hi => absurd hi (Nat.not_lt_zero i))
    (fun i k hi hk => by
      rw [List.getElem?_eq_none (by omega)] at hk; cases hk)).2.2 _ k (Nat.le_add_right _ _) hi

/-! ### Vectors cut at an index -/

theorem insertAt_append {α : Type} {i : Nat} (a : α) (l₁ l₂ : List α) (h : l₁.length = i) :
    insertAt i a (l₁ ++ l₂) = l₁ ++ a :: l₂ := by
  subst h; simp [insertAt]

theorem setAt_append {α : Type} {i : Nat} (a b : α) (l₁ l₂ : List α) (h : l₁.length = i) :
    setAt i a (l₁ ++ b :: l₂) = l₁ ++ a :: l₂ := by
  subst h; simp [setAt]

theorem getElem?_append_at {α : Type} {i : Nat} (l₁ l₂ : List α) (h : l₁.length = i) :
    (l₁ ++ l₂)[i]? = l₂.head? := by
  subst h
  rw [List.getElem?_append_right (le_refl _)]
  cases l₂ <;> simp

theorem cut_at {α : Type} (l : List α) (i : Nat) (h : i ≤ l.length) :
    ∃ l₁ l₂, l = l₁ ++ l₂ ∧ l₁.length = i :=
  ⟨l.take i, l.drop i, (List.take_append_drop i l).symm, by simp [h]⟩

theorem cut_at_elem {α : Type} (l : List α) (i : Nat) (a : α) (h : l[i]? = some a) :
    ∃ l₁ l₂, l = l₁ ++ a :: l₂ ∧ l₁.length = i := by
  refine ⟨l.take i, l.drop (i + 1), split_at h, ?_⟩
  obtain ⟨hi, -⟩ := List.getElem?_eq_some.mp h
  simp; omega

theorem map_fst_zip' {α β : Type} (l₁ : List α) (l₂ : List β) (h : l₂.length = l₁.length) :
    (l₁.zip l₂).map Prod.fst = l₁ := by
  induction l₁ generalizing l₂ with
  | nil => simp
  | cons a l₁ ih =>
    cases l₂ with
    | nil => simp at h
    | cons b l₂ =>
      simp only [List.length_cons, Nat.add_right_cancel_iff] at h
      simp [ih l₂ h]

theorem zip_append' {α β : Type} (l₁ r₁ : List α) (l₂ r₂ : List β)
    (h : l₂.length = l₁.length) :
    (l₁ ++ r₁).zip (l₂ ++ r₂) = l₁.zip l₂ ++ r₁.zip r₂ :=
  List.zip_append h.symm

theorem fst_mem_of_mem_zip {α β : Type} {l₁ : List α} {l₂ : List β} {e : α × β}
    (h : e ∈ l₁.zip l₂) : e.1 ∈ l₁ := by
  obtain ⟨a, b⟩ := e
  exact (List.of_mem_zip h).1

/-! ### Bounds inside an in-order merge -/

theorem headI_lt [LinearOrder K] (key : K) (es : List (K × List Ref))
    (cs : List (List (K × List Ref))) (hlen : cs.length = es.length)
    (hs : KeysSorted (headI es cs)) (hes : ∀ e ∈ es, e.1 < key) :
    ∀ a ∈ headI es cs, a.1 < key := by
  induction es generalizing cs with
  | nil =>
    cases cs with
    | nil => simp [headI]
    | cons c cs => simp at hlen
  | cons e es ih =>
    cases cs with
    | nil => simp at hlen
    | cons c cs =>
      simp only [List.length_cons, Nat.add_right_cancel_iff] at hlen
      simp only [headI] at hs ⊢
      have h1 := keysSorted_append.mp hs
      have h2 := keysSorted_cons.mp h1.2.1
      have he : e.1 < key := hes e (List.mem_cons_self _ _)
      intro a ha
      rcases List.mem_append.mp ha with ha | ha
      · exact lt_trans (h1.2.2 a ha e (List.mem_cons_self _ _)) he
      · rcases List.mem_cons.mp ha with rfl | ha
        · exact he
        · exact ih cs hlen h2.2 (fun e' he' => hes e' (List.mem_cons_of_mem _ he')) a ha

theorem tailI_head {α : Type} (es : List α) (cs : List (List α)) (e : α)
    (h : (tailI es cs).head? = some e) : es.head? = some e := by
  cases es with
  | nil => simp [tailI] at h
  | cons e' es =>
    cases cs with
    | nil => simp [tailI] at h
    | cons c cs => simpa [tailI] using h

theorem gt_of_head_gt [LinearOrder K] (key : K) (T : List (K × List Ref))
    (hs : KeysSorted T) (hh : ∀ e, T.head? = some e → key < e.1) :
    ∀ a ∈ T, key < a.1 := by
  cases T with
  | nil => simp
  | cons e T =>
    have h1 := keysSorted_cons.mp hs
    have he : key < e.1 := hh e rfl
    intro a ha
    rcases List.mem_cons.mp ha with rfl | ha
    · exact he
    · exact lt_trans he (h1.1 a ha)

theorem not_mem_keys_of_lt [LinearOrder K] (key : K) (A : List (K × List Ref))
    (h : ∀ a ∈ A, a.1 < key) : key ∉ A.map Prod.fst := by
  intro hm
  obtain ⟨a, ha, hae⟩ := List.mem_map.mp hm
  exact absurd hae (ne_of_lt (h a ha))

theorem not_mem_keys_of_gt [LinearOrder K] (key : K) (A : List (K × List Ref))
    (h : ∀ a ∈ A, key < a.1) : key ∉ A.map Prod.fst := by
  intro hm
  obtain ⟨a, ha, hae⟩ := List.mem_map.mp hm
  exact absurd hae.symm (ne_of_lt (h a ha))

theorem upsert_middle [LinearOrder K] (k : K) (r : Ref) (H C T : List (K × List Ref))
    (hH : ∀ a ∈ H, a.1 < k) (hT : ∀ e, T.head? = some e → k < e.1) :
    upsert k r (H ++ C ++ T) = H ++ upsert k r C ++ T := by
  rw [List.append_assoc, upsert_append_lt k r H _ hH, List.append_assoc]
  cases T with
  | nil => simp
  | cons e T => rw [upsert_append_gt k r C T e (hT e rfl)]

theorem lookupRefs_middle [LinearOrder K] (k : K) (H C T : List (K × List Ref))
    (hs : KeysSorted (H ++ C ++ T))
    (hH : ∀ a ∈ H, a.1 < k) (hT : ∀ e, T.head? = some e → k < e.1) :
    lookupRefs k (H ++ C ++ T) = lookupRefs k C := by
  have hTs : KeysSorted T := (keysSorted_append.mp hs).2.1
  rw [lookupRefs_append_left k _ T (not_mem_keys_of_gt k T (gt_of_head_gt k T hTs hT)),
    lookupRefs_append_right k H C (not_mem_keys_of_lt k H hH)]

theorem lookupRefs_found [LinearOrder K] (k : K) (v : List Ref) (A B : List (K × List Ref))
    (hs : KeysSorted (A ++ (k, v) :: B)) : lookupRefs k (A ++ (k, v) :: B) = some v := by
  rw [lookupRefs_append_right]
  · simp [lookupRefs]
  · apply not_mem_keys_of_lt
    intro a ha
    exact (keysSorted_append.mp hs).2.2 a ha (k, v) (List.mem_cons_self _ _)

/-! ### The entries of a node around a child or a key -/

theorem inorder_inner_append (kl kr : List K) (vl vr : List (List Ref))
    (cl cr : List (Node K Ref)) (c : Node K Ref)
    (h1 : vl.length = kl.length) (h2 : cl.length = kl.length)
    (h3 : vr.length = kr.length) (h4 : cr.length = kr.length) :
    (Node.mk false (kl ++ kr) (vl ++ vr) (cl ++ c :: cr)).inorder
      = headI (kl.zip vl) (cl.map Node.inorder) ++ c.inorder
          ++ tailI (kr.zip vr) (cr.map Node.inorder) := by
  rw [inorder_inner, zip_append' kl kr vl vr h1, List.map_append, List.map_cons,
    interleave_append _ _ _ _ (by simp [h1, h2]),
    interleave_cons_tail _ _ _ (by simp [h3, h4]), List.append_assoc]

theorem sublist_interleave {α : Type} (es : List α) (cs : List (List α))
    (h : cs.length = es.length + 1) : List.Sublist es (interleave es cs) := by
  induction es generalizing cs with
  | nil => exact List.nil_sublist _
  | cons e es ih =>
    match cs, h with
    | c :: cs, h =>
      simp only [List.length_cons, Nat.add_right_cancel_iff] at h
      simp only [interleave]
      exact List.Sublist.trans ((ih cs h).cons₂ e) (List.sublist_append_right _ _)

theorem keys_sorted_of_inv [LinearOrder K] {t m h : Nat} {x : Node K Ref}
    (hinv : Node.Inv t m h x) (hs : KeysSorted x.inorder) : x.keys.Pairwise (· < ·) := by
  cases hinv with
  | leaf m keys values hv hne hm hmax =>
    simpa [KeysSorted, inorder_leaf, map_fst_zip' keys values hv, Node.keys] using hs
  | inner m h keys values children hv hne hm hmax hc hch =>
    rw [inorder_inner] at hs
    have hsub := sublist_interleave (keys.zip values) (children.map Node.inorder)
      (by simp [hc, hv])
    have := List.Pairwise.sublist (hsub.map Prod.fst) hs
    simpa [map_fst_zip' keys values hv, Node.keys] using this

theorem height_of_inv {t m h : Nat} {x : Node K Ref} (hinv : Node.Inv t m h x) :
    x.height = h := by
  induction hinv with
  | leaf m keys values hv hne hm hmax => simp [Node.height, heights]
  | inner m h keys values children hv hne hm hmax hc hch ih =>
    simp only [Node.height, Nat.add_right_cancel_iff]
    have hne' : children ≠ [] := by
      intro e; rw [e] at hc; simp at hc
    clear hch hc
    induction children with
    | nil => exact absurd rfl hne'
    | cons c cs ihc =>
      simp only [heights]
      rw [ih c (List.mem_cons_self _ _)]
      cases cs with
      | nil => simp [heights]
      | cons c' cs' =>
        rw [ihc (fun c hc => ih c (List.mem_cons_of_mem _ hc)) (by simp)]
        simp

theorem inv_mono {t m m' h : Nat} {x : Node K Ref} (hinv : Node.Inv t m h x)
    (hm : m' ≤ x.keys.length) : Node.Inv t m' h x := by
  cases hinv with
  | leaf m keys values hv hne _ hmax => exact .leaf m' keys values hv hne hm hmax
  | inner m h keys values children hv hne _ hmax hc hch =>
    exact .inner m' h keys values children hv hne hm hmax hc hch

theorem take_cut {α : Type} {n : Nat} (l₁ l₂ : List α) (h : l₁.length = n) :
    (l₁ ++ l₂).take n = l₁ := by
  subst h; simp

theorem drop_cut {α : Type} {n : Nat} (l₁ l₂ : List α) (h : l₁.length = n) :
    (l₁ ++ l₂).drop n = l₂ := by
  subst h; simp

theorem drop_cut_succ {α : Type} {n : Nat} (l₁ l₂ : List α) (a : α) (h : l₁.length = n) :
    (l₁ ++ a :: l₂).drop (n + 1) = l₂ := by
  subst h
  rw [show l₁ ++ a :: l₂ = (l₁ ++ [a]) ++ l₂ by simp]
  exact drop_cut _ _ (by simp)

theorem take_cut_succ {α : Type} {n : Nat} (l₁ l₂ : List α) (a : α) (h : l₁.length = n) :
    (l₁ ++ a :: l₂).take (n + 1) = l₁ ++ [a] := by
  subst h
  rw [show l₁ ++ a :: l₂ = (l₁ ++ [a]) ++ l₂ by simp]
  exact take_cut _ _ (by simp)

theorem getElem?_cut {α : Type} {n : Nat} (l₁ l₂ : List α) (a : α) (h : l₁.length = n) :
    (l₁ ++ a :: l₂)[n]? = some a := by
  rw [getElem?_append_at _ _ h]; rfl

theorem insertAt_append_succ {α : Type} {i : Nat} (a b : α) (l₁ l₂ : List α)
    (h : l₁.length = i) : insertAt (i + 1) a (l₁ ++ b :: l₂) = l₁ ++ b :: a :: l₂ := by
  subst h
  rw [show l₁ ++ b :: l₂ = (l₁ ++ [b]) ++ l₂ by simp, insertAt_append a _ l₂ (by simp)]
  simp

theorem cut_at_lt {α : Type} (l : List α) (i : Nat) (h : i < l.length) :
    ∃ l₁ a l₂, l = l₁ ++ a :: l₂ ∧ l₁.length = i := by
  obtain ⟨l₁, l₂, h1, h2⟩ := cut_at_elem l i _ (List.getElem?_eq_getElem h)
  exact ⟨l₁, _, l₂, h1, h2⟩

/-! ### `SplitChild` -/

theorem SplitChild_spec (t : Nat) (ht : 2 ≤ t) (leaf : Bool) (kl kr : List K)
    (vl vr : List (List Ref)) (cl cr : List (Node K Ref)) (y : Node K Ref) (i h : Nat)
    (hk : kl.length = i) (hv : vl.length = i) (hc : cl.length = i)
    (hy : Node.Inv t (t - 1) h y) (hfull : y.keys.length = MaxKeys t) :
    ∃ y' z mk mv,
      SplitChild t (.mk leaf (kl ++ kr) (vl ++ vr) (cl ++ y :: cr)) i
        = some (.mk leaf (kl ++ mk :: kr) (vl ++ mv :: vr) (cl ++ y' :: z :: cr)) ∧
      Node.Inv t (t - 1) h y' ∧ Node.Inv t (t - 1) h z ∧
      y.inorder = y'.inorder ++ (mk, mv) :: z.inorder ∧
      y'.keys.length = t - 1 ∧ z.keys.length = t - 1 ∧ mv ≠ [] := by
  have hmax : MaxKeys t = (t - 1) + 1 + (t - 1) := by unfold MaxKeys; omega
  cases hy with
  | leaf m keys values hvl hne hm hmx =>
    simp only [Node.keys] at hfull
    have hkm : (t - 1) < keys.length := by omega
    have hvm : (t - 1) < values.length := by omega
    obtain ⟨ykl, mk, ykr, rfl, hykl⟩ := cut_at_lt keys (t - 1) hkm
    obtain ⟨yvl, mv, yvr, rfl, hyvl⟩ := cut_at_lt values (t - 1) hvm
    have hykr : ykr.length = t - 1 := by
      simp only [List.length_append, List.length_cons] at hfull; omega
    have hyvr : yvr.length = t - 1 := by
      simp only [List.length_append, List.length_cons] at hvl; omega
    refine ⟨.mk true ykl yvl [], .mk true ykr yvr [], mk, mv, ?_, ?_, ?_, ?_, ?_, ?_, ?_⟩
    · have e1 : (yvl ++ mv :: yvr).take (ykl ++ mk :: ykr).length = yvl ++ mv :: yvr := by
        rw [← hvl]; exact List.take_length _
      simp only [SplitChild, Node.children, Node.keys, Node.values, Node.leaf,
        getElem?_cut cl cr _ hc, getElem?_cut ykl ykr mk hykl, getElem?_cut yvl yvr mv hyvl,
        hvl, lt_irrefl, if_false, Bool.not_true, Bool.false_and, e1,
        drop_cut_succ ykl ykr mk hykl, drop_cut_succ yvl yvr mv hyvl,
        take_cut ykl _ hykl, take_cut yvl _ hyvl, if_true,
        insertAt_append mk kl kr hk, insertAt_append mv vl vr hv,
        setAt_append _ _ cl cr hc]
      have hle : i ≤ (kl ++ kr).length ∧ i ≤ (vl ++ vr).length := by
        simp only [List.length_append]; omega
      simp only [hle, and_self, if_true, Bool.false_eq_true]
      rw [insertAt_append_succ _ _ cl cr hc]
      simp
    · exact .leaf _ ykl yvl (by omega) (fun v hv => hne v (by simp [hv])) (by omega)
        (by unfold MaxKeys; omega)
    · exact .leaf _ ykr yvr (by omega) (fun v hv => hne v (by simp [hv])) (by omega)
        (by unfold MaxKeys; omega)
    · simp only [inorder_leaf]
      rw [zip_append' ykl _ yvl _ (by omega)]
      rfl
    · simpa [Node.keys] using hykl
    · simpa [Node.keys] using hykr
    · exact hne mv (by simp)
  | inner m h keys values children hvl hne hm hmx hcl hch =>
    simp only [Node.keys] at hfull
    have hkm : (t - 1) < keys.length := by omega
    have hvm : (t - 1) < values.length := by omega
    obtain ⟨ykl, mk, ykr, rfl, hykl⟩ := cut_at_lt keys (t - 1) hkm
    obtain ⟨yvl, mv, yvr, rfl, hyvl⟩ := cut_at_lt values (t - 1) hvm
    have hykr : ykr.length = t - 1 := by
      simp only [List.length_append, List.length_cons] at hfull; omega
    have hyvr : yvr.length = t - 1 := by
      simp only [List.length_append, List.length_cons] at hvl; omega
    have hcl' : children.length = (t - 1 + 1) + t := by
      rw [hcl, hfull, hmax]; omega
    obtain ⟨ycl, ycr, rfl, hycl⟩ := cut_at children (t - 1 + 1) (by omega)
    have hycr : ycr.length = t := by
      simp only [List.length_append] at hcl'; omega
    refine ⟨.mk false ykl yvl ycl, .mk false ykr yvr ycr, mk, mv, ?_, ?_, ?_, ?_, ?_, ?_, ?_⟩
    · have e1 : (yvl ++ mv :: yvr).take (ykl ++ mk :: ykr).length = yvl ++ mv :: yvr := by
        rw [← hvl]; exact List.take_length _
      have e2 : ¬ ((ycl ++ ycr).length < t - 1 + 1) := by
        simp only [List.length_append]; omega
      simp only [SplitChild, Node.children, Node.keys, Node.values, Node.leaf,
        getElem?_cut cl cr _ hc, getElem?_cut ykl ykr mk hykl, getElem?_cut yvl yvr mv hyvl,
        hvl, lt_irrefl, if_false, Bool.not_false, Bool.true_and, e1, e2, decide_False,
        drop_cut_succ ykl ykr mk hykl, drop_cut_succ yvl yvr mv hyvl,
        take_cut ykl _ hykl, take_cut yvl _ hyvl, take_cut ycl ycr hycl,
        drop_cut ycl ycr hycl,
        insertAt_append mk kl kr hk, insertAt_append mv vl vr hv,
        setAt_append _ _ cl cr hc]
      have hle : i ≤ (kl ++ kr).length ∧ i ≤ (vl ++ vr).length := by
        simp only [List.length_append]; omega
      simp only [hle, and_self, if_true, Bool.false_eq_true]
      rw [insertAt_append_succ _ _ cl cr hc]
      simp
    · exact .inner _ h ykl yvl ycl (by omega) (fun v hv => hne v (by simp [hv])) (by omega)
        (by unfold MaxKeys; omega) (by omega) (fun c hc => hch c (by simp [hc]))
    · exact .inner _ h ykr yvr ycr (by omega) (fun v hv => hne v (by simp [hv])) (by omega)
        (by unfold MaxKeys; omega) (by omega) (fun c hc => hch c (by simp [hc]))
    · simp only [inorder_inner]
      rw [zip_append' ykl _ yvl _ (by omega), List.map_append, List.zip_cons_cons,
        interleave_split _ _ _ _ _ (by simp [hycl, hykl, hyvl])]
    · simpa [Node.keys] using hykl
    · simpa [Node.keys] using hykr
    · exact hne mv (by simp)

/-! ### `pushRef`, `descendInto`, `InsertNonFull` -/

theorem pushRef_spec [LinearOrder K] (t m h : Nat) (x : Node K Ref) (pos : Nat) (key : K)
    (ref : Ref) (hinv : Node.Inv t m h x) (hs : KeysSorted x.inorder)
    (hk : x.keys[pos]? = some key) :
    ∃ x', pushRef x pos ref = some x' ∧ Node.Inv t m h x' ∧
      x'.inorder = upsert key ref x.inorder ∧ x'.keys.length = x.keys.length := by
  cases hinv with
  | leaf m keys values hvl hne hm hmx =>
    simp only [Node.keys] at hk
    obtain ⟨kl, kr, rfl, hkl⟩ := cut_at_elem keys pos key hk
    have hvm : pos < values.length := by
      simp only [List.length_append, List.length_cons] at hvl; omega
    obtain ⟨vl, v, vr, rfl, hvl'⟩ := cut_at_lt values pos hvm
    refine ⟨.mk true (kl ++ key :: kr) (vl ++ (v ++ [ref]) :: vr) [], ?_, ?_, ?_, ?_⟩
    · simp only [pushRef, Node.values, getElem?_cut vl vr v hvl', Node.leaf, Node.keys,
        Node.children, setAt_append _ _ vl vr hvl']
    · refine .leaf m _ _ ?_ ?_ hm hmx
      · simpa using hvl
      · intro w hw
        rcases List.mem_append.mp hw with hw | hw
        · exact hne w (by simp [hw])
        · rcases List.mem_cons.mp hw with rfl | hw
          · simp
          · exact hne w (by simp [hw])
    · rw [inorder_leaf, inorder_leaf] at *
      rw [zip_append' kl _ vl _ (by omega), List.zip_cons_cons] at hs ⊢
      rw [zip_append' kl _ vl _ (by omega), List.zip_cons_cons]
      exact (upsert_found key ref v _ _ hs).symm
    · simp [Node.keys]
  | inner m h keys values children hvl hne hm hmx hcl hch =>
    simp only [Node.keys] at hk
    obtain ⟨kl, kr, rfl, hkl⟩ := cut_at_elem keys pos key hk
    have hvm : pos < values.length := by
      simp only [List.length_append, List.length_cons] at hvl; omega
    obtain ⟨vl, v, vr, rfl, hvl'⟩ := cut_at_lt values pos hvm
    obtain ⟨cl, cr, rfl, hcl'⟩ := cut_at children (pos + 1) (by
      simp only [List.length_append, List.length_cons] at hcl; omega)
    refine ⟨.mk false (kl ++ key :: kr) (vl ++ (v ++ [ref]) :: vr) (cl ++ cr), ?_, ?_, ?_, ?_⟩
    · simp only [pushRef, Node.values, getElem?_cut vl vr v hvl', Node.leaf, Node.keys,
        Node.children, setAt_append _ _ vl vr hvl']
    · refine .inner m h _ _ _ ?_ ?_ hm hmx hcl hch
      · simpa using hvl
      · intro w hw
        rcases List.mem_append.mp hw with hw | hw
        · exact hne w (by simp [hw])
        · rcases List.mem_cons.mp hw with rfl | hw
          · simp
          · exact hne w (by simp [hw])
    · rw [inorder_inner, inorder_inner] at *
      rw [zip_append' kl _ vl _ (by omega), List.zip_cons_cons, List.map_append,
        interleave_split _ _ _ _ _ (by simp [hcl', hkl, hvl'])] at hs ⊢
      rw [zip_append' kl _ vl _ (by omega), List.zip_cons_cons,
        interleave_split _ _ _ _ _ (by simp [hcl', hkl, hvl'])]
      exact (upsert_found key ref v _ _ hs).symm
    · simp [Node.keys]

theorem inv_replace_child {t m h : Nat} (ks : List K) (vs : List (List Ref))
    (cl cr : List (Node K Ref)) (c c' : Node K Ref)
    (hinv : Node.Inv t m (h + 1) (.mk false ks vs (cl ++ c :: cr)))
    (hc' : Node.Inv t (t - 1) h c') :
    Node.Inv t m (h + 1) (.mk false ks vs (cl ++ c' :: cr)) := by
  cases hinv with
  | inner m h keys values children hvl hne hm hmx hcl hch =>
    refine .inner m h _ _ _ hvl hne hm hmx (by simpa using hcl) ?_
    intro d hd
    rcases List.mem_append.mp hd with hd | hd
    · exact hch d (by simp [hd])
    · rcases List.mem_cons.mp hd with rfl | hd
      · exact hc'
      · exact hch d (by simp [hd])

theorem descend_spec [LinearOrder K] (rec : Node K Ref → Option (Node K Ref))
    (kl kr : List K) (vl vr : List (List Ref)) (cl cr : List (Node K Ref))
    (c c' : Node K Ref) (key : K) (ref : Ref) (i : Nat)
    (h1 : vl.length = kl.length) (h2 : cl.length = kl.length)
    (h3 : vr.length = kr.length) (h4 : cr.length = kr.length) (hi : kl.length = i)
    (hs : KeysSorted (Node.mk false (kl ++ kr) (vl ++ vr) (cl ++ c :: cr)).inorder)
    (hl : ∀ k ∈ kl, k < key) (hr : ∀ k, kr.head? = some k → key < k)
    (hrec : rec c = some c') (hc' : c'.inorder = upsert key ref c.inorder) :
    descendInto rec (.mk false (kl ++ kr) (vl ++ vr) (cl ++ c :: cr)) i
      = some (.mk false (kl ++ kr) (vl ++ vr) (cl ++ c' :: cr)) ∧
    (Node.mk false (kl ++ kr) (vl ++ vr) (cl ++ c' :: cr)).inorder
      = upsert key ref (Node.mk false (kl ++ kr) (vl ++ vr) (cl ++ c :: cr)).inorder := by
  constructor
  · simp only [descendInto, Node.children, getElem?_cut cl cr c (h2.trans hi), hrec,
      Node.leaf, Node.keys, Node.values, setAt_append _ _ cl cr (h2.trans hi)]
  · rw [inorder_inner_append kl kr vl vr cl cr c h1 h2 h3 h4] at hs ⊢
    rw [inorder_inner_append kl kr vl vr cl cr c' h1 h2 h3 h4, hc']
    symm
    apply upsert_middle
    · apply headI_lt key _ _ (by simp [h1, h2])
      · exact (keysSorted_append.mp (keysSorted_append.mp hs).1).1
      · intro e he
        exact hl e.1 (fst_mem_of_mem_zip he)
    · intro e he
      have := tailI_head _ _ _ he
      cases kr with
      | nil => simp at this
      | cons k kr =>
        cases vr with
        | nil => simp at this
        | cons v vr =>
          simp only [List.zip_cons_cons, List.head?_cons, Option.some.injEq] at this
          subst this
          exact hr k rfl

theorem InsertNonFull_spec [LinearOrder K] (t : Nat) (ht : 2 ≤ t) (key : K) (ref : Ref)
    (fuel : Nat) (x : Node K Ref) (m h : Nat) (hinv : Node.Inv t m h x)
    (hnf : x.keys.length < MaxKeys t) (hs : KeysSorted x.inorder) (hf : h ≤ fuel) :
    ∃ x', InsertNonFull t fuel x key ref = some x' ∧ Node.Inv t m h x' ∧
      x'.inorder = upsert key ref x.inorder := by
  induction fuel generalizing x m h with
  | zero =>
    cases hinv <;> omega
  | succ fuel ih =>
    have hks := keys_sorted_of_inv hinv hs
    have hple := lbIndex_le x.keys key hks
    have hplt := lbIndex_lt x.keys key hks
    have hpge := lbIndex_ge x.keys key hks
    rw [InsertNonFull]
    generalize lbIndex x.keys key = pos at *
    by_cases hfound : x.keys[pos]? = some key
    · have hpl : pos < x.keys.length := (List.getElem?_eq_some.mp hfound).1
      rw [if_pos ⟨hpl, hfound⟩]
      obtain ⟨x', e1, e2, e3, -⟩ := pushRef_spec t m h x pos key ref hinv hs hfound
      exact ⟨x', e1, e2, e3⟩
    · rw [if_neg (fun c => hfound c.2)]
      obtain ⟨kl, kr, hkeys, hkl⟩ := cut_at x.keys pos hple
      rw [hkeys, take_cut kl kr hkl] at hplt
      rw [hkeys, drop_cut kl kr hkl] at hpge
      have hr : ∀ k, kr.head? = some k → key < k := by
        intro k hk
        have h1 : key ≤ k := hpge k (List.mem_of_mem_head? hk)
        refine lt_of_le_of_ne h1 ?_
        intro e
        apply hfound
        rw [hkeys, getElem?_append_at kl kr hkl, hk, e]
      cases hinv with
      | leaf m keys values hvl hne hm hmx =>
        simp only [Node.keys] at hkeys hnf hple
        subst hkeys
        obtain ⟨vl, vr, rfl, hvl'⟩ := cut_at values pos (by omega)
        have hvr : vr.length = kr.length := by
          simp only [List.length_append] at hvl; omega
        simp only [Node.leaf, if_true, Node.keys, Node.values, Node.children,
          insertAt_append _ kl kr hkl, insertAt_append _ vl vr hvl']
        rw [if_pos ⟨by simp only [List.length_append]; omega,
          by simp only [List.length_append]; omega⟩]
        refine ⟨_, rfl, ?_, ?_⟩
        · refine .leaf m _ _ ?_ ?_ ?_ ?_
          · simp only [List.length_append, List.length_cons]; omega
          · intro w hw
            rcases List.mem_append.mp hw with hw | hw
            · exact hne w (by simp [hw])
            · rcases List.mem_cons.mp hw with rfl | hw
              · simp
              · exact hne w (by simp [hw])
          · simp only [List.length_append, List.length_cons] at hm ⊢; omega
          · simp only [List.length_append, List.length_cons] at hnf ⊢; omega
        · rw [inorder_leaf, inorder_leaf, zip_append' kl _ vl _ (by omega),
            zip_append' kl _ vl _ (by omega), List.zip_cons_cons]
          rw [upsert_append_lt key ref _ _ (fun e he => hplt e.1 (fst_mem_of_mem_zip he))]
          congr 1
          cases kr with
          | nil => simp [upsert]
          | cons k kr =>
            cases vr with
            | nil => simp at hvr
            | cons v vr =>
              simp only [List.zip_cons_cons, upsert]
              rw [if_pos (hr k rfl)]
              rfl
      | inner m h keys values children hvl hne hm hmx hcl hch =>
        simp only [Node.keys] at hkeys hnf hple
        subst hkeys
        obtain ⟨vl, vr, rfl, hvl'⟩ := cut_at values pos (by omega)
        have hvr : vr.length = kr.length := by
          simp only [List.length_append] at hvl; omega
        obtain ⟨cl, c, cr, rfl, hcl'⟩ := cut_at_lt children pos (by
          simp only [List.length_append] at hcl ⊢; omega)
        have hcr : cr.length = kr.length := by
          simp only [List.length_append, List.length_cons] at hcl; omega
        have hfuel : h ≤ fuel := by omega
        have hsx := hs
        rw [inorder_inner_append kl kr vl vr cl cr c (by omega) (by omega) hvr hcr] at hs
        have hsc : KeysSorted c.inorder :=
          (keysSorted_append.mp (keysSorted_append.mp hs).1).2.1
        have hcinv : Node.Inv t (t - 1) h c := hch c (by simp)
        have hcmax : c.keys.length ≤ MaxKeys t := by
          cases hcinv <;> simpa [Node.keys]
        simp only [Node.leaf, Bool.false_eq_true, if_false, Node.children,
          getElem?_cut cl cr c hcl']
        by_cases hfull : c.keys.length = MaxKeys t
        · rw [if_pos hfull]
          obtain ⟨y', z, mk, mv, hsplit, hy', hz, hyio, hy'len, hzlen, hmv⟩ :=
            SplitChild_spec t ht false kl kr vl vr cl cr c pos h hkl hvl' hcl' hcinv hfull
          rw [hsplit]
          simp only [Node.keys, getElem?_cut kl kr mk hkl]
          have hio : (Node.mk false (kl ++ mk :: kr) (vl ++ mv :: vr)
              (cl ++ y' :: z :: cr)).inorder
              = (Node.mk false (kl ++ kr) (vl ++ vr) (cl ++ c :: cr)).inorder := by
            rw [inorder_inner_append kl (mk :: kr) vl (mv :: vr) cl (z :: cr) y' (by omega)
              (by omega) (by simp [hvr]) (by simp [hcr]),
              inorder_inner_append kl kr vl vr cl cr c (by omega) (by omega) hvr hcr, hyio]
            simp [tailI, List.zip]
          have hinv' : Node.Inv t m (h + 1) (Node.mk false (kl ++ mk :: kr) (vl ++ mv :: vr)
              (cl ++ y' :: z :: cr)) := by
            refine .inner m h _ _ _ ?_ ?_ ?_ ?_ ?_ ?_
            · simp only [List.length_append, List.length_cons]; omega
            · intro w hw
              rcases List.mem_append.mp hw with hw | hw
              · exact hne w (by simp [hw])
              · rcases List.mem_cons.mp hw with rfl | hw
                · exact hmv
                · exact hne w (by simp [hw])
            · simp only [List.length_append, List.length_cons] at hm ⊢; omega
            · simp only [List.length_append, List.length_cons] at hnf ⊢; omega
            · simp only [List.length_append, List.length_cons] at hcl ⊢; omega
            · intro d hd
              rcases List.mem_append.mp hd with hd | hd
              · exact hch d (by simp [hd])
              · rcases List.mem_cons.mp hd with rfl | hd
                · exact hy'
                · rcases List.mem_cons.mp hd with rfl | hd
                  · exact hz
                  · exact hch d (by simp [hd])
          have hs' : KeysSorted (Node.mk false (kl ++ mk :: kr) (vl ++ mv :: vr)
              (cl ++ y' :: z :: cr)).inorder := by rw [hio]; exact hsx
          have hsplitS := hs'
          rw [inorder_inner_append kl (mk :: kr) vl (mv :: vr) cl (z :: cr) y' (by omega)
              (by omega) (by simp [hvr]) (by simp [hcr])] at hsplitS
          have hnf' : t - 1 < MaxKeys t := by unfold MaxKeys; omega
          by_cases hgt : mk < key
          · rw [if_pos hgt]
            have hsz : KeysSorted z.inorder := by
              have h5 := (keysSorted_append.mp hsplitS).2.1
              simp only [List.zip_cons_cons, List.map_cons, tailI] at h5
              exact (keysSorted_append.mp (keysSorted_cons.mp h5).2).1
            obtain ⟨z', hz1, hz2, hz3⟩ := ih z (t - 1) h hz (by omega) hsz hfuel
            have e : Node.mk false (kl ++ mk :: kr) (vl ++ mv :: vr) (cl ++ y' :: z :: cr)
                = Node.mk false ((kl ++ [mk]) ++ kr) ((vl ++ [mv]) ++ vr)
                    ((cl ++ [y']) ++ z :: cr) := by simp
            rw [e] at hs' hinv' hio ⊢
            obtain ⟨d1, d2⟩ := descend_spec (fun c => InsertNonFull t fuel c key ref)
              (kl ++ [mk]) kr (vl ++ [mv]) vr (cl ++ [y']) cr z z' key ref (pos + 1)
              (by simp; omega) (by simp; omega) hvr hcr (by simp; omega) hs'
              (by
                intro k hk
                rcases List.mem_append.mp hk with hk | hk
                · exact hplt k hk
                · simp only [List.mem_singleton] at hk; subst hk; exact hgt)
              hr hz1 hz3
            refine ⟨_, d1, inv_replace_child _ _ _ _ z z' hinv' hz2, ?_⟩
            rw [d2, hio]
          · rw [if_neg hgt]
            by_cases heq : key = mk
            · rw [if_pos heq]
              subst heq
              obtain ⟨x', e1, e2, e3, -⟩ := pushRef_spec t m (h + 1) _ pos key ref hinv' hs'
                (by simp only [Node.keys]; exact getElem?_cut kl kr key hkl)
              exact ⟨x', e1, e2, by rw [e3, hio]⟩
            · rw [if_neg heq]
              have hlt : key < mk := lt_of_le_of_ne (not_lt.mp hgt) heq
              have hsy : KeysSorted y'.inorder :=
                (keysSorted_append.mp (keysSorted_append.mp hsplitS).1).2.1
              obtain ⟨y'', hy1, hy2, hy3⟩ := ih y' (t - 1) h hy' (by omega) hsy hfuel
              obtain ⟨d1, d2⟩ := descend_spec (fun c => InsertNonFull t fuel c key ref)
                kl (mk :: kr) vl (mv :: vr) cl (z :: cr) y' y'' key ref pos
                (by omega) (by omega) (by simp [hvr]) (by simp [hcr]) hkl hs'
                hplt (by intro k hk; simp at hk; subst hk; exact hlt) hy1 hy3
              refine ⟨_, d1, inv_replace_child _ _ _ _ y' y'' hinv' hy2, ?_⟩
              rw [d2, hio]
        · rw [if_neg hfull]
          obtain ⟨c', hc1, hc2, hc3⟩ := ih c (t - 1) h hcinv
            (lt_of_le_of_ne hcmax hfull) hsc hfuel
          obtain ⟨d1, d2⟩ := descend_spec (fun c => InsertNonFull t fuel c key ref)
            kl kr vl vr cl cr c c' key ref pos (by omega) (by omega) hvr hcr hkl hsx
            hplt hr hc1 hc3
          exact ⟨_, d1, inv_replace_child _ _ _ _ c c'
            (.inner m h _ _ _ hvl hne hm hmx hcl hch) hc2, d2⟩

/-! ### `Insert` and sequences of inserts -/

theorem valid_new [LinearOrder K] (minDegree : Int) :
    (BTree.new minDegree : BTree K Ref).Valid := by
  refine ⟨?_, ⟨1, ?_⟩, ?_⟩
  · simp only [BTree.new]
    split_ifs with h
    · exact le_refl 2
    · omega
  · exact .leaf _ [] [] rfl (by simp) (by simp) (by simp)
  · simp [BTree.new, inorder_leaf, KeysSorted]

theorem Insert_spec [LinearOrder K] (b : BTree K Ref) (key : K) (ref : Ref)
    (hb : b.Valid) :
    ∃ b', b.Insert key ref = some b' ∧ b'.Valid ∧ b'.t_ = b.t_ ∧
      b'.root_.inorder = upsert key ref b.root_.inorder := by
  obtain ⟨t, root⟩ := b
  obtain ⟨ht, ⟨h, hinv⟩, hs⟩ := hb
  simp only at ht hinv hs
  have hmax3 : 1 < MaxKeys t := by unfold MaxKeys; omega
  simp only [BTree.Insert]
  by_cases hfull : root.keys.length = MaxKeys t
  · rw [if_pos hfull]
    have hinv' : Node.Inv t (t - 1) h root :=
      inv_mono hinv (by rw [hfull]; unfold MaxKeys; omega)
    obtain ⟨y', z, mk, mv, hsplit, hy', hz, hyio, hy'len, hzlen, hmv⟩ :=
      SplitChild_spec t ht false [] [] [] [] [] [] root 0 h rfl rfl rfl hinv' hfull
    simp only [List.nil_append] at hsplit
    rw [hsplit]
    simp only
    have hrinv : Node.Inv t (min 1 (h + 1 - 1)) (h + 1) (.mk false [mk] [mv] [y', z]) := by
      refine .inner _ h _ _ _ rfl ?_ ?_ ?_ rfl ?_
      · intro w hw
        simp only [List.mem_singleton] at hw
        subst hw; exact hmv
      · simp only [List.length_singleton]; omega
      · simp only [List.length_singleton]; omega
      · intro d hd
        simp only [List.mem_cons, List.mem_singleton, List.not_mem_nil, or_false] at hd
        rcases hd with rfl | rfl
        · exact hy'
        · exact hz
    have hrio : (Node.mk false [mk] [mv] [y', z]).inorder = root.inorder := by
      rw [hyio, inorder_inner]
      simp [interleave]
    obtain ⟨x', e1, e2, e3⟩ := InsertNonFull_spec t ht key ref
      (Node.mk false [mk] [mv] [y', z]).height _ _ _ hrinv
      (by simpa [Node.keys] using hmax3) (by rw [hrio]; exact hs)
      (by rw [height_of_inv hrinv])
    rw [e1]
    exact ⟨_, rfl, ⟨ht, ⟨h + 1, e2⟩, by rw [e3]; exact upsert_sorted _ _ _ (by
      rw [hrio]; exact hs)⟩, rfl, by rw [e3, hrio]⟩
  · rw [if_neg hfull]
    simp only
    have hle : root.keys.length ≤ MaxKeys t := by
      cases hinv <;> simpa [Node.keys]
    obtain ⟨x', e1, e2, e3⟩ := InsertNonFull_spec t ht key ref root.height _ _ _ hinv
      (lt_of_le_of_ne hle hfull) hs (by rw [height_of_inv hinv])
    rw [e1]
    exact ⟨_, rfl, ⟨ht, ⟨h, e2⟩, by rw [e3]; exact upsert_sorted _ _ _ hs⟩, rfl, e3⟩

theorem insertAll_spec [LinearOrder K] (ops : List (K × Ref)) (b : BTree K Ref)
    (hb : b.Valid) :
    ∃ b', b.insertAll ops = some b' ∧ b'.Valid ∧ b'.t_ = b.t_ ∧
      b'.root_.inorder = upsertAll b.root_.inorder ops := by
  induction ops generalizing b with
  | nil => exact ⟨b, rfl, hb, rfl, rfl⟩
  | cons op ops ih =>
    obtain ⟨k, r⟩ := op
    obtain ⟨b1, e1, hv1, ht1, hio1⟩ := Insert_spec b k r hb
    obtain ⟨b2, e2, hv2, ht2, hio2⟩ := ih b1 hv1
    refine ⟨b2, ?_, hv2, by rw [ht2, ht1], ?_⟩
    · simp only [BTree.insertAll, e1, e2]
    · rw [hio2, hio1]; rfl

/-! ### `FindPtr` and `FindEquals` -/

theorem FindPtrAt_eq [LinearOrder K] (cs : List (Node K Ref)) (i : Nat) (key : K) :
    FindPtrAt cs i key = match cs[i]? with
      | none => none
      | some c => FindPtr c key := by
  induction cs generalizing i with
  | nil => simp [FindPtrAt]
  | cons c cs ih =>
    cases i with
    | zero => simp [FindPtrAt]
    | succ i => simp [FindPtrAt, ih]

theorem inorder_at_key {t m h : Nat} {x : Node K Ref} (pos : Nat) (key : K)
    (hinv : Node.Inv t m h x) (hk : x.keys[pos]? = some key) :
    ∃ v A B, x.values[pos]? = some v ∧ x.inorder = A ++ (key, v) :: B := by
  cases hinv with
  | leaf m keys values hvl hne hm hmx =>
    simp only [Node.keys] at hk
    obtain ⟨kl, kr, rfl, hkl⟩ := cut_at_elem keys pos key hk
    have hvm : pos < values.length := by
      simp only [List.length_append, List.length_cons] at hvl; omega
    obtain ⟨vl, v, vr, rfl, hvl'⟩ := cut_at_lt values pos hvm
    refine ⟨v, kl.zip vl, kr.zip vr, ?_, ?_⟩
    · simp only [Node.values]; exact getElem?_cut vl vr v hvl'
    · rw [inorder_leaf, zip_append' kl _ vl _ (by omega), List.zip_cons_cons]
  | inner m h keys values children hvl hne hm hmx hcl hch =>
    simp only [Node.keys] at hk
    obtain ⟨kl, kr, rfl, hkl⟩ := cut_at_elem keys pos key hk
    have hvm : pos < values.length := by
      simp only [List.length_append, List.length_cons] at hvl; omega
    obtain ⟨vl, v, vr, rfl, hvl'⟩ := cut_at_lt values pos hvm
    obtain ⟨cl, cr, rfl, hcl'⟩ := cut_at children (pos + 1) (by
      simp only [List.length_append, List.length_cons] at hcl; omega)
    refine ⟨v, interleave (kl.zip vl) (cl.map Node.inorder),
      interleave (kr.zip vr) (cr.map Node.inorder), ?_, ?_⟩
    · simp only [Node.values]; exact getElem?_cut vl vr v hvl'
    · rw [inorder_inner, zip_append' kl _ vl _ (by omega), List.zip_cons_cons, List.map_append,
        interleave_split _ _ _ _ _ (by simp [hcl', hkl, hvl'])]

theorem FindPtr_spec [LinearOrder K] (t m h : Nat) (x : Node K Ref) (key : K)
    (hinv : Node.Inv t m h x) (hs : KeysSorted x.inorder) :
    FindPtr x key = some (lookupRefs key x.inorder) := by
  induction hinv with
  | leaf m keys values hvl hne hm hmx =>
    have hinv := @Node.Inv.leaf K Ref t m keys values hvl hne hm hmx
    have hks := keys_sorted_of_inv hinv hs
    simp only [Node.keys] at hks
    have hple := lbIndex_le keys key hks
    have hplt := lbIndex_lt keys key hks
    have hpge := lbIndex_ge keys key hks
    rw [FindPtr]
    generalize lbIndex keys key = pos at *
    by_cases hfound : keys[pos]? = some key
    · have hpl : pos < keys.length := (List.getElem?_eq_some.mp hfound).1
      rw [if_pos ⟨hpl, hfound⟩]
      obtain ⟨v, A, B, e1, e2⟩ := inorder_at_key pos key hinv hfound
      simp only [Node.values] at e1
      rw [e1]
      rw [e2] at hs ⊢
      rw [lookupRefs_found key v A B hs]
    · rw [if_neg (fun c => hfound c.2), if_pos rfl]
      obtain ⟨kl, kr, rfl, hkl⟩ := cut_at keys pos hple
      obtain ⟨vl, vr, rfl, hvl'⟩ := cut_at values pos (by omega)
      rw [take_cut kl kr hkl] at hplt
      rw [drop_cut kl kr hkl] at hpge
      have hr : ∀ k, kr.head? = some k → key < k := by
        intro k hk
        have h1 : key ≤ k := hpge k (List.mem_of_mem_head? hk)
        refine lt_of_le_of_ne h1 ?_
        intro e
        apply hfound
        rw [getElem?_append_at kl kr hkl, hk, e]
      rw [inorder_leaf, zip_append' kl kr vl vr (by omega)] at hs ⊢
      have e : kl.zip vl ++ kr.zip vr = kl.zip vl ++ [] ++ kr.zip vr := by simp
      rw [e] at hs ⊢
      rw [lookupRefs_middle key _ _ _ hs
        (fun e he => hplt e.1 (fst_mem_of_mem_zip he)) (by
          intro e he
          exact hr e.1 (by
            cases kr with
            | nil => simp at he
            | cons k kr =>
              cases vr with
              | nil => simp at he
              | cons v vr =>
                simp only [List.zip_cons_cons, List.head?_cons, Option.some.injEq] at he
                subst he; rfl))]
      rfl
  | inner m h keys values children hvl hne hm hmx hcl hch ih =>
    have hinv := @Node.Inv.inner K Ref t m h keys values children hvl hne hm hmx hcl hch
    have hks := keys_sorted_of_inv hinv hs
    simp only [Node.keys] at hks
    have hple := lbIndex_le keys key hks
    have hplt := lbIndex_lt keys key hks
    have hpge := lbIndex_ge keys key hks
    rw [FindPtr, FindPtrAt_eq]
    generalize lbIndex keys key = pos at *
    by_cases hfound : keys[pos]? = some key
    · have hpl : pos < keys.length := (List.getElem?_eq_some.mp hfound).1
      rw [if_pos ⟨hpl, hfound⟩]
      obtain ⟨v, A, B, e1, e2⟩ := inorder_at_key pos key hinv hfound
      simp only [Node.values] at e1
      rw [e1]
      rw [e2] at hs ⊢
      rw [lookupRefs_found key v A B hs]
    · rw [if_neg (fun c => hfound c.2), if_neg (by simp)]
      obtain ⟨kl, kr, rfl, hkl⟩ := cut_at keys pos hple
      obtain ⟨vl, vr, rfl, hvl'⟩ := cut_at values pos (by omega)
      rw [take_cut kl kr hkl] at hplt
      rw [drop_cut kl kr hkl] at hpge
      have hr : ∀ k, kr.head? = some k → key < k := by
        intro k hk
        have h1 : key ≤ k := hpge k (List.mem_of_mem_head? hk)
        refine lt_of_le_of_ne h1 ?_
        intro e
        apply hfound
        rw [getElem?_append_at kl kr hkl, hk, e]
      have hvr : vr.length = kr.length := by
        simp only [List.length_append] at hvl; omega
      obtain ⟨cl, c, cr, rfl, hcl'⟩ := cut_at_lt children pos (by
        simp only [List.length_append] at hcl ⊢; omega)
      have hcr : cr.length = kr.length := by
        simp only [List.length_append, List.length_cons] at hcl; omega
      rw [inorder_inner_append kl kr vl vr cl cr c (by omega) (by omega) hvr hcr] at hs ⊢
      have hsc : KeysSorted c.inorder :=
        (keysSorted_append.mp (keysSorted_append.mp hs).1).2.1
      have hH : ∀ a ∈ headI (kl.zip vl) (cl.map Node.inorder), a.1 < key := by
        apply headI_lt key _ _ (by simp; omega)
        · exact (keysSorted_append.mp (keysSorted_append.mp hs).1).1
        · intro e he
          exact hplt e.1 (fst_mem_of_mem_zip he)
      rw [getElem?_cut cl cr c hcl']
      simp only
      rw [ih c (by simp) hsc, lookupRefs_middle key _ _ _ hs hH (by
        intro e he
        have := tailI_head _ _ _ he
        exact hr e.1 (by
          cases kr with
          | nil => simp at this
          | cons k kr =>
            cases vr with
            | nil => simp at this
            | cons v vr =>
              simp only [List.zip_cons_cons, List.head?_cons, Option.some.injEq] at this
              subst this; rfl))]

theorem FindEquals_spec [LinearOrder K] (b : BTree K Ref) (key : K) (hb : b.Valid) :
    b.FindEquals key = some ((lookupRefs key b.root_.inorder).getD []) := by
  obtain ⟨ht, ⟨h, hinv⟩, hs⟩ := hb
  simp only [BTree.FindEquals, FindPtr_spec b.t_ _ h b.root_ key hinv hs]
  cases lookupRefs key b.root_.inorder <;> rfl

/-! ### Entries after a sequence of inserts -/

theorem upsertAll_sorted [LinearOrder K] (ops : List (K × Ref)) (l : List (K × List Ref))
    (h : KeysSorted l) : KeysSorted (upsertAll l ops) := by
  induction ops generalizing l with
  | nil => exact h
  | cons op ops ih => exact ih _ (upsert_sorted _ _ _ h)

theorem lookupRefs_upsertAll [LinearOrder K] (ops : List (K × Ref))
    (l : List (K × List Ref)) (h : KeysSorted l) (k : K) :
    (lookupRefs k (upsertAll l ops)).getD [] = (lookupRefs k l).getD [] ++ refsOf ops k := by
  induction ops generalizing l with
  | nil => simp [upsertAll, refsOf]
  | cons op ops ih =>
    obtain ⟨k', r⟩ := op
    have e : upsertAll l ((k', r) :: ops) = upsertAll (upsert k' r l) ops := rfl
    rw [e, ih _ (upsert_sorted _ _ _ h), lookupRefs_upsert k' k r l h]
    by_cases hk : k' = k
    · subst hk
      simp [refsOf, List.filterMap_cons]
    · simp [refsOf, List.filterMap_cons, hk]

theorem mem_keys_upsertAll [LinearOrder K] (ops : List (K × Ref)) (l : List (K × List Ref))
    (k : K) :
    k ∈ (upsertAll l ops).map Prod.fst ↔ k ∈ l.map Prod.fst ∨ k ∈ ops.map Prod.fst := by
  induction ops generalizing l with
  | nil => simp [upsertAll]
  | cons op ops ih =>
    obtain ⟨k', r⟩ := op
    have e : upsertAll l ((k', r) :: ops) = upsertAll (upsert k' r l) ops := rfl
    rw [e, ih, mem_upsert_keys]
    simp only [List.map_cons, List.mem_cons]
    tauto

theorem length_upsertAll_le [LinearOrder K] (ops : List (K × Ref)) (l : List (K × List Ref)) :
    (upsertAll l ops).length ≤ l.length + ops.length := by
  induction ops generalizing l with
  | nil => simp [upsertAll]
  | cons op ops ih =>
    obtain ⟨k', r⟩ := op
    have e : upsertAll l ((k', r) :: ops) = upsertAll (upsert k' r l) ops := rfl
    rw [e]
    have := ih (upsert k' r l)
    have := length_upsert_le k' r l
    simp only [List.length_cons]
    omega

/-- C1. For every minimum degree, every finite sequence of `Insert(key, ref)` calls on an
empty tree succeeds (no access out of range), and afterwards `FindEquals(k)` returns, for
every key `k`, exactly the refs inserted under `k` in the order of their insertion (the
empty list when `k` was never inserted). -/
theorem btree_findEquals_after_inserts [LinearOrder K] (minDegree : Int)
    (ops : List (K × Ref)) (k : K) :
    ∃ b, (BTree.new minDegree : BTree K Ref).insertAll ops = some b ∧
      b.FindEquals k = some (refsOf ops k) := by
  obtain ⟨b, e1, hv, -, hio⟩ := insertAll_spec ops (BTree.new minDegree) (valid_new minDegree)
  refine ⟨b, e1, ?_⟩
  rw [FindEquals_spec b k hv, hio, lookupRefs_upsertAll ops _ ?_ k]
  · simp [BTree.new, inorder_leaf, lookupRefs]
  · simp [BTree.new, inorder_leaf, KeysSorted]

/-! ### `RangeCollect` and `FindRange` -/

theorem sublist_interleave_child {α : Type} (es : List α) (cs : List (List α)) (c : List α)
    (h : cs.length = es.length + 1) (hc : c ∈ cs) : List.Sublist c (interleave es cs) := by
  induction es generalizing cs with
  | nil =>
    match cs, h with
    | [c'], _ =>
      simp only [List.mem_singleton] at hc
      subst hc
      simp [interleave]
  | cons e es ih =>
    match cs, h with
    | c' :: cs, h =>
      simp only [List.length_cons, Nat.add_right_cancel_iff] at h
      simp only [interleave]
      rcases List.mem_cons.mp hc with rfl | hc
      · exact List.sublist_append_left _ _
      · exact List.Sublist.trans ((ih cs h hc).cons e) (List.sublist_append_right _ _)

theorem keysSorted_child [LinearOrder K] (es : List (K × List Ref))
    (cs : List (Node K Ref)) (c : Node K Ref) (h : cs.length = es.length + 1) (hc : c ∈ cs)
    (hs : KeysSorted (interleave es (cs.map Node.inorder))) : KeysSorted c.inorder :=
  List.Pairwise.sublist
    ((sublist_interleave_child es (cs.map Node.inorder) c.inorder (by simp [h])
      (List.mem_map_of_mem _ hc)).map Prod.fst) hs

theorem rangeLoop_leaf [LinearOrder K] (rec : Node K Ref → List Ref → Option (List Ref))
    (lo hi : K) (ks : List K) (vs : List (List Ref)) (cs : List (Node K Ref))
    (out : List Ref) (hv : vs.length = ks.length) (hs : KeysSorted (ks.zip vs)) :
    rangeLoop rec true lo hi ks vs cs out = some (out ++ rangeRefs lo hi (ks.zip vs)) := by
  induction ks generalizing vs cs out with
  | nil => simp [rangeLoop, rangeRefs]
  | cons k ks ih =>
    cases vs with
    | nil => simp at hv
    | cons v vs =>
      simp only [List.length_cons, Nat.add_right_cancel_iff] at hv
      rw [List.zip_cons_cons] at hs ⊢
      have hc := keysSorted_cons.mp hs
      simp only [rangeLoop, if_true, List.tail_cons, rangeRefs, ge_iff_le, gt_iff_lt]
      by_cases hin : lo ≤ k ∧ k ≤ hi
      · rw [if_pos hin, if_pos hin]
        simp only
        rw [if_neg (not_lt.mpr hin.2), ih vs cs.tail _ hv hc.2, List.append_assoc]
      · rw [if_neg hin, if_neg hin]
        simp only
        by_cases hgt : hi < k
        · rw [if_pos hgt, rangeRefs_eq_nil lo hi _ (fun a ha => lt_trans hgt (hc.1 a ha))]
          simp
        · rw [if_neg hgt, ih vs cs.tail _ hv hc.2]

theorem rangeLoop_inner [LinearOrder K] (rec : Node K Ref → List Ref → Option (List Ref))
    (lo hi : K) (ks : List K) (vs : List (List Ref)) (cs : List (Node K Ref))
    (out : List Ref) (hv : vs.length = ks.length) (hcl : cs.length = ks.length + 1)
    (hrec : ∀ c ∈ cs, ∀ o, rec c o = some (o ++ rangeRefs lo hi c.inorder))
    (hs : KeysSorted (interleave (ks.zip vs) (cs.map Node.inorder))) :
    rangeLoop rec false lo hi ks vs cs out
      = some (out ++ rangeRefs lo hi (interleave (ks.zip vs) (cs.map Node.inorder))) := by
  induction ks generalizing vs cs out with
  | nil =>
    match cs, hcl with
    | [c], _ =>
      simp only [rangeLoop, Bool.false_eq_true, if_false, List.zip_nil_left, List.map_cons,
        List.map_nil, interleave]
      exact hrec c (List.mem_cons_self _ _) out
  | cons k ks ih =>
    cases vs with
    | nil => simp at hv
    | cons v vs =>
      match cs, hcl with
      | c :: cs, hcl =>
        simp only [List.length_cons, Nat.add_right_cancel_iff] at hv hcl
        rw [List.zip_cons_cons, List.map_cons] at hs ⊢
        simp only [interleave] at hs ⊢
        have h1 := keysSorted_append.mp hs
        have hc := keysSorted_cons.mp h1.2.1
        simp only [rangeLoop, Bool.false_eq_true, if_false, List.tail_cons,
          hrec c (List.mem_cons_self _ _) out, ge_iff_le, gt_iff_lt]
        rw [rangeRefs_append, rangeRefs]
        have hrec' : ∀ c ∈ cs, ∀ o, rec c o = some (o ++ rangeRefs lo hi c.inorder) :=
          fun c' hc' => hrec c' (List.mem_cons_of_mem _ hc')
        by_cases hin : lo ≤ k ∧ k ≤ hi
        · rw [if_pos hin, if_pos hin]
          simp only
          rw [if_neg (not_lt.mpr hin.2), ih vs cs _ hv hcl hrec' hc.2]
          simp [List.append_assoc]
        · rw [if_neg hin, if_neg hin]
          simp only
          by_cases hgt : hi < k
          · rw [if_pos hgt, rangeRefs_eq_nil lo hi _ (fun a ha => lt_trans hgt (hc.1 a ha))]
            simp
          · rw [if_neg hgt, ih vs cs _ hv hcl hrec' hc.2]
            simp [List.append_assoc]

theorem RangeCollect_spec [LinearOrder K] (t m h : Nat) (x : Node K Ref) (lo hi : K)
    (hinv : Node.Inv t m h x) (hs : KeysSorted x.inorder) (fuel : Nat) (hf : h ≤ fuel)
    (out : List Ref) :
    RangeCollect fuel x lo hi out = some (out ++ rangeRefs lo hi x.inorder) := by
  induction hinv generalizing fuel out with
  | leaf m keys values hvl hne hm hmx =>
    cases fuel with
    | zero => omega
    | succ fuel =>
      rw [RangeCollect]
      rw [inorder_leaf] at hs ⊢
      exact rangeLoop_leaf _ lo hi keys values [] out hvl hs
  | inner m h keys values children hvl hne hm hmx hcl hch ih =>
    cases fuel with
    | zero => omega
    | succ fuel =>
      rw [RangeCollect]
      rw [inorder_inner] at hs ⊢
      refine rangeLoop_inner _ lo hi keys values children out hvl hcl ?_ hs
      intro c hc o
      exact ih c hc (keysSorted_child _ _ c (by simp [hcl, hvl]) hc hs) fuel (by omega) o

theorem FindRange_spec [LinearOrder K] (b : BTree K Ref) (lo hi : K) (hb : b.Valid) :
    b.FindRange lo hi = some (rangeRefs lo hi b.root_.inorder) := by
  obtain ⟨ht, ⟨h, hinv⟩, hs⟩ := hb
  have := RangeCollect_spec b.t_ _ h b.root_ lo hi hinv hs b.root_.height
    (by rw [height_of_inv hinv]) []
  simpa [BTree.FindRange] using this

theorem keysInRange_sorted [LinearOrder K] (ops : List (K × Ref)) (lo hi : K) :
    (keysInRange ops lo hi).Pairwise (· < ·) :=
  Finset.sort_sorted_lt _

theorem mem_keysInRange [LinearOrder K] (ops : List (K × Ref)) (lo hi k : K) :
    k ∈ keysInRange ops lo hi ↔ (∃ r, (k, r) ∈ ops) ∧ lo ≤ k ∧ k ≤ hi := by
  simp [keysInRange]

theorem lookupRefs_of_mem [LinearOrder K] (L : List (K × List Ref)) (hs : KeysSorted L)
    (k : K) (v : List Ref) (h : (k, v) ∈ L) : lookupRefs k L = some v := by
  obtain ⟨A, B, rfl⟩ := List.append_of_mem h
  exact lookupRefs_found k v A B hs

theorem rangeRefs_eq_flatMap [LinearOrder K] (lo hi : K) (f : K → List Ref)
    (L : List (K × List Ref)) (hf : ∀ e ∈ L, e.2 = f e.1) :
    rangeRefs lo hi L
      = ((L.map Prod.fst).filter (fun k => decide (lo ≤ k ∧ k ≤ hi))).flatMap f := by
  induction L with
  | nil => simp [rangeRefs]
  | cons e L ih =>
    obtain ⟨k, v⟩ := e
    have hv : v = f k := hf (k, v) (List.mem_cons_self _ _)
    have ih' := ih (fun e he => hf e (List.mem_cons_of_mem _ he))
    simp only [rangeRefs, List.map_cons, List.filter_cons]
    by_cases hin : lo ≤ k ∧ k ≤ hi
    · simp only [hin, and_self, if_true, decide_True, List.flatMap_cons, ih', hv]
    · simp only [hin, if_false, decide_False, ih']
      simp

theorem keys_filter_eq_keysInRange [LinearOrder K] (ops : List (K × Ref)) (lo hi : K) :
    ((upsertAll [] ops).map Prod.fst).filter (fun k => decide (lo ≤ k ∧ k ≤ hi))
      = keysInRange ops lo hi := by
  have hs : KeysSorted (upsertAll ([] : List (K × List Ref)) ops) :=
    upsertAll_sorted ops [] keysSorted_nil
  have hsf : (((upsertAll [] ops).map Prod.fst).filter
      (fun k => decide (lo ≤ k ∧ k ≤ hi))).Pairwise (· < ·) :=
    List.Pairwise.sublist (List.filter_sublist _) hs
  have hnd := hsf.imp (fun h => ne_of_lt h)
  have hle : List.Sorted (· ≤ ·) (((upsertAll [] ops).map Prod.fst).filter
      (fun k => decide (lo ≤ k ∧ k ≤ hi))) := hsf.imp (fun h => le_of_lt h)
  rw [keysInRange, ← (List.toFinset_sort (· ≤ ·) hnd).mpr hle]
  congr 1
  ext k
  simp only [List.mem_toFinset, List.mem_filter, decide_eq_true_eq, Finset.mem_filter,
    mem_keys_upsertAll ops [] k]
  simp

/-- C2. For every sequence of `Insert` calls on an empty tree (in any order) and every
`lo`, `hi`, `FindRange(lo, hi)` returns the concatenation, in strictly ascending key
order, of the ref-lists of exactly the inserted keys `k` with `lo ≤ k ≤ hi`, the refs
of each key in insertion order (the early return on a key above `hi` loses nothing). -/
theorem btree_findRange_after_inserts [LinearOrder K] (minDegree : Int)
    (ops : List (K × Ref)) (lo hi : K) :
    ∃ b, (BTree.new minDegree : BTree K Ref).insertAll ops = some b ∧
      b.FindRange lo hi = some ((keysInRange ops lo hi).flatMap (refsOf ops)) ∧
      (keysInRange ops lo hi).Pairwise (· < ·) ∧
      ∀ k, k ∈ keysInRange ops lo hi ↔ (∃ r, (k, r) ∈ ops) ∧ lo ≤ k ∧ k ≤ hi := by
  obtain ⟨b, e1, hv, -, hio⟩ := insertAll_spec ops (BTree.new minDegree) (valid_new minDegree)
  have hio' : b.root_.inorder = upsertAll [] ops := by
    rw [hio]; simp [BTree.new, inorder_leaf]
  refine ⟨b, e1, ?_, keysInRange_sorted ops lo hi, mem_keysInRange ops lo hi⟩
  have hs : KeysSorted (upsertAll ([] : List (K × List Ref)) ops) :=
    upsertAll_sorted ops [] keysSorted_nil
  rw [FindRange_spec b lo hi hv, hio', rangeRefs_eq_flatMap lo hi (refsOf ops),
    keys_filter_eq_keysInRange]
  intro e he
  have h1 := lookupRefs_of_mem _ hs e.1 e.2 he
  have h2 := lookupRefs_upsertAll ops [] keysSorted_nil e.1
  rw [h1] at h2
  simpa [lookupRefs] using h2

/-! ### Height -/

theorem sum_lower {α : Type} (f : α → Nat) (P : Nat) (cs : List α)
    (h : ∀ c ∈ cs, P ≤ f c + 1) : cs.length * P ≤ (cs.map f).sum + cs.length := by
  induction cs with
  | nil => simp
  | cons c cs ih =>
    have h1 := h c (List.mem_cons_self _ _)
    have h2 := ih (fun c hc => h c (List.mem_cons_of_mem _ hc))
    simp only [List.length_cons, List.map_cons, List.sum_cons, Nat.add_mul, Nat.one_mul]
    omega

theorem length_inorder_inner (keys : List K) (values : List (List Ref))
    (children : List (Node K Ref)) (hv : values.length = keys.length)
    (hc : children.length = keys.length + 1) :
    (Node.mk false keys values children).inorder.length + 1
      = (children.map (fun c => c.inorder.length)).sum + children.length := by
  rw [inorder_inner, length_interleave _ _ (by simp [hv, hc])]
  simp only [List.length_zip, hv, min_self, List.map_map, hc]
  have : (List.length ∘ Node.inorder) = fun c : Node K Ref => c.inorder.length := rfl
  rw [this]
  omega

theorem inv_min_keys {t m h : Nat} {x : Node K Ref} (hinv : Node.Inv t m h x) :
    m ≤ x.keys.length := by
  cases hinv <;> simpa [Node.keys]

theorem inv_height_pos {t m h : Nat} {x : Node K Ref} (hinv : Node.Inv t m h x) :
    1 ≤ h := by
  cases hinv <;> omega

theorem size_lower {t m h : Nat} {x : Node K Ref} (ht : 2 ≤ t)
    (hinv : Node.Inv t m h x) (hm : t - 1 ≤ x.keys.length) : t ^ h ≤ x.inorder.length + 1 := by
  induction hinv with
  | leaf m keys values hvl hne _ hmx =>
    simp only [Node.keys] at hm
    simp only [inorder_leaf, List.length_zip, hvl, min_self, pow_one]
    omega
  | inner m h keys values children hvl hne _ hmx hcl hch ih =>
    simp only [Node.keys] at hm
    rw [length_inorder_inner keys values children hvl hcl]
    have h1 := sum_lower (fun c : Node K Ref => c.inorder.length) (t ^ h) children
      (fun c hc => ih c hc (inv_min_keys (hch c hc)))
    have h2 : t * t ^ h ≤ children.length * t ^ h :=
      Nat.mul_le_mul_right _ (by omega)
    rw [pow_succ, Nat.mul_comm]
    omega

theorem root_size_lower {t h : Nat} {x : Node K Ref} (ht : 2 ≤ t)
    (hinv : Node.Inv t (min 1 (h - 1)) h x) (hne : 1 ≤ x.inorder.length) :
    2 * t ^ (h - 1) ≤ x.inorder.length + 1 := by
  cases hinv with
  | leaf m keys values hvl hne' hm hmx =>
    simp only [Nat.sub_self, pow_zero]
    omega
  | inner m h keys values children hvl hne' hm hmx hcl hch =>
    rw [length_inorder_inner keys values children hvl hcl]
    have h1 := sum_lower (fun c : Node K Ref => c.inorder.length) (t ^ h) children
      (fun c hc => size_lower ht (hch c hc) (inv_min_keys (hch c hc)))
    have hh : 1 ≤ h := by
      have hc0 : children ≠ [] := by intro e; rw [e] at hcl; simp at hcl
      obtain ⟨c, hc⟩ := List.exists_mem_of_ne_nil _ hc0
      exact inv_height_pos (hch c hc)
    have hk : 1 ≤ keys.length := by
      have : min 1 (h + 1 - 1) = 1 := by simp; omega
      omega
    have h2 : 2 * t ^ h ≤ children.length * t ^ h :=
      Nat.mul_le_mul_right _ (by omega)
    simp only [Nat.add_sub_cancel]
    omega

theorem length_upsert_pos [LinearOrder K] (k : K) (r : Ref) (L : List (K × List Ref)) :
    1 ≤ (upsert k r L).length := by
  cases L with
  | nil => simp [upsert]
  | cons a L =>
    obtain ⟨ka, va⟩ := a
    simp only [upsert]
    split_ifs <;> simp

theorem length_upsert_ge [LinearOrder K] (k : K) (r : Ref) (L : List (K × List Ref)) :
    L.length ≤ (upsert k r L).length := by
  induction L with
  | nil => simp [upsert]
  | cons a L ih =>
    obtain ⟨ka, va⟩ := a
    simp only [upsert]
    split_ifs
    · simp
    · simp
    · simpa using ih

theorem length_upsertAll_ge [LinearOrder K] (ops : List (K × Ref))
    (l : List (K × List Ref)) : l.length ≤ (upsertAll l ops).length := by
  induction ops generalizing l with
  | nil => simp [upsertAll]
  | cons op ops ih =>
    have e : upsertAll l (op :: ops) = upsertAll (upsert op.1 op.2 l) ops := rfl
    rw [e]
    exact le_trans (length_upsert_ge _ _ _) (ih _)

theorem height_log_bound (t h n : Nat) (ht : 2 ≤ t) (hh : 1 ≤ h)
    (hb : 2 * t ^ (h - 1) ≤ n + 1) :
    (h : ℝ) ≤ ⌈Real.logb (t : ℝ) (((n : ℝ) + 1) / 2)⌉₊ + 1 := by
  have ht' : (1 : ℝ) < (t : ℝ) := by exact_mod_cast (by omega : 1 < t)
  have hpos : (0 : ℝ) < ((n : ℝ) + 1) / 2 := by positivity
  have hb' : (t : ℝ) ^ ((h - 1 : ℕ) : ℝ) ≤ ((n : ℝ) + 1) / 2 := by
    rw [Real.rpow_natCast, le_div_iff₀ (by norm_num : (0 : ℝ) < 2)]
    have : ((2 * t ^ (h - 1) : ℕ) : ℝ) ≤ ((n + 1 : ℕ) : ℝ) := by exact_mod_cast hb
    push_cast at this
    linarith
  have h1 : (((h - 1 : ℕ) : ℝ)) ≤ Real.logb (t : ℝ) (((n : ℝ) + 1) / 2) :=
    (Real.le_logb_iff_rpow_le ht' hpos).mpr hb'
  have h2 := Nat.le_ceil (Real.logb (t : ℝ) (((n : ℝ) + 1) / 2))
  have h3 : (h : ℝ) = ((h - 1 : ℕ) : ℝ) + 1 := by
    have : h = (h - 1) + 1 := by omega
    exact_mod_cast this
  linarith

/-- C3. For every minimum degree (the branching factor `t` is the degree clamped to at
least 2) and every sequence of `n ≥ 1` insertions into an empty tree, the inserts succeed
and the height `H` of the tree (node levels on the longest root-to-leaf path) satisfies
`2 * t^(H-1) ≤ n + 1`, hence `H ≤ ⌈log_t((n+1)/2)⌉ + 1`. -/
theorem btree_height_bound [LinearOrder K] (minDegree : Int) (ops : List (K × Ref))
    (hn : 1 ≤ ops.length) :
    ∃ b, (BTree.new minDegree : BTree K Ref).insertAll ops = some b ∧
      b.t_ = (if minDegree < 2 then 2 else minDegree.toNat) ∧ 2 ≤ b.t_ ∧
      2 * b.t_ ^ (b.root_.height - 1) ≤ ops.length + 1 ∧
      (b.root_.height : ℝ) ≤ ⌈Real.logb (b.t_ : ℝ) (((ops.length : ℝ) + 1) / 2)⌉₊ + 1 := by
  obtain ⟨b, e1, hv, ht, hio⟩ := insertAll_spec ops (BTree.new minDegree) (valid_new minDegree)
  have hio' : b.root_.inorder = upsertAll [] ops := by
    rw [hio]; simp [BTree.new, inorder_leaf]
  obtain ⟨ht2, ⟨h, hinv⟩, hs⟩ := hv
  have hlen : b.root_.inorder.length ≤ ops.length := by
    rw [hio']; simpa using length_upsertAll_le ops ([] : List (K × List Ref))
  have hpos : 1 ≤ b.root_.inorder.length := by
    rw [hio']
    cases ops with
    | nil => simp at hn
    | cons op ops =>
      have e : upsertAll ([] : List (K × List Ref)) (op :: ops)
          = upsertAll (upsert op.1 op.2 []) ops := rfl
      rw [e]
      exact le_trans (length_upsert_pos _ _ _) (length_upsertAll_ge _ _)
  have hbound : 2 * b.t_ ^ (b.root_.height - 1) ≤ ops.length + 1 := by
    rw [height_of_inv hinv]
    have := root_size_lower ht2 hinv hpos
    omega
  have hh : 1 ≤ b.root_.height := by
    rw [height_of_inv hinv]; exact inv_height_pos hinv
  exact ⟨b, e1, ht, ht2, hbound, height_log_bound _ _ _ ht2 hh hbound⟩

/-- C3, instance: three insertions into a tree of minimum degree 2. -/
theorem btree_height_bound_witness :
    1 ≤ [((1 : Nat), (10 : Nat)), (2, 20), (3, 30)].length ∧
    ∃ b, (BTree.new 2 : BTree Nat Nat).insertAll [(1, 10), (2, 20), (3, 30)] = some b ∧
      b.t_ = (if (2 : Int) < 2 then 2 else (2 : Int).toNat) ∧ 2 ≤ b.t_ ∧
      2 * b.t_ ^ (b.root_.height - 1) ≤ [((1 : Nat), (10 : Nat)), (2, 20), (3, 30)].length + 1 ∧
      (b.root_.height : ℝ) ≤ ⌈Real.logb (b.t_ : ℝ)
        ((([((1 : Nat), (10 : Nat)), (2, 20), (3, 30)].length : ℝ) + 1) / 2)⌉₊ + 1 :=
  ⟨by decide, btree_height_bound 2 [(1, 10), (2, 20), (3, 30)] (by decide)⟩

end BTreeTheory

section HashTableTheory

variable {K V : Type}

/-! ### Buckets -/

theorem length_updateBucket {α : Type} (f : α → α) (i : Nat) (bs : List α) :
    (updateBucket f i bs).length = bs.length := by
  induction bs generalizing i with
  | nil => simp [updateBucket]
  | cons b bs ih =>
    cases i with
    | zero => simp [updateBucket]
    | succ i => simp [updateBucket, ih]

theorem getElem?_updateBucket {α : Type} (f : α → α) (i j : Nat) (bs : List α) :
    (updateBucket f i bs)[j]? = if j = i then bs[j]?.map f else bs[j]? := by
  induction bs generalizing i j with
  | nil => simp [updateBucket]
  | cons b bs ih =>
    cases i with
    | zero =>
      cases j with
      | zero => simp [updateBucket]
      | succ j => simp [updateBucket]
    | succ i =>
      cases j with
      | zero => simp [updateBucket]
      | succ j => simp [updateBucket, ih]

theorem mem_updateBucket {α : Type} (f : α → α) (i : Nat) (bs : List α) (b : α)
    (h : b ∈ updateBucket f i bs) :
    b ∈ bs ∨ ∃ b₀, bs[i]? = some b₀ ∧ b = f b₀ := by
  obtain ⟨j, hj⟩ := List.mem_iff_getElem?.mp h
  rw [getElem?_updateBucket] at hj
  split_ifs at hj with hji
  · subst hji
    cases hb : bs[j]? with
    | none => rw [hb] at hj; simp at hj
    | some b₀ =>
      rw [hb] at hj
      simp only [Option.map_some', Option.some.injEq] at hj
      exact Or.inr ⟨b₀, rfl, hj.symm⟩
  · exact Or.inl (List.mem_iff_getElem?.mpr ⟨j, hj⟩)

theorem sum_length_updateBucket {α : Type} (f : List α → List α) (i : Nat)
    (bs : List (List α)) (d : Nat) (hi : i < bs.length)
    (hf : ∀ b, bs[i]? = some b → (f b).length = b.length + d) :
    ((updateBucket f i bs).map List.length).sum = (bs.map List.length).sum + d := by
  induction bs generalizing i with
  | nil => simp at hi
  | cons b bs ih =>
    cases i with
    | zero =>
      simp only [updateBucket, List.map_cons, List.sum_cons]
      rw [hf b (by simp)]
      omega
    | succ i =>
      simp only [updateBucket, List.map_cons, List.sum_cons]
      rw [ih i (by simpa using hi) (fun b' hb' => hf b' (by simpa using hb'))]
      omega

theorem sum_length_updateBucket_pred {α : Type} (f : List α → List α) (i : Nat)
    (bs : List (List α)) (hi : i < bs.length)
    (hf : ∀ b, bs[i]? = some b → (f b).length + 1 = b.length) :
    ((updateBucket f i bs).map List.length).sum + 1 = (bs.map List.length).sum := by
  induction bs generalizing i with
  | nil => simp at hi
  | cons b bs ih =>
    cases i with
    | zero =>
      simp only [updateBucket, List.map_cons, List.sum_cons]
      have := hf b (by simp)
      omega
    | succ i =>
      simp only [updateBucket, List.map_cons, List.sum_cons]
      have := ih i (by simpa using hi) (fun b' hb' => hf b' (by simpa using hb'))
      omega

theorem mem_flatten_updateBucket {α : Type} (f : List α → List α) (i : Nat)
    (bs : List (List α)) (b₀ : List α) (hb : bs[i]? = some b₀) (x : α) :
    x ∈ (updateBucket f i bs).flatten ↔
      x ∈ f b₀ ∨ ∃ (j : Nat) (b : List α), j ≠ i ∧ bs[j]? = some b ∧ x ∈ b := by
  simp only [List.mem_flatten]
  constructor
  · rintro ⟨b, hbm, hx⟩
    obtain ⟨j, hj⟩ := List.mem_iff_getElem?.mp hbm
    rw [getElem?_updateBucket] at hj
    split_ifs at hj with hji
    · subst hji
      rw [hb] at hj
      simp only [Option.map_some', Option.some.injEq] at hj
      subst hj
      exact Or.inl hx
    · exact Or.inr ⟨j, b, hji, hj, hx⟩
  · rintro (hx | ⟨j, b, hji, hj, hx⟩)
    · refine ⟨f b₀, List.mem_iff_getElem?.mpr ⟨i, ?_⟩, hx⟩
      rw [getElem?_updateBucket, if_pos rfl, hb]; rfl
    · refine ⟨b, List.mem_iff_getElem?.mpr ⟨j, ?_⟩, hx⟩
      rw [getElem?_updateBucket, if_neg hji, hj]

theorem mem_flatten_iff_getElem? {α : Type} (bs : List (List α)) (x : α) :
    x ∈ bs.flatten ↔ ∃ (j : Nat) (b : List α), bs[j]? = some b ∧ x ∈ b := by
  simp only [List.mem_flatten]
  constructor
  · rintro ⟨b, hb, hx⟩
    obtain ⟨j, hj⟩ := List.mem_iff_getElem?.mp hb
    exact ⟨j, b, hj, hx⟩
  · rintro ⟨j, b, hj, hx⟩
    exact ⟨b, List.mem_iff_getElem?.mpr ⟨j, hj⟩, hx⟩

/-! ### Search in a bucket -/

theorem findValue_some_mem [DecidableEq K] (key : K) (b : List (KeyValue K V)) (v : V)
    (h : findValue key b = some v) : (⟨key, v⟩ : KeyValue K V) ∈ b := by
  induction b with
  | nil => simp [findValue] at h
  | cons kv rest ih =>
    simp only [findValue] at h
    split_ifs at h with hk
    · simp only [Option.some.injEq] at h
      obtain ⟨k', v'⟩ := kv
      simp only at hk h
      subst hk; subst h
      exact List.mem_cons_self _ _
    · exact List.mem_cons_of_mem _ (ih h)

theorem findValue_eq_none [DecidableEq K] (key : K) (b : List (KeyValue K V)) :
    findValue key b = none ↔ key ∉ b.map KeyValue.key := by
  induction b with
  | nil => simp [findValue]
  | cons kv rest ih =>
    simp only [findValue, List.map_cons, List.mem_cons, not_or]
    split_ifs with hk
    · simp [hk]
    · rw [ih]
      constructor
      · intro h; exact ⟨fun e => hk e.symm, h⟩
      · intro h; exact h.2

theorem findValue_of_mem [DecidableEq K] (key : K) (b : List (KeyValue K V)) (v : V)
    (hnd : (b.map KeyValue.key).Nodup) (h : (⟨key, v⟩ : KeyValue K V) ∈ b) :
    findValue key b = some v := by
  induction b with
  | nil => simp at h
  | cons kv rest ih =>
    simp only [List.map_cons, List.nodup_cons] at hnd
    simp only [findValue]
    rcases List.mem_cons.mp h with e | h'
    · subst e; simp
    · have : kv.key ≠ key := by
        intro e
        apply hnd.1
        rw [e]
        exact List.mem_map.mpr ⟨_, h', rfl⟩
      rw [if_neg this]
      exact ih hnd.2 h'

/-! ### `Get` and the stored entries -/

theorem bucketIndex_lt (hash : K → Nat) (key : K) (n : Nat) (hn : 1 ≤ n) :
    bucketIndex hash key n < n :=
  Nat.mod_lt _ hn

theorem Get_iff [DecidableEq K] (hash : K → Nat) (h : HashTable K V) (hinv : h.Inv hash)
    (k : K) (v : V) :
    h.Get hash k = some v ↔ (⟨k, v⟩ : KeyValue K V) ∈ h.buckets_.flatten := by
  obtain ⟨hlen, hidx, hnd, hcount⟩ := hinv
  have hlt := bucketIndex_lt hash k h.buckets_.length hlen
  simp only [HashTable.Get, HashTable.GetPtr]
  rw [if_neg (by omega), List.getElem?_eq_getElem hlt]
  simp only
  constructor
  · intro hf
    exact List.mem_flatten.mpr ⟨_, List.getElem_mem _, findValue_some_mem k _ v hf⟩
  · intro hm
    obtain ⟨j, b, hj, hx⟩ := (mem_flatten_iff_getElem? _ _).mp hm
    have hji := hidx j b hj _ hx
    simp only at hji
    subst hji
    rw [List.getElem?_eq_getElem hlt] at hj
    simp only [Option.some.injEq] at hj
    rw [hj]
    exact findValue_of_mem k b v (hnd b (hj ▸ List.getElem_mem _)) hx

theorem Get_eq_none_iff [DecidableEq K] (hash : K → Nat) (h : HashTable K V)
    (hinv : h.Inv hash) (k : K) :
    h.Get hash k = none ↔ ∀ kv ∈ h.buckets_.flatten, kv.key ≠ k := by
  constructor
  · intro hn kv hkv e
    have := (Get_iff hash h hinv k kv.value).mpr (by
      obtain ⟨k', v'⟩ := kv
      simp only at e
      subst e
      exact hkv)
    rw [hn] at this
    cases this
  · intro hall
    cases hg : h.Get hash k with
    | none => rfl
    | some v =>
      exact absurd rfl (hall _ ((Get_iff hash h hinv k v).mp hg))

theorem Get_eq_of_mem_iff [DecidableEq K] (hash : K → Nat) (h h' : HashTable K V)
    (hinv : h.Inv hash) (hinv' : h'.Inv hash) (k : K)
    (hm : ∀ v, (⟨k, v⟩ : KeyValue K V) ∈ h'.buckets_.flatten ↔
      (⟨k, v⟩ : KeyValue K V) ∈ h.buckets_.flatten) :
    h'.Get hash k = h.Get hash k := by
  cases hg : h.Get hash k with
  | none =>
    cases hg' : h'.Get hash k with
    | none => rfl
    | some v =>
      have := (Get_iff hash h hinv k v).mpr ((hm v).mp ((Get_iff hash h' hinv' k v).mp hg'))
      rw [hg] at this; cases this
  | some v =>
    exact (Get_iff hash h' hinv' k v).mpr ((hm v).mpr ((Get_iff hash h hinv k v).mp hg))

/-! ### Global uniqueness of keys -/

theorem keys_nodup_of_inv (hash : K → Nat) (h : HashTable K V) (hinv : h.Inv hash) :
    (h.buckets_.flatten.map KeyValue.key).Nodup := by
  obtain ⟨hlen, hidx, hnd, hcount⟩ := hinv
  rw [List.map_flatten, List.nodup_flatten]
  constructor
  · intro l hl
    obtain ⟨b, hb, rfl⟩ := List.mem_map.mp hl
    exact hnd b hb
  · rw [List.pairwise_map, List.pairwise_iff_getElem]
    intro i j hi hj hij
    intro k hk1 hk2
    obtain ⟨kv1, hkv1, e1⟩ := List.mem_map.mp hk1
    obtain ⟨kv2, hkv2, e2⟩ := List.mem_map.mp hk2
    have h1 := hidx i _ (List.getElem?_eq_getElem hi) kv1 hkv1
    have h2 := hidx j _ (List.getElem?_eq_getElem hj) kv2 hkv2
    rw [e1] at h1
    rw [e2] at h2
    omega

/-! ### Constructor and `Clear` -/

theorem inv_new (hash : K → Nat) (capacity : Nat) (lf : ℚ) :
    (HashTable.new capacity lf : HashTable K V).Inv hash := by
  refine ⟨?_, ?_, ?_, ?_⟩
  · simp only [HashTable.new, List.length_replicate]
    split_ifs <;> omega
  · intro i b hb kv hkv
    simp only [HashTable.new] at hb
    have := List.mem_iff_getElem?.mpr ⟨i, hb⟩
    rw [List.eq_of_mem_replicate this] at hkv
    simp at hkv
  · intro b hb
    simp only [HashTable.new] at hb
    rw [List.eq_of_mem_replicate hb]
    simp
  · simp [HashTable.new]

theorem flatten_new (capacity : Nat) (lf : ℚ) :
    (HashTable.new capacity lf : HashTable K V).buckets_.flatten = [] := by
  simp only [HashTable.new, List.flatten_eq_nil_iff]
  intro l hl
  exact List.eq_of_mem_replicate hl

theorem inv_Clear (hash : K → Nat) (h : HashTable K V) (hinv : h.Inv hash) :
    h.Clear.Inv hash := by
  obtain ⟨hlen, hidx, hnd, hcount⟩ := hinv
  refine ⟨by simpa [HashTable.Clear] using hlen, ?_, ?_, ?_⟩
  · intro i b hb kv hkv
    simp only [HashTable.Clear] at hb
    have := List.mem_iff_getElem?.mpr ⟨i, hb⟩
    simp only [List.mem_map] at this
    obtain ⟨_, _, rfl⟩ := this
    simp at hkv
  · intro b hb
    simp only [HashTable.Clear, List.mem_map] at hb
    obtain ⟨_, _, rfl⟩ := hb
    simp
  · simp only [HashTable.Clear, List.map_map]
    symm
    apply List.sum_eq_zero
    intro x hx
    simp only [List.mem_map, Function.comp] at hx
    obtain ⟨_, _, rfl⟩ := hx
    rfl

theorem flatten_Clear (h : HashTable K V) : h.Clear.buckets_.flatten = [] := by
  simp only [HashTable.Clear, List.flatten_eq_nil_iff, List.mem_map]
  rintro l ⟨_, _, rfl⟩
  rfl

/-! ### `Rehash` -/

theorem foldl_flatten' {α β : Type} (g : β → α → β) (bs : List (List α)) (init : β) :
    bs.foldl (fun nb b => b.foldl g nb) init = bs.flatten.foldl g init := by
  induction bs generalizing init with
  | nil => rfl
  | cons b bs ih => simp [List.foldl_append, ih]

theorem length_push (idx : KeyValue K V → Nat) (L : List (KeyValue K V))
    (nb : List (List (KeyValue K V))) :
    (L.foldl (fun nb kv => updateBucket (fun b => b ++ [kv]) (idx kv) nb) nb).length
      = nb.length := by
  induction L generalizing nb with
  | nil => rfl
  | cons e L ih => simp [List.foldl_cons, ih, length_updateBucket]

theorem getElem?_push (idx : KeyValue K V → Nat) (L : List (KeyValue K V))
    (nb : List (List (KeyValue K V))) (j : Nat) :
    (L.foldl (fun nb kv => updateBucket (fun b => b ++ [kv]) (idx kv) nb) nb)[j]?
      = nb[j]?.map (fun b => b ++ L.filter (fun kv => decide (idx kv = j))) := by
  induction L generalizing nb with
  | nil => simp
  | cons e L ih =>
    rw [List.foldl_cons, ih, getElem?_updateBucket]
    by_cases hj : j = idx e
    · subst hj
      simp only [if_true, Option.map_map, List.filter_cons, decide_True]
      congr 1
      funext b
      simp
    · rw [if_neg hj]
      have : ¬ idx e = j := fun e' => hj e'.symm
      simp [List.filter_cons, this]

theorem sum_length_push (idx : KeyValue K V → Nat) (L : List (KeyValue K V))
    (nb : List (List (KeyValue K V))) (hidx : ∀ kv ∈ L, idx kv < nb.length) :
    ((L.foldl (fun nb kv => updateBucket (fun b => b ++ [kv]) (idx kv) nb) nb).map
      List.length).sum = (nb.map List.length).sum + L.length := by
  induction L generalizing nb with
  | nil => simp
  | cons e L ih =>
    rw [List.foldl_cons, ih _ (by
      intro kv hkv
      rw [length_updateBucket]
      exact hidx kv (List.mem_cons_of_mem _ hkv))]
    rw [sum_length_updateBucket _ _ _ 1 (hidx e (List.mem_cons_self _ _)) (by
      intro b _; simp)]
    simp only [List.length_cons]
    omega

theorem Rehash_spec (hash : K → Nat) (h : HashTable K V) (hinv : h.Inv hash)
    (newCapacity : Nat) :
    (h.Rehash hash newCapacity).Inv hash ∧
    (∀ kv, kv ∈ (h.Rehash hash newCapacity).buckets_.flatten ↔ kv ∈ h.buckets_.flatten) ∧
    (h.Rehash hash newCapacity).buckets_.length
      = (if newCapacity < 1 then 1 else newCapacity) ∧
    (h.Rehash hash newCapacity).count_ = h.count_ ∧
    (h.Rehash hash newCapacity).maxLoadFactor_ = h.maxLoadFactor_ := by
  have hglob := keys_nodup_of_inv hash h hinv
  obtain ⟨hlen, hidx, hnd, hcount⟩ := hinv
  generalize hn : (if newCapacity < 1 then 1 else newCapacity) = n
  have hn1 : 1 ≤ n := by rw [← hn]; split_ifs <;> omega
  have hb : (h.Rehash hash newCapacity).buckets_
      = h.buckets_.flatten.foldl (fun nb kv => updateBucket (fun b => b ++ [kv])
          (bucketIndex hash kv.key n) nb) (List.replicate n []) := by
    simp only [HashTable.Rehash, hn]
    exact foldl_flatten' _ _ _
  have hget : ∀ j, (h.Rehash hash newCapacity).buckets_[j]?
      = if j < n then some (h.buckets_.flatten.filter
          (fun kv => decide (bucketIndex hash kv.key n = j))) else none := by
    intro j
    rw [hb, getElem?_push (fun kv => bucketIndex hash kv.key n), List.getElem?_replicate]
    split_ifs <;> simp
  have hlen' : (h.Rehash hash newCapacity).buckets_.length = n := by
    rw [hb, length_push (fun kv => bucketIndex hash kv.key n)]; simp
  refine ⟨⟨by omega, ?_, ?_, ?_⟩, ?_, hlen', rfl, rfl⟩
  · intro i b hb' kv hkv
    rw [hget] at hb'
    split_ifs at hb' with hi
    simp only [Option.some.injEq] at hb'
    subst hb'
    rw [hlen']
    simpa using (List.mem_filter.mp hkv).2
  · intro b hb'
    obtain ⟨j, hj⟩ := List.mem_iff_getElem?.mp hb'
    rw [hget] at hj
    split_ifs at hj with hi
    simp only [Option.some.injEq] at hj
    subst hj
    exact List.Nodup.sublist ((List.filter_sublist _).map _) hglob
  · have := sum_length_push (fun kv => bucketIndex hash kv.key n) h.buckets_.flatten
      (List.replicate n []) (by
        intro kv _
        simp only [List.length_replicate]
        exact bucketIndex_lt hash kv.key n hn1)
    rw [← hb] at this
    rw [this]
    simp only [HashTable.Rehash, List.map_replicate, List.length_nil, List.sum_replicate,
      smul_eq_mul, Nat.mul_zero, Nat.zero_add, List.length_flatten]
    exact hcount
  · intro kv
    rw [mem_flatten_iff_getElem?]
    constructor
    · rintro ⟨j, b, hj, hx⟩
      rw [hget] at hj
      split_ifs at hj with hi
      simp only [Option.some.injEq] at hj
      subst hj
      exact (List.mem_filter.mp hx).1
    · intro hx
      refine ⟨bucketIndex hash kv.key n, h.buckets_.flatten.filter
          (fun kv' => decide (bucketIndex hash kv'.key n = bucketIndex hash kv.key n)), ?_,
        List.mem_filter.mpr ⟨hx, decide_eq_true rfl⟩⟩
      rw [hget, if_pos (bucketIndex_lt hash kv.key n hn1)]

theorem MaybeRehash_spec (hash : K → Nat) (h : HashTable K V) (hinv : h.Inv hash) :
    (h.MaybeRehashForInsert hash).Inv hash ∧
    (∀ kv, kv ∈ (h.MaybeRehashForInsert hash).buckets_.flatten ↔ kv ∈ h.buckets_.flatten) ∧
    (h.MaybeRehashForInsert hash).count_ = h.count_ ∧
    (h.MaybeRehashForInsert hash).maxLoadFactor_ = h.maxLoadFactor_ := by
  simp only [HashTable.MaybeRehashForInsert]
  split_ifs
  · obtain ⟨a, b, -, c, d⟩ := Rehash_spec hash h hinv (1 * 2)
    exact ⟨a, b, c, d⟩
  · exact ⟨hinv, fun _ => Iff.rfl, rfl, rfl⟩
  · obtain ⟨a, b, -, c, d⟩ := Rehash_spec hash h hinv (h.buckets_.length * 2)
    exact ⟨a, b, c, d⟩
  · exact ⟨hinv, fun _ => Iff.rfl, rfl, rfl⟩

/-! ### `Set` -/

theorem assignFirst_keys [DecidableEq K] (k : K) (v : V) (b : List (KeyValue K V)) :
    (assignFirst k v b).map KeyValue.key = b.map KeyValue.key := by
  induction b with
  | nil => rfl
  | cons kv rest ih =>
    simp only [assignFirst]
    split_ifs <;> simp [ih]

theorem mem_assignFirst [DecidableEq K] (k : K) (v : V) (b : List (KeyValue K V))
    (hnd : (b.map KeyValue.key).Nodup) (hk : k ∈ b.map KeyValue.key) (x : KeyValue K V) :
    x ∈ assignFirst k v b ↔ x = ⟨k, v⟩ ∨ (x ∈ b ∧ x.key ≠ k) := by
  induction b with
  | nil => simp at hk
  | cons kv rest ih =>
    simp only [List.map_cons, List.nodup_cons] at hnd
    simp only [assignFirst]
    by_cases hkv : kv.key = k
    · rw [if_pos hkv]
      simp only [List.mem_cons]
      constructor
      · rintro (e | hx)
        · left; rw [e, hkv]
        · right
          refine ⟨Or.inr hx, ?_⟩
          intro e
          apply hnd.1
          rw [hkv, ← e]
          exact List.mem_map.mpr ⟨x, hx, rfl⟩
      · rintro (e | ⟨e | hx, hne⟩)
        · left; rw [e, hkv]
        · exact absurd (by rw [e]; exact hkv) hne
        · exact Or.inr hx
    · rw [if_neg hkv]
      have hk' : k ∈ rest.map KeyValue.key := by
        simp only [List.map_cons, List.mem_cons] at hk
        rcases hk with e | hk
        · exact absurd e.symm hkv
        · exact hk
      simp only [List.mem_cons, ih hnd.2 hk']
      constructor
      · rintro (e | e | ⟨hx, hne⟩)
        · right; exact ⟨Or.inl e, by rw [e]; exact hkv⟩
        · left; exact e
        · right; exact ⟨Or.inr hx, hne⟩
      · rintro (e | ⟨e | hx, hne⟩)
        · right; left; exact e
        · left; exact e
        · right; right; exact ⟨hx, hne⟩

theorem Set_spec [DecidableEq K] (hash : K → Nat) (h : HashTable K V) (hinv : h.Inv hash)
    (k : K) (v : V) :
    ∃ h', h.Set hash k v = some h' ∧ h'.Inv hash ∧
      (∀ kv, kv ∈ h'.buckets_.flatten ↔
        kv = ⟨k, v⟩ ∨ (kv ∈ h.buckets_.flatten ∧ kv.key ≠ k)) ∧
      h'.maxLoadFactor_ = h.maxLoadFactor_ := by
  cases hg : h.Get hash k with
  | some v0 =>
    have hg' : h.GetPtr hash k = some v0 := hg
    obtain ⟨hlen, hidx, hnd, hcount⟩ := hinv
    have hlt := bucketIndex_lt hash k h.buckets_.length hlen
    have hb : h.buckets_[bucketIndex hash k h.buckets_.length]?
        = some (h.buckets_[bucketIndex hash k h.buckets_.length]) :=
      List.getElem?_eq_getElem hlt
    generalize h.buckets_[bucketIndex hash k h.buckets_.length] = b at hb
    have hbm : b ∈ h.buckets_ := List.mem_iff_getElem?.mpr ⟨_, hb⟩
    have hfv : findValue k b = some v0 := by
      simp only [HashTable.GetPtr] at hg'
      rw [if_neg (by omega), hb] at hg'
      exact hg'
    have hkb : k ∈ b.map KeyValue.key := by
      by_contra hc
      rw [(findValue_eq_none k b).mpr hc] at hfv
      cases hfv
    simp only [HashTable.Set, hg']
    refine ⟨_, rfl, ⟨?_, ?_, ?_, ?_⟩, ?_, rfl⟩
    · simpa [length_updateBucket] using hlen
    · intro i b' hb' kv hkv
      simp only [length_updateBucket]
      simp only [getElem?_updateBucket] at hb'
      split_ifs at hb' with hi
      · subst hi
        rw [hb] at hb'
        simp only [Option.map_some', Option.some.injEq] at hb'
        subst hb'
        have : kv.key ∈ (assignFirst k v b).map KeyValue.key := List.mem_map.mpr ⟨kv, hkv, rfl⟩
        rw [assignFirst_keys] at this
        obtain ⟨kv', hkv', e⟩ := List.mem_map.mp this
        rw [← e]
        exact hidx _ b hb kv' hkv'
      · exact hidx i b' hb' kv hkv
    · intro b' hb'
      rcases mem_updateBucket _ _ _ _ hb' with hm | ⟨b₀, hb₀, e⟩
      · exact hnd b' hm
      · rw [hb] at hb₀
        simp only [Option.some.injEq] at hb₀
        subst hb₀
        rw [e, assignFirst_keys]
        exact hnd b hbm
    · simp only
      rw [sum_length_updateBucket _ _ _ 0 hlt (by
        intro b' hb'
        rw [hb] at hb'
        simp only [Option.some.injEq] at hb'
        subst hb'
        have := congrArg List.length (assignFirst_keys k v b)
        simpa using this)]
      simpa using hcount
    · intro kv
      simp only
      rw [mem_flatten_updateBucket _ _ _ b hb, mem_assignFirst k v b (hnd b hbm) hkb,
        mem_flatten_iff_getElem?]
      constructor
      · rintro ((e | ⟨hx, hne⟩) | ⟨j, b', hji, hj, hx⟩)
        · exact Or.inl e
        · exact Or.inr ⟨⟨_, b, hb, hx⟩, hne⟩
        · refine Or.inr ⟨⟨j, b', hj, hx⟩, ?_⟩
          intro e
          apply hji
          rw [← hidx j b' hj kv hx, e]
      · rintro (e | ⟨⟨j, b', hj, hx⟩, hne⟩)
        · exact Or.inl (Or.inl e)
        · by_cases hji : j = bucketIndex hash k h.buckets_.length
          · subst hji
            rw [hb] at hj
            simp only [Option.some.injEq] at hj
            subst hj
            exact Or.inl (Or.inr ⟨hx, hne⟩)
          · exact Or.inr ⟨j, b', hji, hj, hx⟩
  | none =>
    have hg' : h.GetPtr hash k = none := hg
    simp only [HashTable.Set, hg']
    obtain ⟨hinv1, hmem1, hcount1, hlf1⟩ := MaybeRehash_spec hash h hinv
    have hnone1 : (h.MaybeRehashForInsert hash).Get hash k = none := by
      rw [Get_eq_of_mem_iff hash h _ hinv hinv1 k (fun v => hmem1 _)]
      exact hg
    have hall := (Get_eq_none_iff hash _ hinv1 k).mp hnone1
    generalize h.MaybeRehashForInsert hash = h1 at *
    obtain ⟨hlen, hidx, hnd, hcount⟩ := hinv1
    have hlt := bucketIndex_lt hash k h1.buckets_.length hlen
    have hb : h1.buckets_[bucketIndex hash k h1.buckets_.length]?
        = some (h1.buckets_[bucketIndex hash k h1.buckets_.length]) :=
      List.getElem?_eq_getElem hlt
    generalize h1.buckets_[bucketIndex hash k h1.buckets_.length] = b at hb
    have hbm : b ∈ h1.buckets_ := List.mem_iff_getElem?.mpr ⟨_, hb⟩
    rw [if_neg (by omega)]
    refine ⟨_, rfl, ⟨?_, ?_, ?_, ?_⟩, ?_, hlf1⟩
    · simpa [length_updateBucket] using hlen
    · intro i b' hb' kv hkv
      simp only [length_updateBucket]
      simp only [getElem?_updateBucket] at hb'
      split_ifs at hb' with hi
      · subst hi
        rw [hb] at hb'
        simp only [Option.map_some', Option.some.injEq] at hb'
        subst hb'
        rcases List.mem_append.mp hkv with hkv | hkv
        · exact hidx _ b hb kv hkv
        · simp only [List.mem_singleton] at hkv
          subst hkv
          rfl
      · exact hidx i b' hb' kv hkv
    · intro b' hb'
      rcases mem_updateBucket _ _ _ _ hb' with hm | ⟨b₀, hb₀, e⟩
      · exact hnd b' hm
      · rw [hb] at hb₀
        simp only [Option.some.injEq] at hb₀
        subst hb₀
        rw [e, List.map_append, List.nodup_append]
        refine ⟨hnd b hbm, by simp, ?_⟩
        intro a ha1 ha2
        simp only [List.map_cons, List.map_nil, List.mem_singleton] at ha2
        subst ha2
        obtain ⟨kv, hkv, e'⟩ := List.mem_map.mp ha1
        exact hall kv (List.mem_flatten.mpr ⟨b, hbm, hkv⟩) e'
    · simp only
      rw [sum_length_updateBucket _ _ _ 1 hlt (by intro b' _; simp)]
      omega
    · intro kv
      simp only
      rw [mem_flatten_updateBucket _ _ _ b hb, ← hmem1, mem_flatten_iff_getElem?]
      constructor
      · rintro (hx | ⟨j, b', hji, hj, hx⟩)
        · rcases List.mem_append.mp hx with hx | hx
          · exact Or.inr ⟨⟨_, b, hb, hx⟩, hall kv (List.mem_flatten.mpr ⟨b, hbm, hx⟩)⟩
          · exact Or.inl (by simpa using hx)
        · exact Or.inr ⟨⟨j, b', hj, hx⟩,
            hall kv (List.mem_flatten.mpr ⟨b', List.mem_iff_getElem?.mpr ⟨j, hj⟩, hx⟩)⟩
      · rintro (e | ⟨⟨j, b', hj, hx⟩, hne⟩)
        · exact Or.inl (List.mem_append.mpr (Or.inr (by simp [e])))
        · by_cases hji : j = bucketIndex hash k h1.buckets_.length
          · subst hji
            rw [hb] at hj
            simp only [Option.some.injEq] at hj
            subst hj
            exact Or.inl (List.mem_append.mpr (Or.inl hx))
          · exact Or.inr ⟨j, b', hji, hj, hx⟩

theorem Set_Get [DecidableEq K] (hash : K → Nat) (h h' : HashTable K V)
    (hinv : h.Inv hash) (k : K) (v : V) (hs : h.Set hash k v = some h') (k' : K) :
    h'.Get hash k' = if k' = k then some v else h.Get hash k' := by
  obtain ⟨h'', e, hinv', hmem, -⟩ := Set_spec hash h hinv k v
  rw [hs] at e
  cases e
  split_ifs with hk
  · subst hk
    exact (Get_iff hash h' hinv' k' v).mpr ((hmem _).mpr (Or.inl rfl))
  · apply Get_eq_of_mem_iff hash h h' hinv hinv' k'
    intro w
    rw [hmem]
    constructor
    · rintro (e | ⟨hx, -⟩)
      · exact absurd (congrArg KeyValue.key e) hk
      · exact hx
    · intro hx
      exact Or.inr ⟨hx, hk⟩

/-! ### `Remove` -/

theorem swapRemove_none [DecidableEq K] (k : K) (back : Option (KeyValue K V))
    (l : List (KeyValue K V)) (hk : k ∉ l.map KeyValue.key) : swapRemove k back l = none := by
  induction l with
  | nil => rfl
  | cons kv rest ih =>
    simp only [List.map_cons, List.mem_cons, not_or] at hk
    simp only [swapRemove]
    rw [if_neg (fun e => hk.1 e.symm), ih hk.2]

theorem swapRemove_some [DecidableEq K] (k : K) (back : Option (KeyValue K V))
    (l : List (KeyValue K V)) (hk : k ∈ l.map KeyValue.key)
    (hnd : (l.map KeyValue.key).Nodup) (hback : back = l.getLast?) :
    ∃ l', swapRemove k back l = some l' ∧ (∀ x, x ∈ l' ↔ x ∈ l ∧ x.key ≠ k) ∧
      (l'.map KeyValue.key).Nodup ∧ l'.length + 1 = l.length := by
  induction l with
  | nil => simp at hk
  | cons kv rest ih =>
    simp only [List.map_cons, List.nodup_cons] at hnd
    simp only [swapRemove]
    by_cases hkv : kv.key = k
    · rw [if_pos hkv]
      cases rest with
      | nil =>
        simp only [List.getLast?_singleton] at hback
        subst hback
        refine ⟨[], by simp, ?_, by simp, by simp⟩
        intro x
        simp only [List.not_mem_nil, List.mem_singleton, false_iff, not_and, not_not]
        intro e; rw [e]; exact hkv
      | cons r rs =>
        have hne : (r :: rs) ≠ [] := by simp
        have hlast : (r :: rs).getLast? = some ((r :: rs).getLast hne) :=
          List.getLast?_eq_getLast _ hne
        rw [List.getLast?_cons_cons, hlast] at hback
        subst hback
        have hR : (r :: rs).dropLast ++ [(r :: rs).getLast hne] = r :: rs :=
          List.dropLast_append_getLast hne
        generalize (r :: rs).getLast hne = last at hR
        generalize (r :: rs).dropLast = R at hR
        have hperm : List.Perm (last :: R) (r :: rs) := by
          rw [← hR]; exact (List.perm_append_singleton last R).symm
        have hdl : (last :: r :: rs).dropLast = last :: R := by
          rw [← hR]
          cases R with
          | nil => simp
          | cons a R =>
            rw [show last :: (a :: R ++ [last]) = (last :: a :: R) ++ [last] by simp,
              List.dropLast_concat]
        refine ⟨last :: R, by simp only [hdl], ?_, ?_, ?_⟩
        · intro x
          rw [hperm.mem_iff]
          constructor
          · intro hx
            refine ⟨List.mem_cons_of_mem _ hx, ?_⟩
            intro e
            apply hnd.1
            rw [hkv, ← e]
            exact List.mem_map.mpr ⟨x, hx, rfl⟩
          · rintro ⟨hx, hne'⟩
            rcases List.mem_cons.mp hx with e | hx
            · exact absurd (by rw [e]; exact hkv) hne'
            · exact hx
        · exact ((hperm.map KeyValue.key).nodup_iff).mpr hnd.2
        · rw [hperm.length_eq]
          simp
    · rw [if_neg hkv]
      have hk' : k ∈ rest.map KeyValue.key := by
        simp only [List.map_cons, List.mem_cons] at hk
        rcases hk with e | hk
        · exact absurd e.symm hkv
        · exact hk
      have hback' : back = rest.getLast? := by
        cases rest with
        | nil => simp at hk'
        | cons r rs => rw [hback, List.getLast?_cons_cons]
      obtain ⟨rest', e1, e2, e3, e4⟩ := ih hk' hnd.2 hback'
      rw [e1]
      refine ⟨kv :: rest', rfl, ?_, ?_, by simp only [List.length_cons]; omega⟩
      · intro x
        simp only [List.mem_cons, e2]
        constructor
        · rintro (e | ⟨hx, hne⟩)
          · exact ⟨Or.inl e, by rw [e]; exact hkv⟩
          · exact ⟨Or.inr hx, hne⟩
        · rintro ⟨e | hx, hne⟩
          · exact Or.inl e
          · exact Or.inr ⟨hx, hne⟩
      · simp only [List.map_cons, List.nodup_cons]
        refine ⟨?_, e3⟩
        intro hm
        obtain ⟨x, hx, e⟩ := List.mem_map.mp hm
        apply hnd.1
        rw [← e]
        exact List.mem_map.mpr ⟨x, ((e2 x).mp hx).1, rfl⟩

theorem Remove_spec [DecidableEq K] (hash : K → Nat) (h : HashTable K V) (hinv : h.Inv hash)
    (k : K) :
    (h.Remove hash k).1.Inv hash ∧
    (∀ kv, kv ∈ (h.Remove hash k).1.buckets_.flatten ↔
      kv ∈ h.buckets_.flatten ∧ kv.key ≠ k) ∧
    (h.Remove hash k).2 = h.Contains hash k ∧
    (h.Remove hash k).1.maxLoadFactor_ = h.maxLoadFactor_ ∧
    (h.Remove hash k).1.buckets_.length = h.buckets_.length ∧
    (h.Remove hash k).1.count_ + (if (h.Remove hash k).2 then 1 else 0) = h.count_ := by
  have hinv0 := hinv
  obtain ⟨hlen, hidx, hnd, hcount⟩ := hinv
  have hlt := bucketIndex_lt hash k h.buckets_.length hlen
  have hb : h.buckets_[bucketIndex hash k h.buckets_.length]?
      = some (h.buckets_[bucketIndex hash k h.buckets_.length]) :=
    List.getElem?_eq_getElem hlt
  generalize h.buckets_[bucketIndex hash k h.buckets_.length] = b at hb
  have hbm : b ∈ h.buckets_ := List.mem_iff_getElem?.mpr ⟨_, hb⟩
  have hcontains : h.Contains hash k = (findValue k b).isSome := by
    simp only [HashTable.Contains, HashTable.GetPtr]
    rw [if_neg (by omega), hb]
  have hne0 : ¬ h.buckets_.length = 0 := by omega
  by_cases hk : k ∈ b.map KeyValue.key
  · obtain ⟨b', e1, e2, e3, e4⟩ := swapRemove_some k b.getLast? b hk (hnd b hbm) rfl
    have hrem : h.Remove hash k =
        (⟨updateBucket (fun _ => b') (bucketIndex hash k h.buckets_.length) h.buckets_,
          h.count_ - 1, h.maxLoadFactor_⟩, true) := by
      simp only [HashTable.Remove, hne0, if_false, hb, e1]
    rw [hrem]
    have hfv : (findValue k b).isSome = true := by
      cases hf : findValue k b with
      | none => exact absurd ((findValue_eq_none k b).mp hf) (not_not.mpr hk)
      | some v => rfl
    have hsum := sum_length_updateBucket_pred (fun _ => b') _ h.buckets_ hlt (by
      intro b0 hb0
      rw [hb] at hb0
      simp only [Option.some.injEq] at hb0
      subst hb0
      exact e4)
    refine ⟨⟨?_, ?_, ?_, ?_⟩, ?_, ?_, rfl, ?_, ?_⟩
    · simpa [length_updateBucket] using hlen
    · intro i c hc kv hkv
      simp only [length_updateBucket]
      simp only [getElem?_updateBucket] at hc
      split_ifs at hc with hi
      · subst hi
        rw [hb] at hc
        simp only [Option.map_some', Option.some.injEq] at hc
        subst hc
        exact hidx _ b hb kv ((e2 kv).mp hkv).1
      · exact hidx i c hc kv hkv
    · intro c hc
      rcases mem_updateBucket _ _ _ _ hc with hm | ⟨b₀, hb₀, e⟩
      · exact hnd c hm
      · rw [e]; exact e3
    · simp only
      omega
    · intro kv
      simp only
      rw [mem_flatten_updateBucket _ _ _ b hb, e2, mem_flatten_iff_getElem?]
      constructor
      · rintro (⟨hx, hne⟩ | ⟨j, c, hji, hj, hx⟩)
        · exact ⟨⟨_, b, hb, hx⟩, hne⟩
        · refine ⟨⟨j, c, hj, hx⟩, ?_⟩
          intro e
          apply hji
          rw [← hidx j c hj kv hx, e]
      · rintro ⟨⟨j, c, hj, hx⟩, hne⟩
        by_cases hji : j = bucketIndex hash k h.buckets_.length
        · subst hji
          rw [hb] at hj
          simp only [Option.some.injEq] at hj
          subst hj
          exact Or.inl ⟨hx, hne⟩
        · exact Or.inr ⟨j, c, hji, hj, hx⟩
    · rw [hcontains, hfv]
    · simp [length_updateBucket]
    · simp only [if_true]
      omega
  · have hrem : h.Remove hash k = (h, false) := by
      simp only [HashTable.Remove, hne0, if_false, hb, swapRemove_none k _ b hk]
    rw [hrem]
    have hfv : findValue k b = none := (findValue_eq_none k b).mpr hk
    refine ⟨hinv0, ?_, ?_, rfl, rfl, by simp⟩
    · intro kv
      constructor
      · intro hx
        refine ⟨hx, ?_⟩
        intro e
        obtain ⟨j, c, hj, hxc⟩ := (mem_flatten_iff_getElem? _ _).mp hx
        have := hidx j c hj kv hxc
        rw [e] at this
        subst this
        rw [hb] at hj
        simp only [Option.some.injEq] at hj
        subst hj
        apply hk
        rw [← e]
        exact List.mem_map.mpr ⟨kv, hxc, rfl⟩
      · exact fun hx => hx.1
    · rw [hcontains, hfv]; rfl

theorem Remove_Get [DecidableEq K] (hash : K → Nat) (h : HashTable K V)
    (hinv : h.Inv hash) (k k' : K) :
    (h.Remove hash k).1.Get hash k' = if k' = k then none else h.Get hash k' := by
  obtain ⟨hinv', hmem, -⟩ := Remove_spec hash h hinv k
  split_ifs with hk
  · subst hk
    rw [Get_eq_none_iff hash _ hinv']
    intro kv hkv
    exact ((hmem kv).mp hkv).2
  · apply Get_eq_of_mem_iff hash h _ hinv hinv' k'
    intro w
    rw [hmem]
    constructor
    · exact fun hx => hx.1
    · exact fun hx => ⟨hx, hk⟩

theorem Clear_Get [DecidableEq K] (hash : K → Nat) (h : HashTable K V)
    (hinv : h.Inv hash) (k' : K) : h.Clear.Get hash k' = none := by
  rw [Get_eq_none_iff hash _ (inv_Clear hash h hinv), flatten_Clear]
  simp

theorem new_Get [DecidableEq K] (hash : K → Nat) (capacity : Nat) (lf : ℚ) (k' : K) :
    (HashTable.new capacity lf : HashTable K V).Get hash k' = none := by
  rw [Get_eq_none_iff hash _ (inv_new hash capacity lf), flatten_new]
  simp

/-! ### Sequences of calls -/

theorem step_spec [DecidableEq K] (hash : K → Nat) (h : HashTable K V) (hinv : h.Inv hash)
    (op : HashOp K V) :
    ∃ h', h.step hash op = some h' ∧ h'.Inv hash ∧
      (∀ k, h'.Get hash k = specStep (h.Get hash) op k) ∧
      h'.maxLoadFactor_ = h.maxLoadFactor_ := by
  cases op with
  | set k v =>
    obtain ⟨h', e, hinv', -, hlf⟩ := Set_spec hash h hinv k v
    exact ⟨h', e, hinv', fun k' => Set_Get hash h h' hinv k v e k', hlf⟩
  | remove k =>
    obtain ⟨hinv', -, -, hlf, -⟩ := Remove_spec hash h hinv k
    exact ⟨_, rfl, hinv', fun k' => Remove_Get hash h hinv k k', hlf⟩
  | clear =>
    exact ⟨_, rfl, inv_Clear hash h hinv, fun k' => Clear_Get hash h hinv k', rfl⟩

theorem specStep_congr [DecidableEq K] (m m' : K → Option V) (op : HashOp K V)
    (h : ∀ k, m k = m' k) (k : K) : specStep m op k = specStep m' op k := by
  cases op <;> simp [specStep, h]

theorem run_spec [DecidableEq K] (hash : K → Nat) (ops : List (HashOp K V))
    (h : HashTable K V) (m : K → Option V) (hinv : h.Inv hash)
    (hag : ∀ k, h.Get hash k = m k) :
    ∃ s, h.run hash ops = some s ∧ s.Inv hash ∧
      (∀ k, s.Get hash k = ops.foldl specStep m k) ∧
      s.maxLoadFactor_ = h.maxLoadFactor_ := by
  induction ops generalizing h m with
  | nil => exact ⟨h, rfl, hinv, hag, rfl⟩
  | cons op ops ih =>
    obtain ⟨h', e, hinv', hget, hlf⟩ := step_spec hash h hinv op
    obtain ⟨s, e2, hinv2, hget2, hlf2⟩ := ih h' (specStep m op) hinv'
      (fun k => by rw [hget k]; exact specStep_congr _ _ op hag k)
    refine ⟨s, ?_, hinv2, hget2, by rw [hlf2, hlf]⟩
    simp only [HashTable.run, e, e2]

/-- C4. For every hash function, initial capacity and maximum load factor, every finite
sequence of `Set`, `Remove` (and `Clear`) calls on an empty table succeeds, and afterwards
`Get(k)` is the value of the most recent `Set(k, v)` not followed by a `Remove(k)` (or
`Clear`), and nothing when there is none. A rehash changes the result of `Get` for no key,
and a further `Set(k, v)`, rehashing or not, changes it for no key other than `k`. -/
theorem hashTable_get_after_ops [DecidableEq K] (hash : K → Nat) (capacity : Nat) (lf : ℚ)
    (ops : List (HashOp K V)) :
    ∃ s, (HashTable.new capacity lf : HashTable K V).run hash ops = some s ∧
      (∀ k, s.Get hash k = specMap ops k) ∧
      (∀ n k', (s.Rehash hash n).Get hash k' = s.Get hash k') ∧
      (∀ k', (s.MaybeRehashForInsert hash).Get hash k' = s.Get hash k') ∧
      (∀ k v, ∃ s', s.Set hash k v = some s' ∧ s'.Get hash k = some v ∧
        ∀ k', k' ≠ k → s'.Get hash k' = s.Get hash k') := by
  obtain ⟨s, e, hinv, hget, -⟩ := run_spec hash ops (HashTable.new capacity lf)
    (fun _ => none) (inv_new hash capacity lf) (fun k => new_Get hash capacity lf k)
  refine ⟨s, e, hget, ?_, ?_, ?_⟩
  · intro n k'
    obtain ⟨hinv', hmem, -⟩ := Rehash_spec hash s hinv n
    exact Get_eq_of_mem_iff hash s _ hinv hinv' k' (fun v => hmem _)
  · intro k'
    obtain ⟨hinv', hmem, -⟩ := MaybeRehash_spec hash s hinv
    exact Get_eq_of_mem_iff hash s _ hinv hinv' k' (fun v => hmem _)
  · intro k v
    obtain ⟨s', e', -⟩ := Set_spec hash s hinv k v
    refine ⟨s', e', ?_, ?_⟩
    · rw [Set_Get hash s s' hinv k v e' k, if_pos rfl]
    · intro k' hk
      rw [Set_Get hash s s' hinv k v e' k', if_neg hk]

/-! ### Load factor -/

theorem Set_load [DecidableEq K] (hash : K → Nat) (h h' : HashTable K V) (k : K) (v : V)
    (hlen : 1 ≤ h.buckets_.length) (hlf : h.maxLoadFactor_ = 3 / 4)
    (hload : 4 * h.count_ ≤ 3 * h.buckets_.length) (hs : h.Set hash k v = some h') :
    4 * h'.count_ ≤ 3 * h'.buckets_.length := by
  have hne0 : ¬ h.buckets_.length = 0 := by omega
  simp only [HashTable.Set] at hs
  cases hg : h.GetPtr hash k with
  | some v0 =>
    rw [hg] at hs
    simp only [Option.some.injEq] at hs
    subst hs
    simpa [length_updateBucket] using hload
  | none =>
    rw [hg] at hs
    simp only at hs
    split_ifs at hs with h0
    simp only [Option.some.injEq] at hs
    subst hs
    simp only [length_updateBucket]
    simp only [HashTable.MaybeRehashForInsert, hne0, if_false, hlf]
    by_cases hgt : ((h.count_ + 1 : ℕ) : ℚ) / ((h.buckets_.length : ℕ) : ℚ) > 3 / 4
    · rw [if_pos hgt]
      simp only [HashTable.Rehash]
      rw [foldl_flatten', length_push (fun kv => bucketIndex hash kv.key _)]
      simp only [List.length_replicate]
      split_ifs <;> omega
    · rw [if_neg hgt]
      have hpos : (0 : ℚ) < ((h.buckets_.length : ℕ) : ℚ) := by
        exact_mod_cast (by omega : 0 < h.buckets_.length)
      have h1 : ((h.count_ + 1 : ℕ) : ℚ) / ((h.buckets_.length : ℕ) : ℚ) ≤ 3 / 4 :=
        not_lt.mp hgt
      rw [div_le_iff₀ hpos] at h1
      have h2 : (4 : ℚ) * ((h.count_ + 1 : ℕ) : ℚ) ≤ 3 * ((h.buckets_.length : ℕ) : ℚ) := by
        linarith
      exact_mod_cast h2

theorem run_load [DecidableEq K] (hash : K → Nat) (ops : List (HashOp K V))
    (h : HashTable K V) (hinv : h.Inv hash) (hlf : h.maxLoadFactor_ = 3 / 4)
    (hload : 4 * h.count_ ≤ 3 * h.buckets_.length) :
    ∃ s, h.run hash ops = some s ∧ s.Inv hash ∧ s.maxLoadFactor_ = 3 / 4 ∧
      4 * s.count_ ≤ 3 * s.buckets_.length := by
  induction ops generalizing h with
  | nil => exact ⟨h, rfl, hinv, hlf, hload⟩
  | cons op ops ih =>
    obtain ⟨h', e, hinv', -, hlf'⟩ := step_spec hash h hinv op
    have hload' : 4 * h'.count_ ≤ 3 * h'.buckets_.length := by
      cases op with
      | set k v => exact Set_load hash h h' k v hinv.1 hlf hload e
      | remove k =>
        simp only [HashTable.step, Option.some.injEq] at e
        subst e
        obtain ⟨-, -, -, -, hl, hc⟩ := Remove_spec hash h hinv k
        rw [hl]
        omega
      | clear =>
        simp only [HashTable.step, Option.some.injEq] at e
        subst e
        simp [HashTable.Clear]
    obtain ⟨s, e2, r⟩ := ih h' hinv' (by rw [hlf', hlf]) hload'
    exact ⟨s, by simp only [HashTable.run, e, e2], r⟩

/-- C5. For a table constructed with the default maximum load factor 0.75 and any initial
capacity, every sequence of `Set`/`Remove`/`Clear` calls succeeds and leaves
`4 * Size() ≤ 3 * Capacity()`; in particular the bound holds after every `Set` call. -/
theorem hashTable_load_factor [DecidableEq K] (hash : K → Nat) (capacity : Nat)
    (ops : List (HashOp K V)) :
    ∃ s, (HashTable.new capacity (3 / 4) : HashTable K V).run hash ops = some s ∧
      4 * s.Size ≤ 3 * s.Capacity ∧
      ∀ k v, ∃ s', s.Set hash k v = some s' ∧ 4 * s'.Size ≤ 3 * s'.Capacity := by
  obtain ⟨s, e, hinv, hlf, hload⟩ := run_load hash ops (HashTable.new capacity (3 / 4))
    (inv_new hash capacity _) rfl (by simp [HashTable.new])
  refine ⟨s, e, hload, ?_⟩
  intro k v
  obtain ⟨s', e', -⟩ := Set_spec hash s hinv k v
  exact ⟨s', e', Set_load hash s s' k v hinv.1 hlf hload e'⟩

/-! ### `ForEach` -/

theorem foldl_append_singleton {α β : Type} (f : α → β) (l : List α) (acc : List β) :
    l.foldl (fun acc x => acc ++ [f x]) acc = acc ++ l.map f := by
  induction l generalizing acc with
  | nil => simp
  | cons a l ih => simp [ih]

theorem visits_eq (h : HashTable K V) :
    h.visits = h.buckets_.flatten.map (fun kv => (kv.key, kv.value)) := by
  simp only [HashTable.visits, HashTable.ForEach]
  rw [foldl_flatten' (fun s (kv : KeyValue K V) => s ++ [(kv.key, kv.value)])]
  rw [foldl_append_singleton (fun kv : KeyValue K V => (kv.key, kv.value))]
  simp

theorem ForEach_eq {σ : Type} (h : HashTable K V) (fn : K → V → σ → σ) (init : σ) :
    h.ForEach fn init = h.visits.foldl (fun s p => fn p.1 p.2 s) init := by
  rw [visits_eq, List.foldl_map]
  simp only [HashTable.ForEach]
  exact foldl_flatten' (fun s (kv : KeyValue K V) => fn kv.key kv.value s) _ _

/-- C6. In every table state reached by `Set`/`Remove`/`Clear` calls from an empty table,
`ForEach` calls its callback on the entries listed by `visits`: no key is visited twice,
`(k, v)` is visited exactly when `Get(k)` is `v`, and the number of calls is `Size()`. -/
theorem hashTable_forEach [DecidableEq K] (hash : K → Nat) (capacity : Nat) (lf : ℚ)
    (ops : List (HashOp K V)) :
    ∃ s, (HashTable.new capacity lf : HashTable K V).run hash ops = some s ∧
      (∀ (σ : Type) (fn : K → V → σ → σ) (init : σ),
        s.ForEach fn init = s.visits.foldl (fun acc p => fn p.1 p.2 acc) init) ∧
      (s.visits.map Prod.fst).Nodup ∧
      (∀ k v, (k, v) ∈ s.visits ↔ s.Get hash k = some v) ∧
      (∀ k, k ∈ s.visits.map Prod.fst ↔ s.Contains hash k = true) ∧
      s.visits.length = s.Size := by
  obtain ⟨s, e, hinv, -, -⟩ := run_spec hash ops (HashTable.new capacity lf)
    (fun _ => none) (inv_new hash capacity lf) (fun k => new_Get hash capacity lf k)
  have hmem : ∀ k v, (k, v) ∈ s.visits ↔ s.Get hash k = some v := by
    intro k v
    rw [visits_eq, Get_iff hash s hinv k v, List.mem_map]
    constructor
    · rintro ⟨kv, hkv, e⟩
      obtain ⟨k', v'⟩ := kv
      simp only [Prod.mk.injEq] at e
      obtain ⟨rfl, rfl⟩ := e
      exact hkv
    · intro hkv
      exact ⟨_, hkv, rfl⟩
  refine ⟨s, e, fun σ fn init => ForEach_eq s fn init, ?_, hmem, ?_, ?_⟩
  · have := keys_nodup_of_inv hash s hinv
    rw [visits_eq, List.map_map]
    exact this
  · intro k
    simp only [List.mem_map, HashTable.Contains, Option.isSome_iff_exists]
    constructor
    · rintro ⟨p, hp, e⟩
      obtain ⟨k', v'⟩ := p
      simp only at e
      subst e
      exact ⟨v', (hmem _ _).mp hp⟩
    · rintro ⟨v, hv⟩
      exact ⟨(k, v), (hmem k v).mpr hv, rfl⟩
  · rw [visits_eq, List.length_map, List.length_flatten]
    exact hinv.2.2.2.symm

end HashTableTheory

section TableTheory

variable {T IdT : Type}

/-! ### Vector writes -/

theorem getElem?_setAt {α : Type} (i j : Nat) (a : α) (l : List α) (h : i < l.length) :
    (setAt i a l)[j]? = if j = i then some a else l[j]? := by
  have e : setAt i a l = l.set i a := by
    rw [List.set_eq_take_append_cons_drop, if_pos h]; rfl
  rw [e, List.getElem?_set]
  by_cases hji : j = i
  · subst hji; simp [h]
  · have : ¬ i = j := fun e => hji e.symm
    simp [hji, this]

theorem count_setAt_true (i : Nat) (l : List Bool) (h : l[i]? = some false) :
    (setAt i true l).count true = l.count true + 1 := by
  have e := split_at h
  rw [setAt]
  conv_rhs => rw [e]
  simp only [List.count_append, List.count_cons]
  simp
  omega

theorem count_setAt_false (i : Nat) (l : List Bool) (h : l[i]? = some true) :
    (setAt i false l).count true + 1 = l.count true := by
  have e := split_at h
  rw [setAt]
  conv_rhs => rw [e]
  simp only [List.count_append, List.count_cons]
  simp
  omega

theorem length_filter_alive (l : List Bool) :
    ((List.range l.length).filter (fun i => l[i]?.getD false)).length = l.count true := by
  induction l using List.reverseRecOn with
  | nil => simp
  | append_singleton l a ih =>
    rw [List.length_append, List.length_singleton, List.range_succ, List.filter_append,
      List.length_append, List.count_append]
    have h1 : (List.range l.length).filter (fun i => (l ++ [a])[i]?.getD false)
        = (List.range l.length).filter (fun i => l[i]?.getD false) := by
      apply List.filter_congr
      intro i hi
      rw [List.mem_range] at hi
      rw [List.getElem?_append_left hi]
    rw [h1, ih]
    congr 1
    cases a <;> simp

/-! ### The table invariant -/

theorem table_inv_new [DecidableEq IdT] (idGetter : T → IdT) (hash : IdT → Nat) :
    (Table.new : Table T IdT).Inv idGetter hash := by
  refine ⟨inv_new hash 1024 _, rfl, rfl, ?_, ?_, ?_, ?_, ?_⟩
  · intro id slot h
    simp only [Table.new] at h
    rw [new_Get] at h
    cases h
  · intro slot h
    simp [Table.new] at h
  · intro slot
    simp [Table.new]
  · simp [Table.new]
  · simp [Table.new]

theorem table_containsId_iff [DecidableEq IdT] (hash : IdT → Nat) (tb : Table T IdT)
    (id : IdT) : tb.ContainsId hash id = (tb.pkIndex_.Get hash id).isSome := rfl

theorem table_slot_unique [DecidableEq IdT] (idGetter : T → IdT) (hash : IdT → Nat)
    (tb : Table T IdT) (hinv : tb.Inv idGetter hash) (id₁ id₂ : IdT) (slot : Nat)
    (h₁ : tb.pkIndex_.Get hash id₁ = some slot) (h₂ : tb.pkIndex_.Get hash id₂ = some slot) :
    id₁ = id₂ := by
  obtain ⟨-, -, -, h3, -⟩ := hinv
  obtain ⟨-, r₁, e₁, g₁⟩ := h3 id₁ slot h₁
  obtain ⟨-, r₂, e₂, g₂⟩ := h3 id₂ slot h₂
  rw [e₁] at e₂
  cases e₂
  rw [← g₁, ← g₂]

theorem table_Insert_spec [DecidableEq IdT] (idGetter : T → IdT) (hash : IdT → Nat)
    (tb : Table T IdT) (hinv : tb.Inv idGetter hash) (row : T) :
    ∃ tb', tb.Insert idGetter hash row = some tb' ∧ tb'.Inv idGetter hash ∧
      (∀ id, tb'.pkIndex_.Get hash id
        = if id = idGetter row ∧ tb.ContainsId hash (idGetter row) = false
          then some (match tb.freeList_.getLast? with
            | some slot => slot
            | none => tb.records_.length)
          else tb.pkIndex_.Get hash id) ∧
      tb'.aliveCount_
        = tb.aliveCount_ + (if tb.ContainsId hash (idGetter row) then 0 else 1) ∧
      (tb.ContainsId hash (idGetter row) = true → tb' = tb) := by
  have hinv0 := hinv
  obtain ⟨hpk, hlf, hlen, h3, h4, h5, h6, h7⟩ := hinv
  simp only [Table.Insert, Table.InsertInternal]
  by_cases hc : tb.pkIndex_.ContainsKey hash (idGetter row) = true
  · rw [if_pos hc]
    have hc' : tb.ContainsId hash (idGetter row) = true := hc
    refine ⟨tb, rfl, hinv0, ?_, by simp [hc'], fun _ => rfl⟩
    intro id
    simp [hc']
  · rw [if_neg hc]
    have hc' : tb.ContainsId hash (idGetter row) = false := by
      simpa [Table.ContainsId] using hc
    have hgn : tb.pkIndex_.Get hash (idGetter row) = none := by
      rw [table_containsId_iff] at hc'
      cases hg : tb.pkIndex_.Get hash (idGetter row) with
      | none => rfl
      | some v => rw [hg] at hc'; simp at hc'
    cases hfl : tb.freeList_.getLast? with
    | some slot =>
      have hfl' : tb.freeList_.dropLast ++ [slot] = tb.freeList_ :=
        List.dropLast_append_getLast? slot (by rw [hfl]; rfl)
      have hmem : slot ∈ tb.freeList_ := by rw [← hfl']; simp
      have hdead : tb.alive_[slot]? = some false := (h5 slot).mp hmem
      have hsl : slot < tb.alive_.length := (List.getElem?_eq_some.mp hdead).1
      simp only
      rw [if_pos ⟨by omega, hsl⟩]
      simp only [HashTable.Add]
      obtain ⟨pk, e, hpk', -, hlf'⟩ := Set_spec hash tb.pkIndex_ hpk (idGetter row) slot
      have hget := Set_Get hash tb.pkIndex_ pk hpk (idGetter row) slot e
      rw [e]
      refine ⟨_, rfl, ⟨hpk', by rw [hlf', hlf], ?_, ?_, ?_, ?_, ?_, ?_⟩, ?_, by simp [hc'], ?_⟩
      · simp only [setAt, List.length_append, List.length_take, List.length_cons,
          List.length_drop]
        omega
      · intro id s hs
        simp only at hs ⊢
        rw [hget] at hs
        rw [getElem?_setAt _ _ _ _ hsl, getElem?_setAt _ _ _ _ (by omega)]
        split_ifs at hs with hid
        · simp only [Option.some.injEq] at hs
          subst hs
          subst hid
          simp
        · obtain ⟨a1, a2⟩ := h3 id s hs
          have hne : s ≠ slot := by
            intro e'; subst e'; rw [hdead] at a1; cases a1
          rw [if_neg hne, if_neg hne]
          exact ⟨a1, a2⟩
      · intro s hs
        simp only at hs ⊢
        rw [getElem?_setAt _ _ _ _ hsl] at hs
        by_cases hss : s = slot
        · subst hss
          exact ⟨idGetter row, by rw [hget, if_pos rfl]⟩
        · rw [if_neg hss] at hs
          obtain ⟨id, hid⟩ := h4 s hs
          refine ⟨id, ?_⟩
          rw [hget, if_neg, hid]
          intro e'
          rw [e', hgn] at hid
          cases hid
      · intro s
        simp only
        rw [getElem?_setAt _ _ _ _ hsl]
        have hnd : (tb.freeList_.dropLast ++ [slot]).Nodup := by rw [hfl']; exact h6
        rw [List.nodup_append] at hnd
        by_cases hss : s = slot
        · subst hss
          rw [if_pos rfl]
          constructor
          · intro hm
            exact absurd (List.mem_singleton.mpr rfl) (hnd.2.2 hm)
          · intro hm
            cases hm
        · rw [if_neg hss, ← h5 s, ← hfl']
          simp [hss]
      · exact List.Nodup.sublist (List.dropLast_sublist _) h6
      · simp only
        rw [count_setAt_true _ _ hdead, h7]
      · intro id
        simp only
        rw [hget, hc']
        simp
      · intro hcc
        rw [hc'] at hcc
        cases hcc
    | none =>
      have hnil : tb.freeList_ = [] := List.getLast?_eq_none_iff.mp hfl
      simp only [HashTable.Add]
      obtain ⟨pk, e, hpk', -, hlf'⟩ :=
        Set_spec hash tb.pkIndex_ hpk (idGetter row) tb.records_.length
      have hget := Set_Get hash tb.pkIndex_ pk hpk (idGetter row) tb.records_.length e
      rw [e]
      refine ⟨_, rfl, ⟨hpk', by rw [hlf', hlf], ?_, ?_, ?_, ?_, ?_, ?_⟩, ?_, by simp [hc'], ?_⟩
      · simp [hlen]
      · intro id s hs
        simp only at hs ⊢
        rw [hget] at hs
        split_ifs at hs with hid
        · simp only [Option.some.injEq] at hs
          subst hs
          subst hid
          rw [← hlen, List.getElem?_concat_length, hlen, List.getElem?_concat_length]
          simp
        · obtain ⟨a1, r, a2, a3⟩ := h3 id s hs
          have hs1 : s < tb.alive_.length := (List.getElem?_eq_some.mp a1).1
          rw [List.getElem?_append_left hs1, List.getElem?_append_left (by omega)]
          exact ⟨a1, r, a2, a3⟩
      · intro s hs
        simp only at hs ⊢
        by_cases hss : s < tb.alive_.length
        · rw [List.getElem?_append_left hss] at hs
          obtain ⟨id, hid⟩ := h4 s hs
          refine ⟨id, ?_⟩
          rw [hget, if_neg, hid]
          intro e'
          rw [e', hgn] at hid
          cases hid
        · have hs2 : s < (tb.alive_ ++ [true]).length := (List.getElem?_eq_some.mp hs).1
          simp only [List.length_append, List.length_singleton] at hs2
          have : s = tb.records_.length := by omega
          subst this
          exact ⟨idGetter row, by rw [hget, if_pos rfl]⟩
      · intro s
        simp only
        rw [hnil]
        simp only [List.not_mem_nil, false_iff]
        intro hs
        by_cases hss : s < tb.alive_.length
        · rw [List.getElem?_append_left hss] at hs
          have := (h5 s).mpr hs
          rw [hnil] at this
          simp at this
        · have hs2 : s < (tb.alive_ ++ [true]).length := (List.getElem?_eq_some.mp hs).1
          simp only [List.length_append, List.length_singleton] at hs2
          have : s = tb.alive_.length := by omega
          subst this
          rw [List.getElem?_concat_length] at hs
          cases hs
      · exact h6
      · simp only
        rw [List.count_append, h7]
        simp
      · intro id
        simp only
        rw [hget, hc']
        simp
      · intro hcc
        rw [hc'] at hcc
        cases hcc

theorem table_DeleteById_spec [DecidableEq IdT] (idGetter : T → IdT) (hash : IdT → Nat)
    (tb : Table T IdT) (hinv : tb.Inv idGetter hash) (id : IdT) :
    (tb.DeleteById hash id).1.Inv idGetter hash ∧
    (∀ id', (tb.DeleteById hash id).1.pkIndex_.Get hash id'
      = if id' = id then none else tb.pkIndex_.Get hash id') ∧
    (tb.DeleteById hash id).2 = tb.ContainsId hash id ∧
    (tb.DeleteById hash id).1.aliveCount_ + (if (tb.DeleteById hash id).2 then 1 else 0)
      = tb.aliveCount_ := by
  have hinv0 := hinv
  obtain ⟨hpk, hlf, hlen, h3, h4, h5, h6, h7⟩ := hinv
  cases hg : tb.pkIndex_.Get hash id with
  | none =>
    have hg' : tb.pkIndex_.TryGet hash id = none := hg
    have hd : tb.DeleteById hash id = (tb, false) := by
      simp only [Table.DeleteById, hg']
    rw [hd]
    refine ⟨hinv0, ?_, ?_, by simp⟩
    · intro id'
      split_ifs with e
      · rw [e]; exact hg
      · rfl
    · rw [table_containsId_iff, hg]; rfl
  | some slot =>
    have hg' : tb.pkIndex_.TryGet hash id = some slot := hg
    obtain ⟨halive, r, hr, hrid⟩ := h3 id slot hg
    have hsl : slot < tb.alive_.length := (List.getElem?_eq_some.mp halive).1
    have hcond : ¬ (slot ≥ tb.alive_.length ∨ tb.alive_[slot]?.getD false = false) := by
      rw [halive]
      simp only [Option.getD_some, Bool.true_eq_false, or_false]
      omega
    have hd : tb.DeleteById hash id
        = (⟨tb.records_, setAt slot false tb.alive_, tb.freeList_ ++ [slot],
            tb.aliveCount_ - 1, (tb.pkIndex_.Remove hash id).1⟩, true) := by
      simp only [Table.DeleteById, hg', hcond, if_false]
    rw [hd]
    obtain ⟨hpk', -, -, hlf', -⟩ := Remove_spec hash tb.pkIndex_ hpk id
    have hget := Remove_Get hash tb.pkIndex_ hpk id
    have hcnt := count_setAt_false _ _ halive
    refine ⟨⟨hpk', by rw [hlf', hlf], ?_, ?_, ?_, ?_, ?_, ?_⟩, hget, ?_, ?_⟩
    · simp only [setAt, List.length_append, List.length_take, List.length_cons,
        List.length_drop]
      omega
    · intro id' s hs
      simp only at hs ⊢
      rw [hget] at hs
      split_ifs at hs with hid
      obtain ⟨a1, a2⟩ := h3 id' s hs
      have hne : s ≠ slot := by
        intro e'
        subst e'
        exact hid (table_slot_unique idGetter hash tb hinv0 id' id s hs hg)
      rw [getElem?_setAt _ _ _ _ hsl, if_neg hne]
      exact ⟨a1, a2⟩
    · intro s hs
      simp only at hs ⊢
      rw [getElem?_setAt _ _ _ _ hsl] at hs
      by_cases hss : s = slot
      · rw [if_pos hss] at hs; cases hs
      rw [if_neg hss] at hs
      obtain ⟨id', hid'⟩ := h4 s hs
      refine ⟨id', ?_⟩
      rw [hget, if_neg, hid']
      intro e'
      subst e'
      rw [hg] at hid'
      simp only [Option.some.injEq] at hid'
      exact hss hid'.symm
    · intro s
      simp only
      rw [getElem?_setAt _ _ _ _ hsl, List.mem_append, List.mem_singleton]
      by_cases hss : s = slot
      · subst hss; simp
      · rw [if_neg hss, ← h5 s]
        simp [hss]
    · simp only
      rw [List.nodup_append]
      refine ⟨h6, by simp, ?_⟩
      intro a ha1 ha2
      simp only [List.mem_singleton] at ha2
      subst ha2
      have := (h5 a).mp ha1
      rw [halive] at this
      cases this
    · simp only
      omega
    · rw [table_containsId_iff, hg]; rfl
    · simp only [if_true]
      omega

theorem table_UpdateById_spec [DecidableEq IdT] (idGetter : T → IdT) (hash : IdT → Nat)
    (tb : Table T IdT) (hinv : tb.Inv idGetter hash) (id : IdT) (newRow : T) :
    ∃ r, tb.UpdateById idGetter hash id newRow = some r ∧ r.1.Inv idGetter hash ∧
      r.1.pkIndex_ = tb.pkIndex_ ∧ r.1.alive_ = tb.alive_ ∧ r.1.freeList_ = tb.freeList_ ∧
      r.1.aliveCount_ = tb.aliveCount_ := by
  have hinv0 := hinv
  obtain ⟨hpk, hlf, hlen, h3, h4, h5, h6, h7⟩ := hinv
  cases hg : tb.pkIndex_.Get hash id with
  | none =>
    have hg' : tb.pkIndex_.TryGet hash id = none := hg
    exact ⟨(tb, false), by simp only [Table.UpdateById, hg'], hinv0, rfl, rfl, rfl, rfl⟩
  | some slot =>
    have hg' : tb.pkIndex_.TryGet hash id = some slot := hg
    obtain ⟨halive, r, hr, hrid⟩ := h3 id slot hg
    have hsl : slot < tb.alive_.length := (List.getElem?_eq_some.mp halive).1
    have hcond : ¬ (slot ≥ tb.alive_.length ∨ tb.alive_[slot]?.getD false = false) := by
      rw [halive]
      simp only [Option.getD_some, Bool.true_eq_false, or_false]
      omega
    by_cases hid : idGetter newRow = id
    · have hu : tb.UpdateById idGetter hash id newRow
          = some (⟨setAt slot newRow tb.records_, tb.alive_, tb.freeList_, tb.aliveCount_,
              tb.pkIndex_⟩, true) := by
        simp only [Table.UpdateById, hg', hcond, if_false, hid, ne_eq, not_true_eq_false]
        rw [if_pos (by omega)]
      refine ⟨_, hu, ⟨hpk, hlf, ?_, ?_, h4, h5, h6, h7⟩, rfl, rfl, rfl, rfl⟩
      · simp only [setAt, List.length_append, List.length_take, List.length_cons,
          List.length_drop]
        omega
      · intro id' s hs
        simp only at hs ⊢
        obtain ⟨a1, a2⟩ := h3 id' s hs
        refine ⟨a1, ?_⟩
        rw [getElem?_setAt _ _ _ _ (by omega)]
        by_cases hss : s = slot
        · subst hss
          rw [if_pos rfl]
          exact ⟨newRow, rfl, by
            rw [hid]; exact table_slot_unique idGetter hash tb hinv0 id id' s hg hs⟩
        · rw [if_neg hss]
          exact a2
    · have hu : tb.UpdateById idGetter hash id newRow = some (tb, false) := by
        simp only [Table.UpdateById, hg', hcond, if_false, ne_eq, hid, not_false_eq_true,
          if_true]
      exact ⟨_, hu, hinv0, rfl, rfl, rfl, rfl⟩

theorem table_step_inv [DecidableEq IdT] (idGetter : T → IdT) (hash : IdT → Nat)
    (tb : Table T IdT) (hinv : tb.Inv idGetter hash) (op : TableOp T IdT) :
    ∃ tb', tb.step idGetter hash op = some tb' ∧ tb'.Inv idGetter hash ∧
      tb'.aliveCount_
          + (match op with
            | .deleteById id => if (tb.DeleteById hash id).2 then 1 else 0
            | _ => 0)
        = tb.aliveCount_
          + (match op with
            | .insert row => if tb.ContainsId hash (idGetter row) then 0 else 1
            | _ => 0) := by
  cases op with
  | insert row =>
    obtain ⟨tb', e, hinv', -, hc, -⟩ := table_Insert_spec idGetter hash tb hinv row
    exact ⟨tb', e, hinv', by simpa using hc⟩
  | deleteById id =>
    obtain ⟨hinv', -, -, hc⟩ := table_DeleteById_spec idGetter hash tb hinv id
    exact ⟨_, rfl, hinv', by simpa using hc⟩
  | updateById id newRow =>
    obtain ⟨r, e, hinv', -, -, -, hc⟩ := table_UpdateById_spec idGetter hash tb hinv id newRow
    exact ⟨r.1, by simp only [Table.step, e, Option.map_some'], hinv', by simpa using hc⟩

theorem table_run_inv [DecidableEq IdT] (idGetter : T → IdT) (hash : IdT → Nat)
    (ops : List (TableOp T IdT)) (tb : Table T IdT) (hinv : tb.Inv idGetter hash) :
    ∃ tb', tb.run idGetter hash ops = some tb' ∧ tb'.Inv idGetter hash ∧
      tb'.aliveCount_ + tb.deletesDone idGetter hash ops
        = tb.aliveCount_ + tb.insertsAdded idGetter hash ops := by
  induction ops generalizing tb with
  | nil => exact ⟨tb, rfl, hinv, rfl⟩
  | cons op ops ih =>
    obtain ⟨tb1, e1, hinv1, hc1⟩ := table_step_inv idGetter hash tb hinv op
    obtain ⟨tb2, e2, hinv2, hc2⟩ := ih tb1 hinv1
    refine ⟨tb2, by simp only [Table.run, e1, e2], hinv2, ?_⟩
    simp only [Table.deletesDone, Table.insertsAdded, e1]
    cases op <;> simp only at hc1 ⊢ <;> omega

theorem table_isAliveSlot_iff (tb : Table T IdT) (slot : Nat) :
    tb.IsAliveSlot slot = true ↔ tb.alive_[slot]? = some true := by
  simp only [Table.IsAliveSlot, Bool.and_eq_true, decide_eq_true_eq]
  constructor
  · rintro ⟨h1, h2⟩
    rw [List.getElem?_eq_getElem h1] at h2 ⊢
    simpa using h2
  · intro h
    exact ⟨(List.getElem?_eq_some.mp h).1, by rw [h]; rfl⟩

/-- C7. In every `Table` state reached from the empty table by `Insert`, `DeleteById` and
`UpdateById` calls (which all succeed), a slot is alive exactly when it is the value of
exactly one id of the primary-key index, and the record stored at the slot of an id has
that id. -/
theorem table_pk_bijection [DecidableEq IdT] (idGetter : T → IdT) (hash : IdT → Nat)
    (ops : List (TableOp T IdT)) :
    ∃ tb, (Table.new : Table T IdT).run idGetter hash ops = some tb ∧
      ∀ slot, (tb.IsAliveSlot slot = true ↔ ∃! id, tb.pkIndex_.Get hash id = some slot) ∧
        ∀ id, tb.pkIndex_.Get hash id = some slot →
          ∃ r, tb.GetRowBySlot slot = some r ∧ idGetter r = id := by
  obtain ⟨tb, e, hinv, -⟩ := table_run_inv idGetter hash ops Table.new
    (table_inv_new idGetter hash)
  refine ⟨tb, e, ?_⟩
  intro slot
  have hinv0 := hinv
  obtain ⟨hpk, hlf, hlen, h3, h4, h5, h6, h7⟩ := hinv
  constructor
  · rw [table_isAliveSlot_iff]
    constructor
    · intro ha
      obtain ⟨id, hid⟩ := h4 slot ha
      exact ⟨id, hid, fun id' hid' => table_slot_unique idGetter hash tb hinv0 id' id slot hid' hid⟩
    · rintro ⟨id, hid, -⟩
      exact (h3 id slot hid).1
  · intro id hid
    obtain ⟨ha, r, hr, hrid⟩ := h3 id slot hid
    refine ⟨r, ?_, hrid⟩
    simp only [Table.GetRowBySlot, (table_isAliveSlot_iff tb slot).mpr ha, if_true, hr]

/-- C8. In every `Table` state reached from the empty table by `Insert`, `DeleteById` and
`UpdateById` calls, every slot on the free list is a slot of the record array that is not
alive, and no slot occurs on the free list twice. -/
theorem table_free_list [DecidableEq IdT] (idGetter : T → IdT) (hash : IdT → Nat)
    (ops : List (TableOp T IdT)) :
    ∃ tb, (Table.new : Table T IdT).run idGetter hash ops = some tb ∧
      (∀ slot ∈ tb.freeList_, slot < tb.records_.length ∧ tb.IsAliveSlot slot = false) ∧
      tb.freeList_.Nodup := by
  obtain ⟨tb, e, hinv, -⟩ := table_run_inv idGetter hash ops Table.new
    (table_inv_new idGetter hash)
  obtain ⟨hpk, hlf, hlen, h3, h4, h5, h6, h7⟩ := hinv
  refine ⟨tb, e, ?_, h6⟩
  intro slot hs
  have hd := (h5 slot).mp hs
  refine ⟨by rw [← hlen]; exact (List.getElem?_eq_some.mp hd).1, ?_⟩
  cases ha : tb.IsAliveSlot slot with
  | false => rfl
  | true =>
    rw [(table_isAliveSlot_iff tb slot).mp ha] at hd
    cases hd

/-- C9. After every sequence of `Insert`, `DeleteById` and `UpdateById` calls on an empty
table, `GetRowCount()` is the number of `Insert` calls that added a row minus the number
of `DeleteById` calls that returned `true`, and it is the number of alive slots. -/
theorem table_row_count [DecidableEq IdT] (idGetter : T → IdT) (hash : IdT → Nat)
    (ops : List (TableOp T IdT)) :
    ∃ tb, (Table.new : Table T IdT).run idGetter hash ops = some tb ∧
      tb.GetRowCount + (Table.new : Table T IdT).deletesDone idGetter hash ops
        = (Table.new : Table T IdT).insertsAdded idGetter hash ops ∧
      tb.GetRowCount = (Table.new : Table T IdT).insertsAdded idGetter hash ops
        - (Table.new : Table T IdT).deletesDone idGetter hash ops ∧
      tb.GetRowCount = tb.GetAliveSlots.length := by
  obtain ⟨tb, e, hinv, hc⟩ := table_run_inv idGetter hash ops Table.new
    (table_inv_new idGetter hash)
  obtain ⟨hpk, hlf, hlen, h3, h4, h5, h6, h7⟩ := hinv
  have h0 : (Table.new : Table T IdT).aliveCount_ = 0 := rfl
  rw [h0, Nat.zero_add] at hc
  refine ⟨tb, e, hc, ?_, ?_⟩
  · simp only [Table.GetRowCount]; omega
  · simp only [Table.GetRowCount, Table.GetAliveSlots, length_filter_alive, h7]

/-- C10. In every reachable `Table` state: `Insert` of a record succeeds and makes
`ContainsId` true for the id of the record; a `DeleteById(id)` that returns `true` makes
`ContainsId(id)` false; and neither call changes `ContainsId` for any other id. -/
theorem table_containsId [DecidableEq IdT] (idGetter : T → IdT) (hash : IdT → Nat)
    (ops : List (TableOp T IdT)) :
    ∃ tb, (Table.new : Table T IdT).run idGetter hash ops = some tb ∧
      (∀ row, ∃ tb', tb.Insert idGetter hash row = some tb' ∧
        tb'.ContainsId hash (idGetter row) = true ∧
        ∀ id', id' ≠ idGetter row → tb'.ContainsId hash id' = tb.ContainsId hash id') ∧
      (∀ id, ((tb.DeleteById hash id).2 = true →
          (tb.DeleteById hash id).1.ContainsId hash id = false) ∧
        ∀ id', id' ≠ id →
          (tb.DeleteById hash id).1.ContainsId hash id' = tb.ContainsId hash id') := by
  obtain ⟨tb, e, hinv, -⟩ := table_run_inv idGetter hash ops Table.new
    (table_inv_new idGetter hash)
  refine ⟨tb, e, ?_, ?_⟩
  · intro row
    obtain ⟨tb', e', hinv', hget, -, hsame⟩ := table_Insert_spec idGetter hash tb hinv row
    refine ⟨tb', e', ?_, ?_⟩
    · cases hc : tb.ContainsId hash (idGetter row) with
      | true => rw [hsame hc]; exact hc
      | false =>
        rw [table_containsId_iff, hget, if_pos ⟨rfl, hc⟩]
        rfl
    · intro id' hne
      rw [table_containsId_iff, table_containsId_iff, hget, if_neg (fun c => hne c.1)]
  · intro id
    obtain ⟨hinv', hget, -, -⟩ := table_DeleteById_spec idGetter hash tb hinv id
    constructor
    · intro _
      rw [table_containsId_iff, hget, if_pos rfl]
      rfl
    · intro id' hne
      rw [table_containsId_iff, table_containsId_iff, hget, if_neg hne]

end TableTheory

section TableRowsTheory

variable {T IdT : Type}

/-! ### The effect of each `Table` call on the fields -/

theorem table_get_none_of_not_contains [DecidableEq IdT] (hash : IdT → Nat)
    (tb : Table T IdT) (id : IdT) (hc : tb.ContainsId hash id = false) :
    tb.pkIndex_.Get hash id = none := by
  rw [table_containsId_iff] at hc
  cases hg : tb.pkIndex_.Get hash id with
  | none => rfl
  | some v => rw [hg] at hc; simp at hc

theorem table_get_some_of_contains [DecidableEq IdT] (hash : IdT → Nat)
    (tb : Table T IdT) (id : IdT) (hc : tb.ContainsId hash id = true) :
    ∃ slot, tb.pkIndex_.Get hash id = some slot := by
  rw [table_containsId_iff] at hc
  exact Option.isSome_iff_exists.mp hc

theorem table_InsertInternal_present [DecidableEq IdT] (idGetter : T → IdT)
    (hash : IdT → Nat) (tb : Table T IdT) (row : T) (rowIndex : Int) (flag : Bool)
    (hc : tb.ContainsId hash (idGetter row) = true) :
    tb.InsertInternal idGetter hash row rowIndex flag = some tb := by
  have hc' : tb.pkIndex_.ContainsKey hash (idGetter row) = true := hc
  simp only [Table.InsertInternal, hc', if_true]

theorem table_InsertInternal_flag [DecidableEq IdT] (idGetter : T → IdT)
    (hash : IdT → Nat) (tb : Table T IdT) (row : T) (rowIndex : Int) (flag : Bool) :
    tb.InsertInternal idGetter hash row rowIndex flag = tb.Insert idGetter hash row := rfl

theorem table_Insert_reuse [DecidableEq IdT] (idGetter : T → IdT) (hash : IdT → Nat)
    (tb : Table T IdT) (hinv : tb.Inv idGetter hash) (row : T)
    (hc : tb.ContainsId hash (idGetter row) = false) (slot : Nat)
    (hfl : tb.freeList_.getLast? = some slot) :
    tb.alive_[slot]? = some false ∧
    ∃ pk, tb.pkIndex_.Set hash (idGetter row) slot = some pk ∧
      tb.Insert idGetter hash row
        = some ⟨setAt slot row tb.records_, setAt slot true tb.alive_, tb.freeList_.dropLast,
            tb.aliveCount_ + 1, pk⟩ := by
  obtain ⟨hpk, hlf, hlen, h3, h4, h5, h6, h7⟩ := hinv
  have hfl' : tb.freeList_.dropLast ++ [slot] = tb.freeList_ :=
    List.dropLast_append_getLast? slot (by rw [hfl]; rfl)
  have hmem : slot ∈ tb.freeList_ := by rw [← hfl']; simp
  have hdead : tb.alive_[slot]? = some false := (h5 slot).mp hmem
  have hsl : slot < tb.alive_.length := by
    by_contra h
    rw [List.getElem?_eq_none (by omega)] at hdead
    cases hdead
  obtain ⟨pk, e, -⟩ := Set_spec hash tb.pkIndex_ hpk (idGetter row) slot
  refine ⟨hdead, pk, e, ?_⟩
  have hc' : tb.pkIndex_.ContainsKey hash (idGetter row) = false := hc
  have hcond : slot < tb.records_.length ∧ slot < tb.alive_.length := ⟨by omega, hsl⟩
  simp only [Table.Insert, Table.InsertInternal, hc', hfl, HashTable.Add, hcond, and_self,
    if_true, e, Bool.false_eq_true, if_false]

theorem table_Insert_append [DecidableEq IdT] (idGetter : T → IdT) (hash : IdT → Nat)
    (tb : Table T IdT) (hinv : tb.Inv idGetter hash) (row : T)
    (hc : tb.ContainsId hash (idGetter row) = false) (hfl : tb.freeList_ = []) :
    ∃ pk, tb.pkIndex_.Set hash (idGetter row) tb.records_.length = some pk ∧
      tb.Insert idGetter hash row
        = some ⟨tb.records_ ++ [row], tb.alive_ ++ [true], [], tb.aliveCount_ + 1, pk⟩ := by
  obtain ⟨hpk, hlf, hlen, h3, h4, h5, h6, h7⟩ := hinv
  obtain ⟨pk, e, -⟩ := Set_spec hash tb.pkIndex_ hpk (idGetter row) tb.records_.length
  refine ⟨pk, e, ?_⟩
  have hc' : tb.pkIndex_.ContainsKey hash (idGetter row) = false := hc
  have hgl : tb.freeList_.getLast? = none := by rw [hfl]; rfl
  simp only [Table.Insert, Table.InsertInternal, hc', hgl, HashTable.Add]
  simp only [e, hfl, Bool.false_eq_true, if_false]

theorem table_DeleteById_found [DecidableEq IdT] (idGetter : T → IdT) (hash : IdT → Nat)
    (tb : Table T IdT) (hinv : tb.Inv idGetter hash) (id : IdT) (slot : Nat)
    (hg : tb.pkIndex_.Get hash id = some slot) :
    tb.alive_[slot]? = some true ∧
    tb.DeleteById hash id
      = (⟨tb.records_, setAt slot false tb.alive_, tb.freeList_ ++ [slot],
          tb.aliveCount_ - 1, (tb.pkIndex_.Remove hash id).1⟩, true) := by
  obtain ⟨hpk, hlf, hlen, h3, h4, h5, h6, h7⟩ := hinv
  have hg' : tb.pkIndex_.TryGet hash id = some slot := hg
  obtain ⟨halive, r, hr, hrid⟩ := h3 id slot hg
  have hsl : slot < tb.alive_.length := by
    by_contra h
    rw [List.getElem?_eq_none (by omega)] at halive
    cases halive
  have hcond : ¬ (slot ≥ tb.alive_.length ∨ tb.alive_[slot]?.getD false = false) := by
    rw [halive]
    simp only [Option.getD_some, Bool.true_eq_false, or_false]
    omega
  refine ⟨halive, ?_⟩
  simp only [Table.DeleteById, hg', hcond, if_false]

theorem table_DeleteById_absent [DecidableEq IdT] (hash : IdT → Nat)
    (tb : Table T IdT) (id : IdT) (hg : tb.pkIndex_.Get hash id = none) :
    tb.DeleteById hash id = (tb, false) := by
  have hg' : tb.pkIndex_.TryGet hash id = none := hg
  simp only [Table.DeleteById, hg']

theorem table_UpdateById_found [DecidableEq IdT] (idGetter : T → IdT) (hash : IdT → Nat)
    (tb : Table T IdT) (hinv : tb.Inv idGetter hash) (id : IdT) (newRow : T) (slot : Nat)
    (hg : tb.pkIndex_.Get hash id = some slot) (hid : idGetter newRow = id) :
    tb.UpdateById idGetter hash id newRow
      = some (⟨setAt slot newRow tb.records_, tb.alive_, tb.freeList_, tb.aliveCount_,
          tb.pkIndex_⟩, true) := by
  obtain ⟨hpk, hlf, hlen, h3, h4, h5, h6, h7⟩ := hinv
  have hg' : tb.pkIndex_.TryGet hash id = some slot := hg
  obtain ⟨halive, r, hr, hrid⟩ := h3 id slot hg
  have hsl : slot < tb.alive_.length := by
    by_contra h
    rw [List.getElem?_eq_none (by omega)] at halive
    cases halive
  have hcond : ¬ (slot ≥ tb.alive_.length ∨ tb.alive_[slot]?.getD false = false) := by
    rw [halive]
    simp only [Option.getD_some, Bool.true_eq_false, or_false]
    omega
  simp only [Table.UpdateById, hg', hcond, if_false, hid, ne_eq, not_true_eq_false]
  rw [if_pos (by omega)]

theorem table_UpdateById_refused [DecidableEq IdT] (idGetter : T → IdT) (hash : IdT → Nat)
    (tb : Table T IdT) (hinv : tb.Inv idGetter hash) (id : IdT) (newRow : T)
    (h : tb.ContainsId hash id = false ∨ idGetter newRow ≠ id) :
    tb.UpdateById idGetter hash id newRow = some (tb, false) := by
  cases hg : tb.pkIndex_.Get hash id with
  | none =>
    have hg' : tb.pkIndex_.TryGet hash id = none := hg
    simp only [Table.UpdateById, hg']
  | some slot =>
    have hid : idGetter newRow ≠ id := by
      rcases h with h | h
      · rw [table_containsId_iff, hg] at h; cases h
      · exact h
    obtain ⟨hpk, hlf, hlen, h3, h4, h5, h6, h7⟩ := hinv
    have hg' : tb.pkIndex_.TryGet hash id = some slot := hg
    obtain ⟨halive, r, hr, hrid⟩ := h3 id slot hg
    have hsl : slot < tb.alive_.length := by
      by_contra h
      rw [List.getElem?_eq_none (by omega)] at halive
      cases halive
    have hcond : ¬ (slot ≥ tb.alive_.length ∨ tb.alive_[slot]?.getD false = false) := by
      rw [halive]
      simp only [Option.getD_some, Bool.true_eq_false, or_false]
      omega
    simp only [Table.UpdateById, hg', hcond, if_false, ne_eq, hid, not_false_eq_true, if_true]

theorem table_getRowBySlot_eq (tb : Table T IdT) (slot : Nat) :
    tb.GetRowBySlot slot
      = if tb.alive_[slot]? = some true then tb.records_[slot]? else none := by
  simp only [Table.GetRowBySlot]
  by_cases h : tb.IsAliveSlot slot = true
  · rw [if_pos h, if_pos ((table_isAliveSlot_iff tb slot).mp h)]
  · rw [if_neg h, if_neg (fun c => h ((table_isAliveSlot_iff tb slot).mpr c))]

theorem table_isAliveSlot_eq (tb tb' : Table T IdT) (s : Nat)
    (h : tb'.alive_[s]? = tb.alive_[s]?) : tb'.IsAliveSlot s = tb.IsAliveSlot s := by
  cases h1 : tb.IsAliveSlot s with
  | true =>
    rw [table_isAliveSlot_iff] at h1 ⊢
    rw [h, h1]
  | false =>
    cases h2 : tb'.IsAliveSlot s with
    | false => rfl
    | true =>
      rw [table_isAliveSlot_iff, h, ← table_isAliveSlot_iff, h1] at h2
      cases h2

/-! ### The free list as a stack of freed slots -/

theorem mem_keepLast (x : Nat) (l : List Nat) : x ∈ keepLast l ↔ x ∈ l := by
  induction l with
  | nil => simp [keepLast]
  | cons a l ih =>
    by_cases h : a ∈ l
    · simp only [keepLast, h, if_true, ih, List.mem_cons]
      constructor
      · exact Or.inr
      · rintro (rfl | h')
        · exact h
        · exact h'
    · simp only [keepLast, h, if_false, List.mem_cons, ih]

theorem keepLast_filter (p : Nat → Bool) (l : List Nat) :
    keepLast (l.filter p) = (keepLast l).filter p := by
  induction l with
  | nil => simp [keepLast]
  | cons a l ih =>
    by_cases hp : p a = true
    · rw [List.filter_cons_of_pos hp]
      by_cases h : a ∈ l
      · have h' : a ∈ l.filter p := List.mem_filter.mpr ⟨h, hp⟩
        simp only [keepLast, h, h', if_true, ih]
      · have h' : a ∉ l.filter p := fun c => h (List.mem_filter.mp c).1
        simp only [keepLast, h, h', if_false, ih]
        rw [List.filter_cons_of_pos hp]
    · rw [List.filter_cons_of_neg hp, ih]
      by_cases h : a ∈ l
      · simp only [keepLast, h, if_true]
      · simp only [keepLast, h, if_false]
        rw [List.filter_cons_of_neg hp]

theorem keepLast_append_singleton (l : List Nat) (s : Nat) :
    keepLast (l ++ [s]) = (keepLast l).filter (fun x => decide (x ≠ s)) ++ [s] := by
  induction l with
  | nil => simp [keepLast]
  | cons a l ih =>
    rw [List.cons_append]
    by_cases h : a ∈ l
    · have h' : a ∈ l ++ [s] := List.mem_append_left _ h
      simp only [keepLast, h, h', if_true, ih]
    · by_cases hs : a = s
      · have h' : a ∈ l ++ [s] := by rw [hs]; simp
        simp only [keepLast, h, h', if_true, if_false, ih]
        rw [List.filter_cons_of_neg (by simp [hs])]
      · have h' : a ∉ l ++ [s] := by
          simp only [List.mem_append, List.mem_singleton, not_or]
          exact ⟨h, hs⟩
        simp only [keepLast, h, h', if_false, ih]
        rw [List.filter_cons_of_pos (by simp [hs]), List.cons_append]

theorem keepLast_getLast? (l : List Nat) : (keepLast l).getLast? = l.getLast? := by
  induction l with
  | nil => rfl
  | cons a l ih =>
    cases l with
    | nil => simp [keepLast]
    | cons b l' =>
      rw [List.getLast?_cons_cons, ← ih]
      by_cases h : a ∈ b :: l'
      · simp only [keepLast, h, if_true]
      · have hne : keepLast (b :: l') ≠ [] := by
          intro c
          have : b ∈ keepLast (b :: l') := (mem_keepLast b _).mpr (List.mem_cons_self _ _)
          rw [c] at this
          cases this
        obtain ⟨x, xs, hx⟩ := List.exists_cons_of_ne_nil hne
        rw [keepLast, if_neg h, hx, List.getLast?_cons_cons]

theorem filter_getLast? (p : Nat → Bool) (l : List Nat) :
    (l.filter p).getLast? = l.reverse.find? p := by
  induction l using List.reverseRecOn with
  | nil => rfl
  | append_singleton l a ih =>
    rw [List.filter_append, List.reverse_append, List.reverse_singleton, List.singleton_append,
      List.find?_cons]
    by_cases hp : p a = true
    · rw [List.filter_cons_of_pos hp, hp]
      simp
    · rw [List.filter_cons_of_neg hp]
      simp only [Bool.not_eq_true] at hp
      rw [hp]
      simp

theorem filter_ne_getLast (l : List Nat) (s : Nat) (hnd : l.Nodup)
    (hs : l.getLast? = some s) :
    l.filter (fun x => decide (x ≠ s)) = l.dropLast := by
  have hl : l.dropLast ++ [s] = l := List.dropLast_append_getLast? s (by rw [hs]; rfl)
  rw [← hl] at hnd
  have hnot : s ∉ l.dropLast := by
    intro c
    have := (List.nodup_append.mp hnd).2.2
    exact this c (List.mem_singleton_self s) 
  conv_lhs => rw [← hl]
  rw [List.filter_append, List.filter_cons_of_neg (by simp), List.filter_nil,
    List.append_nil, List.filter_eq_self]
  intro a ha
  simp only [ne_eq, decide_not, Bool.not_eq_eq_eq_not, Bool.not_true, decide_eq_false_iff_not]
  rintro rfl
  exact hnot ha

theorem table_isFreeSlot_iff (tb : Table T IdT) (slot : Nat) :
    tb.IsFreeSlot slot = true ↔ tb.alive_[slot]? = some false := by
  simp only [Table.IsFreeSlot, Bool.and_eq_true, decide_eq_true_eq, Bool.not_eq_true']
  constructor
  · rintro ⟨h1, h2⟩
    rw [List.getElem?_eq_getElem h1] at h2 ⊢
    simpa using h2
  · intro h
    have hsl : slot < tb.alive_.length := by
      by_contra c
      rw [List.getElem?_eq_none (by omega)] at h
      cases h
    exact ⟨hsl, by rw [h]; rfl⟩

theorem table_isFreeSlot_congr (tb tb' : Table T IdT) (h : tb'.alive_ = tb.alive_) :
    tb'.IsFreeSlot = tb.IsFreeSlot := by
  funext s
  simp only [Table.IsFreeSlot, h]

theorem table_step_log [DecidableEq IdT] (idGetter : T → IdT) (hash : IdT → Nat)
    (tb : Table T IdT) (hinv : tb.Inv idGetter hash) (log : List Nat) (hlog : tb.LogInv log)
    (op : TableOp T IdT) :
    ∃ tb', tb.step idGetter hash op = some tb' ∧ tb'.Inv idGetter hash ∧
      tb'.LogInv (log ++ tb.freedLog idGetter hash [op]) := by
  obtain ⟨tb1, e1, hinv1, -⟩ := table_step_inv idGetter hash tb hinv op
  refine ⟨tb1, e1, hinv1, ?_⟩
  have hnd : tb.freeList_.Nodup := hinv.2.2.2.2.2.2.1
  cases op with
  | insert row =>
    have hL : tb.freedLog idGetter hash [TableOp.insert row] = [] := by
      simp only [Table.freedLog, e1, List.append_nil]
    rw [hL, List.append_nil]
    have e1' : tb.Insert idGetter hash row = some tb1 := e1
    cases hc : tb.ContainsId hash (idGetter row) with
    | true =>
      have := table_InsertInternal_present idGetter hash tb row (-1) true hc
      rw [Table.Insert, this] at e1'
      cases e1'
      exact hlog
    | false =>
      cases hfl : tb.freeList_.getLast? with
      | some slot =>
        obtain ⟨hdead, pk, -, e⟩ := table_Insert_reuse idGetter hash tb hinv row hc slot hfl
        rw [e] at e1'
        cases e1'
        have hsl : slot < tb.alive_.length := by
          by_contra c
          rw [List.getElem?_eq_none (by omega)] at hdead
          cases hdead
        unfold Table.LogInv at hlog ⊢
        simp only
        have hfun : ∀ s, Table.IsFreeSlot
            (⟨setAt slot row tb.records_, setAt slot true tb.alive_, tb.freeList_.dropLast,
              tb.aliveCount_ + 1, pk⟩ : Table T IdT) s
            = (decide (s ≠ slot) && tb.IsFreeSlot s) := by
          intro s
          by_cases hs : s = slot
          · subst hs
            have : ¬ Table.IsFreeSlot
                (⟨setAt s row tb.records_, setAt s true tb.alive_, tb.freeList_.dropLast,
                  tb.aliveCount_ + 1, pk⟩ : Table T IdT) s = true := by
              rw [table_isFreeSlot_iff]
              simp only
              rw [getElem?_setAt s s true tb.alive_ hsl, if_pos rfl]
              simp
            simpa using this
          · have h1 : tb.IsFreeSlot s = true ↔ Table.IsFreeSlot
                (⟨setAt slot row tb.records_, setAt slot true tb.alive_, tb.freeList_.dropLast,
                  tb.aliveCount_ + 1, pk⟩ : Table T IdT) s = true := by
              rw [table_isFreeSlot_iff, table_isFreeSlot_iff]
              simp only
              rw [getElem?_setAt slot s true tb.alive_ hsl, if_neg hs]
            simp only [ne_eq, hs, not_false_eq_true, decide_True, Bool.true_and]
            exact (Bool.eq_iff_iff.mpr h1).symm
        have hff : List.filter (fun s => decide (s ≠ slot) && tb.IsFreeSlot s) log
            = List.filter (fun s => decide (s ≠ slot))
                (List.filter (fun s => tb.IsFreeSlot s) log) :=
          (List.filter_filter _ _).symm
        rw [List.filter_congr (fun s _ => hfun s), hff, keepLast_filter, ← hlog]
        exact (filter_ne_getLast tb.freeList_ slot hnd hfl).symm
      | none =>
        have hnil : tb.freeList_ = [] := List.getLast?_eq_none_iff.mp hfl
        obtain ⟨pk, -, e⟩ := table_Insert_append idGetter hash tb hinv row hc hnil
        rw [e] at e1'
        cases e1'
        unfold Table.LogInv at hlog ⊢
        simp only
        rw [hnil] at hlog
        have hfun : ∀ s, Table.IsFreeSlot
            (⟨tb.records_ ++ [row], tb.alive_ ++ [true], [], tb.aliveCount_ + 1, pk⟩ :
              Table T IdT) s = tb.IsFreeSlot s := by
          intro s
          apply Bool.eq_iff_iff.mpr
          rw [table_isFreeSlot_iff, table_isFreeSlot_iff]
          simp only
          by_cases hs : s < tb.alive_.length
          · rw [List.getElem?_append_left hs]
          · rw [List.getElem?_eq_none (l := tb.alive_) (by omega)]
            by_cases hs' : s = tb.alive_.length
            · subst hs'
              simp
            · rw [List.getElem?_eq_none (by simp; omega)]
        rw [List.filter_congr (fun s _ => hfun s)]
        exact hlog
  | deleteById id =>
    have e1' : (tb.DeleteById hash id).1 = tb1 := by
      simpa [Table.step] using e1
    cases hg : tb.pkIndex_.Get hash id with
    | none =>
      have hd := table_DeleteById_absent hash tb id hg
      have hL : tb.freedLog idGetter hash [TableOp.deleteById id] = [] := by
        simp only [Table.freedLog, hd, Table.step, List.append_nil]
        simp
      rw [hL, List.append_nil]
      rw [hd] at e1'
      rw [← e1']
      exact hlog
    | some slot =>
      obtain ⟨halive, hd⟩ := table_DeleteById_found idGetter hash tb hinv id slot hg
      have hg' : tb.pkIndex_.TryGet hash id = some slot := hg
      have hL : tb.freedLog idGetter hash [TableOp.deleteById id] = [slot] := by
        simp only [Table.freedLog, hd, Table.step, List.append_nil, hg']
        simp
      rw [hL]
      rw [hd] at e1'
      rw [← e1']
      have hsl : slot < tb.alive_.length := by
        by_contra c
        rw [List.getElem?_eq_none (by omega)] at halive
        cases halive
      unfold Table.LogInv at hlog ⊢
      simp only
      have hself : Table.IsFreeSlot
          (⟨tb.records_, setAt slot false tb.alive_, tb.freeList_ ++ [slot],
            tb.aliveCount_ - 1, (tb.pkIndex_.Remove hash id).1⟩ : Table T IdT) slot = true := by
        rw [table_isFreeSlot_iff]
        simp only
        rw [getElem?_setAt slot slot false tb.alive_ hsl, if_pos rfl]
      have hold : ¬ tb.IsFreeSlot slot = true := by
        rw [table_isFreeSlot_iff, halive]
        simp
      have hfun : ∀ s, (decide (s ≠ slot) && Table.IsFreeSlot
          (⟨tb.records_, setAt slot false tb.alive_, tb.freeList_ ++ [slot],
            tb.aliveCount_ - 1, (tb.pkIndex_.Remove hash id).1⟩ : Table T IdT) s)
            = tb.IsFreeSlot s := by
        intro s
        by_cases hs : s = slot
        · subst hs
          simp only [ne_eq, not_true_eq_false, decide_False, Bool.false_and]
          simpa using hold
        · simp only [ne_eq, hs, not_false_eq_true, decide_True, Bool.true_and]
          apply Bool.eq_iff_iff.mpr
          rw [table_isFreeSlot_iff, table_isFreeSlot_iff]
          simp only
          rw [getElem?_setAt slot s false tb.alive_ hsl, if_neg hs]
      rw [List.filter_append, List.filter_cons_of_pos hself, List.filter_nil,
        keepLast_append_singleton, ← keepLast_filter, List.filter_filter,
        List.filter_congr (fun s _ => hfun s), ← hlog]
  | updateById id newRow =>
    have hL : tb.freedLog idGetter hash [TableOp.updateById id newRow] = [] := by
      simp only [Table.freedLog, e1, List.append_nil]
    rw [hL, List.append_nil]
    obtain ⟨r, er, -, hpk, hal, hfr, -⟩ := table_UpdateById_spec idGetter hash tb hinv id newRow
    have : tb1 = r.1 := by
      simp only [Table.step, er, Option.map_some', Option.some.injEq] at e1
      exact e1.symm
    subst this
    unfold Table.LogInv at hlog ⊢
    rw [hfr, table_isFreeSlot_congr tb r.1 hal]
    exact hlog

theorem table_freedLog_cons [DecidableEq IdT] (idGetter : T → IdT) (hash : IdT → Nat)
    (tb tb1 : Table T IdT) (op : TableOp T IdT) (ops : List (TableOp T IdT))
    (h : tb.step idGetter hash op = some tb1) :
    tb.freedLog idGetter hash (op :: ops)
      = tb.freedLog idGetter hash [op] ++ tb1.freedLog idGetter hash ops := by
  simp only [Table.freedLog, h, List.append_nil]

theorem table_run_log [DecidableEq IdT] (idGetter : T → IdT) (hash : IdT → Nat)
    (ops : List (TableOp T IdT)) (tb : Table T IdT) (hinv : tb.Inv idGetter hash)
    (log : List Nat) (hlog : tb.LogInv log) :
    ∃ tb', tb.run idGetter hash ops = some tb' ∧ tb'.Inv idGetter hash ∧
      tb'.LogInv (log ++ tb.freedLog idGetter hash ops) := by
  induction ops generalizing tb log with
  | nil =>
    refine ⟨tb, rfl, hinv, ?_⟩
    simpa [Table.freedLog] using hlog
  | cons op ops ih =>
    obtain ⟨tb1, e1, hinv1, hlog1⟩ := table_step_log idGetter hash tb hinv log hlog op
    obtain ⟨tb2, e2, hinv2, hlog2⟩ := ih tb1 hinv1 _ hlog1
    refine ⟨tb2, ?_, hinv2, ?_⟩
    · simp only [Table.run, e1, e2]
    · rw [table_freedLog_cons idGetter hash tb tb1 op ops e1, ← List.append_assoc]
      exact hlog2

theorem table_logInv_new : (Table.new : Table T IdT).LogInv [] := rfl

theorem table_freeList_last (tb : Table T IdT) (log : List Nat) (hlog : tb.LogInv log) :
    tb.freeList_.getLast? = tb.mostRecentlyFreed log := by
  rw [hlog, keepLast_getLast?, filter_getLast?]
  rfl

theorem table_freeList_nil_iff [DecidableEq IdT] (idGetter : T → IdT) (hash : IdT → Nat)
    (tb : Table T IdT) (hinv : tb.Inv idGetter hash) :
    tb.freeList_ = [] ↔ ∀ slot, tb.IsFreeSlot slot = false := by
  obtain ⟨hpk, hlf, hlen, h3, h4, h5, h6, h7⟩ := hinv
  constructor
  · intro h slot
    cases hx : tb.IsFreeSlot slot with
    | false => rfl
    | true =>
      rw [table_isFreeSlot_iff, ← h5, h] at hx
      cases hx
  · intro h
    apply List.eq_nil_iff_forall_not_mem.mpr
    intro slot hm
    have := (table_isFreeSlot_iff tb slot).mpr ((h5 slot).mp hm)
    rw [h slot] at this
    cases this

/-- C11. In every reachable `Table` state, with the log of the slots released so far by
`DeleteById`: the back of the free list is the most recently released slot that is still
free, and the free list is empty exactly when no slot is free. `Insert` of a row whose id is
not present succeeds; when a free slot exists the row is written into that most recently
released free slot, which is popped from the free list, and the record array keeps its
length; when the free list is empty the row is appended and its slot is the previous array
length. The array grows exactly when the free list was empty, and then by one. -/
theorem table_insert_slot_reuse [DecidableEq IdT] (idGetter : T → IdT) (hash : IdT → Nat)
    (ops : List (TableOp T IdT)) :
    ∃ tb, (Table.new : Table T IdT).run idGetter hash ops = some tb ∧
      tb.freeList_.getLast?
        = tb.mostRecentlyFreed ((Table.new : Table T IdT).freedLog idGetter hash ops) ∧
      (tb.freeList_ = [] ↔ ∀ slot, tb.IsFreeSlot slot = false) ∧
      ∀ row, tb.ContainsId hash (idGetter row) = false →
        ∃ tb', tb.Insert idGetter hash row = some tb' ∧
          (∀ slot,
            tb.mostRecentlyFreed ((Table.new : Table T IdT).freedLog idGetter hash ops)
              = some slot →
            tb.IsFreeSlot slot = true ∧
            tb'.records_ = setAt slot row tb.records_ ∧
            tb'.records_.length = tb.records_.length ∧
            tb'.freeList_ = tb.freeList_.dropLast ∧
            tb'.pkIndex_.Get hash (idGetter row) = some slot ∧
            tb'.GetRowBySlot slot = some row) ∧
          (tb.freeList_ ≠ [] → tb'.records_.length = tb.records_.length) ∧
          (tb.freeList_ = [] →
            tb'.records_ = tb.records_ ++ [row] ∧
            tb'.pkIndex_.Get hash (idGetter row) = some tb.records_.length ∧
            tb'.GetRowBySlot tb.records_.length = some row) ∧
          (tb'.records_.length = tb.records_.length + 1 ↔ tb.freeList_ = []) := by
  obtain ⟨tb, e, hinv, hlog⟩ := table_run_log idGetter hash ops Table.new
    (table_inv_new idGetter hash) [] table_logInv_new
  rw [List.nil_append] at hlog
  have hlast := table_freeList_last tb _ hlog
  refine ⟨tb, e, hlast, table_freeList_nil_iff idGetter hash tb hinv, ?_⟩
  intro row hc
  have hlen : tb.alive_.length = tb.records_.length := hinv.2.2.1
  cases hfl : tb.freeList_.getLast? with
  | some slot =>
    obtain ⟨hdead, pk, hset, e1⟩ := table_Insert_reuse idGetter hash tb hinv row hc slot hfl
    have hsl : slot < tb.alive_.length := by
      by_contra c
      rw [List.getElem?_eq_none (by omega)] at hdead
      cases hdead
    have hne : tb.freeList_ ≠ [] := by
      intro c; rw [c] at hfl; cases hfl
    have hlen' : (setAt slot row tb.records_).length = tb.records_.length := by
      simp only [setAt, List.length_append, List.length_take, List.length_cons,
        List.length_drop]
      omega
    refine ⟨_, e1, ?_, fun _ => hlen', fun c => absurd c hne, ?_⟩
    · intro s hs
      rw [← hlast, hfl] at hs
      cases hs
      refine ⟨(table_isFreeSlot_iff tb slot).mpr hdead, rfl, hlen', rfl, ?_, ?_⟩
      · show pk.Get hash (idGetter row) = some slot
        rw [Set_Get hash tb.pkIndex_ pk hinv.1 (idGetter row) slot hset, if_pos rfl]
      · rw [table_getRowBySlot_eq]
        simp only
        rw [getElem?_setAt slot slot true tb.alive_ hsl, if_pos rfl, if_pos rfl,
          getElem?_setAt slot slot row tb.records_ (by omega), if_pos rfl]
    · simp only [hlen']
      constructor
      · intro c; omega
      · intro c; exact absurd c hne
  | none =>
    have hnil : tb.freeList_ = [] := List.getLast?_eq_none_iff.mp hfl
    obtain ⟨pk, hset, e1⟩ := table_Insert_append idGetter hash tb hinv row hc hnil
    refine ⟨_, e1, ?_, fun c => absurd hnil c, ?_, ?_⟩
    · intro s hs
      rw [← hlast, hfl] at hs
      cases hs
    · intro _
      refine ⟨rfl, ?_, ?_⟩
      · show pk.Get hash (idGetter row) = some tb.records_.length
        rw [Set_Get hash tb.pkIndex_ pk hinv.1 (idGetter row) _ hset, if_pos rfl]
      · rw [table_getRowBySlot_eq]
        simp only
        rw [← hlen, List.getElem?_append_right (le_refl _), Nat.sub_self]
        simp only [List.getElem?_cons_zero, if_true]
        rw [hlen, List.getElem?_append_right (le_refl _), Nat.sub_self]
        rfl
    · simp [hnil]

/-! ### Bulk load -/

theorem table_loadLines_inv [DecidableEq IdT] (FromCSV : String → Outcome T)
    (idGetter : T → IdT) (hash : IdT → Nat) (lines : List String) (tb : Table T IdT)
    (rowIndex : Int) (hinv : tb.Inv idGetter hash) :
    (∀ tb', tb.loadLines FromCSV idGetter hash rowIndex lines = .ok tb' →
      tb'.Inv idGetter hash) ∧
    tb.loadLines FromCSV idGetter hash rowIndex lines ≠ .undefined ∨
    (∃ line, line ∈ lines ∧ FromCSV line = .undefined) := by
  induction lines generalizing tb rowIndex with
  | nil =>
    left
    refine ⟨?_, by simp [Table.loadLines]⟩
    intro tb' h
    simp only [Table.loadLines, Outcome.ok.injEq] at h
    rw [← h]; exact hinv
  | cons line rest ih =>
    by_cases hl : line = ""
    · simp only [Table.loadLines, hl, if_true]
      rcases ih tb (rowIndex + 1) hinv with h | ⟨l, hm, hu⟩
      · exact Or.inl h
      · exact Or.inr ⟨l, List.mem_cons_of_mem _ hm, hu⟩
    · simp only [Table.loadLines, hl, if_false]
      cases hp : FromCSV line with
      | throws e => left; simp
      | undefined => right; exact ⟨line, List.mem_cons_self _ _, hp⟩
      | ok row =>
        obtain ⟨tb1, e1, hinv1, -⟩ := table_Insert_spec idGetter hash tb hinv row
        have e1' : tb.InsertInternal idGetter hash row rowIndex true = some tb1 := e1
        simp only [e1']
        rcases ih tb1 (rowIndex + 1) hinv1 with h | ⟨l, hm, hu⟩
        · exact Or.inl h
        · exact Or.inr ⟨l, List.mem_cons_of_mem _ hm, hu⟩

theorem table_loadLines_throws [DecidableEq IdT] (FromCSV : String → Outcome T)
    (idGetter : T → IdT) (hash : IdT → Nat) (lines : List String) (tb : Table T IdT)
    (rowIndex : Int) (e : Exn)
    (h : tb.loadLines FromCSV idGetter hash rowIndex lines = .throws e) :
    ∃ line, line ∈ lines ∧ line ≠ "" ∧ FromCSV line = .throws e := by
  induction lines generalizing tb rowIndex with
  | nil => simp [Table.loadLines] at h
  | cons line rest ih =>
    by_cases hl : line = ""
    · simp only [Table.loadLines, hl, if_true] at h
      obtain ⟨l, hm, hne, hu⟩ := ih tb (rowIndex + 1) h
      exact ⟨l, List.mem_cons_of_mem _ hm, hne, hu⟩
    · simp only [Table.loadLines, hl, if_false] at h
      cases hp : FromCSV line with
      | throws e' =>
        rw [hp] at h
        simp only [Outcome.throws.injEq] at h
        exact ⟨line, List.mem_cons_self _ _, hl, by rw [hp, h]⟩
      | undefined => rw [hp] at h; cases h
      | ok row =>
        rw [hp] at h
        simp only at h
        cases hi : tb.InsertInternal idGetter hash row rowIndex true with
        | none => rw [hi] at h; cases h
        | some tb1 =>
          rw [hi] at h
          obtain ⟨l, hm, hne, hu⟩ := ih tb1 (rowIndex + 1) h
          exact ⟨l, List.mem_cons_of_mem _ hm, hne, hu⟩

/-- C12. In every `Table` state reached from the empty table by `Insert`, `DeleteById` and
`UpdateById` calls, inserting a row whose id is already present returns normally with the
table unchanged in every field, whatever the row index and the duplicate flag passed to
`InsertInternal`; a bulk-load step on a line that parses to such a row goes on with the
unchanged table; and an exception leaving the bulk load is always one thrown by `FromCSV`,
so the load itself raises no `PrimaryKeyDuplicate` error. -/
theorem table_insert_duplicate_noop [DecidableEq IdT] (FromCSV : String → Outcome T)
    (idGetter : T → IdT) (hash : IdT → Nat) (ops : List (TableOp T IdT)) :
    ∃ tb, (Table.new : Table T IdT).run idGetter hash ops = some tb ∧
      (∀ row, tb.ContainsId hash (idGetter row) = true →
        tb.Insert idGetter hash row = some tb ∧
        (∀ rowIndex flag, tb.InsertInternal idGetter hash row rowIndex flag = some tb) ∧
        (∀ line rest rowIndex, line ≠ "" → FromCSV line = .ok row →
          tb.loadLines FromCSV idGetter hash rowIndex (line :: rest)
            = tb.loadLines FromCSV idGetter hash (rowIndex + 1) rest) ∧
        (∀ line rowIndex, line ≠ "" → FromCSV line = .ok row →
          tb.loadLines FromCSV idGetter hash rowIndex [line] = .ok tb)) ∧
      (∀ lines rowIndex e, tb.loadLines FromCSV idGetter hash rowIndex lines = .throws e →
        ∃ line, line ∈ lines ∧ line ≠ "" ∧ FromCSV line = .throws e) := by
  obtain ⟨tb, e, hinv, -⟩ := table_run_inv idGetter hash ops Table.new
    (table_inv_new idGetter hash)
  refine ⟨tb, e, ?_, ?_⟩
  · intro row hc
    have hI : ∀ rowIndex flag, tb.InsertInternal idGetter hash row rowIndex flag = some tb :=
      fun rowIndex flag => table_InsertInternal_present idGetter hash tb row rowIndex flag hc
    refine ⟨hI (-1) true, hI, ?_, ?_⟩
    · intro line rest rowIndex hl hp
      simp only [Table.loadLines, hl, if_false, hp, hI rowIndex true]
    · intro line rowIndex hl hp
      simp only [Table.loadLines, hl, if_false, hp, hI rowIndex true]
  · intro lines rowIndex e' h
    exact table_loadLines_throws FromCSV idGetter hash lines tb rowIndex e' h

/-- C13. In every reachable `Table` state and for every id, `DeleteById(id)` returns the value
`ContainsId(id)` had before the call. When it returns false the table is unchanged. When it
returns true, the slot of the id was alive and is dead afterwards, it is pushed on the back
of the free list, the row count drops by exactly one, the id is no longer present, the
record array is untouched, and every other id keeps its slot and every other slot keeps its
aliveness and its row. -/
theorem table_deleteById_contract [DecidableEq IdT] (idGetter : T → IdT) (hash : IdT → Nat)
    (ops : List (TableOp T IdT)) :
    ∃ tb, (Table.new : Table T IdT).run idGetter hash ops = some tb ∧
      ∀ id,
        (tb.DeleteById hash id).2 = tb.ContainsId hash id ∧
        (tb.ContainsId hash id = false → (tb.DeleteById hash id).1 = tb) ∧
        (tb.ContainsId hash id = true →
          ∃ slot, tb.pkIndex_.Get hash id = some slot ∧ tb.IsAliveSlot slot = true ∧
            (tb.DeleteById hash id).1.IsAliveSlot slot = false ∧
            (tb.DeleteById hash id).1.freeList_ = tb.freeList_ ++ [slot] ∧
            (tb.DeleteById hash id).1.GetRowCount + 1 = tb.GetRowCount ∧
            (tb.DeleteById hash id).1.ContainsId hash id = false ∧
            (tb.DeleteById hash id).1.records_ = tb.records_ ∧
            (∀ id', id' ≠ id →
              (tb.DeleteById hash id).1.pkIndex_.Get hash id' = tb.pkIndex_.Get hash id') ∧
            (∀ s, s ≠ slot →
              (tb.DeleteById hash id).1.IsAliveSlot s = tb.IsAliveSlot s ∧
              (tb.DeleteById hash id).1.GetRowBySlot s = tb.GetRowBySlot s)) := by
  obtain ⟨tb, e, hinv, -⟩ := table_run_inv idGetter hash ops Table.new
    (table_inv_new idGetter hash)
  refine ⟨tb, e, ?_⟩
  intro id
  obtain ⟨hinv', hget, hret, hcnt⟩ := table_DeleteById_spec idGetter hash tb hinv id
  refine ⟨hret, ?_, ?_⟩
  · intro hc
    rw [table_DeleteById_absent hash tb id (table_get_none_of_not_contains hash tb id hc)]
  · intro hc
    obtain ⟨slot, hg⟩ := table_get_some_of_contains hash tb id hc
    obtain ⟨halive, hd⟩ := table_DeleteById_found idGetter hash tb hinv id slot hg
    have hsl : slot < tb.alive_.length := by
      by_contra h
      rw [List.getElem?_eq_none (by omega)] at halive
      cases halive
    have hcnt' := hcnt
    rw [hret, hc] at hcnt'
    have hgetid := hget id
    rw [if_pos rfl] at hgetid
    refine ⟨slot, hg, (table_isAliveSlot_iff tb slot).mpr halive, ?_, by rw [hd], ?_, ?_,
      by rw [hd], ?_, ?_⟩
    · cases hx : (tb.DeleteById hash id).1.IsAliveSlot slot with
      | false => rfl
      | true =>
        rw [table_isAliveSlot_iff, hd] at hx
        simp only at hx
        rw [getElem?_setAt slot slot false tb.alive_ hsl, if_pos rfl] at hx
        cases hx
    · simpa [Table.GetRowCount] using hcnt'
    · rw [table_containsId_iff, hgetid]; rfl
    · intro id' hne
      rw [hget id', if_neg hne]
    · intro s hs
      have ha : (tb.DeleteById hash id).1.alive_[s]? = tb.alive_[s]? := by
        rw [hd]
        simp only
        rw [getElem?_setAt slot s false tb.alive_ hsl, if_neg hs]
      refine ⟨table_isAliveSlot_eq tb _ s ha, ?_⟩
      rw [table_getRowBySlot_eq, table_getRowBySlot_eq, ha, hd]

/-- C14. In every reachable `Table` state, `UpdateById(id, newRow)` returns: false with the
table unchanged when the id is not present or when the id of `newRow` differs from `id`;
otherwise true, and then only the record at the slot of the id is replaced by `newRow`, while
aliveness, free list, row count, the primary-key index (the slot of every id) and
`ContainsId` of every id stay as they were. -/
theorem table_updateById_contract [DecidableEq IdT] (idGetter : T → IdT) (hash : IdT → Nat)
    (ops : List (TableOp T IdT)) :
    ∃ tb, (Table.new : Table T IdT).run idGetter hash ops = some tb ∧
      ∀ id newRow,
        ((tb.ContainsId hash id = false ∨ idGetter newRow ≠ id) →
          tb.UpdateById idGetter hash id newRow = some (tb, false)) ∧
        ((tb.ContainsId hash id = true ∧ idGetter newRow = id) →
          ∃ slot tb', tb.pkIndex_.Get hash id = some slot ∧
            tb.UpdateById idGetter hash id newRow = some (tb', true) ∧
            tb'.records_ = setAt slot newRow tb.records_ ∧
            tb'.GetRowBySlot slot = some newRow ∧
            (∀ s, s ≠ slot → tb'.records_[s]? = tb.records_[s]? ∧
              tb'.GetRowBySlot s = tb.GetRowBySlot s) ∧
            tb'.records_.length = tb.records_.length ∧
            tb'.alive_ = tb.alive_ ∧ tb'.freeList_ = tb.freeList_ ∧
            tb'.GetRowCount = tb.GetRowCount ∧ tb'.pkIndex_ = tb.pkIndex_ ∧
            (∀ id', tb'.ContainsId hash id' = tb.ContainsId hash id')) := by
  obtain ⟨tb, e, hinv, -⟩ := table_run_inv idGetter hash ops Table.new
    (table_inv_new idGetter hash)
  refine ⟨tb, e, ?_⟩
  intro id newRow
  refine ⟨table_UpdateById_refused idGetter hash tb hinv id newRow, ?_⟩
  rintro ⟨hc, hid⟩
  obtain ⟨slot, hg⟩ := table_get_some_of_contains hash tb id hc
  have hu := table_UpdateById_found idGetter hash tb hinv id newRow slot hg hid
  obtain ⟨hpk, hlf, hlen, h3, h4, h5, h6, h7⟩ := hinv
  obtain ⟨halive, r, hr, hrid⟩ := h3 id slot hg
  have hsl : slot < tb.records_.length := by
    by_contra h
    rw [List.getElem?_eq_none (by omega)] at hr
    cases hr
  refine ⟨slot, _, hg, hu, rfl, ?_, ?_, ?_, rfl, rfl, rfl, rfl, fun _ => rfl⟩
  · rw [table_getRowBySlot_eq]
    simp only
    rw [if_pos halive, getElem?_setAt slot slot newRow tb.records_ hsl, if_pos rfl]
  · intro s hs
    have hrec : (setAt slot newRow tb.records_)[s]? = tb.records_[s]? := by
      rw [getElem?_setAt slot s newRow tb.records_ hsl, if_neg hs]
    refine ⟨hrec, ?_⟩
    rw [table_getRowBySlot_eq, table_getRowBySlot_eq]
    simp only
    rw [hrec]
  · simp only [setAt, List.length_append, List.length_take, List.length_cons, List.length_drop]
    omega

/-! ### Logical row order -/

theorem filter_range_cons (a : Bool) (l : List Bool) :
    (List.range (a :: l).length).filter (fun i => (a :: l)[i]?.getD false)
      = (if a then [0] else [])
        ++ ((List.range l.length).filter (fun i => l[i]?.getD false)).map Nat.succ := by
  rw [List.length_cons, List.range_succ_eq_map, List.filter_cons, List.filter_map]
  have hf : ((fun i => (a :: l)[i]?.getD false) ∘ Nat.succ) = (fun i => l[i]?.getD false) := by
    funext i
    simp
  rw [hf]
  cases a <;> simp

theorem aliveIndexLoop_spec (aliveIndex : Nat) (l : List Bool) (slot count s : Nat)
    (hc : count ≤ aliveIndex)
    (hs : ((List.range l.length).filter (fun i => l[i]?.getD false))[aliveIndex - count]?
      = some s) :
    aliveIndexLoop aliveIndex l slot count = slot + s := by
  induction l generalizing slot count s with
  | nil => simp at hs
  | cons a l ih =>
    rw [filter_range_cons] at hs
    cases a with
    | false =>
      simp only [Bool.false_eq_true, if_false, List.nil_append, List.getElem?_map,
        Option.map_eq_some'] at hs
      obtain ⟨s', hs', rfl⟩ := hs
      simp only [aliveIndexLoop, Bool.false_eq_true, if_false]
      rw [ih (slot + 1) count s' hc hs']
      omega
    | true =>
      simp only [if_true, List.singleton_append] at hs
      simp only [aliveIndexLoop, if_true]
      by_cases he : count = aliveIndex
      · rw [if_pos he]
        subst he
        simp only [Nat.sub_self, List.getElem?_cons_zero, Option.some.injEq] at hs
        omega
      · rw [if_neg he]
        have h1 : aliveIndex - count = (aliveIndex - (count + 1)) + 1 := by omega
        rw [h1, List.getElem?_cons_succ, List.getElem?_map, Option.map_eq_some'] at hs
        obtain ⟨s', hs', rfl⟩ := hs
        rw [ih (slot + 1) (count + 1) s' (by omega) hs']
        omega

theorem table_aliveSlots_sorted (tb : Table T IdT) :
    tb.GetAliveSlots.Pairwise (fun a b => a < b) :=
  List.Pairwise.sublist (List.filter_sublist _) (List.pairwise_lt_range _)

theorem table_mem_aliveSlots (tb : Table T IdT) (slot : Nat) :
    slot ∈ tb.GetAliveSlots ↔ tb.IsAliveSlot slot = true := by
  simp only [Table.GetAliveSlots, List.mem_filter, List.mem_range, Table.IsAliveSlot,
    Bool.and_eq_true, decide_eq_true_eq]

theorem table_aliveSlots_length [DecidableEq IdT] (idGetter : T → IdT) (hash : IdT → Nat)
    (tb : Table T IdT) (hinv : tb.Inv idGetter hash) :
    tb.GetAliveSlots.length = tb.GetRowCount := by
  obtain ⟨hpk, hlf, hlen, h3, h4, h5, h6, h7⟩ := hinv
  rw [Table.GetRowCount, h7, Table.GetAliveSlots, length_filter_alive]

theorem table_getRow_spec [DecidableEq IdT] (idGetter : T → IdT) (hash : IdT → Nat)
    (tb : Table T IdT) (hinv : tb.Inv idGetter hash) (i : Nat) (hi : i < tb.GetRowCount) :
    ∃ slot r, tb.GetAliveSlots[i]? = some slot ∧ tb.AliveIndexToSlot i = slot ∧
      tb.IsAliveSlot slot = true ∧ tb.GetRow i = some r ∧ tb.records_[slot]? = some r ∧
      tb.GetRowBySlot slot = some r := by
  have hlenA := table_aliveSlots_length idGetter hash tb hinv
  obtain ⟨hpk, hlf, hlen, h3, h4, h5, h6, h7⟩ := hinv
  have hlt : i < tb.GetAliveSlots.length := by omega
  have hs : tb.GetAliveSlots[i]? = some (tb.GetAliveSlots[i]) := List.getElem?_eq_getElem hlt
  have hmem : tb.GetAliveSlots[i] ∈ tb.GetAliveSlots := List.getElem_mem hlt
  have halive := (table_mem_aliveSlots tb _).mp hmem
  have hidx : tb.AliveIndexToSlot i = tb.GetAliveSlots[i] := by
    have := aliveIndexLoop_spec i tb.alive_ 0 0 (tb.GetAliveSlots[i]) (Nat.zero_le _)
      hs
    simpa [Table.AliveIndexToSlot] using this
  have hal := (table_isAliveSlot_iff tb _).mp halive
  obtain ⟨id, hid⟩ := h4 _ hal
  obtain ⟨-, r, hr, -⟩ := h3 id _ hid
  refine ⟨tb.GetAliveSlots[i], r, hs, hidx, halive, ?_, hr, ?_⟩
  · rw [Table.GetRow, hidx]; exact hr
  · rw [Table.GetRowBySlot, if_pos halive]; exact hr

/-- C15. In every reachable `Table` state, `GetAliveSlots()` is strictly ascending, contains
exactly the alive slots and has length `GetRowCount()`; and for every `i < GetRowCount()`
the slot computed by `AliveIndexToSlot(i)` is the `i`-th element of `GetAliveSlots()`, and
`GetRow(i)` returns the record stored at that slot, which is also what `GetRowBySlot`
returns for it. -/
theorem table_alive_slots_rows [DecidableEq IdT] (idGetter : T → IdT) (hash : IdT → Nat)
    (ops : List (TableOp T IdT)) :
    ∃ tb, (Table.new : Table T IdT).run idGetter hash ops = some tb ∧
      tb.GetAliveSlots.Pairwise (fun a b => a < b) ∧
      (∀ slot, slot ∈ tb.GetAliveSlots ↔ tb.IsAliveSlot slot = true) ∧
      tb.GetAliveSlots.length = tb.GetRowCount ∧
      ∀ i, i < tb.GetRowCount →
        ∃ slot r, tb.GetAliveSlots[i]? = some slot ∧ tb.AliveIndexToSlot i = slot ∧
          tb.GetRow i = some r ∧ tb.records_[slot]? = some r ∧
          tb.GetRowBySlot slot = some r := by
  obtain ⟨tb, e, hinv, -⟩ := table_run_inv idGetter hash ops Table.new
    (table_inv_new idGetter hash)
  refine ⟨tb, e, table_aliveSlots_sorted tb, table_mem_aliveSlots tb,
    table_aliveSlots_length idGetter hash tb hinv, ?_⟩
  intro i hi
  obtain ⟨slot, r, h1, h2, -, h4, h5, h6⟩ := table_getRow_spec idGetter hash tb hinv i hi
  exact ⟨slot, r, h1, h2, h4, h5, h6⟩

end TableRowsTheory

section IndexTheory

variable {K Ref : Type}

/-! ### Index.h: content of an index -/

theorem refsOf_append [DecidableEq K] (c d : List (K × Ref)) (k : K) :
    refsOf (c ++ d) k = refsOf c k ++ refsOf d k := by
  simp only [refsOf, List.filterMap_append]

theorem refsOf_nil [DecidableEq K] (k : K) : refsOf ([] : List (K × Ref)) k = [] := rfl

theorem refsOf_singleton [DecidableEq K] (k k' : K) (r : Ref) :
    refsOf [(k, r)] k' = if k = k' then [r] else [] := by
  by_cases h : k = k' <;> simp [refsOf, List.filterMap_cons, h]

theorem refsOf_map [DecidableEq K] (f : Ref → K) (refs : List Ref) (k : K) :
    refsOf (refs.map (fun r => (f r, r))) k = refs.filter (fun r => decide (f r = k)) := by
  induction refs with
  | nil => rfl
  | cons r refs ih =>
    have e : refsOf ((r :: refs).map (fun r => (f r, r))) k
        = refsOf [(f r, r)] k ++ refsOf (refs.map (fun r => (f r, r))) k := by
      rw [← refsOf_append]; rfl
    rw [e, ih, refsOf_singleton]
    by_cases h : f r = k <;> simp [h, List.filter_cons]

theorem refsOf_eq_filter [DecidableEq K] (c : List (K × Ref)) (k : K) :
    refsOf c k = (c.filter (fun e => decide (e.1 = k))).map Prod.snd := by
  induction c with
  | nil => rfl
  | cons e c ih =>
    have e' : refsOf (e :: c) k = refsOf [(e.1, e.2)] k ++ refsOf c k := by
      rw [← refsOf_append]; rfl
    rw [e', ih, refsOf_singleton]
    by_cases h : e.1 = k <;> simp [h, List.filter_cons]

theorem refsOf_ne_nil_iff [DecidableEq K] (c : List (K × Ref)) (k : K) :
    refsOf c k ≠ [] ↔ k ∈ c.map Prod.fst := by
  rw [refsOf_eq_filter]
  simp only [ne_eq, List.map_eq_nil_iff, List.filter_eq_nil_iff, decide_eq_true_eq, not_forall,
    Classical.not_not, List.mem_map]
  constructor
  · rintro ⟨e, he, rfl⟩
    exact ⟨e, he, rfl⟩
  · rintro ⟨e, he, rfl⟩
    exact ⟨e, he, rfl⟩

theorem perm_filter_or [DecidableEq K] (k : K) (ks : List K) (hk : k ∉ ks)
    (c : List (K × Ref)) :
    ((c.filter (fun e => decide (e.1 ∈ k :: ks))).map Prod.snd).Perm
      (refsOf c k ++ (c.filter (fun e => decide (e.1 ∈ ks))).map Prod.snd) := by
  induction c with
  | nil => simp [refsOf]
  | cons e c ih =>
    have e' : refsOf (e :: c) k = refsOf [(e.1, e.2)] k ++ refsOf c k := by
      rw [← refsOf_append]; rfl
    rw [e', refsOf_singleton]
    by_cases h1 : e.1 = k
    · have h2 : e.1 ∉ ks := by rw [h1]; exact hk
      simp only [List.filter_cons, h1, List.mem_cons, true_or, decide_True, if_true,
        List.map_cons, List.singleton_append, List.cons_append]
      rw [h1] at h2
      simp only [h2, decide_False, Bool.false_eq_true, if_false]
      have ih' := ih
      simp only [List.mem_cons] at ih'
      exact List.Perm.cons _ ih'
    · by_cases h2 : e.1 ∈ ks
      · simp only [List.filter_cons, List.mem_cons, h1, h2, or_true, decide_True, if_true,
          List.map_cons, if_false, List.nil_append]
        have ih' := ih
        simp only [List.mem_cons] at ih'
        exact (List.Perm.cons _ ih').trans List.perm_middle.symm
      · simp only [List.filter_cons, List.mem_cons, h1, h2, or_false, decide_False,
          Bool.false_eq_true, if_false, List.nil_append]
        have ih' := ih
        simp only [List.mem_cons] at ih'
        exact ih'

theorem perm_flatMap_refsOf [DecidableEq K] (ks : List K) (hnd : ks.Nodup)
    (c : List (K × Ref)) :
    (ks.flatMap (refsOf c)).Perm ((c.filter (fun e => decide (e.1 ∈ ks))).map Prod.snd) := by
  induction ks with
  | nil => simp
  | cons k ks ih =>
    have hk : k ∉ ks := (List.nodup_cons.mp hnd).1
    rw [List.flatMap_cons]
    exact ((List.Perm.append_left _ (ih (List.nodup_cons.mp hnd).2)).trans
      (perm_filter_or k ks hk c).symm)

/-- The refs of the entries with a key in `[lo, hi]`, for an entry list with distinct keys
that holds the refs of a content under each of its keys. -/
theorem rangeRefs_perm [LinearOrder K] (lo hi : K) (c : List (K × Ref))
    (L : List (K × List Ref)) (hnd : (L.map Prod.fst).Nodup)
    (hval : ∀ e ∈ L, e.2 = refsOf c e.1)
    (hkeys : ∀ k, k ∈ L.map Prod.fst ↔ k ∈ c.map Prod.fst) :
    (rangeRefs lo hi L).Perm
      ((c.filter (fun e => decide (lo ≤ e.1 ∧ e.1 ≤ hi))).map Prod.snd) := by
  rw [rangeRefs_eq_flatMap lo hi (refsOf c) L hval]
  refine (perm_flatMap_refsOf _ (hnd.filter _) c).trans ?_
  have : c.filter (fun e => decide (e.1 ∈ (L.map Prod.fst).filter
        (fun k => decide (lo ≤ k ∧ k ≤ hi))))
      = c.filter (fun e => decide (lo ≤ e.1 ∧ e.1 ≤ hi)) := by
    apply List.filter_congr
    intro e he
    have hm : e.1 ∈ L.map Prod.fst := (hkeys e.1).mpr (List.mem_map_of_mem _ he)
    simp only [List.mem_filter, hm, true_and, decide_eq_true_eq]
  rw [this]

/-! ### `HashIndex` -/

theorem hashIndex_holds_new [DecidableEq K] (hash : K → Nat) (initialCapacity : Nat) :
    (HashIndex.new initialCapacity : HashIndex K Ref).Holds hash [] := by
  refine ⟨inv_new hash _ _, ?_⟩
  intro k
  rw [HashIndex.new, new_Get]
  rfl

theorem hashIndex_holds_Clear [DecidableEq K] (hash : K → Nat) (idx : HashIndex K Ref)
    (c : List (K × Ref)) (h : idx.Holds hash c) : idx.Clear.Holds hash [] := by
  refine ⟨inv_Clear hash _ h.1, ?_⟩
  intro k
  rw [HashIndex.Clear, Clear_Get hash _ h.1]
  rfl

theorem hashIndex_Insert_eq_Set [DecidableEq K] (hash : K → Nat) (idx : HashIndex K Ref)
    (key : K) (ref : Ref) :
    idx.Insert hash key ref
      = (idx.map_.Set hash key ((idx.map_.Get hash key).getD [] ++ [ref])).map HashIndex.mk := by
  cases hg : idx.map_.GetPtr hash key with
  | none =>
    simp only [HashIndex.Insert, HashTable.Get, hg, Option.getD_none, List.nil_append]
    cases idx.map_.Set hash key [ref] <;> rfl
  | some v =>
    simp only [HashIndex.Insert, HashTable.Get, HashTable.Set, hg, Option.getD_some,
      Option.map_some']

theorem hashIndex_Insert_holds [DecidableEq K] (hash : K → Nat) (idx : HashIndex K Ref)
    (c : List (K × Ref)) (h : idx.Holds hash c) (key : K) (ref : Ref) :
    ∃ idx', idx.Insert hash key ref = some idx' ∧ idx'.Holds hash (c ++ [(key, ref)]) := by
  obtain ⟨hinv, hget⟩ := h
  obtain ⟨m, e, hinv', -⟩ := Set_spec hash idx.map_ hinv key
    ((idx.map_.Get hash key).getD [] ++ [ref])
  refine ⟨⟨m⟩, by rw [hashIndex_Insert_eq_Set, e]; rfl, hinv', ?_⟩
  intro k
  show m.Get hash k = _
  rw [Set_Get hash idx.map_ m hinv key _ e k, refsOf_append, refsOf_singleton]
  have hold : (idx.map_.Get hash key).getD [] = refsOf c key := by
    rw [hget key]
    cases hx : refsOf c key with
    | nil => rfl
    | cons a l => rfl
  by_cases hk : k = key
  · subst hk
    rw [if_pos rfl, if_pos rfl, hold]
    cases hx : refsOf c k with
    | nil => rfl
    | cons a l => rfl
  · have hk' : ¬ key = k := fun x => hk x.symm
    simp only [hk, hk', if_false, List.append_nil]
    exact hget k

theorem hashIndex_buildLoop_holds [DecidableEq K] (hash : K → Nat) (f : Ref → K)
    (refs : List Ref) (idx : HashIndex K Ref) (c : List (K × Ref)) (h : idx.Holds hash c) :
    ∃ idx', HashIndex.buildLoop hash (fun r => .ok (f r)) idx refs = .ok idx' ∧
      idx'.Holds hash (c ++ refs.map (fun r => (f r, r))) := by
  induction refs generalizing idx c with
  | nil => exact ⟨idx, rfl, by simpa using h⟩
  | cons r refs ih =>
    obtain ⟨idx1, e1, h1⟩ := hashIndex_Insert_holds hash idx c h (f r) r
    obtain ⟨idx2, e2, h2⟩ := ih idx1 _ h1
    refine ⟨idx2, ?_, ?_⟩
    · simp only [HashIndex.buildLoop, e1, e2]
    · simpa using h2

theorem hashIndex_step_holds [DecidableEq K] (hash : K → Nat) (idx : HashIndex K Ref)
    (c : List (K × Ref)) (h : idx.Holds hash c) (op : IndexOp K Ref) :
    ∃ idx', idx.step hash op = .ok idx' ∧ idx'.Holds hash (indexContent c [op]) := by
  cases op with
  | clear => exact ⟨idx.Clear, rfl, hashIndex_holds_Clear hash idx c h⟩
  | build refs f =>
    obtain ⟨idx', e, h'⟩ := hashIndex_buildLoop_holds hash f refs idx.Clear []
      (hashIndex_holds_Clear hash idx c h)
    exact ⟨idx', e, by simpa [indexContent] using h'⟩
  | insert key ref =>
    obtain ⟨idx', e, h'⟩ := hashIndex_Insert_holds hash idx c h key ref
    exact ⟨idx', by simp only [HashIndex.step, e, Outcome.ofOption], h'⟩

theorem indexContent_cons (c : List (K × Ref)) (op : IndexOp K Ref)
    (ops : List (IndexOp K Ref)) :
    indexContent c (op :: ops) = indexContent (indexContent c [op]) ops := by
  cases op <;> rfl

theorem hashIndex_run_holds [DecidableEq K] (hash : K → Nat) (ops : List (IndexOp K Ref))
    (idx : HashIndex K Ref) (c : List (K × Ref)) (h : idx.Holds hash c) :
    ∃ idx', HashIndex.run hash idx ops = .ok idx' ∧ idx'.Holds hash (indexContent c ops) := by
  induction ops generalizing idx c with
  | nil => exact ⟨idx, rfl, h⟩
  | cons op ops ih =>
    obtain ⟨idx1, e1, h1⟩ := hashIndex_step_holds hash idx c h op
    obtain ⟨idx2, e2, h2⟩ := ih idx1 _ h1
    refine ⟨idx2, ?_, ?_⟩
    · simp only [HashIndex.run, e1, Outcome.andThen, e2]
    · rw [indexContent_cons]; exact h2

theorem hashIndex_FindEquals_holds [DecidableEq K] (hash : K → Nat) (idx : HashIndex K Ref)
    (c : List (K × Ref)) (h : idx.Holds hash c) (k : K) :
    idx.FindEquals hash k = refsOf c k := by
  rw [HashIndex.FindEquals, h.2 k]
  cases hx : refsOf c k with
  | nil => rfl
  | cons a l => rfl

theorem foldl_range_eq [LinearOrder K] (lo hi : K) (L : List (K × List Ref))
    (init : List Ref) :
    L.foldl (fun out p =>
        if (!decide (p.1 < lo)) && (!decide (hi < p.1)) then out ++ p.2 else out) init
      = init ++ rangeRefs lo hi L := by
  induction L generalizing init with
  | nil => simp [rangeRefs]
  | cons e L ih =>
    obtain ⟨k, v⟩ := e
    rw [List.foldl_cons, ih]
    by_cases hin : lo ≤ k ∧ k ≤ hi
    · have h1 : ¬ k < lo := not_lt.mpr hin.1
      have h2 : ¬ hi < k := not_lt.mpr hin.2
      simp only [rangeRefs, hin, and_self, if_true, h1, h2, decide_False, Bool.not_false,
        Bool.and_self, List.append_assoc]
    · have h3 : ¬ (¬ k < lo ∧ ¬ hi < k) := by
        rw [not_lt, not_lt]; exact hin
      simp only [rangeRefs, hin, if_false]
      by_cases h1 : k < lo
      · simp [h1]
      · have h2 : hi < k := by
          by_contra c
          exact h3 ⟨h1, c⟩
        simp [h2]

theorem hashIndex_FindRange_eq [LinearOrder K] (idx : HashIndex K Ref) (lo hi : K) :
    idx.FindRange lo hi = rangeRefs lo hi idx.map_.visits := by
  rw [HashIndex.FindRange, ForEach_eq, foldl_range_eq, List.nil_append]

theorem hashIndex_FindRange_holds [LinearOrder K] (hash : K → Nat) (idx : HashIndex K Ref)
    (c : List (K × Ref)) (h : idx.Holds hash c) (lo hi : K) :
    (idx.FindRange lo hi).Perm
      ((c.filter (fun e => decide (lo ≤ e.1 ∧ e.1 ≤ hi))).map Prod.snd) := by
  obtain ⟨hinv, hget⟩ := h
  rw [hashIndex_FindRange_eq]
  have hmem : ∀ k v, (k, v) ∈ idx.map_.visits ↔ idx.map_.Get hash k = some v := by
    intro k v
    rw [visits_eq, Get_iff hash _ hinv]
    simp only [List.mem_map, Prod.mk.injEq]
    constructor
    · rintro ⟨kv, hkv, rfl, rfl⟩
      exact hkv
    · intro hkv
      exact ⟨_, hkv, rfl, rfl⟩
  apply rangeRefs_perm lo hi c
  · have := keys_nodup_of_inv hash _ hinv
    rw [visits_eq, List.map_map]
    exact this
  · rintro ⟨k, v⟩ he
    have := (hmem k v).mp he
    rw [hget k] at this
    by_cases hx : (refsOf c k).isEmpty = true
    · rw [if_pos hx] at this; cases this
    · rw [if_neg hx] at this
      exact (Option.some.inj this).symm
  · intro k
    constructor
    · intro hk
      apply (refsOf_ne_nil_iff c k).mp
      obtain ⟨⟨k', v⟩, he, rfl⟩ := List.mem_map.mp hk
      have := (hmem k' v).mp he
      rw [hget k'] at this
      intro hx
      rw [hx] at this
      cases this
    · intro hk
      have hk := (refsOf_ne_nil_iff c k).mpr hk
      have hx : ¬ (refsOf c k).isEmpty = true := by
        rw [List.isEmpty_iff]; exact hk
      have := hget k
      rw [if_neg hx] at this
      exact List.mem_map.mpr ⟨(k, refsOf c k), (hmem k _).mpr this, rfl⟩

/-! ### `BTreeIndex` -/

theorem valid_Clear [LinearOrder K] (b : BTree K Ref) (hb : b.Valid) : b.Clear.Valid := by
  refine ⟨hb.1, ⟨1, ?_⟩, ?_⟩
  · exact .leaf _ [] [] rfl (by simp) (by simp) (by simp)
  · simp [BTree.Clear, inorder_leaf, KeysSorted]

theorem upsertAll_append [LinearOrder K] (l : List (K × List Ref)) (c d : List (K × Ref)) :
    upsertAll l (c ++ d) = upsertAll (upsertAll l c) d := by
  simp only [upsertAll, List.foldl_append]

theorem btreeIndex_holds_new [LinearOrder K] (minDegree : Nat) :
    (BTreeIndex.new minDegree : BTreeIndex K Ref).Holds [] := by
  refine ⟨valid_new _, ?_⟩
  simp [BTreeIndex.new, BTree.new, inorder_leaf, upsertAll]

theorem btreeIndex_holds_Clear [LinearOrder K] (idx : BTreeIndex K Ref) (c : List (K × Ref))
    (h : idx.Holds c) : idx.Clear.Holds [] := by
  refine ⟨valid_Clear _ h.1, ?_⟩
  simp [BTreeIndex.Clear, BTree.Clear, inorder_leaf, upsertAll]

theorem btreeIndex_Insert_holds [LinearOrder K] (idx : BTreeIndex K Ref) (c : List (K × Ref))
    (h : idx.Holds c) (key : K) (ref : Ref) :
    ∃ idx', idx.Insert key ref = some idx' ∧ idx'.Holds (c ++ [(key, ref)]) := by
  obtain ⟨hv, hio⟩ := h
  obtain ⟨b', e, hv', -, hio'⟩ := Insert_spec idx.tree_ key ref hv
  refine ⟨⟨b'⟩, by simp only [BTreeIndex.Insert, e], hv', ?_⟩
  show b'.root_.inorder = _
  rw [hio', hio, upsertAll_append]
  rfl

theorem btreeIndex_buildLoop_holds [LinearOrder K] (f : Ref → K) (refs : List Ref)
    (idx : BTreeIndex K Ref) (c : List (K × Ref)) (h : idx.Holds c) :
    ∃ idx', BTreeIndex.buildLoop (fun r => .ok (f r)) idx refs = .ok idx' ∧
      idx'.Holds (c ++ refs.map (fun r => (f r, r))) := by
  induction refs generalizing idx c with
  | nil => exact ⟨idx, rfl, by simpa using h⟩
  | cons r refs ih =>
    obtain ⟨idx1, e1, h1⟩ := btreeIndex_Insert_holds idx c h (f r) r
    obtain ⟨idx2, e2, h2⟩ := ih idx1 _ h1
    refine ⟨idx2, ?_, ?_⟩
    · simp only [BTreeIndex.Insert] at e1
      cases e1' : idx.tree_.Insert (f r) r with
      | none => rw [e1'] at e1; cases e1
      | some t =>
        rw [e1'] at e1
        cases e1
        simp only [BTreeIndex.buildLoop, e1', e2]
    · simpa using h2

theorem btreeIndex_step_holds [LinearOrder K] (idx : BTreeIndex K Ref) (c : List (K × Ref))
    (h : idx.Holds c) (op : IndexOp K Ref) :
    ∃ idx', idx.step op = .ok idx' ∧ idx'.Holds (indexContent c [op]) := by
  cases op with
  | clear => exact ⟨idx.Clear, rfl, btreeIndex_holds_Clear idx c h⟩
  | build refs f =>
    obtain ⟨idx', e, h'⟩ := btreeIndex_buildLoop_holds f refs idx.Clear []
      (btreeIndex_holds_Clear idx c h)
    exact ⟨idx', e, by simpa [indexContent] using h'⟩
  | insert key ref =>
    obtain ⟨idx', e, h'⟩ := btreeIndex_Insert_holds idx c h key ref
    exact ⟨idx', by simp only [BTreeIndex.step, e, Outcome.ofOption], h'⟩

theorem btreeIndex_run_holds [LinearOrder K] (ops : List (IndexOp K Ref))
    (idx : BTreeIndex K Ref) (c : List (K × Ref)) (h : idx.Holds c) :
    ∃ idx', BTreeIndex.run idx ops = .ok idx' ∧ idx'.Holds (indexContent c ops) := by
  induction ops generalizing idx c with
  | nil => exact ⟨idx, rfl, h⟩
  | cons op ops ih =>
    obtain ⟨idx1, e1, h1⟩ := btreeIndex_step_holds idx c h op
    obtain ⟨idx2, e2, h2⟩ := ih idx1 _ h1
    refine ⟨idx2, ?_, ?_⟩
    · simp only [BTreeIndex.run, e1, Outcome.andThen, e2]
    · rw [indexContent_cons]; exact h2

theorem btreeIndex_FindEquals_holds [LinearOrder K] (idx : BTreeIndex K Ref)
    (c : List (K × Ref)) (h : idx.Holds c) (k : K) :
    idx.FindEquals k = some (refsOf c k) := by
  obtain ⟨hv, hio⟩ := h
  rw [BTreeIndex.FindEquals, FindEquals_spec _ k hv, hio,
    lookupRefs_upsertAll c [] keysSorted_nil k]
  simp [lookupRefs]

theorem btreeIndex_FindRange_holds [LinearOrder K] (idx : BTreeIndex K Ref)
    (c : List (K × Ref)) (h : idx.Holds c) (lo hi : K) :
    ∃ out, idx.FindRange lo hi = some out ∧
      out.Perm ((c.filter (fun e => decide (lo ≤ e.1 ∧ e.1 ≤ hi))).map Prod.snd) := by
  obtain ⟨hv, hio⟩ := h
  refine ⟨_, FindRange_spec _ lo hi hv, ?_⟩
  rw [hio]
  have hs : KeysSorted (upsertAll ([] : List (K × List Ref)) c) :=
    upsertAll_sorted c [] keysSorted_nil
  apply rangeRefs_perm lo hi c
  · exact hs.imp (fun h => ne_of_lt h)
  · rintro ⟨k, v⟩ he
    have h1 := lookupRefs_of_mem _ hs k v he
    have h2 := lookupRefs_upsertAll c [] keysSorted_nil k
    rw [h1] at h2
    simpa [lookupRefs] using h2
  · intro k
    rw [mem_keys_upsertAll]
    simp

/-- C16. For a `HashIndex` and a `BTreeIndex` in any state reached from a fresh index by
`Clear`, `Build` and `Insert` calls, and for every list `refs` and key selector `keyOf`:
`Build(refs, keyOf)` returns normally, and afterwards `FindEquals(k)` is the list of the
refs of `refs` whose `keyOf` value is `k`, in the order of `refs`; nothing of the earlier
content is left. -/
theorem index_build_findEquals [LinearOrder K] (hash : K → Nat) (initialCapacity : Nat)
    (minDegree : Nat) (ops : List (IndexOp K Ref)) (refs : List Ref) (keyOf : Ref → K) :
    (∃ h0 h1, HashIndex.run hash (HashIndex.new initialCapacity) ops = .ok h0 ∧
      h0.Build hash refs (fun r => .ok (keyOf r)) = .ok h1 ∧
      ∀ k, h1.FindEquals hash k = refs.filter (fun r => decide (keyOf r = k))) ∧
    (∃ b0 b1, BTreeIndex.run (BTreeIndex.new minDegree) ops = .ok b0 ∧
      b0.Build refs (fun r => .ok (keyOf r)) = .ok b1 ∧
      ∀ k, b1.FindEquals k = some (refs.filter (fun r => decide (keyOf r = k)))) := by
  constructor
  · obtain ⟨h0, e0, hh0⟩ := hashIndex_run_holds hash ops (HashIndex.new initialCapacity) []
      (hashIndex_holds_new hash initialCapacity)
    obtain ⟨h1, e1, hh1⟩ := hashIndex_buildLoop_holds hash keyOf refs h0.Clear []
      (hashIndex_holds_Clear hash h0 _ hh0)
    refine ⟨h0, h1, e0, e1, ?_⟩
    intro k
    rw [hashIndex_FindEquals_holds hash h1 _ hh1 k, List.nil_append, refsOf_map]
  · obtain ⟨b0, e0, hb0⟩ := btreeIndex_run_holds ops (BTreeIndex.new minDegree) []
      (btreeIndex_holds_new minDegree)
    obtain ⟨b1, e1, hb1⟩ := btreeIndex_buildLoop_holds keyOf refs b0.Clear []
      (btreeIndex_holds_Clear b0 _ hb0)
    refine ⟨b0, b1, e0, e1, ?_⟩
    intro k
    rw [btreeIndex_FindEquals_holds b1 _ hb1 k, List.nil_append, refsOf_map]

/-- C17. For every sequence of `Clear`, `Build` and `Insert` calls applied to a fresh
`HashIndex` and to a fresh `BTreeIndex`, both runs return normally, `FindEquals(k)` gives
the same list from both for every key (the refs held under `k`, in insertion order), and
`FindRange(from, to)` of the hash index is a permutation of `FindRange(from, to)` of the tree
index, both being permutations of the refs held under a key with `from <= key <= to`. -/
theorem index_hash_btree_interchangeable [LinearOrder K] (hash : K → Nat)
    (initialCapacity : Nat) (minDegree : Nat) (ops : List (IndexOp K Ref)) :
    ∃ h b, HashIndex.run hash (HashIndex.new initialCapacity) ops = .ok h ∧
      BTreeIndex.run (BTreeIndex.new minDegree) ops = .ok b ∧
      (∀ k, b.FindEquals k = some (h.FindEquals hash k) ∧
        h.FindEquals hash k = refsOf (indexContent [] ops) k) ∧
      ∀ lo hi, ∃ out, b.FindRange lo hi = some out ∧
        (h.FindRange lo hi).Perm out ∧
        out.Perm (((indexContent [] ops).filter
          (fun e => decide (lo ≤ e.1 ∧ e.1 ≤ hi))).map Prod.snd) ∧
        ∀ r, r ∈ h.FindRange lo hi ↔
          ∃ k, (k, r) ∈ indexContent [] ops ∧ lo ≤ k ∧ k ≤ hi := by
  obtain ⟨h, eh, hh⟩ := hashIndex_run_holds hash ops (HashIndex.new initialCapacity) []
    (hashIndex_holds_new hash initialCapacity)
  obtain ⟨b, eb, hb⟩ := btreeIndex_run_holds ops (BTreeIndex.new minDegree) []
    (btreeIndex_holds_new minDegree)
  refine ⟨h, b, eh, eb, ?_, ?_⟩
  · intro k
    rw [btreeIndex_FindEquals_holds b _ hb k, hashIndex_FindEquals_holds hash h _ hh k]
    exact ⟨rfl, rfl⟩
  · intro lo hi
    obtain ⟨out, eo, hperm⟩ := btreeIndex_FindRange_holds b _ hb lo hi
    have hp := hashIndex_FindRange_holds hash h _ hh lo hi
    refine ⟨out, eo, hp.trans hperm.symm, hperm, ?_⟩
    intro r
    rw [hp.mem_iff]
    simp only [List.mem_map, List.mem_filter, decide_eq_true_eq]
    constructor
    · rintro ⟨⟨k, r'⟩, ⟨hm, hin⟩, rfl⟩
      exact ⟨k, hm, hin⟩
    · rintro ⟨k, hm, hin⟩
      exact ⟨(k, r), ⟨hm, hin⟩, rfl⟩

end IndexTheory

section DatabaseTheory

variable {T IdT K Ref : Type}

/-! ### The alive rows of a table -/

theorem filterMap_getElem? {α β : Type} (f : α → Option β) (l : List α)
    (h : ∀ x ∈ l, ∃ y, f x = some y) (i : Nat) :
    (l.filterMap f)[i]? = (l[i]?).bind f := by
  induction l generalizing i with
  | nil => rfl
  | cons a l ih =>
    obtain ⟨y, hy⟩ := h a (List.mem_cons_self _ _)
    rw [List.filterMap_cons_some hy]
    cases i with
    | zero => simp [hy]
    | succ i =>
      simp only [List.getElem?_cons_succ]
      exact ih (fun x hx => h x (List.mem_cons_of_mem _ hx)) i

theorem filterMap_length_of_some {α β : Type} (f : α → Option β) (l : List α)
    (h : ∀ x ∈ l, ∃ y, f x = some y) : (l.filterMap f).length = l.length := by
  induction l with
  | nil => rfl
  | cons a l ih =>
    obtain ⟨y, hy⟩ := h a (List.mem_cons_self _ _)
    rw [List.filterMap_cons_some hy, List.length_cons, List.length_cons,
      ih (fun x hx => h x (List.mem_cons_of_mem _ hx))]

theorem table_alive_has_record [DecidableEq IdT] (idGetter : T → IdT) (hash : IdT → Nat)
    (tb : Table T IdT) (hinv : tb.Inv idGetter hash) (s : Nat) (hs : s ∈ tb.GetAliveSlots) :
    ∃ r, tb.records_[s]? = some r := by
  obtain ⟨hpk, hlf, hlen, h3, h4, h5, h6, h7⟩ := hinv
  have hal := (table_isAliveSlot_iff tb s).mp ((table_mem_aliveSlots tb s).mp hs)
  obtain ⟨id, hid⟩ := h4 s hal
  obtain ⟨-, r, hr, -⟩ := h3 id s hid
  exact ⟨r, hr⟩

theorem table_rows_length [DecidableEq IdT] (idGetter : T → IdT) (hash : IdT → Nat)
    (tb : Table T IdT) (hinv : tb.Inv idGetter hash) : tb.rows.length = tb.GetRowCount := by
  rw [Table.rows, filterMap_length_of_some _ _ (table_alive_has_record idGetter hash tb hinv),
    table_aliveSlots_length idGetter hash tb hinv]

theorem table_getRow_rows [DecidableEq IdT] (idGetter : T → IdT) (hash : IdT → Nat)
    (tb : Table T IdT) (hinv : tb.Inv idGetter hash) (i : Nat) (hi : i < tb.GetRowCount) :
    tb.GetRow i = tb.rows[i]? := by
  obtain ⟨slot, r, h1, -, -, h4, h5, -⟩ := table_getRow_spec idGetter hash tb hinv i hi
  rw [Table.rows, filterMap_getElem? _ _ (table_alive_has_record idGetter hash tb hinv), h1,
    h4]
  exact h5.symm

theorem table_containsId_rows [DecidableEq IdT] (idGetter : T → IdT) (hash : IdT → Nat)
    (tb : Table T IdT) (hinv : tb.Inv idGetter hash) (id : IdT) :
    tb.ContainsId hash id = true ↔ id ∈ tb.rows.map idGetter := by
  obtain ⟨hpk, hlf, hlen, h3, h4, h5, h6, h7⟩ := hinv
  simp only [Table.rows, List.mem_map, List.mem_filterMap]
  constructor
  · intro hc
    obtain ⟨slot, hg⟩ := table_get_some_of_contains hash tb id hc
    obtain ⟨hal, r, hr, hid⟩ := h3 id slot hg
    refine ⟨r, ⟨slot, ?_, hr⟩, hid⟩
    exact (table_mem_aliveSlots tb slot).mpr ((table_isAliveSlot_iff tb slot).mpr hal)
  · rintro ⟨r, ⟨slot, hs, hr⟩, hid⟩
    have hal := (table_isAliveSlot_iff tb slot).mp ((table_mem_aliveSlots tb slot).mp hs)
    obtain ⟨id', hid'⟩ := h4 slot hal
    obtain ⟨-, r', hr', hrid'⟩ := h3 id' slot hid'
    rw [hr] at hr'
    cases hr'
    rw [table_containsId_iff, ← hid, hrid', hid']
    rfl

theorem table_rows_new : (Table.new : Table T IdT).rows = [] := rfl

theorem table_rows_append [DecidableEq IdT] (idGetter : T → IdT) (hash : IdT → Nat)
    (tb : Table T IdT) (hinv : tb.Inv idGetter hash) (row : T) (pk : HashTable IdT Nat)
    (n : Nat) :
    Table.rows (⟨tb.records_ ++ [row], tb.alive_ ++ [true], [], n, pk⟩ : Table T IdT)
      = tb.rows ++ [row] := by
  have hlen : tb.alive_.length = tb.records_.length := hinv.2.2.1
  have hslots : Table.GetAliveSlots
      (⟨tb.records_ ++ [row], tb.alive_ ++ [true], [], n, pk⟩ : Table T IdT)
      = tb.GetAliveSlots ++ [tb.alive_.length] := by
    simp only [Table.GetAliveSlots, List.length_append, List.length_singleton,
      List.range_succ, List.filter_append]
    congr 1
    · apply List.filter_congr
      intro i hi
      rw [List.getElem?_append_left (List.mem_range.mp hi)]
    · simp
  rw [Table.rows, hslots, List.filterMap_append]
  congr 1
  · apply List.filterMap_congr
    intro s hs
    have : s < tb.alive_.length := by
      have := (table_mem_aliveSlots tb s).mp hs
      simp only [Table.IsAliveSlot, Bool.and_eq_true, decide_eq_true_eq] at this
      exact this.1
    show (tb.records_ ++ [row])[s]? = tb.records_[s]?
    rw [List.getElem?_append_left (by omega)]
  · show List.filterMap (fun s => (tb.records_ ++ [row])[s]?) [tb.alive_.length] = [row]
    rw [hlen]
    simp

theorem dedupById_congr [DecidableEq IdT] (idGetter : T → IdT) (rows : List T)
    (s1 s2 : List IdT) (h : ∀ x, x ∈ s1 ↔ x ∈ s2) :
    dedupById idGetter rows s1 = dedupById idGetter rows s2 := by
  induction rows generalizing s1 s2 with
  | nil => rfl
  | cons r rows ih =>
    by_cases hm : idGetter r ∈ s1
    · have hm' := (h _).mp hm
      simp only [dedupById, hm, hm', if_true]
      exact ih s1 s2 h
    · have hm' : idGetter r ∉ s2 := fun c => hm ((h _).mpr c)
      simp only [dedupById, hm, hm', if_false]
      rw [ih (idGetter r :: s1) (idGetter r :: s2)]
      intro x
      simp only [List.mem_cons, h x]

theorem table_loadLines_rows [DecidableEq IdT] (FromCSV : String → Outcome T)
    (idGetter : T → IdT) (hash : IdT → Nat) (lines : List String) (tb : Table T IdT)
    (rowIndex : Int) (rows : List T) (hinv : tb.Inv idGetter hash)
    (hfl : tb.freeList_ = []) (hp : parsedRows FromCSV lines = some rows) :
    ∃ tb', tb.loadLines FromCSV idGetter hash rowIndex lines = .ok tb' ∧
      tb'.Inv idGetter hash ∧ tb'.freeList_ = [] ∧
      tb'.rows = tb.rows ++ dedupById idGetter rows (tb.rows.map idGetter) := by
  induction lines generalizing tb rowIndex rows with
  | nil =>
    simp only [parsedRows, Option.some.injEq] at hp
    subst hp
    exact ⟨tb, rfl, hinv, hfl, by simp [dedupById]⟩
  | cons line rest ih =>
    by_cases hl : line = ""
    · simp only [parsedRows, hl, if_true] at hp
      simp only [Table.loadLines, hl, if_true]
      exact ih tb (rowIndex + 1) rows hinv hfl hp
    · simp only [parsedRows, hl, if_false] at hp
      cases hrow : FromCSV line with
      | throws e => rw [hrow] at hp; simp at hp
      | undefined => rw [hrow] at hp; simp at hp
      | ok row =>
        rw [hrow] at hp
        cases hrest : parsedRows FromCSV rest with
        | none => rw [hrest] at hp; simp at hp
        | some rows' =>
          rw [hrest] at hp
          simp only [Option.some.injEq] at hp
          subst hp
          simp only [Table.loadLines, hl, if_false, hrow]
          cases hc : tb.ContainsId hash (idGetter row) with
          | true =>
            rw [table_InsertInternal_present idGetter hash tb row rowIndex true hc]
            obtain ⟨tb', e, hinv', hfl', hrows⟩ := ih tb (rowIndex + 1) rows' hinv hfl hrest
            refine ⟨tb', e, hinv', hfl', ?_⟩
            have hm := (table_containsId_rows idGetter hash tb hinv _).mp hc
            rw [hrows]
            simp only [dedupById, hm, if_true]
          | false =>
            obtain ⟨pk, -, e1⟩ := table_Insert_append idGetter hash tb hinv row hc hfl
            obtain ⟨tb1, e1', hinv1, -⟩ := table_Insert_spec idGetter hash tb hinv row
            rw [e1] at e1'
            cases e1'
            have e1'' : tb.InsertInternal idGetter hash row rowIndex true
                = some ⟨tb.records_ ++ [row], tb.alive_ ++ [true], [], tb.aliveCount_ + 1,
                    pk⟩ := e1
            rw [e1'']
            obtain ⟨tb', e, hinv', hfl', hrows⟩ := ih _ (rowIndex + 1) rows' hinv1 rfl hrest
            refine ⟨tb', e, hinv', hfl', ?_⟩
            have hm : idGetter row ∉ tb.rows.map idGetter := by
              intro c
              have := (table_containsId_rows idGetter hash tb hinv _).mpr c
              rw [hc] at this
              cases this
            rw [hrows, table_rows_append idGetter hash tb hinv]
            simp only [dedupById, hm, if_false, List.append_assoc, List.singleton_append]
            congr 2
            apply dedupById_congr
            intro x
            simp only [List.map_append, List.map_cons, List.map_nil, List.mem_append,
              List.mem_singleton, List.mem_cons]
            tauto

theorem table_LoadFromFile_rows [DecidableEq IdT] (FromCSV : String → Outcome T)
    (idGetter : T → IdT) (hash : IdT → Nat) (file : Option (List String)) (rows : List T)
    (hp : parsedFile FromCSV file = some rows) :
    ∃ tb, Table.LoadFromFile FromCSV idGetter hash file = .ok tb ∧
      tb.Inv idGetter hash ∧ tb.rows = dedupById idGetter rows [] := by
  cases file with
  | none =>
    simp only [parsedFile, Option.some.injEq] at hp
    subst hp
    exact ⟨Table.new, rfl, table_inv_new idGetter hash, rfl⟩
  | some lines =>
    obtain ⟨tb, e, hinv, -, hrows⟩ := table_loadLines_rows FromCSV idGetter hash lines
      Table.new 0 rows (table_inv_new idGetter hash) rfl hp
    exact ⟨tb, e, hinv, by simpa [table_rows_new] using hrows⟩

/-! ### The validation loops -/

theorem containsKey_iff_get {K' V' : Type} [DecidableEq K'] (hash : K' → Nat)
    (h : HashTable K' V') (k : K') :
    h.ContainsKey hash k = (h.Get hash k).isSome := rfl

theorem validateUniqueLoop_spec (hashString : String → Nat) (table : String)
    (tb : Table T Int) (idGetter : T → Int) (hashInt : Int → Nat)
    (hinv : tb.Inv idGetter hashInt) (GetName : T → String) (GetId : T → Int)
    (n i : Nat) (seen : HashTable String Int) (hn : i + n = tb.rows.length)
    (hseen : seen.Inv hashString)
    (hkeys : ∀ k, seen.ContainsKey hashString k = true
      ↔ k ∈ (tb.rows.map GetName).take i)
    (hnd : ((tb.rows.map GetName).take i).Nodup) :
    ((tb.rows.map GetName).Nodup ∧
      validateUniqueLoop hashString table tb GetName GetId n i seen = .ok ()) ∨
    ∃ j r, tb.rows[j]? = some r ∧ GetName r ∈ (tb.rows.map GetName).take j ∧
      ((tb.rows.map GetName).take j).Nodup ∧
      validateUniqueLoop hashString table tb GetName GetId n i seen
        = .throws (.constraint
            (DbConstraintError.Unique table "name" (GetName r) (sizeToInt j))) := by
  induction n generalizing i seen with
  | zero =>
    left
    rw [Nat.add_zero] at hn
    rw [hn, ← List.length_map tb.rows GetName, List.take_length] at hnd
    exact ⟨hnd, rfl⟩
  | succ n ih =>
    have hi : i < tb.rows.length := by omega
    have hcount := table_rows_length idGetter hashInt tb hinv
    have hrow := table_getRow_rows idGetter hashInt tb hinv i (by omega)
    rw [List.getElem?_eq_getElem hi] at hrow
    have hri : tb.rows[i]? = some tb.rows[i] := List.getElem?_eq_getElem hi
    simp only [validateUniqueLoop, hrow]
    have htake : (tb.rows.map GetName).take (i + 1)
        = (tb.rows.map GetName).take i ++ [GetName tb.rows[i]] := by
      rw [List.take_succ, List.getElem?_map, hri]
      rfl
    by_cases hc : seen.ContainsKey hashString (GetName tb.rows[i]) = true
    · right
      rw [if_pos hc]
      exact ⟨i, tb.rows[i], hri, (hkeys _).mp hc, hnd, rfl⟩
    · rw [if_neg hc]
      have hnot : GetName tb.rows[i] ∉ (tb.rows.map GetName).take i :=
        fun c => hc ((hkeys _).mpr c)
      obtain ⟨seen', e, hinv', -⟩ := Set_spec hashString seen hseen (GetName tb.rows[i])
        (GetId tb.rows[i])
      have e' : seen.Add hashString (GetName tb.rows[i]) (GetId tb.rows[i]) = some seen' := e
      simp only [e']
      apply ih (i + 1) seen' (by omega) hinv'
      · intro k
        rw [htake, List.mem_append, List.mem_singleton, ← hkeys k]
        show (seen'.Get hashString k).isSome = true ↔ _
        rw [Set_Get hashString seen seen' hseen _ _ e k]
        by_cases hk : k = GetName tb.rows[i]
        · simp [hk]
        · simp only [hk, if_false, or_false]
          rfl
      · rw [htake]
        apply List.Nodup.append hnd (List.nodup_singleton _)
        intro x hx hx'
        rw [List.mem_singleton] at hx'
        subst hx'
        exact hnot hx

theorem validateUnique_spec (hashString : String → Nat) (table : String)
    (tb : Table T Int) (idGetter : T → Int) (hashInt : Int → Nat)
    (hinv : tb.Inv idGetter hashInt) (GetName : T → String) (GetId : T → Int)
    (capacity : Nat) :
    ((tb.rows.map GetName).Nodup ∧
      validateUniqueLoop hashString table tb GetName GetId tb.GetRowCount 0
        (HashTable.new capacity (3 / 4)) = .ok ()) ∨
    ∃ j r, tb.rows[j]? = some r ∧ GetName r ∈ (tb.rows.map GetName).take j ∧
      ((tb.rows.map GetName).take j).Nodup ∧
      validateUniqueLoop hashString table tb GetName GetId tb.GetRowCount 0
        (HashTable.new capacity (3 / 4))
        = .throws (.constraint
            (DbConstraintError.Unique table "name" (GetName r) (sizeToInt j))) := by
  apply validateUniqueLoop_spec hashString table tb idGetter hashInt hinv GetName GetId
  · rw [Nat.zero_add, table_rows_length idGetter hashInt tb hinv]
  · exact inv_new hashString _ _
  · intro k
    rw [containsKey_iff_get, new_Get]
    simp
  · simp

theorem validateFkLoop_spec (tb : Table T Int) (idGetter : T → Int) (hashInt : Int → Nat)
    (hinv : tb.Inv idGetter hashInt) (check : T → Int → Option DbConstraintError)
    (n i : Nat) (hn : i + n = tb.rows.length)
    (hbefore : ∀ j r, j < i → tb.rows[j]? = some r → check r (sizeToInt j) = none) :
    ((∀ j r, tb.rows[j]? = some r → check r (sizeToInt j) = none) ∧
      validateFkLoop tb check n i = .ok ()) ∨
    ∃ j r e, tb.rows[j]? = some r ∧ check r (sizeToInt j) = some e ∧
      (∀ j' r', j' < j → tb.rows[j']? = some r' → check r' (sizeToInt j') = none) ∧
      validateFkLoop tb check n i = .throws (.constraint e) := by
  induction n generalizing i with
  | zero =>
    left
    refine ⟨?_, rfl⟩
    intro j r hj
    have : j < tb.rows.length := by
      by_contra c
      rw [List.getElem?_eq_none (by omega)] at hj
      cases hj
    exact hbefore j r (by omega) hj
  | succ n ih =>
    have hi : i < tb.rows.length := by omega
    have hcount := table_rows_length idGetter hashInt tb hinv
    have hrow := table_getRow_rows idGetter hashInt tb hinv i (by omega)
    rw [List.getElem?_eq_getElem hi] at hrow
    have hri : tb.rows[i]? = some tb.rows[i] := List.getElem?_eq_getElem hi
    simp only [validateFkLoop, hrow]
    cases hc : check tb.rows[i] (sizeToInt i) with
    | some e =>
      right
      exact ⟨i, tb.rows[i], e, hri, hc, hbefore, rfl⟩
    | none =>
      simp only
      apply ih (i + 1) (by omega)
      intro j r hj hjr
      by_cases hji : j = i
      · subst hji
        rw [hri] at hjr
        cases hjr
        exact hc
      · exact hbefore j r (by omega) hjr

theorem validateFk_spec (tb : Table T Int) (idGetter : T → Int) (hashInt : Int → Nat)
    (hinv : tb.Inv idGetter hashInt) (check : T → Int → Option DbConstraintError) :
    ((∀ j r, tb.rows[j]? = some r → check r (sizeToInt j) = none) ∧
      validateFkLoop tb check tb.GetRowCount 0 = .ok ()) ∨
    ∃ j r e, tb.rows[j]? = some r ∧ check r (sizeToInt j) = some e ∧
      (∀ j' r', j' < j → tb.rows[j']? = some r' → check r' (sizeToInt j') = none) ∧
      validateFkLoop tb check tb.GetRowCount 0 = .throws (.constraint e) := by
  apply validateFkLoop_spec tb idGetter hashInt hinv check
  · rw [Nat.zero_add, table_rows_length idGetter hashInt tb hinv]
  · intro j r hj
    omega

/-! ### `BuildIndexes` -/

theorem hashIndex_Insert_inv [DecidableEq K] (hash : K → Nat) (idx : HashIndex K Ref)
    (hinv : idx.map_.Inv hash) (key : K) (ref : Ref) :
    ∃ idx', idx.Insert hash key ref = some idx' ∧ idx'.map_.Inv hash := by
  obtain ⟨m, e, hinv', -⟩ := Set_spec hash idx.map_ hinv key
    ((idx.map_.Get hash key).getD [] ++ [ref])
  exact ⟨⟨m⟩, by rw [hashIndex_Insert_eq_Set, e]; rfl, hinv'⟩

theorem hashIndex_buildLoop_ok [DecidableEq K] (hash : K → Nat) (sel : Ref → Outcome K)
    (refs : List Ref) (idx : HashIndex K Ref) (hinv : idx.map_.Inv hash)
    (hsel : ∀ r ∈ refs, ∃ k, sel r = .ok k) :
    ∃ idx', HashIndex.buildLoop hash sel idx refs = .ok idx' ∧ idx'.map_.Inv hash := by
  induction refs generalizing idx with
  | nil => exact ⟨idx, rfl, hinv⟩
  | cons r refs ih =>
    obtain ⟨k, hk⟩ := hsel r (List.mem_cons_self _ _)
    obtain ⟨idx1, e1, h1⟩ := hashIndex_Insert_inv hash idx hinv k r
    obtain ⟨idx2, e2, h2⟩ := ih idx1 h1 (fun x hx => hsel x (List.mem_cons_of_mem _ hx))
    exact ⟨idx2, by simp only [HashIndex.buildLoop, hk, e1, e2], h2⟩

theorem btreeIndex_buildLoop_ok [LinearOrder K] (sel : Ref → Outcome K)
    (refs : List Ref) (idx : BTreeIndex K Ref) (hv : idx.tree_.Valid)
    (hsel : ∀ r ∈ refs, ∃ k, sel r = .ok k) :
    ∃ idx', BTreeIndex.buildLoop sel idx refs = .ok idx' ∧ idx'.tree_.Valid := by
  induction refs generalizing idx with
  | nil => exact ⟨idx, rfl, hv⟩
  | cons r refs ih =>
    obtain ⟨k, hk⟩ := hsel r (List.mem_cons_self _ _)
    obtain ⟨b1, e1, h1, -⟩ := Insert_spec idx.tree_ k r hv
    obtain ⟨idx2, e2, h2⟩ := ih ⟨b1⟩ h1 (fun x hx => hsel x (List.mem_cons_of_mem _ hx))
    exact ⟨idx2, by simp only [BTreeIndex.buildLoop, hk, e1, e2], h2⟩

theorem table_selector_ok (tb : Table T Int) (idGetter : T → Int) (hashInt : Int → Nat)
    (hinv : tb.Inv idGetter hashInt) (g : T → K) (s : Nat) (hs : s ∈ tb.GetAliveSlots) :
    ∃ k, (tb.GetRowBySlotOrThrow s).map g = .ok k := by
  obtain ⟨r, hr⟩ := table_alive_has_record idGetter hashInt tb hinv s hs
  have hal := (table_mem_aliveSlots tb s).mp hs
  exact ⟨g r, by simp only [Table.GetRowBySlotOrThrow, hal, if_true, hr, Outcome.ofOption,
    Outcome.map]⟩

theorem hashIndex_Build_table [DecidableEq K] (hash : K → Nat) (idx : HashIndex K Nat)
    (hidx : idx.map_.Inv hash) (tb : Table T Int) (idGetter : T → Int) (hashInt : Int → Nat)
    (hinv : tb.Inv idGetter hashInt) (g : T → K) :
    ∃ idx', idx.Build hash tb.GetAliveSlots (fun s => (tb.GetRowBySlotOrThrow s).map g)
      = .ok idx' ∧ idx'.map_.Inv hash :=
  hashIndex_buildLoop_ok hash _ _ idx.Clear (inv_Clear hash _ hidx)
    (fun s hs => table_selector_ok tb idGetter hashInt hinv g s hs)

theorem btreeIndex_Build_table [LinearOrder K] (idx : BTreeIndex K Nat)
    (hidx : idx.tree_.Valid) (tb : Table T Int) (idGetter : T → Int) (hashInt : Int → Nat)
    (hinv : tb.Inv idGetter hashInt) (g : T → K) :
    ∃ idx', idx.Build tb.GetAliveSlots (fun s => (tb.GetRowBySlotOrThrow s).map g)
      = .ok idx' ∧ idx'.tree_.Valid :=
  btreeIndex_buildLoop_ok _ _ idx.Clear (valid_Clear _ hidx)
    (fun s hs => table_selector_ok tb idGetter hashInt hinv g s hs)

theorem database_BuildIndexes_ok (hashInt : Int → Nat) (hashString : String → Nat)
    (db : Database) (hw : db.WellFormed hashInt hashString) :
    ∃ db', db.BuildIndexes hashInt hashString = .ok db' ∧
      db'.WellFormed hashInt hashString ∧
      db'.addresses_ = db.addresses_ ∧ db'.departments_ = db.departments_ ∧
      db'.employees_ = db.employees_ ∧ db'.suppliers_ = db.suppliers_ ∧
      db'.products_ = db.products_ ∧ db'.purchases_ = db.purchases_ := by
  obtain ⟨i1, e1, h1⟩ := hashIndex_Build_table hashString db.addressesByCity_
    hw.addressesByCity db.addresses_ _ hashInt hw.addresses Address.GetCity
  obtain ⟨i2, e2, h2⟩ := btreeIndex_Build_table db.addressesById_
    hw.addressesById db.addresses_ _ hashInt hw.addresses Address.GetId
  obtain ⟨i3, e3, h3⟩ := hashIndex_Build_table hashString db.departmentsByName_
    hw.departmentsByName db.departments_ _ hashInt hw.departments Department.GetName
  obtain ⟨i4, e4, h4⟩ := hashIndex_Build_table hashInt db.departmentsByAddressId_
    hw.departmentsByAddressId db.departments_ _ hashInt hw.departments
    Department.GetAddressId
  obtain ⟨i5, e5, h5⟩ := hashIndex_Build_table hashString db.employeesByFullName_
    hw.employeesByFullName db.employees_ _ hashInt hw.employees Employee.GetFullName
  obtain ⟨i6, e6, h6⟩ := btreeIndex_Build_table db.employeesByBirthYear_
    hw.employeesByBirthYear db.employees_ _ hashInt hw.employees Employee.GetBirthYear
  obtain ⟨i7, e7, h7⟩ := hashIndex_Build_table hashInt db.employeesByDeptId_
    hw.employeesByDeptId db.employees_ _ hashInt hw.employees Employee.GetDeptId
  obtain ⟨i8, e8, h8⟩ := hashIndex_Build_table hashString db.suppliersByName_
    hw.suppliersByName db.suppliers_ _ hashInt hw.suppliers Supplier.GetName
  obtain ⟨i9, e9, h9⟩ := hashIndex_Build_table hashString db.suppliersByCity_
    hw.suppliersByCity db.suppliers_ _ hashInt hw.suppliers Supplier.GetCity
  obtain ⟨i10, e10, h10⟩ := hashIndex_Build_table hashString db.productsByName_
    hw.productsByName db.products_ _ hashInt hw.products Product.GetName
  obtain ⟨i11, e11, h11⟩ := hashIndex_Build_table hashInt db.productsByDefaultSupplierId_
    hw.productsByDefaultSupplierId db.products_ _ hashInt hw.products
    Product.GetDefaultSupplierId
  obtain ⟨i12, e12, h12⟩ := btreeIndex_Build_table db.purchasesByDate_
    hw.purchasesByDate db.purchases_ _ hashInt hw.purchases Purchase.GetDate
  obtain ⟨i13, e13, h13⟩ := hashIndex_Build_table hashInt db.purchasesBySupplierId_
    hw.purchasesBySupplierId db.purchases_ _ hashInt hw.purchases Purchase.GetSupplierId
  obtain ⟨i14, e14, h14⟩ := hashIndex_Build_table hashInt db.purchasesByProductId_
    hw.purchasesByProductId db.purchases_ _ hashInt hw.purchases Purchase.GetProductId
  obtain ⟨i15, e15, h15⟩ := hashIndex_Build_table hashInt db.purchasesByDeptId_
    hw.purchasesByDeptId db.purchases_ _ hashInt hw.purchases Purchase.GetDeptId
  refine ⟨{ db with
      addressesByCity_ := i1, addressesById_ := i2, departmentsByName_ := i3,
      departmentsByAddressId_ := i4, employeesByFullName_ := i5,
      employeesByBirthYear_ := i6, employeesByDeptId_ := i7, suppliersByName_ := i8,
      suppliersByCity_ := i9, productsByName_ := i10, productsByDefaultSupplierId_ := i11,
      purchasesByDate_ := i12, purchasesBySupplierId_ := i13,
      purchasesByProductId_ := i14, purchasesByDeptId_ := i15 },
    by simp only [Database.BuildIndexes, e1, e2, e3, e4, e5, e6, e7, e8, e9, e10,
      e11, e12, e13, e14, e15, Outcome.andThen], ?_, rfl, rfl, rfl, rfl, rfl, rfl⟩
  exact ⟨hw.addresses, hw.departments, hw.employees, hw.suppliers, hw.products,
    hw.purchases, h1, h2, h3, h4, h5, h6, h7, h8, h9, h10, h11, h12, h13, h14, h15⟩

theorem database_wellFormed_loaded (hashInt : Int → Nat) (hashString : String → Nat)
    (ta : Table Address Int) (td : Table Department Int) (te : Table Employee Int)
    (ts : Table Supplier Int) (tp : Table Product Int) (tu : Table Purchase Int)
    (ha : ta.Inv Address.GetId hashInt) (hd : td.Inv Department.GetId hashInt)
    (he : te.Inv Employee.GetId hashInt) (hs : ts.Inv Supplier.GetId hashInt)
    (hp : tp.Inv Product.GetId hashInt) (hu : tu.Inv Purchase.GetId hashInt) :
    Database.WellFormed hashInt hashString
      { Database.new with
        addresses_ := ta, departments_ := td, employees_ := te,
        suppliers_ := ts, products_ := tp, purchases_ := tu } :=
  ⟨ha, hd, he, hs, hp, hu, inv_new _ _ _, valid_new _, inv_new _ _ _, inv_new _ _ _,
    inv_new _ _ _, valid_new _, inv_new _ _ _, inv_new _ _ _, inv_new _ _ _, inv_new _ _ _,
    inv_new _ _ _, valid_new _, inv_new _ _ _, inv_new _ _ _, inv_new _ _ _⟩

/-! ### `LoadFromFiles` -/

theorem sizeToInt_of_lt (n : Nat) (h : n < 2 ^ 31) : sizeToInt n = (n : Int) := by
  have h1 : n % 2 ^ 32 = n := Nat.mod_eq_of_lt (by omega)
  simp only [sizeToInt, h1, h, if_true]

theorem not_nodup_of_repeat {α : Type} (l : List α) (j : Nat) (x : α) (h : l[j]? = some x)
    (hm : x ∈ l.take j) : ¬ l.Nodup := by
  intro hnd
  have hj : j < l.length := by
    by_contra c
    rw [List.getElem?_eq_none (by omega)] at h
    cases h
  have hx : l[j] = x := by
    rw [List.getElem?_eq_getElem hj] at h
    exact Option.some.inj h
  have hsplit : l = l.take j ++ x :: l.drop (j + 1) := by
    rw [← hx, ← List.drop_eq_getElem_cons hj, List.take_append_drop]
  rw [hsplit] at hnd
  exact (List.nodup_append.mp hnd).2.2 hm (List.mem_cons_self _ _)

theorem unique_stage (hashString : String → Nat) (table : String)
    (tb : Table T Int) (idGetter : T → Int) (hashInt : Int → Nat)
    (hinv : tb.Inv idGetter hashInt) (GetName : T → String) (GetId : T → Int)
    (capacity : Nat) :
    ((tb.rows.map GetName).Nodup →
      validateUniqueLoop hashString table tb GetName GetId tb.GetRowCount 0
        (HashTable.new capacity (3 / 4)) = .ok ()) ∧
    (¬ (tb.rows.map GetName).Nodup →
      ∃ j r, tb.rows[j]? = some r ∧ tb.GetRow j = some r ∧
        GetName r ∈ (tb.rows.map GetName).take j ∧
        ((tb.rows.map GetName).take j).Nodup ∧
        validateUniqueLoop hashString table tb GetName GetId tb.GetRowCount 0
          (HashTable.new capacity (3 / 4))
          = .throws (.constraint
              (DbConstraintError.Unique table "name" (GetName r) (sizeToInt j)))) := by
  rcases validateUnique_spec hashString table tb idGetter hashInt hinv GetName GetId capacity
    with ⟨hnd, hok⟩ | ⟨j, r, hj, hm, hnd, hth⟩
  · exact ⟨fun _ => hok, fun c => absurd hnd c⟩
  · have hno : ¬ (tb.rows.map GetName).Nodup :=
      not_nodup_of_repeat _ j (GetName r) (by rw [List.getElem?_map, hj]; rfl) hm
    refine ⟨fun c => absurd c hno, fun _ => ⟨j, r, hj, ?_, hm, hnd, hth⟩⟩
    have hlt : j < tb.GetRowCount := by
      rw [← table_rows_length idGetter hashInt tb hinv]
      by_contra c
      rw [List.getElem?_eq_none (by omega)] at hj
      cases hj
    rw [table_getRow_rows idGetter hashInt tb hinv j hlt, hj]

theorem fk_stage (tb : Table T Int) (idGetter : T → Int) (hashInt : Int → Nat)
    (hinv : tb.Inv idGetter hashInt) (check : T → Int → Option DbConstraintError)
    (good : T → Prop) (hgood : ∀ r i, check r i = none ↔ good r) :
    ((∀ r ∈ tb.rows, good r) → validateFkLoop tb check tb.GetRowCount 0 = .ok ()) ∧
    (¬ (∀ r ∈ tb.rows, good r) →
      ∃ j r e, tb.rows[j]? = some r ∧ tb.GetRow j = some r ∧ ¬ good r ∧
        check r (sizeToInt j) = some e ∧
        (∀ j' r', j' < j → tb.rows[j']? = some r' → good r') ∧
        validateFkLoop tb check tb.GetRowCount 0 = .throws (.constraint e)) := by
  rcases validateFk_spec tb idGetter hashInt hinv check
    with ⟨hall, hok⟩ | ⟨j, r, e, hj, hc, hbefore, hth⟩
  · have hall' : ∀ r ∈ tb.rows, good r := by
      intro r hr
      obtain ⟨j, hj⟩ := List.mem_iff_getElem?.mp hr
      exact (hgood r _).mp (hall j r hj)
    exact ⟨fun _ => hok, fun c => absurd hall' c⟩
  · have hbad : ¬ good r := by
      intro c
      rw [(hgood r (sizeToInt j)).mpr c] at hc
      cases hc
    have hno : ¬ ∀ r ∈ tb.rows, good r :=
      fun c => hbad (c r (List.mem_iff_getElem?.mpr ⟨j, hj⟩))
    refine ⟨fun c => absurd c hno, fun _ => ⟨j, r, e, hj, ?_, hbad, hc, ?_, hth⟩⟩
    · have hlt : j < tb.GetRowCount := by
        rw [← table_rows_length idGetter hashInt tb hinv]
        by_contra c
        rw [List.getElem?_eq_none (by omega)] at hj
        cases hj
      rw [table_getRow_rows idGetter hashInt tb hinv j hlt, hj]
    · intro j' r' hj' hr'
      exact (hgood r' _).mp (hbefore j' r' hj' hr')

theorem andThen_ok {α β : Type} (x : Outcome α) (a : α) (f : α → Outcome β)
    (h : x = .ok a) : x.andThen f = f a := by
  rw [h]; rfl

theorem andThen_throws {α β : Type} (x : Outcome α) (e : Exn) (f : α → Outcome β)
    (h : x = .throws e) : x.andThen f = .throws e := by
  rw [h]; rfl

theorem table_LoadFromFile_fileRows {IdT : Type} [DecidableEq IdT]
    (FromCSV : String → Outcome T) (idGetter : T → IdT) (hash : IdT → Nat)
    (file : Option (List String)) (R : List T)
    (hp : fileRows FromCSV idGetter file = some R) :
    ∃ tb, Table.LoadFromFile FromCSV idGetter hash file = .ok tb ∧
      tb.Inv idGetter hash ∧ tb.rows = R := by
  unfold fileRows at hp
  cases hx : parsedFile FromCSV file with
  | none => rw [hx] at hp; cases hp
  | some rows =>
    rw [hx] at hp
    simp only [Option.some.injEq] at hp
    subst hp
    exact table_LoadFromFile_rows FromCSV idGetter hash file rows hx

theorem fk_check_none_iff (c : Bool) (e : DbConstraintError) :
    (if (!c) = true then some e else none) = none ↔ c = true := by
  cases c <;> simp

theorem database_LoadFromFiles_eq (P : RowParsers) (hashInt : Int → Nat)
    (hashString : String → Nat)
    (addresses departments employees suppliers products purchases : Option (List String)) :
    Database.LoadFromFiles hashInt hashString P addresses departments employees suppliers
        products purchases
      = (Table.LoadFromFile P.Address Address.GetId hashInt addresses).andThen fun ta =>
        (Table.LoadFromFile P.Supplier Supplier.GetId hashInt suppliers).andThen fun ts =>
        (Table.LoadFromFile P.Product Product.GetId hashInt products).andThen fun tp =>
        (validateUniqueLoop hashString "suppliers" ts Supplier.GetName Supplier.GetId
          ts.GetRowCount 0 (HashTable.new 256 (3 / 4))).andThen fun _ =>
        (validateUniqueLoop hashString "products" tp Product.GetName Product.GetId
          tp.GetRowCount 0 (HashTable.new 512 (3 / 4))).andThen fun _ =>
        (validateFkLoop tp (fun p i =>
          if !ts.ContainsId hashInt p.GetDefaultSupplierId then
            some (DbConstraintError.ForeignKey "products" "default_supplier_id"
              (to_string p.GetDefaultSupplierId) "suppliers" "id" i)
          else none) tp.GetRowCount 0).andThen fun _ =>
        (Table.LoadFromFile P.Department Department.GetId hashInt departments).andThen
        fun td =>
        (validateUniqueLoop hashString "departments" td Department.GetName Department.GetId
          td.GetRowCount 0 (HashTable.new 128 (3 / 4))).andThen fun _ =>
        (validateFkLoop td (fun d i =>
          if !ta.ContainsId hashInt d.GetAddressId then
            some (DbConstraintError.ForeignKey "departments" "address_id"
              (to_string d.GetAddressId) "addresses" "id" i)
          else none) td.GetRowCount 0).andThen fun _ =>
        (Table.LoadFromFile P.Employee Employee.GetId hashInt employees).andThen fun te =>
        (validateFkLoop te (fun e i =>
          if !td.ContainsId hashInt e.GetDeptId then
            some (DbConstraintError.ForeignKey "employees" "dept_id"
              (to_string e.GetDeptId) "departments" "id" i)
          else none) te.GetRowCount 0).andThen fun _ =>
        (Table.LoadFromFile P.Purchase Purchase.GetId hashInt purchases).andThen fun tu =>
        (validateFkLoop tu (fun pur i =>
          if !td.ContainsId hashInt pur.GetDeptId then
            some (DbConstraintError.ForeignKey "purchases" "dept_id"
              (to_string pur.GetDeptId) "departments" "id" i)
          else if !ts.ContainsId hashInt pur.GetSupplierId then
            some (DbConstraintError.ForeignKey "purchases" "supplier_id"
              (to_string pur.GetSupplierId) "suppliers" "id" i)
          else if !tp.ContainsId hashInt pur.GetProductId then
            some (DbConstraintError.ForeignKey "purchases" "product_id"
              (to_string pur.GetProductId) "products" "id" i)
          else none) tu.GetRowCount 0).andThen fun _ =>
        Database.BuildIndexes hashInt hashString
          { Database.new with
            addresses_ := ta, departments_ := td, employees_ := te,
            suppliers_ := ts, products_ := tp, purchases_ := tu } := rfl

theorem purchase_check_none_iff (c1 c2 c3 : Bool) (e1 e2 e3 : DbConstraintError) :
    (if (!c1) = true then some e1 else if (!c2) = true then some e2
      else if (!c3) = true then some e3 else none) = none
      ↔ c1 = true ∧ c2 = true ∧ c3 = true := by
  cases c1 <;> cases c2 <;> cases c3 <;> simp

theorem fk_check_some (c : Bool) (e e' : DbConstraintError)
    (h : (if (!c) = true then some e else none) = some e') : e' = e := by
  cases c <;> simp at h
  exact h.symm

/-- C19. When the address, supplier, product and department files parse, supplier names,
product names and department names are pairwise distinct, every product refers to a
loaded supplier, and some loaded department has an `address_id` that is not the id of a
loaded address, `LoadFromFiles` throws a constraint error of type `ForeignKeyViolation`
with table `departments` and field `address_id`; its row index is the logical index `j`
(the argument of `GetRow`) of the first such department. -/
theorem database_load_department_address_fk (P : RowParsers) (hashInt : Int → Nat)
    (hashString : String → Nat)
    (addresses departments employees suppliers products purchases : Option (List String))
    (A : List Address) (D : List Department) (S : List Supplier) (Pr : List Product)
    (ha : fileRows P.Address Address.GetId addresses = some A)
    (hd : fileRows P.Department Department.GetId departments = some D)
    (hs : fileRows P.Supplier Supplier.GetId suppliers = some S)
    (hp : fileRows P.Product Product.GetId products = some Pr)
    (q1 : (S.map Supplier.GetName).Nodup) (q2 : (Pr.map Product.GetName).Nodup)
    (q3 : ∀ p ∈ Pr, p.GetDefaultSupplierId ∈ S.map Supplier.GetId)
    (q4 : (D.map Department.GetName).Nodup)
    (d0 : Department) (hd0 : d0 ∈ D) (hbad : d0.GetAddressId ∉ A.map Address.GetId) :
    ∃ td j d e,
      Table.LoadFromFile P.Department Department.GetId hashInt departments = .ok td ∧
      td.rows = D ∧ td.GetRow j = some d ∧ D[j]? = some d ∧
      d.GetAddressId ∉ A.map Address.GetId ∧
      (∀ j' d', j' < j → D[j']? = some d' → d'.GetAddressId ∈ A.map Address.GetId) ∧
      Database.LoadFromFiles hashInt hashString P addresses departments employees suppliers
        products purchases = .throws (.constraint e) ∧
      e.GetType = .ForeignKeyViolation ∧ e.GetTable = "departments" ∧
      e.GetField = "address_id" ∧ e.GetRowIndex = sizeToInt j ∧
      (j < 2 ^ 31 → e.GetRowIndex = (j : Int)) := by
  obtain ⟨ta, hA, hia, hra⟩ := table_LoadFromFile_fileRows P.Address Address.GetId hashInt
    addresses A ha
  obtain ⟨td, hD, hid, hrd⟩ := table_LoadFromFile_fileRows P.Department Department.GetId
    hashInt departments D hd
  obtain ⟨ts, hS, his, hrs⟩ := table_LoadFromFile_fileRows P.Supplier Supplier.GetId hashInt
    suppliers S hs
  obtain ⟨tp, hP, hip, hrp⟩ := table_LoadFromFile_fileRows P.Product Product.GetId hashInt
    products Pr hp
  have st1 := unique_stage hashString "suppliers" ts Supplier.GetId hashInt his
    Supplier.GetName Supplier.GetId 256
  rw [hrs] at st1
  have st2 := unique_stage hashString "products" tp Product.GetId hashInt hip
    Product.GetName Product.GetId 512
  rw [hrp] at st2
  have st3 := fk_stage tp Product.GetId hashInt hip
    (fun p i =>
      if !ts.ContainsId hashInt p.GetDefaultSupplierId then
        some (DbConstraintError.ForeignKey "products" "default_supplier_id"
          (to_string p.GetDefaultSupplierId) "suppliers" "id" i)
      else none)
    (fun p => p.GetDefaultSupplierId ∈ ts.rows.map Supplier.GetId)
    (fun r i => (fk_check_none_iff _ _).trans
      (table_containsId_rows Supplier.GetId hashInt ts his _))
  rw [hrp, hrs] at st3
  have st4 := unique_stage hashString "departments" td Department.GetId hashInt hid
    Department.GetName Department.GetId 128
  rw [hrd] at st4
  have st5 := fk_stage td Department.GetId hashInt hid
    (fun d i =>
      if !ta.ContainsId hashInt d.GetAddressId then
        some (DbConstraintError.ForeignKey "departments" "address_id"
          (to_string d.GetAddressId) "addresses" "id" i)
      else none)
    (fun d => d.GetAddressId ∈ ta.rows.map Address.GetId)
    (fun r i => (fk_check_none_iff _ _).trans
      (table_containsId_rows Address.GetId hashInt ta hia _))
  rw [hrd, hra] at st5
  obtain ⟨j, d, e, hj, hrow, hnot, hc, hbefore, hth⟩ := st5.2 (fun c => hbad (c d0 hd0))
  have he := fk_check_some _ _ _ hc
  subst he
  refine ⟨td, j, d, DbConstraintError.ForeignKey "departments" "address_id"
      (to_string d.GetAddressId) "addresses" "id" (sizeToInt j),
    hD, hrd, hrow, hj, hnot, hbefore, ?_, rfl, rfl, rfl, rfl,
    fun hlt => sizeToInt_of_lt j hlt⟩
  rw [database_LoadFromFiles_eq, andThen_ok _ _ _ hA, andThen_ok _ _ _ hS,
    andThen_ok _ _ _ hP, andThen_ok _ _ _ (st1.1 q1), andThen_ok _ _ _ (st2.1 q2),
    andThen_ok _ _ _ (st3.1 q3), andThen_ok _ _ _ hD, andThen_ok _ _ _ (st4.1 q4)]
  exact andThen_throws _ _ _ hth

/-- C19, instance: a department that refers to address 1 while no address file exists. -/
theorem database_load_department_address_fk_witness :
    fileRows lengthParsers.Address Address.GetId none = some [] ∧
    fileRows lengthParsers.Department Department.GetId (some ["d"]) = some [⟨1, "d", 1⟩] ∧
    ∃ e, Database.LoadFromFiles (fun n => n.toNat) String.length lengthParsers none
        (some ["d"]) none none none none = .throws (.constraint e) ∧
      e.GetType = .ForeignKeyViolation ∧ e.GetTable = "departments" ∧
      e.GetField = "address_id" :=
  ⟨by decide, by decide,
    (database_load_department_address_fk lengthParsers (fun n => n.toNat) String.length none
      (some ["d"]) none none none none [] [⟨1, "d", 1⟩] [] []
      (by decide) (by decide) (by decide) (by decide) (by decide) (by decide) (by decide)
      (by decide) ⟨1, "d", 1⟩ (by decide) (by decide)).elim
      fun _ h1 => h1.elim fun _ h2 => h2.elim fun _ h3 => h3.elim fun e h =>
        ⟨e, h.2.2.2.2.2.2.1, h.2.2.2.2.2.2.2.1, h.2.2.2.2.2.2.2.2.1,
          h.2.2.2.2.2.2.2.2.2.1⟩⟩

/-- C20. When the address, supplier and product files parse and two loaded suppliers (rows
of the supplier table after the load) have different ids and the same name,
`LoadFromFiles` throws a constraint error of type `UniqueViolation` with table `suppliers`
and field `name`; its row index is the logical index `j` (the argument of `GetRow`) of the
first supplier whose name is the name of an earlier one: no name repeats before `j`. -/
theorem database_load_duplicate_supplier_name (P : RowParsers) (hashInt : Int → Nat)
    (hashString : String → Nat)
    (addresses departments employees suppliers products purchases : Option (List String))
    (A : List Address) (S : List Supplier) (Pr : List Product)
    (ha : fileRows P.Address Address.GetId addresses = some A)
    (hs : fileRows P.Supplier Supplier.GetId suppliers = some S)
    (hp : fileRows P.Product Product.GetId products = some Pr)
    (s1 s2 : Supplier) (h1 : s1 ∈ S) (h2 : s2 ∈ S) (hid : s1.GetId ≠ s2.GetId)
    (hname : s1.GetName = s2.GetName) :
    ∃ ts j s e, Table.LoadFromFile P.Supplier Supplier.GetId hashInt suppliers = .ok ts ∧
      ts.rows = S ∧ ts.GetRow j = some s ∧ S[j]? = some s ∧
      s.GetName ∈ (S.map Supplier.GetName).take j ∧
      ((S.map Supplier.GetName).take j).Nodup ∧
      Database.LoadFromFiles hashInt hashString P addresses departments employees suppliers
        products purchases = .throws (.constraint e) ∧
      e.GetType = .UniqueViolation ∧ e.GetTable = "suppliers" ∧ e.GetField = "name" ∧
      e.GetRowIndex = sizeToInt j ∧ (j < 2 ^ 31 → e.GetRowIndex = (j : Int)) := by
  obtain ⟨ta, hA, hia, hra⟩ := table_LoadFromFile_fileRows P.Address Address.GetId hashInt
    addresses A ha
  obtain ⟨ts, hS, his, hrs⟩ := table_LoadFromFile_fileRows P.Supplier Supplier.GetId hashInt
    suppliers S hs
  obtain ⟨tp, hP, hip, hrp⟩ := table_LoadFromFile_fileRows P.Product Product.GetId hashInt
    products Pr hp
  have hdup : ¬ (S.map Supplier.GetName).Nodup := by
    intro hnd
    have := List.inj_on_of_nodup_map hnd h1 h2 hname
    exact hid (by rw [this])
  have st1 := unique_stage hashString "suppliers" ts Supplier.GetId hashInt his
    Supplier.GetName Supplier.GetId 256
  rw [hrs] at st1
  obtain ⟨j, s, hj, hrow, hm, hnd, hth⟩ := st1.2 hdup
  refine ⟨ts, j, s, DbConstraintError.Unique "suppliers" "name" s.GetName (sizeToInt j),
    hS, hrs, hrow, hj, hm, hnd, ?_, rfl, rfl, rfl, rfl,
    fun hlt => sizeToInt_of_lt j hlt⟩
  rw [database_LoadFromFiles_eq, andThen_ok _ _ _ hA, andThen_ok _ _ _ hS,
    andThen_ok _ _ _ hP]
  exact andThen_throws _ _ _ hth

/-- C20, instance: two supplier lines with ids 1 and 2 and the same name. -/
theorem database_load_duplicate_supplier_name_witness :
    fileRows lengthParsers.Supplier Supplier.GetId (some ["a", "ab"])
      = some [⟨1, "a", "", "", ""⟩, ⟨2, "a", "", "", ""⟩] ∧
    ∃ e, Database.LoadFromFiles (fun n => n.toNat) String.length lengthParsers none none
        none (some ["a", "ab"]) none none = .throws (.constraint e) ∧
      e.GetType = .UniqueViolation ∧ e.GetTable = "suppliers" ∧ e.GetField = "name" :=
  ⟨by decide,
    (database_load_duplicate_supplier_name lengthParsers (fun n => n.toNat) String.length
      none none none (some ["a", "ab"]) none none [] [⟨1, "a", "", "", ""⟩,
      ⟨2, "a", "", "", ""⟩] [] (by decide) (by decide) (by decide)
      ⟨1, "a", "", "", ""⟩ ⟨2, "a", "", "", ""⟩ (by decide) (by decide) (by decide)
      (by decide)).elim
      fun _ h1 => h1.elim fun _ h2 => h2.elim fun _ h3 => h3.elim fun e h =>
        ⟨e, h.2.2.2.2.2.2.1, h.2.2.2.2.2.2.2.1, h.2.2.2.2.2.2.2.2.1,
          h.2.2.2.2.2.2.2.2.2.1⟩⟩

end DatabaseTheory

section DeleteTheory

variable {T IdT : Type}

/-! ### The scan loops of the delete operations -/

theorem firstIndexOf_eq_none {α : Type} (p : α → Bool) (l : List α) :
    firstIndexOf p l = none ↔ ∀ a ∈ l, p a = false := by
  induction l with
  | nil => simp [firstIndexOf]
  | cons a l ih =>
    by_cases h : p a = true
    · simp [firstIndexOf, h]
    · simp only [Bool.not_eq_true] at h
      simp [firstIndexOf, h, ih]

theorem firstIndexOf_eq_some {α : Type} (p : α → Bool) (l : List α) (j : Nat) :
    firstIndexOf p l = some j ↔
      ∃ a, l[j]? = some a ∧ p a = true ∧ ∀ j' a', j' < j → l[j']? = some a' → p a' = false := by
  induction l generalizing j with
  | nil => simp [firstIndexOf]
  | cons b l ih =>
    by_cases h : p b = true
    · simp only [firstIndexOf, h, if_true, Option.some.injEq]
      constructor
      · intro hj
        subst hj
        exact ⟨b, by simp, h, fun j' a' hj' => absurd hj' (Nat.not_lt_zero _)⟩
      · rintro ⟨a, ha, hpa, hbefore⟩
        by_contra hne
        have := hbefore 0 b (by omega) (by simp)
        rw [h] at this
        cases this
    · simp only [Bool.not_eq_true] at h
      simp only [firstIndexOf, h, Bool.false_eq_true, if_false, Option.map_eq_some']
      constructor
      · rintro ⟨j0, hj0, rfl⟩
        obtain ⟨a, ha, hpa, hbefore⟩ := (ih j0).mp hj0
        refine ⟨a, by simpa using ha, hpa, ?_⟩
        intro j' a' hj' ha'
        cases j' with
        | zero =>
          simp only [List.getElem?_cons_zero, Option.some.injEq] at ha'
          rw [← ha']; exact h
        | succ j'' =>
          simp only [List.getElem?_cons_succ] at ha'
          exact hbefore j'' a' (by omega) ha'
      · rintro ⟨a, ha, hpa, hbefore⟩
        cases j with
        | zero =>
          simp only [List.getElem?_cons_zero, Option.some.injEq] at ha
          rw [← ha, h] at hpa
          cases hpa
        | succ j0 =>
          refine ⟨j0, (ih j0).mpr ⟨a, by simpa using ha, hpa, ?_⟩, rfl⟩
          intro j' a' hj' ha'
          exact hbefore (j' + 1) a' (by omega) (by simpa using ha')

theorem restrictScan_eq (tb : Table T Int) (idGetter : T → Int) (hashInt : Int → Nat)
    (hinv : tb.Inv idGetter hashInt) (GetRef : T → Int) (table field refTable : String)
    (id : Int) :
    restrictScan tb GetRef table field refTable id
      = match firstIndexOf (fun r => decide (GetRef r = id)) tb.rows with
        | some j => .throws (.constraint
            (DbConstraintError.Restrict table field (to_string id) refTable "id"
              (sizeToInt j)))
        | none => .ok () := by
  rcases validateFk_spec tb idGetter hashInt hinv
      (fun row i =>
        if GetRef row = id then
          some (DbConstraintError.Restrict table field (to_string id) refTable "id" i)
        else none)
    with ⟨hall, hok⟩ | ⟨j, r, e, hj, hc, hbefore, hth⟩
  · have hnone : firstIndexOf (fun r => decide (GetRef r = id)) tb.rows = none := by
      rw [firstIndexOf_eq_none]
      intro a ha
      obtain ⟨j, hj⟩ := List.mem_iff_getElem?.mp ha
      have := hall j a hj
      by_cases hx : GetRef a = id
      · simp [hx] at this
      · simp [hx]
    rw [hnone]
    exact hok
  · have hsome : firstIndexOf (fun r => decide (GetRef r = id)) tb.rows = some j := by
      rw [firstIndexOf_eq_some]
      refine ⟨r, hj, ?_, ?_⟩
      · by_cases hx : GetRef r = id
        · simp [hx]
        · simp [hx] at hc
      · intro j' a' hj' ha'
        have := hbefore j' a' hj' ha'
        by_cases hx : GetRef a' = id
        · simp [hx] at this
        · simp [hx]
    rw [hsome]
    have he : e = DbConstraintError.Restrict table field (to_string id) refTable "id"
        (sizeToInt j) := by
      by_cases hx : GetRef r = id
      · simp only [hx, if_true, Option.some.injEq] at hc
        exact hc.symm
      · simp [hx] at hc
    subst he
    exact hth

theorem firstIndexOf_lt {α : Type} (p : α → Bool) (l : List α) (j : Nat)
    (h : firstIndexOf p l = some j) : j < l.length := by
  obtain ⟨a, ha, -⟩ := (firstIndexOf_eq_some p l j).mp h
  by_contra c
  rw [List.getElem?_eq_none (by omega)] at ha
  cases ha

/-! ### The alive rows after `DeleteById` -/

theorem filterMap_filter_comm {α β : Type} (f : α → Option β) (p : α → Bool) (q : β → Bool)
    (l : List α) (h : ∀ x ∈ l, ∀ y, f x = some y → p x = q y) :
    (l.filter p).filterMap f = (l.filterMap f).filter q := by
  induction l with
  | nil => rfl
  | cons a l ih =>
    have ih' := ih (fun x hx => h x (List.mem_cons_of_mem _ hx))
    cases hfa : f a with
    | none =>
      rw [List.filterMap_cons_none hfa]
      by_cases hp : p a = true
      · rw [List.filter_cons_of_pos hp, List.filterMap_cons_none hfa, ih']
      · rw [List.filter_cons_of_neg hp, ih']
    | some y =>
      rw [List.filterMap_cons_some hfa]
      have hpq := h a (List.mem_cons_self _ _) y hfa
      by_cases hp : p a = true
      · rw [List.filter_cons_of_pos hp, List.filterMap_cons_some hfa,
          List.filter_cons_of_pos (by rw [← hpq]; exact hp), ih']
      · rw [List.filter_cons_of_neg hp, List.filter_cons_of_neg (by rw [← hpq]; exact hp), ih']

theorem table_rows_DeleteById [DecidableEq IdT] (idGetter : T → IdT) (hash : IdT → Nat)
    (tb : Table T IdT) (hinv : tb.Inv idGetter hash) (id : IdT) :
    (tb.DeleteById hash id).1.rows = tb.rows.filter (fun r => decide (idGetter r ≠ id)) := by
  have hinv0 := hinv
  obtain ⟨hpk, hlf, hlen, h3, h4, h5, h6, h7⟩ := hinv
  cases hg : tb.pkIndex_.Get hash id with
  | none =>
    rw [table_DeleteById_absent hash tb id hg]
    symm
    rw [List.filter_eq_self]
    intro r hr
    have hno : ¬ tb.ContainsId hash id = true := by
      rw [table_containsId_iff, hg]; simp
    have : idGetter r ≠ id := by
      intro c
      exact hno ((table_containsId_rows idGetter hash tb hinv0 id).mpr
        (List.mem_map.mpr ⟨r, hr, c⟩))
    simp [this]
  | some slot =>
    obtain ⟨halive, hd⟩ := table_DeleteById_found idGetter hash tb hinv0 id slot hg
    have hsl : slot < tb.alive_.length := by
      by_contra c
      rw [List.getElem?_eq_none (by omega)] at halive
      cases halive
    rw [hd]
    have hslots : Table.GetAliveSlots
        (⟨tb.records_, setAt slot false tb.alive_, tb.freeList_ ++ [slot], tb.aliveCount_ - 1,
          (tb.pkIndex_.Remove hash id).1⟩ : Table T IdT)
        = tb.GetAliveSlots.filter (fun s => decide (s ≠ slot)) := by
      have hl : (setAt slot false tb.alive_).length = tb.alive_.length := by
        simp only [setAt, List.length_append, List.length_take, List.length_cons,
          List.length_drop]
        omega
      simp only [Table.GetAliveSlots, hl, List.filter_filter]
      apply List.filter_congr
      intro s _
      rw [getElem?_setAt slot s false tb.alive_ hsl]
      by_cases hs : s = slot
      · simp [hs]
      · simp [hs]
    rw [Table.rows, hslots]
    show List.filterMap (fun s => tb.records_[s]?) _ = _
    rw [Table.rows]
    apply filterMap_filter_comm
    intro s hs r hr
    have hal := (table_isAliveSlot_iff tb s).mp ((table_mem_aliveSlots tb s).mp hs)
    obtain ⟨id', hid'⟩ := h4 s hal
    obtain ⟨-, r', hr', hrid'⟩ := h3 id' s hid'
    rw [hr] at hr'
    cases hr'
    by_cases hss : s = slot
    · obtain ⟨-, r0, hr0, hrid0⟩ := h3 id slot hg
      rw [hss] at hr
      rw [hr] at hr0
      cases hr0
      simp [hss, hrid0]
    · have : idGetter r ≠ id := by
        intro c
        rw [hrid'] at c
        subst c
        rw [hid'] at hg
        cases hg
        exact hss rfl
      simp [hss, this]

theorem table_get_of_alive_record [DecidableEq IdT] (idGetter : T → IdT) (hash : IdT → Nat)
    (tb : Table T IdT) (hinv : tb.Inv idGetter hash) (s : Nat) (r : T)
    (hs : s ∈ tb.GetAliveSlots) (hr : tb.records_[s]? = some r) :
    tb.pkIndex_.Get hash (idGetter r) = some s := by
  obtain ⟨hpk, hlf, hlen, h3, h4, h5, h6, h7⟩ := hinv
  have hal := (table_isAliveSlot_iff tb s).mp ((table_mem_aliveSlots tb s).mp hs)
  obtain ⟨id', hid'⟩ := h4 s hal
  obtain ⟨-, r', hr', hrid'⟩ := h3 id' s hid'
  rw [hr] at hr'
  cases hr'
  rw [hrid']
  exact hid'

theorem table_rows_nodup_ids [DecidableEq IdT] (idGetter : T → IdT) (hash : IdT → Nat)
    (tb : Table T IdT) (hinv : tb.Inv idGetter hash) : (tb.rows.map idGetter).Nodup := by
  have hsorted := table_aliveSlots_sorted tb
  have hnd : tb.GetAliveSlots.Nodup := hsorted.imp (fun h => Nat.ne_of_lt h)
  have hmap : tb.rows.map idGetter
      = tb.GetAliveSlots.filterMap (fun s => (tb.records_[s]?).map idGetter) := by
    rw [Table.rows, List.map_filterMap]
  rw [hmap]
  have hp := List.Pairwise.and_mem.mp hnd
  refine List.Pairwise.filterMap _ ?_ hp
  rintro s1 s2 ⟨h1, h2, hne⟩ i1 hi1 i2 hi2 heq
  simp only [Option.mem_def, Option.map_eq_some'] at hi1 hi2
  obtain ⟨r1, hr1, rfl⟩ := hi1
  obtain ⟨r2, hr2, rfl⟩ := hi2
  have e1 := table_get_of_alive_record idGetter hash tb hinv s1 r1 h1 hr1
  have e2 := table_get_of_alive_record idGetter hash tb hinv s2 r2 h2 hr2
  rw [heq, e2] at e1
  exact hne (Option.some.inj e1).symm

/-! ### A successful load -/

theorem database_load_ok (P : RowParsers) (hashInt : Int → Nat)
    (hashString : String → Nat)
    (addresses departments employees suppliers products purchases : Option (List String))
    (A : List Address) (D : List Department) (E : List Employee) (S : List Supplier)
    (Pr : List Product) (U : List Purchase)
    (ha : fileRows P.Address Address.GetId addresses = some A)
    (hd : fileRows P.Department Department.GetId departments = some D)
    (he : fileRows P.Employee Employee.GetId employees = some E)
    (hs : fileRows P.Supplier Supplier.GetId suppliers = some S)
    (hp : fileRows P.Product Product.GetId products = some Pr)
    (hu : fileRows P.Purchase Purchase.GetId purchases = some U)
    (q1 : (S.map Supplier.GetName).Nodup) (q2 : (Pr.map Product.GetName).Nodup)
    (q3 : ∀ p ∈ Pr, p.GetDefaultSupplierId ∈ S.map Supplier.GetId)
    (q4 : (D.map Department.GetName).Nodup)
    (q5 : ∀ d ∈ D, d.GetAddressId ∈ A.map Address.GetId)
    (q6 : ∀ e ∈ E, e.GetDeptId ∈ D.map Department.GetId)
    (q7 : ∀ u ∈ U, u.GetDeptId ∈ D.map Department.GetId ∧
      u.GetSupplierId ∈ S.map Supplier.GetId ∧ u.GetProductId ∈ Pr.map Product.GetId) :
    ∃ (db0 : Database) (db : Database),
      Database.LoadFromFiles hashInt hashString P addresses departments employees
        suppliers products purchases = .ok db ∧
      db0.WellFormed hashInt hashString ∧
      db0.BuildIndexes hashInt hashString = .ok db ∧
      db.WellFormed hashInt hashString ∧
      db.addresses_.rows = A ∧ db.departments_.rows = D ∧ db.employees_.rows = E ∧
      db.suppliers_.rows = S ∧ db.products_.rows = Pr ∧ db.purchases_.rows = U := by
  obtain ⟨ta, hA, hia, hra⟩ := table_LoadFromFile_fileRows P.Address Address.GetId hashInt
    addresses A ha
  obtain ⟨td, hD, hid, hrd⟩ := table_LoadFromFile_fileRows P.Department Department.GetId
    hashInt departments D hd
  obtain ⟨te, hE, hie, hre⟩ := table_LoadFromFile_fileRows P.Employee Employee.GetId hashInt
    employees E he
  obtain ⟨ts, hS, his, hrs⟩ := table_LoadFromFile_fileRows P.Supplier Supplier.GetId hashInt
    suppliers S hs
  obtain ⟨tp, hP, hip, hrp⟩ := table_LoadFromFile_fileRows P.Product Product.GetId hashInt
    products Pr hp
  obtain ⟨tu, hU, hiu, hru⟩ := table_LoadFromFile_fileRows P.Purchase Purchase.GetId hashInt
    purchases U hu
  have st1 := unique_stage hashString "suppliers" ts Supplier.GetId hashInt his
    Supplier.GetName Supplier.GetId 256
  rw [hrs] at st1
  have st2 := unique_stage hashString "products" tp Product.GetId hashInt hip
    Product.GetName Product.GetId 512
  rw [hrp] at st2
  have st3 := fk_stage tp Product.GetId hashInt hip
    (fun p i =>
      if !ts.ContainsId hashInt p.GetDefaultSupplierId then
        some (DbConstraintError.ForeignKey "products" "default_supplier_id"
          (to_string p.GetDefaultSupplierId) "suppliers" "id" i)
      else none)
    (fun p => p.GetDefaultSupplierId ∈ ts.rows.map Supplier.GetId)
    (fun r i => (fk_check_none_iff _ _).trans
      (table_containsId_rows Supplier.GetId hashInt ts his _))
  rw [hrp, hrs] at st3
  have st4 := unique_stage hashString "departments" td Department.GetId hashInt hid
    Department.GetName Department.GetId 128
  rw [hrd] at st4
  have st5 := fk_stage td Department.GetId hashInt hid
    (fun d i =>
      if !ta.ContainsId hashInt d.GetAddressId then
        some (DbConstraintError.ForeignKey "departments" "address_id"
          (to_string d.GetAddressId) "addresses" "id" i)
      else none)
    (fun d => d.GetAddressId ∈ ta.rows.map Address.GetId)
    (fun r i => (fk_check_none_iff _ _).trans
      (table_containsId_rows Address.GetId hashInt ta hia _))
  rw [hrd, hra] at st5
  have st6 := fk_stage te Employee.GetId hashInt hie
    (fun e i =>
      if !td.ContainsId hashInt e.GetDeptId then
        some (DbConstraintError.ForeignKey "employees" "dept_id"
          (to_string e.GetDeptId) "departments" "id" i)
      else none)
    (fun e => e.GetDeptId ∈ td.rows.map Department.GetId)
    (fun r i => (fk_check_none_iff _ _).trans
      (table_containsId_rows Department.GetId hashInt td hid _))
  rw [hre, hrd] at st6
  have st7 := fk_stage tu Purchase.GetId hashInt hiu
    (fun pur i =>
      if !td.ContainsId hashInt pur.GetDeptId then
        some (DbConstraintError.ForeignKey "purchases" "dept_id"
          (to_string pur.GetDeptId) "departments" "id" i)
      else if !ts.ContainsId hashInt pur.GetSupplierId then
        some (DbConstraintError.ForeignKey "purchases" "supplier_id"
          (to_string pur.GetSupplierId) "suppliers" "id" i)
      else if !tp.ContainsId hashInt pur.GetProductId then
        some (DbConstraintError.ForeignKey "purchases" "product_id"
          (to_string pur.GetProductId) "products" "id" i)
      else none)
    (fun u => u.GetDeptId ∈ td.rows.map Department.GetId ∧
      u.GetSupplierId ∈ ts.rows.map Supplier.GetId ∧
      u.GetProductId ∈ tp.rows.map Product.GetId)
    (fun r i => (purchase_check_none_iff _ _ _ _ _ _).trans
      (and_congr (table_containsId_rows Department.GetId hashInt td hid _)
        (and_congr (table_containsId_rows Supplier.GetId hashInt ts his _)
          (table_containsId_rows Product.GetId hashInt tp hip _))))
  rw [hru, hrd, hrs, hrp] at st7
  have hw0 := database_wellFormed_loaded hashInt hashString ta td te ts tp tu hia hid hie his
    hip hiu
  obtain ⟨db', hb, hw', e1, e2, e3, e4, e5, e6⟩ :=
    database_BuildIndexes_ok hashInt hashString _ hw0
  refine ⟨_, db', ?_, hw0, hb, hw', ?_⟩
  · rw [database_LoadFromFiles_eq, andThen_ok _ _ _ hA, andThen_ok _ _ _ hS,
      andThen_ok _ _ _ hP, andThen_ok _ _ _ (st1.1 q1), andThen_ok _ _ _ (st2.1 q2),
      andThen_ok _ _ _ (st3.1 q3), andThen_ok _ _ _ hD, andThen_ok _ _ _ (st4.1 q4),
      andThen_ok _ _ _ (st5.1 q5), andThen_ok _ _ _ hE, andThen_ok _ _ _ (st6.1 q6),
      andThen_ok _ _ _ hU, andThen_ok _ _ _ (st7.1 q7)]
    exact hb
  · rw [e1, e2, e3, e4, e5, e6]
    exact ⟨hra, hrd, hre, hrs, hrp, hru⟩

/-! ### The delete operations -/

theorem restrict_first (tb : Table T Int) (idGetter : T → Int) (hashInt : Int → Nat)
    (hinv : tb.Inv idGetter hashInt) (GetRef : T → Int) (table field refTable : String)
    (id : Int) (h : ∃ r ∈ tb.rows, GetRef r = id) :
    ∃ j r, tb.rows[j]? = some r ∧ tb.GetRow j = some r ∧ GetRef r = id ∧
      (∀ j' r', j' < j → tb.rows[j']? = some r' → GetRef r' ≠ id) ∧
      restrictScan tb GetRef table field refTable id
        = .throws (.constraint
            (DbConstraintError.Restrict table field (to_string id) refTable "id"
              (sizeToInt j))) := by
  have st := fk_stage tb idGetter hashInt hinv
    (fun row i =>
      if GetRef row = id then
        some (DbConstraintError.Restrict table field (to_string id) refTable "id" i)
      else none)
    (fun r => GetRef r ≠ id)
    (fun r i => by by_cases hx : GetRef r = id <;> simp [hx])
  obtain ⟨r0, hr0, hid0⟩ := h
  obtain ⟨j, r, e, hj, hrow, hbad, hc, hbefore, hth⟩ := st.2 (fun c => c r0 hr0 hid0)
  have hbad' : GetRef r = id := not_not.mp hbad
  simp only [hbad', if_true, Option.some.injEq] at hc
  subst hc
  exact ⟨j, r, hj, hrow, hbad', hbefore, hth⟩

theorem restrict_none (tb : Table T Int) (idGetter : T → Int) (hashInt : Int → Nat)
    (hinv : tb.Inv idGetter hashInt) (GetRef : T → Int) (table field refTable : String)
    (id : Int) (h : ∀ r ∈ tb.rows, GetRef r ≠ id) :
    restrictScan tb GetRef table field refTable id = .ok () :=
  (fk_stage tb idGetter hashInt hinv
    (fun row i =>
      if GetRef row = id then
        some (DbConstraintError.Restrict table field (to_string id) refTable "id" i)
      else none)
    (fun r => GetRef r ≠ id)
    (fun r i => by by_cases hx : GetRef r = id <;> simp [hx])).1 h

theorem afterScan_ok (db : Database) (scan : Outcome Unit) (rest : Database × Outcome Unit)
    (h : scan = .ok ()) : afterScan db scan rest = rest := by
  rw [h]; rfl

theorem afterScan_throws (db : Database) (scan : Outcome Unit)
    (rest : Database × Outcome Unit) (e : Exn) (h : scan = .throws e) :
    afterScan db scan rest = (db, .throws e) := by
  rw [h]; rfl

theorem table_delete_found {IdT : Type} [DecidableEq IdT] (idGetter : T → IdT)
    (hash : IdT → Nat) (tb : Table T IdT) (hinv : tb.Inv idGetter hash) (id : IdT)
    (hc : tb.ContainsId hash id = true) :
    (tb.DeleteById hash id).2 = true ∧ (tb.DeleteById hash id).1.Inv idGetter hash ∧
    (tb.DeleteById hash id).1.ContainsId hash id = false ∧
    (tb.DeleteById hash id).1.GetRowCount + 1 = tb.GetRowCount ∧
    (tb.DeleteById hash id).1.rows = tb.rows.filter (fun r => decide (idGetter r ≠ id)) := by
  obtain ⟨hinv', hget, hret, hcnt⟩ := table_DeleteById_spec idGetter hash tb hinv id
  refine ⟨by rw [hret, hc], hinv', ?_, ?_, table_rows_DeleteById idGetter hash tb hinv id⟩
  · rw [table_containsId_iff, hget id, if_pos rfl]; rfl
  · rw [hret, hc] at hcnt
    simpa [Table.GetRowCount] using hcnt

theorem table_delete_absent {IdT : Type} [DecidableEq IdT] (hash : IdT → Nat)
    (tb : Table T IdT) (id : IdT) (hc : tb.ContainsId hash id = false) :
    tb.DeleteById hash id = (tb, false) :=
  table_DeleteById_absent hash tb id (table_get_none_of_not_contains hash tb id hc)

/-- A database with one address, one department at that address and one employee of that
department, as loaded from three one-line files. -/
theorem sample_database :
    ∃ (db0 : Database) (db : Database),
      Database.LoadFromFiles (fun n => n.toNat) String.length lengthParsers (some ["a"])
        (some ["d"]) (some ["e"]) none none none = .ok db ∧
      db0.WellFormed (fun n => n.toNat) String.length ∧
      db0.BuildIndexes (fun n => n.toNat) String.length = .ok db ∧
      db.WellFormed (fun n => n.toNat) String.length ∧
      db.addresses_.rows = [⟨1, "a", "", "", ""⟩] ∧ db.departments_.rows = [⟨1, "d", 1⟩] ∧
      db.employees_.rows = [⟨1, "e", "", "", 0, 1⟩] ∧
      db.suppliers_.rows = [] ∧ db.products_.rows = [] ∧ db.purchases_.rows = [] :=
  database_load_ok lengthParsers (fun n => n.toNat) String.length (some ["a"])
    (some ["d"]) (some ["e"]) none none none [⟨1, "a", "", "", ""⟩] [⟨1, "d", 1⟩]
    [⟨1, "e", "", "", 0, 1⟩] [] [] [] (by decide) (by decide) (by decide) (by decide)
    (by decide) (by decide) (by decide) (by decide) (by decide) (by decide) (by decide)
    (by decide) (by decide)

theorem restrict_fields (table field value refTable refField : String) (i : Int) :
    (DbConstraintError.Restrict table field value refTable refField i).GetType
      = .RestrictViolation ∧
    (DbConstraintError.Restrict table field value refTable refField i).GetTable = table ∧
    (DbConstraintError.Restrict table field value refTable refField i).GetField = field ∧
    (DbConstraintError.Restrict table field value refTable refField i).GetRowIndex = i :=
  ⟨rfl, rfl, rfl, rfl⟩

/-- C22. In a well-formed `Database` (every state reached from a load is one), for a target
id: when a live employee has the id as `dept_id`, `DeleteDepartment` throws
`Restrict("employees", "dept_id", ..)` with the logical index `j` of the first such employee;
when no employee but a live purchase refers to it, `Restrict("purchases", "dept_id", ..)`
with the index of the first such purchase. Likewise `DeleteSupplier` (products, then
purchases), `DeleteProduct` (purchases) and `DeleteAddress` (departments). In each case the
database after the call is the database before it. The error made by `Restrict` has type
`RestrictViolation`, the given table and field and the given row index, which is `j` for
`j` below `2^31`. -/
theorem database_delete_restrict (hashInt : Int → Nat) (hashString : String → Nat)
    (db : Database) (hw : db.WellFormed hashInt hashString) (id : Int) :
    ((∃ e ∈ db.employees_.rows, e.GetDeptId = id) →
      ∃ j e, db.employees_.rows[j]? = some e ∧ db.employees_.GetRow j = some e ∧
        e.GetDeptId = id ∧
        (∀ j' e', j' < j → db.employees_.rows[j']? = some e' → e'.GetDeptId ≠ id) ∧
        db.DeleteDepartment hashInt id = (db, .throws (.constraint
          (DbConstraintError.Restrict "employees" "dept_id" (to_string id) "departments" "id"
            (sizeToInt j))))) ∧
    ((∀ e ∈ db.employees_.rows, e.GetDeptId ≠ id) →
      (∃ u ∈ db.purchases_.rows, u.GetDeptId = id) →
      ∃ j u, db.purchases_.rows[j]? = some u ∧ db.purchases_.GetRow j = some u ∧
        u.GetDeptId = id ∧
        (∀ j' u', j' < j → db.purchases_.rows[j']? = some u' → u'.GetDeptId ≠ id) ∧
        db.DeleteDepartment hashInt id = (db, .throws (.constraint
          (DbConstraintError.Restrict "purchases" "dept_id" (to_string id) "departments" "id"
            (sizeToInt j))))) ∧
    ((∃ p ∈ db.products_.rows, p.GetDefaultSupplierId = id) →
      ∃ j p, db.products_.rows[j]? = some p ∧ db.products_.GetRow j = some p ∧
        p.GetDefaultSupplierId = id ∧
        (∀ j' p', j' < j → db.products_.rows[j']? = some p' →
          p'.GetDefaultSupplierId ≠ id) ∧
        db.DeleteSupplier hashInt id = (db, .throws (.constraint
          (DbConstraintError.Restrict "products" "default_supplier_id" (to_string id)
            "suppliers" "id" (sizeToInt j))))) ∧
    ((∀ p ∈ db.products_.rows, p.GetDefaultSupplierId ≠ id) →
      (∃ u ∈ db.purchases_.rows, u.GetSupplierId = id) →
      ∃ j u, db.purchases_.rows[j]? = some u ∧ db.purchases_.GetRow j = some u ∧
        u.GetSupplierId = id ∧
        (∀ j' u', j' < j → db.purchases_.rows[j']? = some u' → u'.GetSupplierId ≠ id) ∧
        db.DeleteSupplier hashInt id = (db, .throws (.constraint
          (DbConstraintError.Restrict "purchases" "supplier_id" (to_string id) "suppliers"
            "id" (sizeToInt j))))) ∧
    ((∃ u ∈ db.purchases_.rows, u.GetProductId = id) →
      ∃ j u, db.purchases_.rows[j]? = some u ∧ db.purchases_.GetRow j = some u ∧
        u.GetProductId = id ∧
        (∀ j' u', j' < j → db.purchases_.rows[j']? = some u' → u'.GetProductId ≠ id) ∧
        db.DeleteProduct hashInt id = (db, .throws (.constraint
          (DbConstraintError.Restrict "purchases" "product_id" (to_string id) "products" "id"
            (sizeToInt j))))) ∧
    ((∃ d ∈ db.departments_.rows, d.GetAddressId = id) →
      ∃ j d, db.departments_.rows[j]? = some d ∧ db.departments_.GetRow j = some d ∧
        d.GetAddressId = id ∧
        (∀ j' d', j' < j → db.departments_.rows[j']? = some d' → d'.GetAddressId ≠ id) ∧
        db.DeleteAddress hashInt id = (db, .throws (.constraint
          (DbConstraintError.Restrict "departments" "address_id" (to_string id) "addresses"
            "id" (sizeToInt j))))) ∧
    (∀ (table field value refTable refField : String) (i : Int),
      (DbConstraintError.Restrict table field value refTable refField i).GetType
        = .RestrictViolation ∧
      (DbConstraintError.Restrict table field value refTable refField i).GetTable = table ∧
      (DbConstraintError.Restrict table field value refTable refField i).GetField = field ∧
      (DbConstraintError.Restrict table field value refTable refField i).GetRowIndex = i) ∧
    (∀ j : Nat, j < 2 ^ 31 → sizeToInt j = (j : Int)) := by
  refine ⟨?_, ?_, ?_, ?_, ?_, ?_, restrict_fields, sizeToInt_of_lt⟩
  · intro h
    obtain ⟨j, e, h1, h2, h3, h4, h5⟩ := restrict_first db.employees_ Employee.GetId hashInt
      hw.employees Employee.GetDeptId "employees" "dept_id" "departments" id h
    exact ⟨j, e, h1, h2, h3, h4, afterScan_throws _ _ _ _ h5⟩
  · intro h0 h
    obtain ⟨j, u, h1, h2, h3, h4, h5⟩ := restrict_first db.purchases_ Purchase.GetId hashInt
      hw.purchases Purchase.GetDeptId "purchases" "dept_id" "departments" id h
    refine ⟨j, u, h1, h2, h3, h4, ?_⟩
    rw [Database.DeleteDepartment, afterScan_ok _ _ _ (restrict_none db.employees_
      Employee.GetId hashInt hw.employees Employee.GetDeptId _ _ _ id h0)]
    exact afterScan_throws _ _ _ _ h5
  · intro h
    obtain ⟨j, p, h1, h2, h3, h4, h5⟩ := restrict_first db.products_ Product.GetId hashInt
      hw.products Product.GetDefaultSupplierId "products" "default_supplier_id" "suppliers"
      id h
    exact ⟨j, p, h1, h2, h3, h4, afterScan_throws _ _ _ _ h5⟩
  · intro h0 h
    obtain ⟨j, u, h1, h2, h3, h4, h5⟩ := restrict_first db.purchases_ Purchase.GetId hashInt
      hw.purchases Purchase.GetSupplierId "purchases" "supplier_id" "suppliers" id h
    refine ⟨j, u, h1, h2, h3, h4, ?_⟩
    rw [Database.DeleteSupplier, afterScan_ok _ _ _ (restrict_none db.products_
      Product.GetId hashInt hw.products Product.GetDefaultSupplierId _ _ _ id h0)]
    exact afterScan_throws _ _ _ _ h5
  · intro h
    obtain ⟨j, u, h1, h2, h3, h4, h5⟩ := restrict_first db.purchases_ Purchase.GetId hashInt
      hw.purchases Purchase.GetProductId "purchases" "product_id" "products" id h
    exact ⟨j, u, h1, h2, h3, h4, afterScan_throws _ _ _ _ h5⟩
  · intro h
    obtain ⟨j, d, h1, h2, h3, h4, h5⟩ := restrict_first db.departments_ Department.GetId
      hashInt hw.departments Department.GetAddressId "departments" "address_id" "addresses"
      id h
    exact ⟨j, d, h1, h2, h3, h4, afterScan_throws _ _ _ _ h5⟩

/-- C22, instance: the department of the one employee of the sample database. -/
theorem database_delete_restrict_witness :
    ∃ db : Database, db.WellFormed (fun n => n.toNat) String.length ∧
      (∃ e ∈ db.employees_.rows, e.GetDeptId = 1) ∧
      ∃ j, db.DeleteDepartment (fun n => n.toNat) 1 = (db, .throws (.constraint
        (DbConstraintError.Restrict "employees" "dept_id" (to_string 1) "departments" "id"
          (sizeToInt j)))) :=
  sample_database.elim fun _ h0 => h0.elim fun db h =>
    have href : ∃ e ∈ db.employees_.rows, e.GetDeptId = 1 := by
      rw [h.2.2.2.2.2.2.1]
      exact ⟨_, List.mem_singleton.mpr rfl, rfl⟩
    ⟨db, h.2.2.2.1, href,
      ((database_delete_restrict (fun n => n.toNat) String.length db h.2.2.2.1 1).1 href).elim
        fun j hj => hj.elim fun _ hje => ⟨j, hje.2.2.2.2⟩⟩

theorem database_DeleteDepartment_clean (hashInt : Int → Nat) (hashString : String → Nat)
    (db : Database) (hw : db.WellFormed hashInt hashString) (id : Int)
    (h1 : ∀ e ∈ db.employees_.rows, e.GetDeptId ≠ id)
    (h2 : ∀ u ∈ db.purchases_.rows, u.GetDeptId ≠ id) :
    db.DeleteDepartment hashInt id
      = ({ db with departments_ := (db.departments_.DeleteById hashInt id).1 },
          notFoundUnless (db.departments_.DeleteById hashInt id).2
            "Department not found: id=" id) := by
  rw [Database.DeleteDepartment,
    afterScan_ok _ _ _ (restrict_none db.employees_ Employee.GetId hashInt hw.employees
      Employee.GetDeptId _ _ _ id h1),
    afterScan_ok _ _ _ (restrict_none db.purchases_ Purchase.GetId hashInt hw.purchases
      Purchase.GetDeptId _ _ _ id h2)]

theorem database_DeleteSupplier_clean (hashInt : Int → Nat) (hashString : String → Nat)
    (db : Database) (hw : db.WellFormed hashInt hashString) (id : Int)
    (h1 : ∀ p ∈ db.products_.rows, p.GetDefaultSupplierId ≠ id)
    (h2 : ∀ u ∈ db.purchases_.rows, u.GetSupplierId ≠ id) :
    db.DeleteSupplier hashInt id
      = ({ db with suppliers_ := (db.suppliers_.DeleteById hashInt id).1 },
          notFoundUnless (db.suppliers_.DeleteById hashInt id).2
            "Supplier not found: id=" id) := by
  rw [Database.DeleteSupplier,
    afterScan_ok _ _ _ (restrict_none db.products_ Product.GetId hashInt hw.products
      Product.GetDefaultSupplierId _ _ _ id h1),
    afterScan_ok _ _ _ (restrict_none db.purchases_ Purchase.GetId hashInt hw.purchases
      Purchase.GetSupplierId _ _ _ id h2)]

theorem database_DeleteProduct_clean (hashInt : Int → Nat) (hashString : String → Nat)
    (db : Database) (hw : db.WellFormed hashInt hashString) (id : Int)
    (h1 : ∀ u ∈ db.purchases_.rows, u.GetProductId ≠ id) :
    db.DeleteProduct hashInt id
      = ({ db with products_ := (db.products_.DeleteById hashInt id).1 },
          notFoundUnless (db.products_.DeleteById hashInt id).2
            "Product not found: id=" id) := by
  rw [Database.DeleteProduct,
    afterScan_ok _ _ _ (restrict_none db.purchases_ Purchase.GetId hashInt hw.purchases
      Purchase.GetProductId _ _ _ id h1)]

theorem database_DeleteAddress_clean (hashInt : Int → Nat) (hashString : String → Nat)
    (db : Database) (hw : db.WellFormed hashInt hashString) (id : Int)
    (h1 : ∀ d ∈ db.departments_.rows, d.GetAddressId ≠ id) :
    db.DeleteAddress hashInt id
      = ({ db with addresses_ := (db.addresses_.DeleteById hashInt id).1 },
          notFoundUnless (db.addresses_.DeleteById hashInt id).2
            "Address not found: id=" id) := by
  rw [Database.DeleteAddress,
    afterScan_ok _ _ _ (restrict_none db.departments_ Department.GetId hashInt
      hw.departments Department.GetAddressId _ _ _ id h1)]

/-- C24. In a well-formed `Database`, when the target id is not in its table and no live row
of a referencing table refers to it, each of the six delete operations throws the
`std::runtime_error` that says the row was not found, and the database after the call is the
database before it. -/
theorem database_delete_not_found (hashInt : Int → Nat) (hashString : String → Nat)
    (db : Database) (hw : db.WellFormed hashInt hashString) (id : Int) :
    (db.addresses_.ContainsId hashInt id = false →
      (∀ d ∈ db.departments_.rows, d.GetAddressId ≠ id) →
      db.DeleteAddress hashInt id
        = (db, .throws (.runtime ("Address not found: id=" ++ to_string id)))) ∧
    (db.departments_.ContainsId hashInt id = false →
      (∀ e ∈ db.employees_.rows, e.GetDeptId ≠ id) →
      (∀ u ∈ db.purchases_.rows, u.GetDeptId ≠ id) →
      db.DeleteDepartment hashInt id
        = (db, .throws (.runtime ("Department not found: id=" ++ to_string id)))) ∧
    (db.employees_.ContainsId hashInt id = false →
      db.DeleteEmployee hashInt id
        = (db, .throws (.runtime ("Employee not found: id=" ++ to_string id)))) ∧
    (db.suppliers_.ContainsId hashInt id = false →
      (∀ p ∈ db.products_.rows, p.GetDefaultSupplierId ≠ id) →
      (∀ u ∈ db.purchases_.rows, u.GetSupplierId ≠ id) →
      db.DeleteSupplier hashInt id
        = (db, .throws (.runtime ("Supplier not found: id=" ++ to_string id)))) ∧
    (db.products_.ContainsId hashInt id = false →
      (∀ u ∈ db.purchases_.rows, u.GetProductId ≠ id) →
      db.DeleteProduct hashInt id
        = (db, .throws (.runtime ("Product not found: id=" ++ to_string id)))) ∧
    (db.purchases_.ContainsId hashInt id = false →
      db.DeletePurchase hashInt id
        = (db, .throws (.runtime ("Purchase not found: id=" ++ to_string id)))) := by
  refine ⟨?_, ?_, ?_, ?_, ?_, ?_⟩
  · intro hc h1
    rw [database_DeleteAddress_clean hashInt hashString db hw id h1,
      table_delete_absent hashInt db.addresses_ id hc]
    rfl
  · intro hc h1 h2
    rw [database_DeleteDepartment_clean hashInt hashString db hw id h1 h2,
      table_delete_absent hashInt db.departments_ id hc]
    rfl
  · intro hc
    rw [Database.DeleteEmployee, table_delete_absent hashInt db.employees_ id hc]
    rfl
  · intro hc h1 h2
    rw [database_DeleteSupplier_clean hashInt hashString db hw id h1 h2,
      table_delete_absent hashInt db.suppliers_ id hc]
    rfl
  · intro hc h1
    rw [database_DeleteProduct_clean hashInt hashString db hw id h1,
      table_delete_absent hashInt db.products_ id hc]
    rfl
  · intro hc
    rw [Database.DeletePurchase, table_delete_absent hashInt db.purchases_ id hc]
    rfl

theorem table_not_contains_of_rows {T IdT : Type} [DecidableEq IdT] (idGetter : T → IdT)
    (hash : IdT → Nat) (tb : Table T IdT) (hinv : tb.Inv idGetter hash) (id : IdT)
    (h : id ∉ tb.rows.map idGetter) : tb.ContainsId hash id = false := by
  cases hc : tb.ContainsId hash id with
  | false => rfl
  | true => exact absurd ((table_containsId_rows idGetter hash tb hinv id).mp hc) h

theorem table_contains_of_rows {T IdT : Type} [DecidableEq IdT] (idGetter : T → IdT)
    (hash : IdT → Nat) (tb : Table T IdT) (hinv : tb.Inv idGetter hash) (id : IdT)
    (h : id ∈ tb.rows.map idGetter) : tb.ContainsId hash id = true :=
  (table_containsId_rows idGetter hash tb hinv id).mpr h

/-- C24, instance: no employee of the sample database has id 2. -/
theorem database_delete_not_found_witness :
    ∃ db : Database, db.WellFormed (fun n => n.toNat) String.length ∧
      db.employees_.ContainsId (fun n => n.toNat) 2 = false ∧
      db.DeleteEmployee (fun n => n.toNat) 2
        = (db, .throws (.runtime ("Employee not found: id=" ++ to_string 2))) :=
  sample_database.elim fun _ h0 => h0.elim fun db h =>
    have hc : db.employees_.ContainsId (fun n => n.toNat) 2 = false :=
      table_not_contains_of_rows Employee.GetId _ db.employees_ h.2.2.2.1.employees 2
        (by rw [h.2.2.2.2.2.2.1]; decide)
    ⟨db, h.2.2.2.1, hc,
      (database_delete_not_found (fun n => n.toNat) String.length db h.2.2.2.1 2).2.2.1 hc⟩

/-- C23. In a well-formed `Database`, when the target id is in its table and no live row of
a referencing table refers to it, each of the six delete operations returns normally; the
database after the call is the database before it with only the target table replaced by
the result of `DeleteById`, which no longer contains the id, has one row less and holds
the other rows as before. `DeleteEmployee` and `DeletePurchase` throw no constraint error in
any database. -/
theorem database_delete_succeeds (hashInt : Int → Nat) (hashString : String → Nat)
    (db : Database) (hw : db.WellFormed hashInt hashString) (id : Int) :
    (db.addresses_.ContainsId hashInt id = true →
      (∀ d ∈ db.departments_.rows, d.GetAddressId ≠ id) →
      db.DeleteAddress hashInt id
        = ({ db with addresses_ := (db.addresses_.DeleteById hashInt id).1 }, .ok ()) ∧
      (db.addresses_.DeleteById hashInt id).1.ContainsId hashInt id = false ∧
      (db.addresses_.DeleteById hashInt id).1.GetRowCount + 1 = db.addresses_.GetRowCount ∧
      (db.addresses_.DeleteById hashInt id).1.rows
        = db.addresses_.rows.filter (fun r => decide (r.GetId ≠ id))) ∧
    (db.departments_.ContainsId hashInt id = true →
      (∀ e ∈ db.employees_.rows, e.GetDeptId ≠ id) →
      (∀ u ∈ db.purchases_.rows, u.GetDeptId ≠ id) →
      db.DeleteDepartment hashInt id
        = ({ db with departments_ := (db.departments_.DeleteById hashInt id).1 }, .ok ()) ∧
      (db.departments_.DeleteById hashInt id).1.ContainsId hashInt id = false ∧
      (db.departments_.DeleteById hashInt id).1.GetRowCount + 1
        = db.departments_.GetRowCount ∧
      (db.departments_.DeleteById hashInt id).1.rows
        = db.departments_.rows.filter (fun r => decide (r.GetId ≠ id))) ∧
    (db.employees_.ContainsId hashInt id = true →
      db.DeleteEmployee hashInt id
        = ({ db with employees_ := (db.employees_.DeleteById hashInt id).1 }, .ok ()) ∧
      (db.employees_.DeleteById hashInt id).1.ContainsId hashInt id = false ∧
      (db.employees_.DeleteById hashInt id).1.GetRowCount + 1 = db.employees_.GetRowCount ∧
      (db.employees_.DeleteById hashInt id).1.rows
        = db.employees_.rows.filter (fun r => decide (r.GetId ≠ id))) ∧
    (db.suppliers_.ContainsId hashInt id = true →
      (∀ p ∈ db.products_.rows, p.GetDefaultSupplierId ≠ id) →
      (∀ u ∈ db.purchases_.rows, u.GetSupplierId ≠ id) →
      db.DeleteSupplier hashInt id
        = ({ db with suppliers_ := (db.suppliers_.DeleteById hashInt id).1 }, .ok ()) ∧
      (db.suppliers_.DeleteById hashInt id).1.ContainsId hashInt id = false ∧
      (db.suppliers_.DeleteById hashInt id).1.GetRowCount + 1 = db.suppliers_.GetRowCount ∧
      (db.suppliers_.DeleteById hashInt id).1.rows
        = db.suppliers_.rows.filter (fun r => decide (r.GetId ≠ id))) ∧
    (db.products_.ContainsId hashInt id = true →
      (∀ u ∈ db.purchases_.rows, u.GetProductId ≠ id) →
      db.DeleteProduct hashInt id
        = ({ db with products_ := (db.products_.DeleteById hashInt id).1 }, .ok ()) ∧
      (db.products_.DeleteById hashInt id).1.ContainsId hashInt id = false ∧
      (db.products_.DeleteById hashInt id).1.GetRowCount + 1 = db.products_.GetRowCount ∧
      (db.products_.DeleteById hashInt id).1.rows
        = db.products_.rows.filter (fun r => decide (r.GetId ≠ id))) ∧
    (db.purchases_.ContainsId hashInt id = true →
      db.DeletePurchase hashInt id
        = ({ db with purchases_ := (db.purchases_.DeleteById hashInt id).1 }, .ok ()) ∧
      (db.purchases_.DeleteById hashInt id).1.ContainsId hashInt id = false ∧
      (db.purchases_.DeleteById hashInt id).1.GetRowCount + 1 = db.purchases_.GetRowCount ∧
      (db.purchases_.DeleteById hashInt id).1.rows
        = db.purchases_.rows.filter (fun r => decide (r.GetId ≠ id))) ∧
    (∀ (db1 : Database) (id1 : Int) (e : DbConstraintError),
      (db1.DeleteEmployee hashInt id1).2 ≠ .throws (.constraint e) ∧
      (db1.DeletePurchase hashInt id1).2 ≠ .throws (.constraint e)) := by
  refine ⟨?_, ?_, ?_, ?_, ?_, ?_, ?_⟩
  · intro hc h1
    obtain ⟨f1, -, f3, f4, f5⟩ := table_delete_found Address.GetId hashInt db.addresses_
      hw.addresses id hc
    refine ⟨?_, f3, f4, f5⟩
    rw [database_DeleteAddress_clean hashInt hashString db hw id h1, f1]
    rfl
  · intro hc h1 h2
    obtain ⟨f1, -, f3, f4, f5⟩ := table_delete_found Department.GetId hashInt db.departments_
      hw.departments id hc
    refine ⟨?_, f3, f4, f5⟩
    rw [database_DeleteDepartment_clean hashInt hashString db hw id h1 h2, f1]
    rfl
  · intro hc
    obtain ⟨f1, -, f3, f4, f5⟩ := table_delete_found Employee.GetId hashInt db.employees_
      hw.employees id hc
    refine ⟨?_, f3, f4, f5⟩
    rw [Database.DeleteEmployee, f1]
    rfl
  · intro hc h1 h2
    obtain ⟨f1, -, f3, f4, f5⟩ := table_delete_found Supplier.GetId hashInt db.suppliers_
      hw.suppliers id hc
    refine ⟨?_, f3, f4, f5⟩
    rw [database_DeleteSupplier_clean hashInt hashString db hw id h1 h2, f1]
    rfl
  · intro hc h1
    obtain ⟨f1, -, f3, f4, f5⟩ := table_delete_found Product.GetId hashInt db.products_
      hw.products id hc
    refine ⟨?_, f3, f4, f5⟩
    rw [database_DeleteProduct_clean hashInt hashString db hw id h1, f1]
    rfl
  · intro hc
    obtain ⟨f1, -, f3, f4, f5⟩ := table_delete_found Purchase.GetId hashInt db.purchases_
      hw.purchases id hc
    refine ⟨?_, f3, f4, f5⟩
    rw [Database.DeletePurchase, f1]
    rfl
  · intro db1 id1 e
    constructor
    · simp only [Database.DeleteEmployee, notFoundUnless]
      split <;> simp
    · simp only [Database.DeletePurchase, notFoundUnless]
      split <;> simp

/-- C23, instance: the employee of the sample database. -/
theorem database_delete_succeeds_witness :
    ∃ db : Database, db.WellFormed (fun n => n.toNat) String.length ∧
      db.employees_.ContainsId (fun n => n.toNat) 1 = true ∧
      db.DeleteEmployee (fun n => n.toNat) 1
        = ({ db with employees_ := (db.employees_.DeleteById (fun n => n.toNat) 1).1 },
            .ok ()) ∧
      (db.employees_.DeleteById (fun n => n.toNat) 1).1.GetRowCount + 1
        = db.employees_.GetRowCount :=
  sample_database.elim fun _ h0 => h0.elim fun db h =>
    have hc : db.employees_.ContainsId (fun n => n.toNat) 1 = true :=
      table_contains_of_rows Employee.GetId _ db.employees_ h.2.2.2.1.employees 1
        (by rw [h.2.2.2.2.2.2.1]; decide)
    have hr := (database_delete_succeeds (fun n => n.toNat) String.length db h.2.2.2.1
      1).2.2.1 hc
    ⟨db, h.2.2.2.1, hc, hr.1, hr.2.2.1⟩

/-- C25, counterexample: in the database loaded from one address, one department and one
employee, `DeleteEmployee(2)` fails with a `std::runtime_error`, which is no
`DbConstraintError`. -/
theorem database_delete_not_found_untyped :
    ∃ db : Database,
      Database.LoadFromFiles (fun n => n.toNat) String.length lengthParsers (some ["a"])
        (some ["d"]) (some ["e"]) none none none = .ok db ∧
      (db.DeleteEmployee (fun n => n.toNat) 2).2
        = .throws (.runtime "Employee not found: id=2") ∧
      ¬ ∃ e : DbConstraintError,
        (db.DeleteEmployee (fun n => n.toNat) 2).2 = .throws (.constraint e) :=
  sample_database.elim fun _ h0 => h0.elim fun db h =>
    have hc : db.employees_.ContainsId (fun n => n.toNat) 2 = false :=
      table_not_contains_of_rows Employee.GetId _ db.employees_ h.2.2.2.1.employees 2
        (by rw [h.2.2.2.2.2.2.1]; decide)
    have hr : (db.DeleteEmployee (fun n => n.toNat) 2).2
        = .throws (.runtime "Employee not found: id=2") := by
      rw [Database.DeleteEmployee, table_delete_absent _ db.employees_ 2 hc]
      rfl
    ⟨db, h.1, hr, fun ⟨e, he⟩ => by rw [hr] at he; cases he⟩

/-- C25, as the code has it. In a well-formed `Database` each delete operation either
returns normally,
or throws a `DbConstraintError` made by `Restrict` (type `RestrictViolation`, with the table
and the field of the referencing side), or throws the `std::runtime_error` that says the row
was not found, which carries no table and no field; after either exception the database is
as before the call. -/
theorem database_delete_failure_kinds (hashInt : Int → Nat) (hashString : String → Nat)
    (db : Database) (hw : db.WellFormed hashInt hashString) (id : Int) :
    ((db.DeleteAddress hashInt id).2 = .ok () ∨
      (∃ j, db.DeleteAddress hashInt id = (db, .throws (.constraint
        (DbConstraintError.Restrict "departments" "address_id" (to_string id) "addresses"
          "id" (sizeToInt j))))) ∨
      db.DeleteAddress hashInt id
        = (db, .throws (.runtime ("Address not found: id=" ++ to_string id)))) ∧
    ((db.DeleteDepartment hashInt id).2 = .ok () ∨
      (∃ j, db.DeleteDepartment hashInt id = (db, .throws (.constraint
        (DbConstraintError.Restrict "employees" "dept_id" (to_string id) "departments" "id"
          (sizeToInt j))))) ∨
      (∃ j, db.DeleteDepartment hashInt id = (db, .throws (.constraint
        (DbConstraintError.Restrict "purchases" "dept_id" (to_string id) "departments" "id"
          (sizeToInt j))))) ∨
      db.DeleteDepartment hashInt id
        = (db, .throws (.runtime ("Department not found: id=" ++ to_string id)))) ∧
    ((db.DeleteEmployee hashInt id).2 = .ok () ∨
      db.DeleteEmployee hashInt id
        = (db, .throws (.runtime ("Employee not found: id=" ++ to_string id)))) ∧
    ((db.DeleteSupplier hashInt id).2 = .ok () ∨
      (∃ j, db.DeleteSupplier hashInt id = (db, .throws (.constraint
        (DbConstraintError.Restrict "products" "default_supplier_id" (to_string id)
          "suppliers" "id" (sizeToInt j))))) ∨
      (∃ j, db.DeleteSupplier hashInt id = (db, .throws (.constraint
        (DbConstraintError.Restrict "purchases" "supplier_id" (to_string id) "suppliers"
          "id" (sizeToInt j))))) ∨
      db.DeleteSupplier hashInt id
        = (db, .throws (.runtime ("Supplier not found: id=" ++ to_string id)))) ∧
    ((db.DeleteProduct hashInt id).2 = .ok () ∨
      (∃ j, db.DeleteProduct hashInt id = (db, .throws (.constraint
        (DbConstraintError.Restrict "purchases" "product_id" (to_string id) "products" "id"
          (sizeToInt j))))) ∨
      db.DeleteProduct hashInt id
        = (db, .throws (.runtime ("Product not found: id=" ++ to_string id)))) ∧
    ((db.DeletePurchase hashInt id).2 = .ok () ∨
      db.DeletePurchase hashInt id
        = (db, .throws (.runtime ("Purchase not found: id=" ++ to_string id)))) ∧
    (∀ (table field value refTable refField : String) (i : Int),
      (DbConstraintError.Restrict table field value refTable refField i).GetType
        = .RestrictViolation ∧
      (DbConstraintError.Restrict table field value refTable refField i).GetTable = table ∧
      (DbConstraintError.Restrict table field value refTable refField i).GetField
        = field) := by
  refine ⟨?_, ?_, ?_, ?_, ?_, ?_,
    fun t f v rt rf i => ⟨rfl, rfl, rfl⟩⟩
  · by_cases h1 : ∃ d ∈ db.departments_.rows, d.GetAddressId = id
    · obtain ⟨j, d, -, -, -, -, h5⟩ := restrict_first db.departments_ Department.GetId
        hashInt hw.departments Department.GetAddressId "departments" "address_id"
        "addresses" id h1
      exact Or.inr (Or.inl ⟨j, afterScan_throws _ _ _ _ h5⟩)
    · have h1' : ∀ d ∈ db.departments_.rows, d.GetAddressId ≠ id :=
        fun d hd c => h1 ⟨d, hd, c⟩
      rw [database_DeleteAddress_clean hashInt hashString db hw id h1']
      cases hc : db.addresses_.ContainsId hashInt id with
      | true =>
        left
        rw [(table_delete_found Address.GetId hashInt db.addresses_ hw.addresses id hc).1]
        rfl
      | false =>
        right; right
        rw [table_delete_absent hashInt db.addresses_ id hc]
        rfl
  · by_cases h1 : ∃ e ∈ db.employees_.rows, e.GetDeptId = id
    · obtain ⟨j, d, -, -, -, -, h5⟩ := restrict_first db.employees_ Employee.GetId
        hashInt hw.employees Employee.GetDeptId "employees" "dept_id" "departments" id h1
      exact Or.inr (Or.inl ⟨j, afterScan_throws _ _ _ _ h5⟩)
    · have h1' : ∀ e ∈ db.employees_.rows, e.GetDeptId ≠ id :=
        fun d hd c => h1 ⟨d, hd, c⟩
      by_cases h2 : ∃ u ∈ db.purchases_.rows, u.GetDeptId = id
      · obtain ⟨j, d, -, -, -, -, h5⟩ := restrict_first db.purchases_ Purchase.GetId
          hashInt hw.purchases Purchase.GetDeptId "purchases" "dept_id" "departments" id h2
        right; right; left
        refine ⟨j, ?_⟩
        rw [Database.DeleteDepartment, afterScan_ok _ _ _ (restrict_none db.employees_
          Employee.GetId hashInt hw.employees Employee.GetDeptId _ _ _ id h1')]
        exact afterScan_throws _ _ _ _ h5
      · have h2' : ∀ u ∈ db.purchases_.rows, u.GetDeptId ≠ id :=
          fun d hd c => h2 ⟨d, hd, c⟩
        rw [database_DeleteDepartment_clean hashInt hashString db hw id h1' h2']
        cases hc : db.departments_.ContainsId hashInt id with
        | true =>
          left
          rw [(table_delete_found Department.GetId hashInt db.departments_ hw.departments id
            hc).1]
          rfl
        | false =>
          right; right; right
          rw [table_delete_absent hashInt db.departments_ id hc]
          rfl
  · cases hc : db.employees_.ContainsId hashInt id with
    | true =>
      left
      rw [Database.DeleteEmployee,
        (table_delete_found Employee.GetId hashInt db.employees_ hw.employees id hc).1]
      rfl
    | false =>
      right
      rw [Database.DeleteEmployee, table_delete_absent hashInt db.employees_ id hc]
      rfl
  · by_cases h1 : ∃ p ∈ db.products_.rows, p.GetDefaultSupplierId = id
    · obtain ⟨j, d, -, -, -, -, h5⟩ := restrict_first db.products_ Product.GetId
        hashInt hw.products Product.GetDefaultSupplierId "products" "default_supplier_id"
        "suppliers" id h1
      exact Or.inr (Or.inl ⟨j, afterScan_throws _ _ _ _ h5⟩)
    · have h1' : ∀ p ∈ db.products_.rows, p.GetDefaultSupplierId ≠ id :=
        fun d hd c => h1 ⟨d, hd, c⟩
      by_cases h2 : ∃ u ∈ db.purchases_.rows, u.GetSupplierId = id
      · obtain ⟨j, d, -, -, -, -, h5⟩ := restrict_first db.purchases_ Purchase.GetId
          hashInt hw.purchases Purchase.GetSupplierId "purchases" "supplier_id" "suppliers"
          id h2
        right; right; left
        refine ⟨j, ?_⟩
        rw [Database.DeleteSupplier, afterScan_ok _ _ _ (restrict_none db.products_
          Product.GetId hashInt hw.products Product.GetDefaultSupplierId _ _ _ id h1')]
        exact afterScan_throws _ _ _ _ h5
      · have h2' : ∀ u ∈ db.purchases_.rows, u.GetSupplierId ≠ id :=
          fun d hd c => h2 ⟨d, hd, c⟩
        rw [database_DeleteSupplier_clean hashInt hashString db hw id h1' h2']
        cases hc : db.suppliers_.ContainsId hashInt id with
        | true =>
          left
          rw [(table_delete_found Supplier.GetId hashInt db.suppliers_ hw.suppliers id
            hc).1]
          rfl
        | false =>
          right; right; right
          rw [table_delete_absent hashInt db.suppliers_ id hc]
          rfl
  · by_cases h1 : ∃ u ∈ db.purchases_.rows, u.GetProductId = id
    · obtain ⟨j, d, -, -, -, -, h5⟩ := restrict_first db.purchases_ Purchase.GetId
        hashInt hw.purchases Purchase.GetProductId "purchases" "product_id" "products" id h1
      exact Or.inr (Or.inl ⟨j, afterScan_throws _ _ _ _ h5⟩)
    · have h1' : ∀ u ∈ db.purchases_.rows, u.GetProductId ≠ id :=
        fun d hd c => h1 ⟨d, hd, c⟩
      rw [database_DeleteProduct_clean hashInt hashString db hw id h1']
      cases hc : db.products_.ContainsId hashInt id with
      | true =>
        left
        rw [(table_delete_found Product.GetId hashInt db.products_ hw.products id hc).1]
        rfl
      | false =>
        right; right
        rw [table_delete_absent hashInt db.products_ id hc]
        rfl
  · cases hc : db.purchases_.ContainsId hashInt id with
    | true =>
      left
      rw [Database.DeletePurchase,
        (table_delete_found Purchase.GetId hashInt db.purchases_ hw.purchases id hc).1]
      rfl
    | false =>
      right
      rw [Database.DeletePurchase, table_delete_absent hashInt db.purchases_ id hc]
      rfl

/-- C25, instance: the sample database and the id 1. -/
theorem database_delete_failure_kinds_witness :
    ∃ db : Database, db.WellFormed (fun n => n.toNat) String.length ∧
      ((db.DeleteEmployee (fun n => n.toNat) 1).2 = .ok () ∨
        db.DeleteEmployee (fun n => n.toNat) 1
          = (db, .throws (.runtime ("Employee not found: id=" ++ to_string 1)))) :=
  sample_database.elim fun _ h0 => h0.elim fun db h =>
    ⟨db, h.2.2.2.1,
      (database_delete_failure_kinds (fun n => n.toNat) String.length db h.2.2.2.1 1).2.2.1⟩

/-! ### Referential integrity -/

theorem andThen_eq_ok {α β : Type} (x : Outcome α) (f : α → Outcome β) (b : β)
    (h : x.andThen f = .ok b) : ∃ a, x = .ok a ∧ f a = .ok b := by
  cases x with
  | ok a => exact ⟨a, rfl, h⟩
  | throws e => cases h
  | undefined => cases h

theorem table_loadLines_ok_inv [DecidableEq IdT] (FromCSV : String → Outcome T)
    (idGetter : T → IdT) (hash : IdT → Nat) (lines : List String) (tb tb' : Table T IdT)
    (rowIndex : Int) (hinv : tb.Inv idGetter hash)
    (h : tb.loadLines FromCSV idGetter hash rowIndex lines = .ok tb') :
    tb'.Inv idGetter hash := by
  induction lines generalizing tb rowIndex with
  | nil =>
    simp only [Table.loadLines, Outcome.ok.injEq] at h
    rw [← h]; exact hinv
  | cons line rest ih =>
    by_cases hl : line = ""
    · simp only [Table.loadLines, hl, if_true] at h
      exact ih tb (rowIndex + 1) hinv h
    · simp only [Table.loadLines, hl, if_false] at h
      cases hp : FromCSV line with
      | throws e => rw [hp] at h; cases h
      | undefined => rw [hp] at h; cases h
      | ok row =>
        rw [hp] at h
        obtain ⟨tb1, e1, hinv1, -⟩ := table_Insert_spec idGetter hash tb hinv row
        have e1' : tb.InsertInternal idGetter hash row rowIndex true = some tb1 := e1
        simp only [e1'] at h
        exact ih tb1 (rowIndex + 1) hinv1 h

theorem table_LoadFromFile_ok_inv [DecidableEq IdT] (FromCSV : String → Outcome T)
    (idGetter : T → IdT) (hash : IdT → Nat) (file : Option (List String)) (tb : Table T IdT)
    (h : Table.LoadFromFile FromCSV idGetter hash file = .ok tb) : tb.Inv idGetter hash := by
  cases file with
  | none =>
    simp only [Table.LoadFromFile, Outcome.ok.injEq] at h
    rw [← h]; exact table_inv_new idGetter hash
  | some lines =>
    exact table_loadLines_ok_inv FromCSV idGetter hash lines Table.new tb 0
      (table_inv_new idGetter hash) h

theorem fk_stage_ok (tb : Table T Int) (idGetter : T → Int) (hashInt : Int → Nat)
    (hinv : tb.Inv idGetter hashInt) (check : T → Int → Option DbConstraintError)
    (good : T → Prop) (hgood : ∀ r i, check r i = none ↔ good r) (u : Unit)
    (h : validateFkLoop tb check tb.GetRowCount 0 = .ok u) : ∀ r ∈ tb.rows, good r := by
  by_contra hno
  obtain ⟨j, r, e, -, -, -, -, -, hth⟩ := (fk_stage tb idGetter hashInt hinv check good hgood).2
    hno
  rw [hth] at h
  cases h

theorem database_load_inv (P : RowParsers) (hashInt : Int → Nat) (hashString : String → Nat)
    (addresses departments employees suppliers products purchases : Option (List String))
    (db : Database)
    (h : Database.LoadFromFiles hashInt hashString P addresses departments employees
      suppliers products purchases = .ok db) :
    db.WellFormed hashInt hashString ∧ db.RefInt ∧
    ∃ db0 : Database, db0.WellFormed hashInt hashString ∧
      db0.BuildIndexes hashInt hashString = .ok db := by
  rw [database_LoadFromFiles_eq] at h
  obtain ⟨ta, hA, h⟩ := andThen_eq_ok _ _ _ h
  obtain ⟨ts, hS, h⟩ := andThen_eq_ok _ _ _ h
  obtain ⟨tp, hP, h⟩ := andThen_eq_ok _ _ _ h
  obtain ⟨u1, -, h⟩ := andThen_eq_ok _ _ _ h
  obtain ⟨u2, -, h⟩ := andThen_eq_ok _ _ _ h
  obtain ⟨u3, h3, h⟩ := andThen_eq_ok _ _ _ h
  obtain ⟨td, hD, h⟩ := andThen_eq_ok _ _ _ h
  obtain ⟨u4, -, h⟩ := andThen_eq_ok _ _ _ h
  obtain ⟨u5, h5, h⟩ := andThen_eq_ok _ _ _ h
  obtain ⟨te, hE, h⟩ := andThen_eq_ok _ _ _ h
  obtain ⟨u6, h6, h⟩ := andThen_eq_ok _ _ _ h
  obtain ⟨tu, hU, h⟩ := andThen_eq_ok _ _ _ h
  obtain ⟨u7, h7, h⟩ := andThen_eq_ok _ _ _ h
  have hia := table_LoadFromFile_ok_inv _ _ _ _ _ hA
  have his := table_LoadFromFile_ok_inv _ _ _ _ _ hS
  have hip := table_LoadFromFile_ok_inv _ _ _ _ _ hP
  have hid := table_LoadFromFile_ok_inv _ _ _ _ _ hD
  have hie := table_LoadFromFile_ok_inv _ _ _ _ _ hE
  have hiu := table_LoadFromFile_ok_inv _ _ _ _ _ hU
  have q3 := fk_stage_ok tp Product.GetId hashInt hip _
    (fun p => p.GetDefaultSupplierId ∈ ts.rows.map Supplier.GetId)
    (fun r i => (fk_check_none_iff _ _).trans
      (table_containsId_rows Supplier.GetId hashInt ts his _)) u3 h3
  have q5 := fk_stage_ok td Department.GetId hashInt hid _
    (fun d => d.GetAddressId ∈ ta.rows.map Address.GetId)
    (fun r i => (fk_check_none_iff _ _).trans
      (table_containsId_rows Address.GetId hashInt ta hia _)) u5 h5
  have q6 := fk_stage_ok te Employee.GetId hashInt hie _
    (fun e => e.GetDeptId ∈ td.rows.map Department.GetId)
    (fun r i => (fk_check_none_iff _ _).trans
      (table_containsId_rows Department.GetId hashInt td hid _)) u6 h6
  have q7 := fk_stage_ok tu Purchase.GetId hashInt hiu _
    (fun u => u.GetDeptId ∈ td.rows.map Department.GetId ∧
      u.GetSupplierId ∈ ts.rows.map Supplier.GetId ∧
      u.GetProductId ∈ tp.rows.map Product.GetId)
    (fun r i => (purchase_check_none_iff _ _ _ _ _ _).trans
      (and_congr (table_containsId_rows Department.GetId hashInt td hid _)
        (and_congr (table_containsId_rows Supplier.GetId hashInt ts his _)
          (table_containsId_rows Product.GetId hashInt tp hip _)))) u7 h7
  have hw0 := database_wellFormed_loaded hashInt hashString ta td te ts tp tu hia hid hie his
    hip hiu
  obtain ⟨db', hb, hw', e1, e2, e3, e4, e5, e6⟩ :=
    database_BuildIndexes_ok hashInt hashString _ hw0
  rw [hb] at h
  cases h
  refine ⟨hw', ?_, _, hw0, hb⟩
  constructor
  · rw [e1, e2]; exact q5
  · rw [e3, e2]; exact q6
  · rw [e5, e4]; exact q3
  · rw [e6, e2]; exact fun u hu => (q7 u hu).1
  · rw [e6, e4]; exact fun u hu => (q7 u hu).2.1
  · rw [e6, e5]; exact fun u hu => (q7 u hu).2.2

theorem mem_map_filter_ne {α : Type} (g : α → Int) (l : List α) (v id : Int)
    (h : v ∈ l.map g) (hne : v ≠ id) :
    v ∈ (l.filter (fun r => decide (g r ≠ id))).map g := by
  obtain ⟨r, hr, rfl⟩ := List.mem_map.mp h
  exact List.mem_map.mpr ⟨r, List.mem_filter.mpr ⟨hr, by simpa using hne⟩, rfl⟩

theorem table_DeleteById_inv [DecidableEq IdT] (idGetter : T → IdT) (hash : IdT → Nat)
    (tb : Table T IdT) (hinv : tb.Inv idGetter hash) (id : IdT) :
    (tb.DeleteById hash id).1.Inv idGetter hash :=
  (table_DeleteById_spec idGetter hash tb hinv id).1

theorem database_DeleteAddress_inv (hashInt : Int → Nat) (hashString : String → Nat)
    (db : Database) (hw : db.WellFormed hashInt hashString) (hr : db.RefInt) (id : Int) :
    (db.DeleteAddress hashInt id).1.WellFormed hashInt hashString ∧
    (db.DeleteAddress hashInt id).1.RefInt := by
  by_cases h1 : ∃ d ∈ db.departments_.rows, d.GetAddressId = id
  · obtain ⟨j, d, -, -, -, -, h5⟩ := restrict_first db.departments_ Department.GetId
      hashInt hw.departments Department.GetAddressId "departments" "address_id"
      "addresses" id h1
    rw [Database.DeleteAddress, afterScan_throws _ _ _ _ h5]
    exact ⟨hw, hr⟩
  · have h1' : ∀ d ∈ db.departments_.rows, d.GetAddressId ≠ id :=
      fun d hd c => h1 ⟨d, hd, c⟩
    rw [database_DeleteAddress_clean hashInt hashString db hw id h1']
    have hrows := table_rows_DeleteById Address.GetId hashInt db.addresses_ hw.addresses id
    constructor
    · exact { hw with
        addresses := table_DeleteById_inv Address.GetId hashInt db.addresses_ hw.addresses id }
    · refine ⟨?_, hr.employeeDept, hr.productSupplier, hr.purchaseDept, hr.purchaseSupplier,
        hr.purchaseProduct⟩
      intro d hd
      show d.GetAddressId ∈ List.map Address.GetId (db.addresses_.DeleteById hashInt id).1.rows
      rw [hrows]
      exact mem_map_filter_ne Address.GetId _ _ id (hr.departmentAddress d hd) (h1' d hd)

theorem database_DeleteDepartment_inv (hashInt : Int → Nat) (hashString : String → Nat)
    (db : Database) (hw : db.WellFormed hashInt hashString) (hr : db.RefInt) (id : Int) :
    (db.DeleteDepartment hashInt id).1.WellFormed hashInt hashString ∧
    (db.DeleteDepartment hashInt id).1.RefInt := by
  by_cases h1 : ∃ e ∈ db.employees_.rows, e.GetDeptId = id
  · obtain ⟨j, d, -, -, -, -, h5⟩ := restrict_first db.employees_ Employee.GetId
      hashInt hw.employees Employee.GetDeptId "employees" "dept_id" "departments" id h1
    rw [Database.DeleteDepartment, afterScan_throws _ _ _ _ h5]
    exact ⟨hw, hr⟩
  · have h1' : ∀ e ∈ db.employees_.rows, e.GetDeptId ≠ id :=
      fun d hd c => h1 ⟨d, hd, c⟩
    by_cases h2 : ∃ u ∈ db.purchases_.rows, u.GetDeptId = id
    · obtain ⟨j, d, -, -, -, -, h5⟩ := restrict_first db.purchases_ Purchase.GetId
        hashInt hw.purchases Purchase.GetDeptId "purchases" "dept_id" "departments" id h2
      rw [Database.DeleteDepartment, afterScan_ok _ _ _ (restrict_none db.employees_
        Employee.GetId hashInt hw.employees Employee.GetDeptId _ _ _ id h1'),
        afterScan_throws _ _ _ _ h5]
      exact ⟨hw, hr⟩
    · have h2' : ∀ u ∈ db.purchases_.rows, u.GetDeptId ≠ id :=
        fun d hd c => h2 ⟨d, hd, c⟩
      rw [database_DeleteDepartment_clean hashInt hashString db hw id h1' h2']
      have hrows := table_rows_DeleteById Department.GetId hashInt db.departments_
        hw.departments id
      constructor
      · exact { hw with
          departments := table_DeleteById_inv Department.GetId hashInt db.departments_
            hw.departments id }
      · refine ⟨?_, ?_, hr.productSupplier, ?_, hr.purchaseSupplier, hr.purchaseProduct⟩
        · intro d hd
          have hd' : d ∈ (db.departments_.DeleteById hashInt id).1.rows := hd
          rw [hrows] at hd'
          exact hr.departmentAddress d (List.mem_filter.mp hd').1
        · intro e he
          show e.GetDeptId ∈ List.map Department.GetId
            (db.departments_.DeleteById hashInt id).1.rows
          rw [hrows]
          exact mem_map_filter_ne Department.GetId _ _ id (hr.employeeDept e he) (h1' e he)
        · intro u hu
          show u.GetDeptId ∈ List.map Department.GetId
            (db.departments_.DeleteById hashInt id).1.rows
          rw [hrows]
          exact mem_map_filter_ne Department.GetId _ _ id (hr.purchaseDept u hu) (h2' u hu)

theorem database_DeleteEmployee_inv (hashInt : Int → Nat) (hashString : String → Nat)
    (db : Database) (hw : db.WellFormed hashInt hashString) (hr : db.RefInt) (id : Int) :
    (db.DeleteEmployee hashInt id).1.WellFormed hashInt hashString ∧
    (db.DeleteEmployee hashInt id).1.RefInt := by
  have hrows := table_rows_DeleteById Employee.GetId hashInt db.employees_ hw.employees id
  constructor
  · exact { hw with
      employees := table_DeleteById_inv Employee.GetId hashInt db.employees_ hw.employees id }
  · refine ⟨hr.departmentAddress, ?_, hr.productSupplier, hr.purchaseDept,
      hr.purchaseSupplier, hr.purchaseProduct⟩
    intro e he
    have he' : e ∈ (db.employees_.DeleteById hashInt id).1.rows := he
    rw [hrows] at he'
    exact hr.employeeDept e (List.mem_filter.mp he').1

theorem database_DeleteSupplier_inv (hashInt : Int → Nat) (hashString : String → Nat)
    (db : Database) (hw : db.WellFormed hashInt hashString) (hr : db.RefInt) (id : Int) :
    (db.DeleteSupplier hashInt id).1.WellFormed hashInt hashString ∧
    (db.DeleteSupplier hashInt id).1.RefInt := by
  by_cases h1 : ∃ p ∈ db.products_.rows, p.GetDefaultSupplierId = id
  · obtain ⟨j, d, -, -, -, -, h5⟩ := restrict_first db.products_ Product.GetId
      hashInt hw.products Product.GetDefaultSupplierId "products" "default_supplier_id"
      "suppliers" id h1
    rw [Database.DeleteSupplier, afterScan_throws _ _ _ _ h5]
    exact ⟨hw, hr⟩
  · have h1' : ∀ p ∈ db.products_.rows, p.GetDefaultSupplierId ≠ id :=
      fun d hd c => h1 ⟨d, hd, c⟩
    by_cases h2 : ∃ u ∈ db.purchases_.rows, u.GetSupplierId = id
    · obtain ⟨j, d, -, -, -, -, h5⟩ := restrict_first db.purchases_ Purchase.GetId
        hashInt hw.purchases Purchase.GetSupplierId "purchases" "supplier_id" "suppliers"
        id h2
      rw [Database.DeleteSupplier, afterScan_ok _ _ _ (restrict_none db.products_
        Product.GetId hashInt hw.products Product.GetDefaultSupplierId _ _ _ id h1'),
        afterScan_throws _ _ _ _ h5]
      exact ⟨hw, hr⟩
    · have h2' : ∀ u ∈ db.purchases_.rows, u.GetSupplierId ≠ id :=
        fun d hd c => h2 ⟨d, hd, c⟩
      rw [database_DeleteSupplier_clean hashInt hashString db hw id h1' h2']
      have hrows := table_rows_DeleteById Supplier.GetId hashInt db.suppliers_
        hw.suppliers id
      constructor
      · exact { hw with
          suppliers := table_DeleteById_inv Supplier.GetId hashInt db.suppliers_
            hw.suppliers id }
      · refine ⟨hr.departmentAddress, hr.employeeDept, ?_, hr.purchaseDept, ?_,
          hr.purchaseProduct⟩
        · intro p hp
          show p.GetDefaultSupplierId ∈ List.map Supplier.GetId
            (db.suppliers_.DeleteById hashInt id).1.rows
          rw [hrows]
          exact mem_map_filter_ne Supplier.GetId _ _ id (hr.productSupplier p hp) (h1' p hp)
        · intro u hu
          show u.GetSupplierId ∈ List.map Supplier.GetId
            (db.suppliers_.DeleteById hashInt id).1.rows
          rw [hrows]
          exact mem_map_filter_ne Supplier.GetId _ _ id (hr.purchaseSupplier u hu) (h2' u hu)

theorem database_DeleteProduct_inv (hashInt : Int → Nat) (hashString : String → Nat)
    (db : Database) (hw : db.WellFormed hashInt hashString) (hr : db.RefInt) (id : Int) :
    (db.DeleteProduct hashInt id).1.WellFormed hashInt hashString ∧
    (db.DeleteProduct hashInt id).1.RefInt := by
  by_cases h1 : ∃ u ∈ db.purchases_.rows, u.GetProductId = id
  · obtain ⟨j, d, -, -, -, -, h5⟩ := restrict_first db.purchases_ Purchase.GetId
      hashInt hw.purchases Purchase.GetProductId "purchases" "product_id" "products" id h1
    rw [Database.DeleteProduct, afterScan_throws _ _ _ _ h5]
    exact ⟨hw, hr⟩
  · have h1' : ∀ u ∈ db.purchases_.rows, u.GetProductId ≠ id :=
      fun d hd c => h1 ⟨d, hd, c⟩
    rw [database_DeleteProduct_clean hashInt hashString db hw id h1']
    have hrows := table_rows_DeleteById Product.GetId hashInt db.products_ hw.products id
    constructor
    · exact { hw with
        products := table_DeleteById_inv Product.GetId hashInt db.products_ hw.products id }
    · refine ⟨hr.departmentAddress, hr.employeeDept, ?_, hr.purchaseDept,
        hr.purchaseSupplier, ?_⟩
      · intro p hp
        have hp' : p ∈ (db.products_.DeleteById hashInt id).1.rows := hp
        rw [hrows] at hp'
        exact hr.productSupplier p (List.mem_filter.mp hp').1
      · intro u hu
        show u.GetProductId ∈ List.map Product.GetId
          (db.products_.DeleteById hashInt id).1.rows
        rw [hrows]
        exact mem_map_filter_ne Product.GetId _ _ id (hr.purchaseProduct u hu) (h1' u hu)

theorem database_DeletePurchase_inv (hashInt : Int → Nat) (hashString : String → Nat)
    (db : Database) (hw : db.WellFormed hashInt hashString) (hr : db.RefInt) (id : Int) :
    (db.DeletePurchase hashInt id).1.WellFormed hashInt hashString ∧
    (db.DeletePurchase hashInt id).1.RefInt := by
  have hrows := table_rows_DeleteById Purchase.GetId hashInt db.purchases_ hw.purchases id
  have hsub : ∀ u, u ∈ (db.purchases_.DeleteById hashInt id).1.rows → u ∈ db.purchases_.rows := by
    intro u hu
    rw [hrows] at hu
    exact (List.mem_filter.mp hu).1
  constructor
  · exact { hw with
      purchases := table_DeleteById_inv Purchase.GetId hashInt db.purchases_ hw.purchases id }
  · exact ⟨hr.departmentAddress, hr.employeeDept, hr.productSupplier,
      fun u hu => hr.purchaseDept u (hsub u hu),
      fun u hu => hr.purchaseSupplier u (hsub u hu),
      fun u hu => hr.purchaseProduct u (hsub u hu)⟩

theorem database_applyDelete_inv (hashInt : Int → Nat) (hashString : String → Nat)
    (db : Database) (hw : db.WellFormed hashInt hashString) (hr : db.RefInt)
    (op : DeleteOp) :
    (db.applyDelete hashInt op).1.WellFormed hashInt hashString ∧
    (db.applyDelete hashInt op).1.RefInt := by
  cases op with
  | address id => exact database_DeleteAddress_inv hashInt hashString db hw hr id
  | department id => exact database_DeleteDepartment_inv hashInt hashString db hw hr id
  | employee id => exact database_DeleteEmployee_inv hashInt hashString db hw hr id
  | supplier id => exact database_DeleteSupplier_inv hashInt hashString db hw hr id
  | product id => exact database_DeleteProduct_inv hashInt hashString db hw hr id
  | purchase id => exact database_DeletePurchase_inv hashInt hashString db hw hr id

theorem database_runDeletes_inv (hashInt : Int → Nat) (hashString : String → Nat)
    (ops : List DeleteOp) (db : Database) (hw : db.WellFormed hashInt hashString)
    (hr : db.RefInt) :
    (db.runDeletes hashInt ops).WellFormed hashInt hashString ∧
    (db.runDeletes hashInt ops).RefInt := by
  induction ops generalizing db with
  | nil => exact ⟨hw, hr⟩
  | cons op ops ih =>
    obtain ⟨hw1, hr1⟩ := database_applyDelete_inv hashInt hashString db hw hr op
    exact ih _ hw1 hr1

/-- C26. In every state reached from a `Database` returned by `LoadFromFiles` through any
sequence of delete calls, whatever their outcomes, every live department has the id of a live
address as `address_id`, every live employee the id of a live department as `dept_id`, every
live product the id of a live supplier as `default_supplier_id`, and every live purchase the
ids of a live department, supplier and product; being the id of a live row is the same as
`ContainsId` of the table. -/
theorem database_referential_integrity (P : RowParsers) (hashInt : Int → Nat)
    (hashString : String → Nat)
    (addresses departments employees suppliers products purchases : Option (List String))
    (db0 : Database)
    (hload : Database.LoadFromFiles hashInt hashString P addresses departments employees
      suppliers products purchases = .ok db0)
    (ops : List DeleteOp) :
    (∀ d ∈ (db0.runDeletes hashInt ops).departments_.rows,
      d.GetAddressId ∈ (db0.runDeletes hashInt ops).addresses_.rows.map Address.GetId ∧
      (db0.runDeletes hashInt ops).addresses_.ContainsId hashInt d.GetAddressId = true) ∧
    (∀ e ∈ (db0.runDeletes hashInt ops).employees_.rows,
      e.GetDeptId ∈ (db0.runDeletes hashInt ops).departments_.rows.map Department.GetId ∧
      (db0.runDeletes hashInt ops).departments_.ContainsId hashInt e.GetDeptId = true) ∧
    (∀ p ∈ (db0.runDeletes hashInt ops).products_.rows,
      p.GetDefaultSupplierId
        ∈ (db0.runDeletes hashInt ops).suppliers_.rows.map Supplier.GetId ∧
      (db0.runDeletes hashInt ops).suppliers_.ContainsId hashInt p.GetDefaultSupplierId
        = true) ∧
    (∀ u ∈ (db0.runDeletes hashInt ops).purchases_.rows,
      (u.GetDeptId ∈ (db0.runDeletes hashInt ops).departments_.rows.map Department.GetId ∧
        (db0.runDeletes hashInt ops).departments_.ContainsId hashInt u.GetDeptId = true) ∧
      (u.GetSupplierId ∈ (db0.runDeletes hashInt ops).suppliers_.rows.map Supplier.GetId ∧
        (db0.runDeletes hashInt ops).suppliers_.ContainsId hashInt u.GetSupplierId = true) ∧
      (u.GetProductId ∈ (db0.runDeletes hashInt ops).products_.rows.map Product.GetId ∧
        (db0.runDeletes hashInt ops).products_.ContainsId hashInt u.GetProductId = true)) := by
  obtain ⟨hw0, hr0, -⟩ := database_load_inv P hashInt hashString addresses departments
    employees suppliers products purchases db0 hload
  obtain ⟨hw, hr⟩ := database_runDeletes_inv hashInt hashString ops db0 hw0 hr0
  refine ⟨?_, ?_, ?_, ?_⟩
  · intro d hd
    exact ⟨hr.departmentAddress d hd, table_contains_of_rows Address.GetId hashInt _
      hw.addresses _ (hr.departmentAddress d hd)⟩
  · intro e he
    exact ⟨hr.employeeDept e he, table_contains_of_rows Department.GetId hashInt _
      hw.departments _ (hr.employeeDept e he)⟩
  · intro p hp
    exact ⟨hr.productSupplier p hp, table_contains_of_rows Supplier.GetId hashInt _
      hw.suppliers _ (hr.productSupplier p hp)⟩
  · intro u hu
    exact ⟨⟨hr.purchaseDept u hu, table_contains_of_rows Department.GetId hashInt _
        hw.departments _ (hr.purchaseDept u hu)⟩,
      ⟨hr.purchaseSupplier u hu, table_contains_of_rows Supplier.GetId hashInt _
        hw.suppliers _ (hr.purchaseSupplier u hu)⟩,
      ⟨hr.purchaseProduct u hu, table_contains_of_rows Product.GetId hashInt _
        hw.products _ (hr.purchaseProduct u hu)⟩⟩

theorem database_referential_integrity_witness :
    ∃ db : Database,
      Database.LoadFromFiles (fun n => n.toNat) String.length lengthParsers (some ["a"])
        (some ["d"]) (some ["e"]) none none none = .ok db ∧
      ∀ e ∈ (db.runDeletes (fun n => n.toNat)
          [DeleteOp.address 1, DeleteOp.department 1, DeleteOp.employee 2]).employees_.rows,
        (db.runDeletes (fun n => n.toNat)
          [DeleteOp.address 1, DeleteOp.department 1, DeleteOp.employee 2]).departments_.ContainsId
            (fun n => n.toNat) e.GetDeptId = true :=
  sample_database.elim fun _ h0 => h0.elim fun db h =>
    ⟨db, h.1, fun e he => ((database_referential_integrity lengthParsers (fun n => n.toNat)
      String.length (some ["a"]) (some ["d"]) (some ["e"]) none none none db h.1
      [DeleteOp.address 1, DeleteOp.department 1, DeleteOp.employee 2]).2.1 e he).2⟩

end DeleteTheory

section LoadOrderTheory

variable {T : Type}

theorem fk_check_eq (c : Bool) (e e' : DbConstraintError)
    (h : (if (!c) = true then some e else none) = some e') : e' = e := by
  cases c <;> simp at h
  exact h.symm

theorem purchase_check_eq (c1 c2 c3 : Bool) (p1 p2 : Prop) [Decidable p1] [Decidable p2]
    (h1 : c1 = true ↔ p1) (h2 : c2 = true ↔ p2) (e1 e2 e3 e : DbConstraintError)
    (h : (if (!c1) = true then some e1 else if (!c2) = true then some e2
      else if (!c3) = true then some e3 else none) = some e) :
    e = if ¬ p1 then e1 else if ¬ p2 then e2 else e3 := by
  cases c1
  · have : ¬ p1 := fun c => by simpa using h1.mpr c
    simp only [this, not_false_eq_true, if_true]
    simp at h
    exact h.symm
  · have hp1 : p1 := h1.mp rfl
    cases c2
    · have : ¬ p2 := fun c => by simpa using h2.mpr c
      simp only [hp1, not_true_eq_false, if_false, this, not_false_eq_true, if_true]
      simp at h
      exact h.symm
    · have hp2 : p2 := h2.mp rfl
      simp only [hp1, hp2, not_true_eq_false, if_false]
      cases c3 <;> simp at h
      exact h.symm

/-- C21. `LoadFromFiles` raises the first violation in the order of its validations. With
the address, supplier and product files parsed into the rows `A`, `S`, `Pr` of their tables:
a repeated supplier name throws `Unique("suppliers", "name", ..)` whatever else is wrong;
else a repeated product name throws `Unique("products", "name", ..)`; else a product with an
unknown supplier throws `ForeignKey("products", "default_supplier_id", ..)`; else, with the
department file parsed into `D`, a repeated department name throws
`Unique("departments", "name", ..)`; else a department with an unknown address throws
`ForeignKey("departments", "address_id", ..)`; else, with the employee file parsed into `E`,
an employee with an unknown department throws `ForeignKey("employees", "dept_id", ..)`;
else, with the purchase file parsed into `U`, a purchase with an unknown reference throws
`ForeignKey("purchases", ..)` for `dept_id` if its department is unknown, else for
`supplier_id` if its supplier is unknown, else for `product_id`. In every case the row index
of the error is the logical index `j` (the argument of `GetRow`) of the first offending row
of that check. -/
theorem database_load_first_violation (P : RowParsers) (hashInt : Int → Nat)
    (hashString : String → Nat)
    (addresses departments employees suppliers products purchases : Option (List String))
    (A : List Address) (S : List Supplier) (Pr : List Product)
    (ha : fileRows P.Address Address.GetId addresses = some A)
    (hs : fileRows P.Supplier Supplier.GetId suppliers = some S)
    (hp : fileRows P.Product Product.GetId products = some Pr) :
    ∃ ts tp, Table.LoadFromFile P.Supplier Supplier.GetId hashInt suppliers = .ok ts ∧
      ts.rows = S ∧
      Table.LoadFromFile P.Product Product.GetId hashInt products = .ok tp ∧ tp.rows = Pr ∧
      (¬ (S.map Supplier.GetName).Nodup →
        ∃ j s, ts.GetRow j = some s ∧ S[j]? = some s ∧
          s.GetName ∈ (S.map Supplier.GetName).take j ∧
          ((S.map Supplier.GetName).take j).Nodup ∧
          Database.LoadFromFiles hashInt hashString P addresses departments employees
            suppliers products purchases = .throws (.constraint
              (DbConstraintError.Unique "suppliers" "name" s.GetName (sizeToInt j)))) ∧
      ((S.map Supplier.GetName).Nodup → ¬ (Pr.map Product.GetName).Nodup →
        ∃ j p, tp.GetRow j = some p ∧ Pr[j]? = some p ∧
          p.GetName ∈ (Pr.map Product.GetName).take j ∧
          ((Pr.map Product.GetName).take j).Nodup ∧
          Database.LoadFromFiles hashInt hashString P addresses departments employees
            suppliers products purchases = .throws (.constraint
              (DbConstraintError.Unique "products" "name" p.GetName (sizeToInt j)))) ∧
      ((S.map Supplier.GetName).Nodup → (Pr.map Product.GetName).Nodup →
        ¬ (∀ p ∈ Pr, p.GetDefaultSupplierId ∈ S.map Supplier.GetId) →
        ∃ j p, tp.GetRow j = some p ∧ Pr[j]? = some p ∧
          p.GetDefaultSupplierId ∉ S.map Supplier.GetId ∧
          (∀ j' p', j' < j → Pr[j']? = some p' →
            p'.GetDefaultSupplierId ∈ S.map Supplier.GetId) ∧
          Database.LoadFromFiles hashInt hashString P addresses departments employees
            suppliers products purchases = .throws (.constraint
              (DbConstraintError.ForeignKey "products" "default_supplier_id"
                (to_string p.GetDefaultSupplierId) "suppliers" "id" (sizeToInt j)))) ∧
      ((S.map Supplier.GetName).Nodup → (Pr.map Product.GetName).Nodup →
        (∀ p ∈ Pr, p.GetDefaultSupplierId ∈ S.map Supplier.GetId) →
        ∀ D, fileRows P.Department Department.GetId departments = some D →
        ∃ td, Table.LoadFromFile P.Department Department.GetId hashInt departments
            = .ok td ∧ td.rows = D ∧
          (¬ (D.map Department.GetName).Nodup →
            ∃ j d, td.GetRow j = some d ∧ D[j]? = some d ∧
              d.GetName ∈ (D.map Department.GetName).take j ∧
              ((D.map Department.GetName).take j).Nodup ∧
              Database.LoadFromFiles hashInt hashString P addresses departments employees
                suppliers products purchases = .throws (.constraint
                  (DbConstraintError.Unique "departments" "name" d.GetName
                    (sizeToInt j)))) ∧
          ((D.map Department.GetName).Nodup →
            ¬ (∀ d ∈ D, d.GetAddressId ∈ A.map Address.GetId) →
            ∃ j d, td.GetRow j = some d ∧ D[j]? = some d ∧
              d.GetAddressId ∉ A.map Address.GetId ∧
              (∀ j' d', j' < j → D[j']? = some d' →
                d'.GetAddressId ∈ A.map Address.GetId) ∧
              Database.LoadFromFiles hashInt hashString P addresses departments employees
                suppliers products purchases = .throws (.constraint
                  (DbConstraintError.ForeignKey "departments" "address_id"
                    (to_string d.GetAddressId) "addresses" "id" (sizeToInt j)))) ∧
          ((D.map Department.GetName).Nodup →
            (∀ d ∈ D, d.GetAddressId ∈ A.map Address.GetId) →
            ∀ E, fileRows P.Employee Employee.GetId employees = some E →
            ∃ te, Table.LoadFromFile P.Employee Employee.GetId hashInt employees
                = .ok te ∧ te.rows = E ∧
              (¬ (∀ e ∈ E, e.GetDeptId ∈ D.map Department.GetId) →
                ∃ j e, te.GetRow j = some e ∧ E[j]? = some e ∧
                  e.GetDeptId ∉ D.map Department.GetId ∧
                  (∀ j' e', j' < j → E[j']? = some e' →
                    e'.GetDeptId ∈ D.map Department.GetId) ∧
                  Database.LoadFromFiles hashInt hashString P addresses departments
                    employees suppliers products purchases = .throws (.constraint
                      (DbConstraintError.ForeignKey "employees" "dept_id"
                        (to_string e.GetDeptId) "departments" "id" (sizeToInt j)))) ∧
              ((∀ e ∈ E, e.GetDeptId ∈ D.map Department.GetId) →
                ∀ U, fileRows P.Purchase Purchase.GetId purchases = some U →
                ¬ (∀ u ∈ U, u.GetDeptId ∈ D.map Department.GetId ∧
                  u.GetSupplierId ∈ S.map Supplier.GetId ∧
                  u.GetProductId ∈ Pr.map Product.GetId) →
                ∃ tu j u, Table.LoadFromFile P.Purchase Purchase.GetId hashInt purchases
                    = .ok tu ∧ tu.rows = U ∧ tu.GetRow j = some u ∧ U[j]? = some u ∧
                  ¬ (u.GetDeptId ∈ D.map Department.GetId ∧
                    u.GetSupplierId ∈ S.map Supplier.GetId ∧
                    u.GetProductId ∈ Pr.map Product.GetId) ∧
                  (∀ j' u', j' < j → U[j']? = some u' →
                    u'.GetDeptId ∈ D.map Department.GetId ∧
                    u'.GetSupplierId ∈ S.map Supplier.GetId ∧
                    u'.GetProductId ∈ Pr.map Product.GetId) ∧
                  Database.LoadFromFiles hashInt hashString P addresses departments
                    employees suppliers products purchases = .throws (.constraint
                      (if u.GetDeptId ∉ D.map Department.GetId then
                        DbConstraintError.ForeignKey "purchases" "dept_id"
                          (to_string u.GetDeptId) "departments" "id" (sizeToInt j)
                      else if u.GetSupplierId ∉ S.map Supplier.GetId then
                        DbConstraintError.ForeignKey "purchases" "supplier_id"
                          (to_string u.GetSupplierId) "suppliers" "id" (sizeToInt j)
                      else
                        DbConstraintError.ForeignKey "purchases" "product_id"
                          (to_string u.GetProductId) "products" "id" (sizeToInt j)))))) := by
  obtain ⟨ta, hA, hia, hra⟩ := table_LoadFromFile_fileRows P.Address Address.GetId hashInt
    addresses A ha
  obtain ⟨ts, hS, his, hrs⟩ := table_LoadFromFile_fileRows P.Supplier Supplier.GetId hashInt
    suppliers S hs
  obtain ⟨tp, hP, hip, hrp⟩ := table_LoadFromFile_fileRows P.Product Product.GetId hashInt
    products Pr hp
  have st1 := unique_stage hashString "suppliers" ts Supplier.GetId hashInt his
    Supplier.GetName Supplier.GetId 256
  rw [hrs] at st1
  have st2 := unique_stage hashString "products" tp Product.GetId hashInt hip
    Product.GetName Product.GetId 512
  rw [hrp] at st2
  have st3 := fk_stage tp Product.GetId hashInt hip
    (fun p i =>
      if !ts.ContainsId hashInt p.GetDefaultSupplierId then
        some (DbConstraintError.ForeignKey "products" "default_supplier_id"
          (to_string p.GetDefaultSupplierId) "suppliers" "id" i)
      else none)
    (fun p => p.GetDefaultSupplierId ∈ ts.rows.map Supplier.GetId)
    (fun r i => (fk_check_none_iff _ _).trans
      (table_containsId_rows Supplier.GetId hashInt ts his _))
  rw [hrp, hrs] at st3
  refine ⟨ts, tp, hS, hrs, hP, hrp, ?_, ?_, ?_, ?_⟩
  · intro q1
    obtain ⟨j, s, hj, hrow, hm, hnd, hth⟩ := st1.2 q1
    refine ⟨j, s, hrow, hj, hm, hnd, ?_⟩
    rw [database_LoadFromFiles_eq, andThen_ok _ _ _ hA, andThen_ok _ _ _ hS,
      andThen_ok _ _ _ hP]
    exact andThen_throws _ _ _ hth
  · intro q1 q2
    obtain ⟨j, s, hj, hrow, hm, hnd, hth⟩ := st2.2 q2
    refine ⟨j, s, hrow, hj, hm, hnd, ?_⟩
    rw [database_LoadFromFiles_eq, andThen_ok _ _ _ hA, andThen_ok _ _ _ hS,
      andThen_ok _ _ _ hP, andThen_ok _ _ _ (st1.1 q1)]
    exact andThen_throws _ _ _ hth
  · intro q1 q2 q3
    obtain ⟨j, p, e, hj, hrow, hnot, hc, hbefore, hth⟩ := st3.2 q3
    have he := fk_check_eq _ _ _ hc
    subst he
    refine ⟨j, p, hrow, hj, hnot, hbefore, ?_⟩
    rw [database_LoadFromFiles_eq, andThen_ok _ _ _ hA, andThen_ok _ _ _ hS,
      andThen_ok _ _ _ hP, andThen_ok _ _ _ (st1.1 q1), andThen_ok _ _ _ (st2.1 q2)]
    exact andThen_throws _ _ _ hth
  intro q1 q2 q3 D hd
  obtain ⟨td, hD, hid, hrd⟩ := table_LoadFromFile_fileRows P.Department Department.GetId
    hashInt departments D hd
  have st4 := unique_stage hashString "departments" td Department.GetId hashInt hid
    Department.GetName Department.GetId 128
  rw [hrd] at st4
  have st5 := fk_stage td Department.GetId hashInt hid
    (fun d i =>
      if !ta.ContainsId hashInt d.GetAddressId then
        some (DbConstraintError.ForeignKey "departments" "address_id"
          (to_string d.GetAddressId) "addresses" "id" i)
      else none)
    (fun d => d.GetAddressId ∈ ta.rows.map Address.GetId)
    (fun r i => (fk_check_none_iff _ _).trans
      (table_containsId_rows Address.GetId hashInt ta hia _))
  rw [hrd, hra] at st5
  refine ⟨td, hD, hrd, ?_, ?_, ?_⟩
  · intro q4
    obtain ⟨j, s, hj, hrow, hm, hnd, hth⟩ := st4.2 q4
    refine ⟨j, s, hrow, hj, hm, hnd, ?_⟩
    rw [database_LoadFromFiles_eq, andThen_ok _ _ _ hA, andThen_ok _ _ _ hS,
      andThen_ok _ _ _ hP, andThen_ok _ _ _ (st1.1 q1), andThen_ok _ _ _ (st2.1 q2),
      andThen_ok _ _ _ (st3.1 q3), andThen_ok _ _ _ hD]
    exact andThen_throws _ _ _ hth
  · intro q4 q5
    obtain ⟨j, p, e, hj, hrow, hnot, hc, hbefore, hth⟩ := st5.2 q5
    have he := fk_check_eq _ _ _ hc
    subst he
    refine ⟨j, p, hrow, hj, hnot, hbefore, ?_⟩
    rw [database_LoadFromFiles_eq, andThen_ok _ _ _ hA, andThen_ok _ _ _ hS,
      andThen_ok _ _ _ hP, andThen_ok _ _ _ (st1.1 q1), andThen_ok _ _ _ (st2.1 q2),
      andThen_ok _ _ _ (st3.1 q3), andThen_ok _ _ _ hD, andThen_ok _ _ _ (st4.1 q4)]
    exact andThen_throws _ _ _ hth
  intro q4 q5 E he
  obtain ⟨te, hE, hie, hre⟩ := table_LoadFromFile_fileRows P.Employee Employee.GetId hashInt
    employees E he
  have st6 := fk_stage te Employee.GetId hashInt hie
    (fun e i =>
      if !td.ContainsId hashInt e.GetDeptId then
        some (DbConstraintError.ForeignKey "employees" "dept_id"
          (to_string e.GetDeptId) "departments" "id" i)
      else none)
    (fun e => e.GetDeptId ∈ td.rows.map Department.GetId)
    (fun r i => (fk_check_none_iff _ _).trans
      (table_containsId_rows Department.GetId hashInt td hid _))
  rw [hre, hrd] at st6
  refine ⟨te, hE, hre, ?_, ?_⟩
  · intro q6
    obtain ⟨j, p, e, hj, hrow, hnot, hc, hbefore, hth⟩ := st6.2 q6
    have he := fk_check_eq _ _ _ hc
    subst he
    refine ⟨j, p, hrow, hj, hnot, hbefore, ?_⟩
    rw [database_LoadFromFiles_eq, andThen_ok _ _ _ hA, andThen_ok _ _ _ hS,
      andThen_ok _ _ _ hP, andThen_ok _ _ _ (st1.1 q1), andThen_ok _ _ _ (st2.1 q2),
      andThen_ok _ _ _ (st3.1 q3), andThen_ok _ _ _ hD, andThen_ok _ _ _ (st4.1 q4),
      andThen_ok _ _ _ (st5.1 q5), andThen_ok _ _ _ hE]
    exact andThen_throws _ _ _ hth
  intro q6 U hu q7
  obtain ⟨tu, hU, hiu, hru⟩ := table_LoadFromFile_fileRows P.Purchase Purchase.GetId hashInt
    purchases U hu
  have st7 := fk_stage tu Purchase.GetId hashInt hiu
    (fun pur i =>
      if !td.ContainsId hashInt pur.GetDeptId then
        some (DbConstraintError.ForeignKey "purchases" "dept_id"
          (to_string pur.GetDeptId) "departments" "id" i)
      else if !ts.ContainsId hashInt pur.GetSupplierId then
        some (DbConstraintError.ForeignKey "purchases" "supplier_id"
          (to_string pur.GetSupplierId) "suppliers" "id" i)
      else if !tp.ContainsId hashInt pur.GetProductId then
        some (DbConstraintError.ForeignKey "purchases" "product_id"
          (to_string pur.GetProductId) "products" "id" i)
      else none)
    (fun u => u.GetDeptId ∈ td.rows.map Department.GetId ∧
      u.GetSupplierId ∈ ts.rows.map Supplier.GetId ∧
      u.GetProductId ∈ tp.rows.map Product.GetId)
    (fun r i => (purchase_check_none_iff _ _ _ _ _ _).trans
      (and_congr (table_containsId_rows Department.GetId hashInt td hid _)
        (and_congr (table_containsId_rows Supplier.GetId hashInt ts his _)
          (table_containsId_rows Product.GetId hashInt tp hip _))))
  rw [hru, hrd, hrs, hrp] at st7
  obtain ⟨j, u, e, hj, hrow, hnot, hc, hbefore, hth⟩ := st7.2 q7
  have he := purchase_check_eq _ _ _ (u.GetDeptId ∈ D.map Department.GetId)
    (u.GetSupplierId ∈ S.map Supplier.GetId)
    (by rw [← hrd]; exact table_containsId_rows Department.GetId hashInt td hid _)
    (by rw [← hrs]; exact table_containsId_rows Supplier.GetId hashInt ts his _) _ _ _ _ hc
  refine ⟨tu, j, u, hU, hru, hrow, hj, hnot, hbefore, ?_⟩
  rw [← he, database_LoadFromFiles_eq, andThen_ok _ _ _ hA, andThen_ok _ _ _ hS,
    andThen_ok _ _ _ hP, andThen_ok _ _ _ (st1.1 q1), andThen_ok _ _ _ (st2.1 q2),
    andThen_ok _ _ _ (st3.1 q3), andThen_ok _ _ _ hD, andThen_ok _ _ _ (st4.1 q4),
    andThen_ok _ _ _ (st5.1 q5), andThen_ok _ _ _ hE, andThen_ok _ _ _ (st6.1 q6),
    andThen_ok _ _ _ hU]
  exact andThen_throws _ _ _ hth

/-- C21, instance: two suppliers with one name and a department without its address; the load
throws the supplier error. -/
theorem database_load_first_violation_witness :
    fileRows lengthParsers.Address Address.GetId none = some [] ∧
    fileRows lengthParsers.Department Department.GetId (some ["d"]) = some [⟨1, "d", 1⟩] ∧
    fileRows lengthParsers.Supplier Supplier.GetId (some ["a", "ab"])
      = some [⟨1, "a", "", "", ""⟩, ⟨2, "a", "", "", ""⟩] ∧
    ∃ j s, Database.LoadFromFiles (fun n => n.toNat) String.length lengthParsers none
        (some ["d"]) none (some ["a", "ab"]) none none = .throws (.constraint
          (DbConstraintError.Unique "suppliers" "name" (Supplier.GetName s) (sizeToInt j))) :=
  ⟨by decide, by decide, by decide,
    (database_load_first_violation lengthParsers (fun n => n.toNat) String.length none
      (some ["d"]) none (some ["a", "ab"]) none none [] [⟨1, "a", "", "", ""⟩,
      ⟨2, "a", "", "", ""⟩] [] (by decide) (by decide) (by decide)).elim
      fun _ h1 => h1.elim fun _ h =>
        (h.2.2.2.2.1 (by decide)).elim fun j h2 => h2.elim fun s h3 => ⟨j, s, h3.2.2.2.2⟩⟩

end LoadOrderTheory

section QueryTheory

variable {T K Ref : Type}

/-! ### The indexes after `BuildIndexes` -/

theorem hashIndex_Clear_holds [DecidableEq K] (hash : K → Nat) (idx : HashIndex K Ref)
    (hinv : idx.map_.Inv hash) : idx.Clear.Holds hash [] := by
  refine ⟨inv_Clear hash _ hinv, ?_⟩
  intro k
  rw [HashIndex.Clear, Clear_Get hash _ hinv]
  rfl

theorem btreeIndex_Clear_holds [LinearOrder K] (idx : BTreeIndex K Ref)
    (hv : idx.tree_.Valid) : idx.Clear.Holds [] := by
  refine ⟨valid_Clear _ hv, ?_⟩
  simp [BTreeIndex.Clear, BTree.Clear, inorder_leaf, upsertAll]

theorem hashIndex_buildLoop_pairs [DecidableEq K] (hash : K → Nat) (sel : Ref → Outcome K)
    (refs : List Ref) (kr : List (K × Ref))
    (hsel : List.Forall₂ (fun r p => sel r = .ok p.1 ∧ p.2 = r) refs kr)
    (idx : HashIndex K Ref) (c : List (K × Ref)) (h : idx.Holds hash c) :
    ∃ idx', HashIndex.buildLoop hash sel idx refs = .ok idx' ∧ idx'.Holds hash (c ++ kr) := by
  induction hsel generalizing idx c with
  | nil => exact ⟨idx, rfl, by simpa using h⟩
  | @cons r p refs kr hp _ ih =>
    obtain ⟨k, r'⟩ := p
    obtain ⟨hk, hr⟩ := hp
    simp only at hk hr
    subst hr
    obtain ⟨idx1, e1, h1⟩ := hashIndex_Insert_holds hash idx c h k r'
    obtain ⟨idx2, e2, h2⟩ := ih idx1 _ h1
    refine ⟨idx2, by simp only [HashIndex.buildLoop, hk, e1, e2], ?_⟩
    simpa using h2

theorem btreeIndex_buildLoop_pairs [LinearOrder K] (sel : Ref → Outcome K)
    (refs : List Ref) (kr : List (K × Ref))
    (hsel : List.Forall₂ (fun r p => sel r = .ok p.1 ∧ p.2 = r) refs kr)
    (idx : BTreeIndex K Ref) (c : List (K × Ref)) (h : idx.Holds c) :
    ∃ idx', BTreeIndex.buildLoop sel idx refs = .ok idx' ∧ idx'.Holds (c ++ kr) := by
  induction hsel generalizing idx c with
  | nil => exact ⟨idx, rfl, by simpa using h⟩
  | @cons r p refs kr hp _ ih =>
    obtain ⟨k, r'⟩ := p
    obtain ⟨hk, hr⟩ := hp
    simp only at hk hr
    subst hr
    obtain ⟨idx1, e1, h1⟩ := btreeIndex_Insert_holds idx c h k r'
    obtain ⟨idx2, e2, h2⟩ := ih idx1 _ h1
    refine ⟨idx2, ?_, by simpa using h2⟩
    simp only [BTreeIndex.Insert] at e1
    cases e1' : idx.tree_.Insert k r' with
    | none => rw [e1'] at e1; cases e1
    | some t =>
      rw [e1'] at e1
      simp only [Option.some.injEq] at e1
      subst e1
      simp only [BTreeIndex.buildLoop, hk, e1', e2]

theorem selector_forall2 (tb : Table T Int) (g : T → K) (l : List Nat)
    (hl : ∀ s ∈ l, tb.IsAliveSlot s = true ∧ ∃ r, tb.records_[s]? = some r) :
    List.Forall₂ (fun s p => (tb.GetRowBySlotOrThrow s).map g = .ok p.1 ∧ p.2 = s) l
      (l.filterMap (fun s => (tb.records_[s]?).map (fun r => (g r, s)))) := by
  induction l with
  | nil => exact .nil
  | cons s l ih =>
    obtain ⟨hal, r, hr⟩ := hl s (List.mem_cons_self _ _)
    have e : List.filterMap (fun s => (tb.records_[s]?).map (fun r => (g r, s))) (s :: l)
        = (g r, s) :: List.filterMap
          (fun s => (tb.records_[s]?).map (fun r => (g r, s))) l := by
      simp only [List.filterMap_cons, hr, Option.map_some']
    rw [e]
    refine .cons ⟨?_, rfl⟩ (ih (fun x hx => hl x (List.mem_cons_of_mem _ hx)))
    simp only [Table.GetRowBySlotOrThrow, hal, if_true, hr, Outcome.ofOption, Outcome.map]

theorem table_alive_facts (tb : Table T Int) (idGetter : T → Int) (hashInt : Int → Nat)
    (hinv : tb.Inv idGetter hashInt) :
    ∀ s ∈ tb.GetAliveSlots, tb.IsAliveSlot s = true ∧ ∃ r, tb.records_[s]? = some r :=
  fun s hs => ⟨(table_mem_aliveSlots tb s).mp hs,
    table_alive_has_record idGetter hashInt tb hinv s hs⟩

theorem hashIndex_Build_keyed [DecidableEq K] (hash : K → Nat) (idx : HashIndex K Nat)
    (hidx : idx.map_.Inv hash) (tb : Table T Int) (idGetter : T → Int) (hashInt : Int → Nat)
    (hinv : tb.Inv idGetter hashInt) (g : T → K) :
    ∃ idx', idx.Build hash tb.GetAliveSlots (fun s => (tb.GetRowBySlotOrThrow s).map g)
      = .ok idx' ∧ idx'.Holds hash (tb.keyed g) := by
  obtain ⟨idx', e, h⟩ := hashIndex_buildLoop_pairs hash _ _ _
    (selector_forall2 tb g tb.GetAliveSlots (table_alive_facts tb idGetter hashInt hinv))
    idx.Clear [] (hashIndex_Clear_holds hash idx hidx)
  exact ⟨idx', e, by simpa using h⟩

theorem btreeIndex_Build_keyed [LinearOrder K] (idx : BTreeIndex K Nat)
    (hidx : idx.tree_.Valid) (tb : Table T Int) (idGetter : T → Int) (hashInt : Int → Nat)
    (hinv : tb.Inv idGetter hashInt) (g : T → K) :
    ∃ idx', idx.Build tb.GetAliveSlots (fun s => (tb.GetRowBySlotOrThrow s).map g)
      = .ok idx' ∧ idx'.Holds (tb.keyed g) := by
  obtain ⟨idx', e, h⟩ := btreeIndex_buildLoop_pairs _ _ _
    (selector_forall2 tb g tb.GetAliveSlots (table_alive_facts tb idGetter hashInt hinv))
    idx.Clear [] (btreeIndex_Clear_holds idx hidx)
  exact ⟨idx', e, by simpa using h⟩

theorem database_BuildIndexes_indexed (hashInt : Int → Nat) (hashString : String → Nat)
    (db : Database) (hw : db.WellFormed hashInt hashString) :
    ∃ db', db.BuildIndexes hashInt hashString = .ok db' ∧
      db'.WellFormed hashInt hashString ∧ db'.Indexed hashInt hashString ∧
      db'.addresses_ = db.addresses_ ∧ db'.departments_ = db.departments_ ∧
      db'.employees_ = db.employees_ ∧ db'.suppliers_ = db.suppliers_ ∧
      db'.products_ = db.products_ ∧ db'.purchases_ = db.purchases_ := by
  obtain ⟨i1, e1, h1⟩ := hashIndex_Build_keyed hashString db.addressesByCity_
    hw.addressesByCity db.addresses_ _ hashInt hw.addresses Address.GetCity
  obtain ⟨i2, e2, h2⟩ := btreeIndex_Build_keyed db.addressesById_
    hw.addressesById db.addresses_ _ hashInt hw.addresses Address.GetId
  obtain ⟨i3, e3, h3⟩ := hashIndex_Build_keyed hashString db.departmentsByName_
    hw.departmentsByName db.departments_ _ hashInt hw.departments Department.GetName
  obtain ⟨i4, e4, h4⟩ := hashIndex_Build_keyed hashInt db.departmentsByAddressId_
    hw.departmentsByAddressId db.departments_ _ hashInt hw.departments
    Department.GetAddressId
  obtain ⟨i5, e5, h5⟩ := hashIndex_Build_keyed hashString db.employeesByFullName_
    hw.employeesByFullName db.employees_ _ hashInt hw.employees Employee.GetFullName
  obtain ⟨i6, e6, h6⟩ := btreeIndex_Build_keyed db.employeesByBirthYear_
    hw.employeesByBirthYear db.employees_ _ hashInt hw.employees Employee.GetBirthYear
  obtain ⟨i7, e7, h7⟩ := hashIndex_Build_keyed hashInt db.employeesByDeptId_
    hw.employeesByDeptId db.employees_ _ hashInt hw.employees Employee.GetDeptId
  obtain ⟨i8, e8, h8⟩ := hashIndex_Build_keyed hashString db.suppliersByName_
    hw.suppliersByName db.suppliers_ _ hashInt hw.suppliers Supplier.GetName
  obtain ⟨i9, e9, h9⟩ := hashIndex_Build_keyed hashString db.suppliersByCity_
    hw.suppliersByCity db.suppliers_ _ hashInt hw.suppliers Supplier.GetCity
  obtain ⟨i10, e10, h10⟩ := hashIndex_Build_keyed hashString db.productsByName_
    hw.productsByName db.products_ _ hashInt hw.products Product.GetName
  obtain ⟨i11, e11, h11⟩ := hashIndex_Build_keyed hashInt db.productsByDefaultSupplierId_
    hw.productsByDefaultSupplierId db.products_ _ hashInt hw.products
    Product.GetDefaultSupplierId
  obtain ⟨i12, e12, h12⟩ := btreeIndex_Build_keyed db.purchasesByDate_
    hw.purchasesByDate db.purchases_ _ hashInt hw.purchases Purchase.GetDate
  obtain ⟨i13, e13, h13⟩ := hashIndex_Build_keyed hashInt db.purchasesBySupplierId_
    hw.purchasesBySupplierId db.purchases_ _ hashInt hw.purchases Purchase.GetSupplierId
  obtain ⟨i14, e14, h14⟩ := hashIndex_Build_keyed hashInt db.purchasesByProductId_
    hw.purchasesByProductId db.purchases_ _ hashInt hw.purchases Purchase.GetProductId
  obtain ⟨i15, e15, h15⟩ := hashIndex_Build_keyed hashInt db.purchasesByDeptId_
    hw.purchasesByDeptId db.purchases_ _ hashInt hw.purchases Purchase.GetDeptId
  refine ⟨{ db with
      addressesByCity_ := i1, addressesById_ := i2, departmentsByName_ := i3,
      departmentsByAddressId_ := i4, employeesByFullName_ := i5,
      employeesByBirthYear_ := i6, employeesByDeptId_ := i7, suppliersByName_ := i8,
      suppliersByCity_ := i9, productsByName_ := i10, productsByDefaultSupplierId_ := i11,
      purchasesByDate_ := i12, purchasesBySupplierId_ := i13,
      purchasesByProductId_ := i14, purchasesByDeptId_ := i15 },
    by simp only [Database.BuildIndexes, e1, e2, e3, e4, e5, e6, e7, e8, e9, e10,
      e11, e12, e13, e14, e15, Outcome.andThen], ?_, ?_, rfl, rfl, rfl, rfl, rfl, rfl⟩
  · exact ⟨hw.addresses, hw.departments, hw.employees, hw.suppliers, hw.products,
      hw.purchases, h1.1, h2.1, h3.1, h4.1, h5.1, h6.1, h7.1, h8.1, h9.1, h10.1, h11.1,
      h12.1, h13.1, h14.1, h15.1⟩
  · exact ⟨h1, h2, h3, h4, h5, h6, h7, h8, h9, h10, h11, h12, h13, h14, h15⟩

/-! ### Queries -/

theorem slotsToIds_cons (tb : Table T Int) (GetId : T → Int) (s : Nat) (l : List Nat) :
    SlotsToIds tb GetId (s :: l)
      = match tb.GetRowBySlotOrThrow s with
        | .throws e => .throws e
        | .undefined => .undefined
        | .ok row => (SlotsToIds tb GetId l).map (fun ids => GetId row :: ids) := rfl

theorem slotsToIds_refsOf_list [DecidableEq K] (tb : Table T Int) (GetId : T → Int)
    (g : T → K) (key : K) (l : List Nat)
    (hl : ∀ s ∈ l, tb.IsAliveSlot s = true ∧ ∃ r, tb.records_[s]? = some r) :
    SlotsToIds tb GetId
        (refsOf (l.filterMap (fun s => (tb.records_[s]?).map (fun r => (g r, s)))) key)
      = .ok (((l.filterMap (fun s => tb.records_[s]?)).filter
          (fun r => decide (g r = key))).map GetId) := by
  induction l with
  | nil => rfl
  | cons s l ih =>
    obtain ⟨hal, r, hr⟩ := hl s (List.mem_cons_self _ _)
    have ih' := ih (fun x hx => hl x (List.mem_cons_of_mem _ hx))
    have e1 : List.filterMap (fun s => (tb.records_[s]?).map (fun r => (g r, s))) (s :: l)
        = (g r, s) :: List.filterMap
          (fun s => (tb.records_[s]?).map (fun r => (g r, s))) l := by
      simp only [List.filterMap_cons, hr, Option.map_some']
    have e2 : List.filterMap (fun s => tb.records_[s]?) (s :: l)
        = r :: List.filterMap (fun s => tb.records_[s]?) l := by
      simp only [List.filterMap_cons, hr]
    rw [e1, e2]
    have e3 : refsOf ((g r, s) :: l.filterMap
          (fun s => (tb.records_[s]?).map (fun r => (g r, s)))) key
        = refsOf [(g r, s)] key ++ refsOf (l.filterMap
          (fun s => (tb.records_[s]?).map (fun r => (g r, s)))) key := by
      rw [← refsOf_append]; rfl
    rw [e3, refsOf_singleton]
    by_cases hk : g r = key
    · rw [if_pos hk, List.filter_cons_of_pos (by simpa using hk)]
      have hrow : tb.GetRowBySlotOrThrow s = .ok r := by
        simp only [Table.GetRowBySlotOrThrow, hal, if_true, hr, Outcome.ofOption]
      rw [List.singleton_append, slotsToIds_cons, hrow]
      simp only [ih', Outcome.map, List.map_cons]
    · rw [if_neg hk, List.filter_cons_of_neg (by simpa using hk), List.nil_append]
      exact ih'

theorem slotsToIds_refsOf [DecidableEq K] (tb : Table T Int) (idGetter : T → Int)
    (hashInt : Int → Nat) (hinv : tb.Inv idGetter hashInt) (GetId : T → Int)
    (g : T → K) (key : K) :
    SlotsToIds tb GetId (refsOf (tb.keyed g) key)
      = .ok ((tb.rows.filter (fun r => decide (g r = key))).map GetId) :=
  slotsToIds_refsOf_list tb GetId g key tb.GetAliveSlots
    (table_alive_facts tb idGetter hashInt hinv)

theorem hash_query_eq [DecidableEq K] (hash : K → Nat) (idx : HashIndex K Nat)
    (tb : Table T Int) (idGetter : T → Int) (hashInt : Int → Nat)
    (hinv : tb.Inv idGetter hashInt) (GetId : T → Int) (g : T → K)
    (h : idx.Holds hash (tb.keyed g)) (key : K) :
    SlotsToIds tb GetId (idx.FindEquals hash key)
      = .ok ((tb.rows.filter (fun r => decide (g r = key))).map GetId) := by
  rw [hashIndex_FindEquals_holds hash idx _ h key]
  exact slotsToIds_refsOf tb idGetter hashInt hinv GetId g key

theorem slotsToIds_append (tb : Table T Int) (GetId : T → Int) (l1 l2 : List Nat)
    (a b : List Int) (h1 : SlotsToIds tb GetId l1 = .ok a)
    (h2 : SlotsToIds tb GetId l2 = .ok b) :
    SlotsToIds tb GetId (l1 ++ l2) = .ok (a ++ b) := by
  induction l1 generalizing a with
  | nil =>
    simp only [SlotsToIds, Outcome.ok.injEq] at h1
    subst h1
    simpa using h2
  | cons s l1 ih =>
    rw [List.cons_append, slotsToIds_cons]
    rw [slotsToIds_cons] at h1
    cases hrow : tb.GetRowBySlotOrThrow s with
    | throws e => rw [hrow] at h1; cases h1
    | undefined => rw [hrow] at h1; cases h1
    | ok row =>
      rw [hrow] at h1
      cases hrest : SlotsToIds tb GetId l1 with
      | throws e => rw [hrest] at h1; cases h1
      | undefined => rw [hrest] at h1; cases h1
      | ok ids =>
        rw [hrest] at h1
        simp only [Outcome.map, Outcome.ok.injEq] at h1
        subst h1
        simp only [ih ids hrest, Outcome.map, List.cons_append]

theorem slotsToIds_flatMap [DecidableEq K] (tb : Table T Int) (idGetter : T → Int)
    (hashInt : Int → Nat) (hinv : tb.Inv idGetter hashInt) (GetId : T → Int)
    (g : T → K) (ks : List K) :
    SlotsToIds tb GetId (ks.flatMap (refsOf (tb.keyed g)))
      = .ok (ks.flatMap
          (fun k => (tb.rows.filter (fun r => decide (g r = k))).map GetId)) := by
  induction ks with
  | nil => rfl
  | cons k ks ih =>
    rw [List.flatMap_cons, List.flatMap_cons]
    exact slotsToIds_append tb GetId _ _ _ _
      (slotsToIds_refsOf tb idGetter hashInt hinv GetId g k) ih

theorem table_keyed_keys (tb : Table T Int) (idGetter : T → Int) (hashInt : Int → Nat)
    (hinv : tb.Inv idGetter hashInt) (g : T → K) :
    (tb.keyed g).map Prod.fst = tb.rows.map g := by
  have hl := table_alive_facts tb idGetter hashInt hinv
  simp only [Table.keyed, Table.rows]
  generalize tb.GetAliveSlots = l at hl
  induction l with
  | nil => rfl
  | cons s l ih =>
    obtain ⟨-, r, hr⟩ := hl s (List.mem_cons_self _ _)
    have ih' := ih (fun x hx => hl x (List.mem_cons_of_mem _ hx))
    have e1 : List.filterMap (fun s => (tb.records_[s]?).map (fun r => (g r, s))) (s :: l)
        = (g r, s) :: List.filterMap
          (fun s => (tb.records_[s]?).map (fun r => (g r, s))) l := by
      simp only [List.filterMap_cons, hr, Option.map_some']
    have e2 : List.filterMap (fun s => tb.records_[s]?) (s :: l)
        = r :: List.filterMap (fun s => tb.records_[s]?) l := by
      simp only [List.filterMap_cons, hr]
    rw [e1, e2, List.map_cons, List.map_cons, ih']

theorem btreeIndex_FindRange_exact [LinearOrder K] (idx : BTreeIndex K Ref)
    (c : List (K × Ref)) (h : idx.Holds c) (lo hi : K) :
    idx.FindRange lo hi = some ((keysInRange c lo hi).flatMap (refsOf c)) := by
  obtain ⟨hv, hio⟩ := h
  have hs : KeysSorted (upsertAll ([] : List (K × List Ref)) c) :=
    upsertAll_sorted c [] keysSorted_nil
  rw [BTreeIndex.FindRange, FindRange_spec _ lo hi hv, hio,
    rangeRefs_eq_flatMap lo hi (refsOf c), keys_filter_eq_keysInRange]
  intro e he
  have h1 := lookupRefs_of_mem _ hs e.1 e.2 he
  have h2 := lookupRefs_upsertAll c [] keysSorted_nil e.1
  rw [h1] at h2
  simpa [lookupRefs] using h2

theorem range_query_eq [LinearOrder K] (idx : BTreeIndex K Nat)
    (tb : Table T Int) (idGetter : T → Int) (hashInt : Int → Nat)
    (hinv : tb.Inv idGetter hashInt) (GetId : T → Int) (g : T → K)
    (h : idx.Holds (tb.keyed g)) (lo hi : K) :
    ∃ keys : List K, keys.Pairwise (· < ·) ∧
      (∀ k, k ∈ keys ↔ (∃ r ∈ tb.rows, g r = k) ∧ lo ≤ k ∧ k ≤ hi) ∧
      (Outcome.ofOption (idx.FindRange lo hi)).andThen (SlotsToIds tb GetId)
        = .ok (keys.flatMap
            (fun k => (tb.rows.filter (fun r => decide (g r = k))).map GetId)) := by
  refine ⟨keysInRange (tb.keyed g) lo hi, keysInRange_sorted _ lo hi, ?_, ?_⟩
  · intro k
    rw [mem_keysInRange]
    have hk : (∃ r, (k, r) ∈ tb.keyed g) ↔ k ∈ (tb.keyed g).map Prod.fst := by
      simp only [List.mem_map, Prod.exists, exists_and_right, exists_eq_right]
    rw [hk, table_keyed_keys tb idGetter hashInt hinv g]
    simp only [List.mem_map]
  · rw [btreeIndex_FindRange_exact idx _ h lo hi]
    exact slotsToIds_flatMap tb idGetter hashInt hinv GetId g _

theorem filter_eq_singleton_of_nodup {α : Type} (f : α → Int) (l : List α)
    (hnd : (l.map f).Nodup) (k : Int) (hk : k ∈ l.map f) :
    (l.filter (fun r => decide (f r = k))).map f = [k] := by
  induction l with
  | nil => cases hk
  | cons a l ih =>
    rw [List.map_cons, List.nodup_cons] at hnd
    by_cases ha : f a = k
    · rw [List.filter_cons_of_pos (by simpa using ha), List.map_cons, ha]
      have : l.filter (fun r => decide (f r = k)) = [] := by
        rw [List.filter_eq_nil_iff]
        intro x hx
        simp only [decide_eq_true_eq]
        intro hxk
        exact hnd.1 (by rw [ha, ← hxk]; exact List.mem_map_of_mem f hx)
      rw [this]; rfl
    · rw [List.filter_cons_of_neg (by simpa using ha)]
      rw [List.map_cons, List.mem_cons] at hk
      rcases hk with hk | hk
      · exact absurd hk.symm ha
      · exact ih hnd.2 hk

theorem flatMap_singleton_ids {α : Type} (f : α → Int) (l : List α)
    (hnd : (l.map f).Nodup) (keys : List Int) (hk : ∀ k ∈ keys, k ∈ l.map f) :
    keys.flatMap (fun k => (l.filter (fun r => decide (f r = k))).map f) = keys := by
  induction keys with
  | nil => rfl
  | cons k keys ih =>
    rw [List.flatMap_cons, filter_eq_singleton_of_nodup f l hnd k
      (hk k (List.mem_cons_self _ _)), ih (fun x hx => hk x (List.mem_cons_of_mem _ hx))]
    rfl

theorem database_indexed_of_reach (hashInt : Int → Nat) (hashString : String → Nat)
    (db : Database)
    (hreach : (∃ (P : RowParsers) (a d e s p u : Option (List String)),
        Database.LoadFromFiles hashInt hashString P a d e s p u = .ok db) ∨
      (∃ (P : RowParsers) (a d e s p u : Option (List String)) (db0 : Database)
        (ops : List DeleteOp),
        Database.LoadFromFiles hashInt hashString P a d e s p u = .ok db0 ∧
        (db0.runDeletes hashInt ops).BuildIndexes hashInt hashString = .ok db)) :
    db.WellFormed hashInt hashString ∧ db.Indexed hashInt hashString := by
  rcases hreach with ⟨P, a, d, e, s, p, u, hload⟩ | ⟨P, a, d, e, s, p, u, db0, ops, hload, hb⟩
  · obtain ⟨-, -, db0, hw0, hb⟩ := database_load_inv P hashInt hashString a d e s p u db hload
    obtain ⟨db', e', hw', hi', -⟩ := database_BuildIndexes_indexed hashInt hashString db0 hw0
    rw [hb] at e'
    cases e'
    exact ⟨hw', hi'⟩
  · obtain ⟨hw0, hr0, -⟩ := database_load_inv P hashInt hashString a d e s p u db0 hload
    obtain ⟨hw1, -⟩ := database_runDeletes_inv hashInt hashString ops db0 hw0 hr0
    obtain ⟨db', e', hw', hi', -⟩ := database_BuildIndexes_indexed hashInt hashString _ hw1
    rw [hb] at e'
    cases e'
    exact ⟨hw', hi'⟩

/-- C27. In a `Database` returned by `LoadFromFiles`, or returned by `BuildIndexes` in a state
reached from a load by delete calls, each of the twelve equality queries returns normally
the ids of the alive rows whose attribute equals the argument, in the order of the rows:
`rows` lists the alive rows by strictly ascending slot, and the ids of the rows of a table
are pairwise distinct, so each id is returned once. -/
theorem database_equality_queries (hashInt : Int → Nat) (hashString : String → Nat)
    (db : Database)
    (hreach : (∃ (P : RowParsers) (a d e s p u : Option (List String)),
        Database.LoadFromFiles hashInt hashString P a d e s p u = .ok db) ∨
      (∃ (P : RowParsers) (a d e s p u : Option (List String)) (db0 : Database)
        (ops : List DeleteOp),
        Database.LoadFromFiles hashInt hashString P a d e s p u = .ok db0 ∧
        (db0.runDeletes hashInt ops).BuildIndexes hashInt hashString = .ok db)) :
    (∀ city, db.FindAddressIdsByCity hashString city
      = .ok ((db.addresses_.rows.filter (fun r => decide (r.GetCity = city))).map
          Address.GetId)) ∧
    (∀ name, db.FindDepartmentIdsByName hashString name
      = .ok ((db.departments_.rows.filter (fun r => decide (r.GetName = name))).map
          Department.GetId)) ∧
    (∀ addressId, db.FindDepartmentIdsByAddressId hashInt addressId
      = .ok ((db.departments_.rows.filter
          (fun r => decide (r.GetAddressId = addressId))).map Department.GetId)) ∧
    (∀ fullName, db.FindEmployeeIdsByFullName hashString fullName
      = .ok ((db.employees_.rows.filter (fun r => decide (r.GetFullName = fullName))).map
          Employee.GetId)) ∧
    (∀ deptId, db.FindEmployeeIdsByDeptId hashInt deptId
      = .ok ((db.employees_.rows.filter (fun r => decide (r.GetDeptId = deptId))).map
          Employee.GetId)) ∧
    (∀ name, db.FindSupplierIdsByName hashString name
      = .ok ((db.suppliers_.rows.filter (fun r => decide (r.GetName = name))).map
          Supplier.GetId)) ∧
    (∀ city, db.FindSupplierIdsByCity hashString city
      = .ok ((db.suppliers_.rows.filter (fun r => decide (r.GetCity = city))).map
          Supplier.GetId)) ∧
    (∀ name, db.FindProductIdsByName hashString name
      = .ok ((db.products_.rows.filter (fun r => decide (r.GetName = name))).map
          Product.GetId)) ∧
    (∀ supplierId, db.FindProductIdsByDefaultSupplierId hashInt supplierId
      = .ok ((db.products_.rows.filter
          (fun r => decide (r.GetDefaultSupplierId = supplierId))).map Product.GetId)) ∧
    (∀ supplierId, db.FindPurchaseIdsBySupplierId hashInt supplierId
      = .ok ((db.purchases_.rows.filter
          (fun r => decide (r.GetSupplierId = supplierId))).map Purchase.GetId)) ∧
    (∀ productId, db.FindPurchaseIdsByProductId hashInt productId
      = .ok ((db.purchases_.rows.filter
          (fun r => decide (r.GetProductId = productId))).map Purchase.GetId)) ∧
    (∀ deptId, db.FindPurchaseIdsByDeptId hashInt deptId
      = .ok ((db.purchases_.rows.filter (fun r => decide (r.GetDeptId = deptId))).map
          Purchase.GetId)) ∧
    ((db.addresses_.rows.map Address.GetId).Nodup ∧
      (db.departments_.rows.map Department.GetId).Nodup ∧
      (db.employees_.rows.map Employee.GetId).Nodup ∧
      (db.suppliers_.rows.map Supplier.GetId).Nodup ∧
      (db.products_.rows.map Product.GetId).Nodup ∧
      (db.purchases_.rows.map Purchase.GetId).Nodup) ∧
    ∀ (T : Type) (tb : Table T Int),
      tb.rows = tb.GetAliveSlots.filterMap (fun s => tb.records_[s]?) ∧
      tb.GetAliveSlots.Pairwise (fun s1 s2 => s1 < s2) := by
  obtain ⟨hw, hi⟩ := database_indexed_of_reach hashInt hashString db hreach
  refine ⟨?_, ?_, ?_, ?_, ?_, ?_, ?_, ?_, ?_, ?_, ?_, ?_, ?_, ?_⟩
  · exact fun k => hash_query_eq hashString _ _ _ hashInt hw.addresses _ _
      hi.addressesByCity k
  · exact fun k => hash_query_eq hashString _ _ _ hashInt hw.departments _ _
      hi.departmentsByName k
  · exact fun k => hash_query_eq hashInt _ _ _ hashInt hw.departments _ _
      hi.departmentsByAddressId k
  · exact fun k => hash_query_eq hashString _ _ _ hashInt hw.employees _ _
      hi.employeesByFullName k
  · exact fun k => hash_query_eq hashInt _ _ _ hashInt hw.employees _ _
      hi.employeesByDeptId k
  · exact fun k => hash_query_eq hashString _ _ _ hashInt hw.suppliers _ _
      hi.suppliersByName k
  · exact fun k => hash_query_eq hashString _ _ _ hashInt hw.suppliers _ _
      hi.suppliersByCity k
  · exact fun k => hash_query_eq hashString _ _ _ hashInt hw.products _ _
      hi.productsByName k
  · exact fun k => hash_query_eq hashInt _ _ _ hashInt hw.products _ _
      hi.productsByDefaultSupplierId k
  · exact fun k => hash_query_eq hashInt _ _ _ hashInt hw.purchases _ _
      hi.purchasesBySupplierId k
  · exact fun k => hash_query_eq hashInt _ _ _ hashInt hw.purchases _ _
      hi.purchasesByProductId k
  · exact fun k => hash_query_eq hashInt _ _ _ hashInt hw.purchases _ _
      hi.purchasesByDeptId k
  · exact ⟨table_rows_nodup_ids _ hashInt _ hw.addresses,
      table_rows_nodup_ids _ hashInt _ hw.departments,
      table_rows_nodup_ids _ hashInt _ hw.employees,
      table_rows_nodup_ids _ hashInt _ hw.suppliers,
      table_rows_nodup_ids _ hashInt _ hw.products,
      table_rows_nodup_ids _ hashInt _ hw.purchases⟩
  · exact fun T tb => ⟨rfl, table_aliveSlots_sorted tb⟩

/-- C27, instance: in the sample database the employees of department 1 are `[1]`. -/
theorem database_equality_queries_witness :
    ∃ db : Database,
      Database.LoadFromFiles (fun n => n.toNat) String.length lengthParsers (some ["a"])
        (some ["d"]) (some ["e"]) none none none = .ok db ∧
      db.FindEmployeeIdsByDeptId (fun n => n.toNat) 1 = .ok [1] ∧
      db.FindEmployeeIdsByDeptId (fun n => n.toNat) 2 = .ok [] :=
  sample_database.elim fun _ h0 => h0.elim fun db h =>
    have hq := (database_equality_queries (fun n => n.toNat) String.length db
      (Or.inl ⟨lengthParsers, some ["a"], some ["d"], some ["e"], none, none, none,
        h.1⟩)).2.2.2.2.1
    ⟨db, h.1, by rw [hq 1, h.2.2.2.2.2.2.1]; rfl, by rw [hq 2, h.2.2.2.2.2.2.1]; rfl⟩

/-- C28. In a `Database` returned by `LoadFromFiles`, or returned by `BuildIndexes` in a state
reached from a load by delete calls: `FindAddressIdsByIdRange(a, b)` returns normally the
strictly ascending list of the ids of the alive addresses with `a ≤ id ≤ b`;
`FindEmployeeIdsByBirthYearRange(y1, y2)` and `FindPurchaseIdsByDateRange(d1, d2)` return
normally, for the strictly ascending list of the keys of alive rows in the inclusive range,
the ids of the alive rows with the first key in the order of the rows (ascending slot), then
those with the second key, and so on. The order of date strings is the lexicographic order
of their characters. -/
theorem database_range_queries (hashInt : Int → Nat) (hashString : String → Nat)
    (db : Database)
    (hreach : (∃ (P : RowParsers) (a d e s p u : Option (List String)),
        Database.LoadFromFiles hashInt hashString P a d e s p u = .ok db) ∨
      (∃ (P : RowParsers) (a d e s p u : Option (List String)) (db0 : Database)
        (ops : List DeleteOp),
        Database.LoadFromFiles hashInt hashString P a d e s p u = .ok db0 ∧
        (db0.runDeletes hashInt ops).BuildIndexes hashInt hashString = .ok db)) :
    (∀ a b : Int, ∃ out, db.FindAddressIdsByIdRange a b = .ok out ∧
      out.Pairwise (fun x y => x < y) ∧
      ∀ id, id ∈ out ↔ id ∈ db.addresses_.rows.map Address.GetId ∧ a ≤ id ∧ id ≤ b) ∧
    (∀ y1 y2 : Int, ∃ years : List Int, years.Pairwise (fun x y => x < y) ∧
      (∀ y, y ∈ years ↔ (∃ e ∈ db.employees_.rows, e.GetBirthYear = y) ∧ y1 ≤ y ∧ y ≤ y2) ∧
      db.FindEmployeeIdsByBirthYearRange y1 y2
        = .ok (years.flatMap (fun y =>
            (db.employees_.rows.filter (fun e => decide (e.GetBirthYear = y))).map
              Employee.GetId))) ∧
    (∀ d1 d2 : String, ∃ dates : List String, dates.Pairwise (fun x y => x < y) ∧
      (∀ d, d ∈ dates ↔ (∃ u ∈ db.purchases_.rows, u.GetDate = d) ∧ d1 ≤ d ∧ d ≤ d2) ∧
      db.FindPurchaseIdsByDateRange d1 d2
        = .ok (dates.flatMap (fun d =>
            (db.purchases_.rows.filter (fun u => decide (u.GetDate = d))).map
              Purchase.GetId))) ∧
    (∀ s t : String, s < t ↔ s.toList < t.toList) ∧
    ∀ (T : Type) (tb : Table T Int),
      tb.rows = tb.GetAliveSlots.filterMap (fun s => tb.records_[s]?) ∧
      tb.GetAliveSlots.Pairwise (fun s1 s2 => s1 < s2) := by
  obtain ⟨hw, hi⟩ := database_indexed_of_reach hashInt hashString db hreach
  refine ⟨?_, ?_, ?_, fun s t => String.lt_iff_toList_lt,
    fun T tb => ⟨rfl, table_aliveSlots_sorted tb⟩⟩
  · intro a b
    obtain ⟨keys, hs, hm, he⟩ := range_query_eq db.addressesById_ db.addresses_ Address.GetId
      hashInt hw.addresses Address.GetId Address.GetId hi.addressesById a b
    have hmem : ∀ id, id ∈ keys ↔ id ∈ db.addresses_.rows.map Address.GetId ∧ a ≤ id ∧ id ≤ b := by
      intro id
      rw [hm id]
      simp only [List.mem_map]
    refine ⟨keys, ?_, hs, hmem⟩
    rw [Database.FindAddressIdsByIdRange, he,
      flatMap_singleton_ids Address.GetId _
        (table_rows_nodup_ids Address.GetId hashInt _ hw.addresses) keys
        (fun k hk => ((hmem k).mp hk).1)]
  · intro y1 y2
    exact range_query_eq db.employeesByBirthYear_ db.employees_ Employee.GetId
      hashInt hw.employees Employee.GetId Employee.GetBirthYear hi.employeesByBirthYear y1 y2
  · intro d1 d2
    obtain ⟨keys, hs, hm, he⟩ := range_query_eq db.purchasesByDate_ db.purchases_
      Purchase.GetId hashInt hw.purchases Purchase.GetId Purchase.GetDate
      hi.purchasesByDate d1 d2
    refine ⟨keys, hs, hm, ?_⟩
    rw [Database.FindPurchaseIdsByDateRange, he]
    congr!

/-- C28, instance: in the sample database the addresses with an id from 0 to 5 are found. -/
theorem database_range_queries_witness :
    ∃ (db : Database) (out : List Int),
      Database.LoadFromFiles (fun n => n.toNat) String.length lengthParsers (some ["a"])
        (some ["d"]) (some ["e"]) none none none = .ok db ∧
      db.FindAddressIdsByIdRange 0 5 = .ok out ∧ (1 : Int) ∈ out :=
  sample_database.elim fun _ h0 => h0.elim fun db h =>
    ((database_range_queries (fun n => n.toNat) String.length db
      (Or.inl ⟨lengthParsers, some ["a"], some ["d"], some ["e"], none, none, none,
        h.1⟩)).1 0 5).elim fun out ho =>
      ⟨db, out, h.1, ho.1, (ho.2.2 1).mpr ⟨by rw [h.2.2.2.2.1]; decide, by decide,
        by decide⟩⟩

theorem notFoundUnless_true (what : String) (id : Int) (b : Bool) (h : b = true) :
    notFoundUnless b what id = .ok () := by
  rw [h]; rfl

theorem database_DeleteEmployee_found (hashInt : Int → Nat) (hashString : String → Nat)
    (db : Database) (hw : db.WellFormed hashInt hashString) (id : Int)
    (hc : id ∈ db.employees_.rows.map Employee.GetId) :
    (db.DeleteEmployee hashInt id).2 = .ok () ∧
    (db.DeleteEmployee hashInt id).1.employees_.rows
      = db.employees_.rows.filter (fun r => decide (r.GetId ≠ id)) := by
  obtain ⟨h1, -, -, -, h5⟩ := table_delete_found Employee.GetId hashInt db.employees_
    hw.employees id (table_contains_of_rows Employee.GetId hashInt _ hw.employees id hc)
  exact ⟨notFoundUnless_true _ _ _ h1, h5⟩

theorem database_DeleteDepartment_found (hashInt : Int → Nat) (hashString : String → Nat)
    (db : Database) (hw : db.WellFormed hashInt hashString) (id : Int)
    (h1 : ∀ e ∈ db.employees_.rows, e.GetDeptId ≠ id)
    (h2 : ∀ u ∈ db.purchases_.rows, u.GetDeptId ≠ id)
    (hc : id ∈ db.departments_.rows.map Department.GetId) :
    (db.DeleteDepartment hashInt id).2 = .ok () ∧
    (db.DeleteDepartment hashInt id).1.departments_.rows
      = db.departments_.rows.filter (fun r => decide (r.GetId ≠ id)) ∧
    (db.DeleteDepartment hashInt id).1.addresses_ = db.addresses_ ∧
    (db.DeleteDepartment hashInt id).1.employees_ = db.employees_ := by
  obtain ⟨h3, -, -, -, h5⟩ := table_delete_found Department.GetId hashInt db.departments_
    hw.departments id (table_contains_of_rows Department.GetId hashInt _ hw.departments id hc)
  rw [database_DeleteDepartment_clean hashInt hashString db hw id h1 h2]
  exact ⟨notFoundUnless_true _ _ _ h3, h5, rfl, rfl⟩

theorem database_DeleteAddress_found (hashInt : Int → Nat) (hashString : String → Nat)
    (db : Database) (hw : db.WellFormed hashInt hashString) (id : Int)
    (h1 : ∀ d ∈ db.departments_.rows, d.GetAddressId ≠ id)
    (hc : id ∈ db.addresses_.rows.map Address.GetId) :
    (db.DeleteAddress hashInt id).2 = .ok () ∧
    (db.DeleteAddress hashInt id).1.addresses_.rows
      = db.addresses_.rows.filter (fun r => decide (r.GetId ≠ id)) ∧
    (db.DeleteAddress hashInt id).1.departments_ = db.departments_ ∧
    (db.DeleteAddress hashInt id).1.employees_ = db.employees_ := by
  obtain ⟨h3, -, -, -, h5⟩ := table_delete_found Address.GetId hashInt db.addresses_
    hw.addresses id (table_contains_of_rows Address.GetId hashInt _ hw.addresses id hc)
  rw [database_DeleteAddress_clean hashInt hashString db hw id h1]
  exact ⟨notFoundUnless_true _ _ _ h3, h5, rfl, rfl⟩

theorem table_count_of_rows_nil {T : Type} (tb : Table T Int) (idGetter : T → Int)
    (hashInt : Int → Nat) (hinv : tb.Inv idGetter hashInt) (h : tb.rows = []) :
    tb.GetRowCount = 0 := by
  rw [← table_rows_length idGetter hashInt tb hinv, h]
  rfl

/-- C29. The scenario: when the address file yields one address with id 1 and city `Riga`,
the department file the department `(1, "HR", 1)`, the employee file the employee
`(1, "A", "B", "C", 1990, 1)` and the other three files no row, `LoadFromFiles` returns a
`Database` in which `FindEmployeeIdsByDeptId(1)` and `FindAddressIdsByCity("Riga")` return
`[1]`, `DeleteAddress(1)` and `DeleteDepartment(1)` throw a `RestrictViolation` and leave the
database as it is, and then `DeleteEmployee(1)`, `DeleteDepartment(1)`, `DeleteAddress(1)` in
this order return normally and leave the three tables without rows. -/
theorem database_scenario (P : RowParsers) (hashInt : Int → Nat)
    (hashString : String → Nat)
    (addresses departments employees suppliers products purchases : Option (List String))
    (a : Address) (ha1 : a.GetId = 1) (ha2 : a.GetCity = "Riga")
    (ha : fileRows P.Address Address.GetId addresses = some [a])
    (hd : fileRows P.Department Department.GetId departments = some [⟨1, "HR", 1⟩])
    (he : fileRows P.Employee Employee.GetId employees
      = some [⟨1, "A", "B", "C", 1990, 1⟩])
    (hs : fileRows P.Supplier Supplier.GetId suppliers = some [])
    (hp : fileRows P.Product Product.GetId products = some [])
    (hu : fileRows P.Purchase Purchase.GetId purchases = some []) :
    ∃ (db : Database) (e1 e2 : DbConstraintError),
      Database.LoadFromFiles hashInt hashString P addresses departments employees
        suppliers products purchases = .ok db ∧
      db.FindEmployeeIdsByDeptId hashInt 1 = .ok [1] ∧
      db.FindAddressIdsByCity hashString "Riga" = .ok [1] ∧
      db.DeleteAddress hashInt 1 = (db, .throws (.constraint e1)) ∧
      e1.GetType = .RestrictViolation ∧
      db.DeleteDepartment hashInt 1 = (db, .throws (.constraint e2)) ∧
      e2.GetType = .RestrictViolation ∧
      (db.DeleteEmployee hashInt 1).2 = .ok () ∧
      ((db.DeleteEmployee hashInt 1).1.DeleteDepartment hashInt 1).2 = .ok () ∧
      (((db.DeleteEmployee hashInt 1).1.DeleteDepartment hashInt 1).1.DeleteAddress
        hashInt 1).2 = .ok () ∧
      (((db.DeleteEmployee hashInt 1).1.DeleteDepartment hashInt 1).1.DeleteAddress
        hashInt 1).1.addresses_.rows = [] ∧
      (((db.DeleteEmployee hashInt 1).1.DeleteDepartment hashInt 1).1.DeleteAddress
        hashInt 1).1.departments_.rows = [] ∧
      (((db.DeleteEmployee hashInt 1).1.DeleteDepartment hashInt 1).1.DeleteAddress
        hashInt 1).1.employees_.rows = [] ∧
      (((db.DeleteEmployee hashInt 1).1.DeleteDepartment hashInt 1).1.DeleteAddress
        hashInt 1).1.addresses_.GetRowCount = 0 ∧
      (((db.DeleteEmployee hashInt 1).1.DeleteDepartment hashInt 1).1.DeleteAddress
        hashInt 1).1.departments_.GetRowCount = 0 ∧
      (((db.DeleteEmployee hashInt 1).1.DeleteDepartment hashInt 1).1.DeleteAddress
        hashInt 1).1.employees_.GetRowCount = 0 := by
  obtain ⟨db0, db, hload, -, -, hw, hra, hrd, hre, hrs, hrp, hru⟩ :=
    database_load_ok P hashInt hashString addresses departments employees suppliers
      products purchases [a] [⟨1, "HR", 1⟩] [⟨1, "A", "B", "C", 1990, 1⟩] [] [] []
      ha hd he hs hp hu (by simp) (by simp) (by simp) (by simp)
      (by intro d hd'; simp only [List.mem_singleton] at hd'; subst hd'
          simp only [List.map_cons, List.map_nil, List.mem_singleton, ha1]; rfl)
      (by decide) (by simp)
  obtain ⟨-, hr, -⟩ := database_load_inv P hashInt hashString addresses departments
    employees suppliers products purchases db hload
  obtain ⟨-, hi⟩ := database_indexed_of_reach hashInt hashString db
    (Or.inl ⟨P, addresses, departments, employees, suppliers, products, purchases, hload⟩)
  -- the two refused deletes
  obtain ⟨j1, d1, -, -, -, -, hs1⟩ := restrict_first db.departments_ Department.GetId
    hashInt hw.departments Department.GetAddressId "departments" "address_id" "addresses" 1
    ⟨⟨1, "HR", 1⟩, by rw [hrd]; exact List.mem_singleton_self _, rfl⟩
  obtain ⟨j2, d2, -, -, -, -, hs2⟩ := restrict_first db.employees_ Employee.GetId
    hashInt hw.employees Employee.GetDeptId "employees" "dept_id" "departments" 1
    ⟨⟨1, "A", "B", "C", 1990, 1⟩, by rw [hre]; exact List.mem_singleton_self _, rfl⟩
  -- the three deletes that succeed
  obtain ⟨ok1, rows1⟩ := database_DeleteEmployee_found hashInt hashString db hw 1
    (by rw [hre]; decide)
  obtain ⟨hw1, hr1⟩ := database_DeleteEmployee_inv hashInt hashString db hw hr 1
  rw [hre] at rows1
  have rows1' : (db.DeleteEmployee hashInt 1).1.employees_.rows = [] := by
    rw [rows1]; decide
  have hd1 : (db.DeleteEmployee hashInt 1).1.departments_.rows = [⟨1, "HR", 1⟩] := hrd
  have ha1' : (db.DeleteEmployee hashInt 1).1.addresses_.rows = [a] := hra
  have hu1 : (db.DeleteEmployee hashInt 1).1.purchases_.rows = [] := hru
  obtain ⟨ok2, rows2, ta2, te2⟩ := database_DeleteDepartment_found hashInt hashString
    (db.DeleteEmployee hashInt 1).1 hw1 1
    (by rw [rows1']; intro e he'; cases he')
    (by rw [hu1]; intro e he'; cases he')
    (by rw [hd1]; decide)
  obtain ⟨hw2, hr2⟩ := database_DeleteDepartment_inv hashInt hashString _ hw1 hr1 1
  rw [hd1] at rows2
  have rows2' : ((db.DeleteEmployee hashInt 1).1.DeleteDepartment hashInt 1).1.departments_.rows
      = [] := by
    rw [rows2]; decide
  obtain ⟨ok3, rows3, td3, te3⟩ := database_DeleteAddress_found hashInt hashString
    ((db.DeleteEmployee hashInt 1).1.DeleteDepartment hashInt 1).1 hw2 1
    (by rw [rows2']; intro e he'; cases he')
    (by rw [ta2, ha1']; simp [ha1])
  obtain ⟨hw3, -⟩ := database_DeleteAddress_inv hashInt hashString _ hw2 hr2 1
  rw [ta2, ha1'] at rows3
  have rows3' : (((db.DeleteEmployee hashInt 1).1.DeleteDepartment hashInt 1).1.DeleteAddress
      hashInt 1).1.addresses_.rows = [] := by
    rw [rows3]; simp [ha1]
  have rowsD : (((db.DeleteEmployee hashInt 1).1.DeleteDepartment hashInt 1).1.DeleteAddress
      hashInt 1).1.departments_.rows = [] := by
    rw [td3]; exact rows2'
  have rowsE : (((db.DeleteEmployee hashInt 1).1.DeleteDepartment hashInt 1).1.DeleteAddress
      hashInt 1).1.employees_.rows = [] := by
    rw [te3, te2]; exact rows1'
  refine ⟨db,
    DbConstraintError.Restrict "departments" "address_id" (to_string 1) "addresses" "id"
      (sizeToInt j1),
    DbConstraintError.Restrict "employees" "dept_id" (to_string 1) "departments" "id"
      (sizeToInt j2),
    hload, ?_, ?_, ?_, rfl, ?_, rfl, ok1, ok2, ok3, rows3', rowsD, rowsE,
    table_count_of_rows_nil _ Address.GetId hashInt hw3.addresses rows3',
    table_count_of_rows_nil _ Department.GetId hashInt hw3.departments rowsD,
    table_count_of_rows_nil _ Employee.GetId hashInt hw3.employees rowsE⟩
  · rw [Database.FindEmployeeIdsByDeptId, hash_query_eq hashInt _ _ Employee.GetId hashInt
      hw.employees Employee.GetId Employee.GetDeptId hi.employeesByDeptId 1, hre]
    rfl
  · rw [Database.FindAddressIdsByCity, hash_query_eq hashString _ _ Address.GetId hashInt
      hw.addresses Address.GetId Address.GetCity hi.addressesByCity "Riga", hra]
    simp [ha1, ha2]
  · rw [Database.DeleteAddress, afterScan_throws _ _ _ _ hs1]
  · rw [Database.DeleteDepartment, afterScan_throws _ _ _ _ hs2]

/-- C29, instance: the scenario from three one-line files. -/
theorem database_scenario_witness :
    ∃ db : Database,
      Database.LoadFromFiles (fun n => n.toNat) String.length scenarioParsers (some ["a"])
        (some ["d"]) (some ["e"]) none none none = .ok db ∧
      db.FindEmployeeIdsByDeptId (fun n => n.toNat) 1 = .ok [1] ∧
      db.FindAddressIdsByCity String.length "Riga" = .ok [1] ∧
      (∃ e, db.DeleteAddress (fun n => n.toNat) 1 = (db, .throws (.constraint e))) ∧
      (db.DeleteEmployee (fun n => n.toNat) 1).2 = .ok () :=
  (database_scenario scenarioParsers (fun n => n.toNat) String.length (some ["a"])
    (some ["d"]) (some ["e"]) none none none ⟨1, "Riga", "", "", ""⟩ rfl rfl
    (by decide) (by decide) (by decide) (by decide) (by decide) (by decide)).elim
    fun db h1 => h1.elim fun e1 h2 => h2.elim fun _ h =>
      ⟨db, h.1, h.2.1, h.2.2.1, ⟨e1, h.2.2.2.1⟩, h.2.2.2.2.2.2.2.1⟩

end QueryTheory

section BTreeShapeTheory

variable {K Ref : Type}

/-! ### `Insert` of a key that is present -/

theorem counts_eq_sum (cs : List (Node K Ref)) : counts cs = (cs.map Node.count).sum := by
  induction cs with
  | nil => rfl
  | cons c cs ih => simp only [counts, List.map_cons, List.sum_cons, ih]

theorem skeletons_eq_map (cs : List (Node K Ref)) : skeletons cs = cs.map Node.skeleton := by
  induction cs with
  | nil => rfl
  | cons c cs ih => simp only [skeletons, List.map_cons, ih]

theorem counts_setAt (cs : List (Node K Ref)) (i : Nat) (c c' : Node K Ref)
    (h : cs[i]? = some c) (hc : c'.count = c.count) : counts (setAt i c' cs) = counts cs := by
  have e := split_at h
  rw [counts_eq_sum, counts_eq_sum, setAt]
  conv_rhs => rw [e]
  simp only [List.map_append, List.map_cons, List.sum_append, List.sum_cons, hc]

theorem skeletons_setAt (cs : List (Node K Ref)) (i : Nat) (c c' : Node K Ref)
    (h : cs[i]? = some c) (hc : c'.skeleton = c.skeleton) :
    skeletons (setAt i c' cs) = skeletons cs := by
  have e := split_at h
  rw [skeletons_eq_map, skeletons_eq_map, setAt]
  conv_rhs => rw [e]
  simp only [List.map_append, List.map_cons, hc]

theorem splitsOnPathAt_eq [LinearOrder K] (t : Nat) (cs : List (Node K Ref)) (i : Nat)
    (key : K) :
    splitsOnPathAt t cs i key = match cs[i]? with
      | none => false
      | some c => decide (c.keys.length = MaxKeys t) || c.splitsOnPath t key := by
  induction cs generalizing i with
  | nil => simp [splitsOnPathAt]
  | cons c cs ih =>
    cases i with
    | zero => simp [splitsOnPathAt]
    | succ i => simp [splitsOnPathAt, ih]

theorem node_keys_mk (leaf : Bool) (keys : List K) (values : List (List Ref))
    (children : List (Node K Ref)) : (Node.mk leaf keys values children).keys = keys := rfl

theorem node_leaf_mk (leaf : Bool) (keys : List K) (values : List (List Ref))
    (children : List (Node K Ref)) : (Node.mk leaf keys values children).leaf = leaf := rfl

theorem node_values_mk (leaf : Bool) (keys : List K) (values : List (List Ref))
    (children : List (Node K Ref)) : (Node.mk leaf keys values children).values = values := rfl

theorem node_children_mk (leaf : Bool) (keys : List K) (values : List (List Ref))
    (children : List (Node K Ref)) :
    (Node.mk leaf keys values children).children = children := rfl

theorem InsertNonFull_shape [LinearOrder K] (t : Nat) (key : K) (ref : Ref) (fuel : Nat)
    (x x' : Node K Ref) (h : InsertNonFull t fuel x key ref = some x')
    (hfind : ∃ v, FindPtr x key = some (some v)) (hno : x.splitsOnPath t key = false) :
    x'.skeleton = x.skeleton ∧ x'.count = x.count := by
  induction fuel generalizing x x' with
  | zero => simp [InsertNonFull] at h
  | succ fuel ih =>
    obtain ⟨leaf, keys, values, children⟩ := x
    obtain ⟨v, hv⟩ := hfind
    rw [InsertNonFull] at h
    simp only [node_keys_mk, node_leaf_mk, node_children_mk, node_values_mk] at h
    simp only [Node.splitsOnPath] at hno
    simp only [FindPtr] at hv
    by_cases hfound : lbIndex keys key < keys.length ∧ keys[lbIndex keys key]? = some key
    · rw [if_pos hfound] at h
      simp only [pushRef, node_keys_mk, node_leaf_mk, node_children_mk, node_values_mk] at h
      cases hval : values[lbIndex keys key]? with
      | none => rw [hval] at h; cases h
      | some w =>
        rw [hval] at h
        simp only [Option.some.injEq] at h
        subst h
        exact ⟨by simp only [Node.skeleton], by simp only [Node.count]⟩
    · rw [if_neg hfound] at h hno hv
      cases leaf with
      | true => simp at hv
      | false =>
        simp only [Bool.false_eq_true, if_false] at h hno hv
        rw [FindPtrAt_eq] at hv
        rw [splitsOnPathAt_eq] at hno
        cases hc : children[lbIndex keys key]? with
        | none => rw [hc] at hv; cases hv
        | some c =>
          rw [hc] at h hno hv
          simp only [Bool.or_eq_false_iff, decide_eq_false_iff_not] at hno h hv
          rw [if_neg hno.1] at h
          simp only [descendInto, node_keys_mk, node_leaf_mk, node_children_mk,
            node_values_mk, hc] at h
          cases hrec : InsertNonFull t fuel c key ref with
          | none => rw [hrec] at h; cases h
          | some c' =>
            rw [hrec] at h
            simp only [Option.some.injEq] at h
            subst h
            obtain ⟨hs, hcnt⟩ := ih c c' hrec ⟨v, hv⟩ hno.2
            exact ⟨by simp only [Node.skeleton, skeletons_setAt children _ c c' hc hs],
              by simp only [Node.count, counts_setAt children _ c c' hc hcnt]⟩

theorem upsert_present_keys [LinearOrder K] (k : K) (r : Ref) (L : List (K × List Ref))
    (hs : KeysSorted L) (hk : k ∈ L.map Prod.fst) :
    (upsert k r L).map Prod.fst = L.map Prod.fst := by
  obtain ⟨e, he, rfl⟩ := List.mem_map.mp hk
  obtain ⟨A, B, rfl⟩ := List.append_of_mem he
  obtain ⟨k, v⟩ := e
  rw [upsert_found k r v A B hs]
  simp

theorem findEquals_upsertAll [LinearOrder K] (b : BTree K Ref) (hv : b.Valid)
    (ops : List (K × Ref)) (hio : b.root_.inorder = upsertAll [] ops) (k : K) :
    b.FindEquals k = some (refsOf ops k) := by
  rw [FindEquals_spec _ k hv, hio, lookupRefs_upsertAll ops [] keysSorted_nil k]
  simp [lookupRefs]

/-- C30, as the code has it. For a tree built by `Insert` calls and a key already in it,
`Insert(key, ref)` returns, leaves the in-order key sequence of the tree as it is and only
appends `ref` to the ref-list of `key`; when the root is not full and the descent to the key
meets no full child, there is no split and no node growth: the number of nodes, and the leaf
flag and key sequence of every node, are the same after the call as before. -/
theorem btree_insert_present_key [LinearOrder K] (minDegree : Int) (ops : List (K × Ref))
    (b : BTree K Ref) (hb : (BTree.new minDegree : BTree K Ref).insertAll ops = some b)
    (key : K) (ref : Ref) (hkey : key ∈ ops.map Prod.fst) :
    ∃ b', b.Insert key ref = some b' ∧
      b'.root_.inorder.map Prod.fst = b.root_.inorder.map Prod.fst ∧
      b.FindEquals key = some (refsOf ops key) ∧
      b'.FindEquals key = some (refsOf ops key ++ [ref]) ∧
      (∀ k, k ≠ key → b'.FindEquals k = b.FindEquals k) ∧
      (b.root_.keys.length ≠ MaxKeys b.t_ → b.root_.splitsOnPath b.t_ key = false →
        b'.root_.skeleton = b.root_.skeleton ∧ b'.root_.count = b.root_.count) := by
  obtain ⟨b0, e0, hv, -, hio⟩ := insertAll_spec ops (BTree.new minDegree) (valid_new minDegree)
  rw [hb] at e0
  simp only [Option.some.injEq] at e0
  subst e0
  have hio' : b.root_.inorder = upsertAll [] ops := by
    rw [hio]; simp [BTree.new, inorder_leaf]
  have hs : KeysSorted b.root_.inorder := hv.2.2
  obtain ⟨b', e1, hv', ht', hio1⟩ := Insert_spec b key ref hv
  have hio1' : b'.root_.inorder = upsertAll [] (ops ++ [(key, ref)]) := by
    rw [hio1, hio', upsertAll_append]
    rfl
  have hmem : key ∈ b.root_.inorder.map Prod.fst := by
    rw [hio', mem_keys_upsertAll]
    exact Or.inr hkey
  refine ⟨b', e1, ?_, findEquals_upsertAll b hv ops hio' key, ?_, ?_, ?_⟩
  · rw [hio1]
    exact upsert_present_keys key ref _ hs hmem
  · rw [findEquals_upsertAll b' hv' _ hio1' key, refsOf_append, refsOf_singleton, if_pos rfl]
  · intro k hk
    rw [findEquals_upsertAll b' hv' _ hio1' k, findEquals_upsertAll b hv ops hio' k,
      refsOf_append, refsOf_singleton, if_neg (fun c => hk c.symm), List.append_nil]
  · intro hfull hno
    obtain ⟨ht, ⟨h, hinv⟩, -⟩ := hv
    have hfind : ∃ v, FindPtr b.root_ key = some (some v) := by
      obtain ⟨e, he, hek⟩ := List.mem_map.mp hmem
      refine ⟨e.2, ?_⟩
      rw [FindPtr_spec b.t_ _ h b.root_ key hinv hs,
        lookupRefs_of_mem _ hs key e.2 (by rw [← hek]; exact he)]
    simp only [BTree.Insert, if_neg hfull] at e1
    cases hr : InsertNonFull b.t_ b.root_.height b.root_ key ref with
    | none => rw [hr] at e1; cases e1
    | some r' =>
      rw [hr] at e1
      simp only [Option.some.injEq] at e1
      subst e1
      exact InsertNonFull_shape b.t_ key ref _ _ _ hr hfind hno

/-- C30, instance: the key 2 of a two-key leaf gets a second ref without any split. -/
theorem btree_insert_present_key_witness :
    ∃ b' : BTree Nat Nat,
      (⟨2, .mk true [1, 2] [[10], [20]] []⟩ : BTree Nat Nat).Insert 2 21 = some b' ∧
      b'.FindEquals 2 = some [20, 21] ∧ b'.root_.count = 1 :=
  (btree_insert_present_key 2 [(1, 10), (2, 20)] ⟨2, .mk true [1, 2] [[10], [20]] []⟩
    (by rfl) 2 21 (by decide)).elim fun b' h =>
      ⟨b', h.1, h.2.2.2.1, (h.2.2.2.2.2 (by decide) rfl).2⟩

/-- C30, counterexample: the key 2 is in a tree of minimum degree 2 whose root is a full
leaf; `Insert(2, 21)` splits the root first, so the tree has three nodes instead of one and
the root holds the key sequence `[2]` instead of `[1, 2, 3]`. -/
theorem btree_insert_present_key_splits :
    (BTree.new 2 : BTree Nat Nat).insertAll [(1, 10), (2, 20), (3, 30)]
      = some ⟨2, .mk true [1, 2, 3] [[10], [20], [30]] []⟩ ∧
    (⟨2, .mk true [1, 2, 3] [[10], [20], [30]] []⟩ : BTree Nat Nat).FindEquals 2
      = some [20] ∧
    (⟨2, .mk true [1, 2, 3] [[10], [20], [30]] []⟩ : BTree Nat Nat).Insert 2 21
      = some ⟨2, .mk false [2] [[20, 21]]
          [.mk true [1] [[10]] [], .mk true [3] [[30]] []]⟩ ∧
    (Node.mk true [1, 2, 3] [[10], [20], [30]] [] : Node Nat Nat).count = 1 ∧
    (Node.mk false [2] [[20, 21]] [.mk true [1] [[10]] [], .mk true [3] [[30]] []] :
      Node Nat Nat).count = 3 ∧
    (Node.mk true [1, 2, 3] [[10], [20], [30]] [] : Node Nat Nat).keys = [1, 2, 3] ∧
    (Node.mk false [2] [[20, 21]] [.mk true [1] [[10]] [], .mk true [3] [[30]] []] :
      Node Nat Nat).keys = [2] :=
  ⟨rfl, rfl, rfl, rfl, rfl, rfl, rfl⟩

end BTreeShapeTheory

section TableFallbackTheory

variable {T IdT : Type}

/-! ### `GetRow` beyond the row count -/

theorem aliveIndexLoop_fallback (aliveIndex : Nat) (l : List Bool) (slot count : Nat)
    (h : count + l.count true ≤ aliveIndex) : aliveIndexLoop aliveIndex l slot count = 0 := by
  induction l generalizing slot count with
  | nil => rfl
  | cons a l ih =>
    cases a with
    | false =>
      simp only [aliveIndexLoop, Bool.false_eq_true, if_false]
      exact ih _ _ (by simpa using h)
    | true =>
      have hc : (true :: l).count true = l.count true + 1 := by simp
      rw [hc] at h
      simp only [aliveIndexLoop, if_true]
      rw [if_neg (by omega)]
      exact ih _ _ (by omega)

/-- C38. In every reachable `Table` state and for every `i ≥ GetRowCount()`, the loop of
`AliveIndexToSlot(i)` ends without a hit and the function returns 0, so `GetRow(i)` reads
`records_[0]`: when the record array is not empty the call returns the record stored at
physical slot 0, whether that slot is alive or not. -/
theorem table_getRow_beyond_count [DecidableEq IdT] (idGetter : T → IdT) (hash : IdT → Nat)
    (ops : List (TableOp T IdT)) :
    ∃ tb, (Table.new : Table T IdT).run idGetter hash ops = some tb ∧
      ∀ i, tb.GetRowCount ≤ i →
        tb.AliveIndexToSlot i = 0 ∧ tb.GetRow i = tb.records_[0]? ∧
        (tb.records_ ≠ [] → ∃ r, tb.records_[0]? = some r ∧ tb.GetRow i = some r) := by
  obtain ⟨tb, e, hinv, -⟩ := table_run_inv idGetter hash ops Table.new
    (table_inv_new idGetter hash)
  obtain ⟨-, -, -, -, -, -, -, h7⟩ := hinv
  refine ⟨tb, e, ?_⟩
  intro i hi
  have h0 : tb.AliveIndexToSlot i = 0 :=
    aliveIndexLoop_fallback i tb.alive_ 0 0 (by
      simp only [Table.GetRowCount] at hi
      omega)
  have h1 : tb.GetRow i = tb.records_[0]? := by rw [Table.GetRow, h0]
  refine ⟨h0, h1, ?_⟩
  intro hne
  cases hr : tb.records_ with
  | nil => exact absurd hr hne
  | cons r rest => exact ⟨r, by simp, by rw [h1, hr]; simp⟩

/-- C38, instance: after the insertion and the deletion of the row 7 the table has no row,
slot 0 is dead, and `GetRow(3)` still returns the record 7 left in slot 0. -/
theorem table_getRow_beyond_count_witness :
    ∃ tb : Table Nat Nat,
      (Table.new : Table Nat Nat).run id id [.insert 7, .deleteById 7] = some tb ∧
      tb.GetRowCount = 0 ∧ tb.IsAliveSlot 0 = false ∧ tb.records_ = [7] ∧
      tb.GetRow 3 = some 7 :=
  (table_getRow_beyond_count id id [TableOp.insert 7, TableOp.deleteById 7]).elim
    fun tb h =>
      have e : (((Table.new : Table Nat Nat).run id id [.insert 7, .deleteById 7]).map
          (fun tb => (tb.GetRowCount, tb.IsAliveSlot 0, tb.records_)))
          = some (0, false, [7]) := by decide!
      have e' : (tb.GetRowCount, tb.IsAliveSlot 0, tb.records_) = (0, false, [7]) := by
        rw [h.1] at e
        exact Option.some.inj e
      have hc : tb.GetRowCount = 0 := congrArg (fun p => p.1) e'
      have hr : tb.records_ = [7] := congrArg (fun p => p.2.2) e'
      ⟨tb, h.1, hc, congrArg (fun p => p.2.1) e', hr,
        by rw [(h.2 3 (by rw [hc]; exact Nat.zero_le 3)).2.1, hr]; simp⟩

end TableFallbackTheory

section HashTableEntriesTheory

variable {K V : Type}

/-! ### The stored entries of a `HashTable` -/

theorem inv_entries (hash : K → Nat) (h : HashTable K V) (hinv : h.Inv hash) :
    (∀ i b kv, h.buckets_[i]? = some b → kv ∈ b → i = hash kv.key % h.Capacity) ∧
    (h.buckets_.flatten.map KeyValue.key).Nodup ∧
    h.Size = h.buckets_.flatten.length := by
  refine ⟨?_, keys_nodup_of_inv hash h hinv, ?_⟩
  · intro i b kv hb hkv
    exact (hinv.2.1 i b hb kv hkv).symm
  · rw [HashTable.Size, hinv.2.2.2, List.length_flatten]

/-- C37. After every sequence of `Set`, `Remove` and `Clear` calls on an empty table (the
calls succeed), and also after a further `Rehash` to any capacity: every entry of the bucket
with index `i` has `hash(key) % Capacity() = i`, the keys of all stored entries are pairwise
distinct, and `Size()` is the number of stored entries. In such a state `Remove(k)` returns
`Contains(k)`; when it returns `true` the size decreases by one and `k` is no longer
contained, otherwise the size stays. -/
theorem hashTable_entries_invariant [DecidableEq K] (hash : K → Nat) (capacity : Nat)
    (lf : ℚ) (ops : List (HashOp K V)) :
    ∃ s, (HashTable.new capacity lf : HashTable K V).run hash ops = some s ∧
      (∀ i b kv, s.buckets_[i]? = some b → kv ∈ b → i = hash kv.key % s.Capacity) ∧
      (s.buckets_.flatten.map KeyValue.key).Nodup ∧
      s.Size = s.buckets_.flatten.length ∧
      (∀ n,
        (∀ i b kv, (s.Rehash hash n).buckets_[i]? = some b → kv ∈ b →
          i = hash kv.key % (s.Rehash hash n).Capacity) ∧
        ((s.Rehash hash n).buckets_.flatten.map KeyValue.key).Nodup ∧
        (s.Rehash hash n).Size = (s.Rehash hash n).buckets_.flatten.length ∧
        (s.Rehash hash n).Size = s.Size) ∧
      ∀ k, (s.Remove hash k).2 = s.Contains hash k ∧
        ((s.Remove hash k).2 = true →
          (s.Remove hash k).1.Size + 1 = s.Size ∧
          (s.Remove hash k).1.Contains hash k = false) ∧
        ((s.Remove hash k).2 = false → (s.Remove hash k).1.Size = s.Size) := by
  obtain ⟨s, e, hinv, -, -⟩ := run_spec hash ops (HashTable.new capacity lf)
    (fun _ => none) (inv_new hash capacity lf) (fun k => new_Get hash capacity lf k)
  obtain ⟨h1, h2, h3⟩ := inv_entries hash s hinv
  refine ⟨s, e, h1, h2, h3, ?_, ?_⟩
  · intro n
    obtain ⟨hinv', -, -, hc, -⟩ := Rehash_spec hash s hinv n
    obtain ⟨r1, r2, r3⟩ := inv_entries hash _ hinv'
    exact ⟨r1, r2, r3, hc⟩
  · intro k
    obtain ⟨-, -, hret, -, -, hcount⟩ := Remove_spec hash s hinv k
    refine ⟨hret, ?_, ?_⟩
    · intro ht
      rw [ht] at hcount
      refine ⟨by simpa [HashTable.Size] using hcount, ?_⟩
      have hg := Remove_Get hash s hinv k k
      simp only [HashTable.Contains]
      simp only [HashTable.Get, if_true] at hg
      rw [hg]
      rfl
    · intro hf
      rw [hf] at hcount
      simpa [HashTable.Size] using hcount

end HashTableEntriesTheory

section BTreeInvariantTheory

variable {K Ref : Type}

/-! ### The contract of `SplitChild` -/

theorem inorder_halves (leaf : Bool) (kl kr : List K) (mk : K) (vl vr : List (List Ref))
    (mv : List Ref) (cl cr : List (Node K Ref)) (hv : vl.length = kl.length)
    (hc : leaf = false → cl.length = kl.length + 1) :
    (Node.mk leaf (kl ++ mk :: kr) (vl ++ mv :: vr) (cl ++ cr)).inorder
      = (Node.mk leaf kl vl cl).inorder ++ (mk, mv) :: (Node.mk leaf kr vr cr).inorder := by
  cases leaf with
  | true =>
    simp only [inorder_leaf]
    rw [zip_append' kl _ vl _ hv]
    rfl
  | false =>
    simp only [inorder_inner]
    rw [zip_append' kl _ vl _ hv, List.map_append, List.zip_cons_cons,
      interleave_split _ _ _ _ _ (by simp [hc rfl, hv])]

/-- C34. Let `parent` be an internal node with one ref-list per key and one child more than
keys, and let its child `y` at index `i` be full (`2t-1` keys, one ref-list per key, and
`2t` children when it is internal, none when it is a leaf). Then `SplitChild(parent, i)`
returns; in the result the key `y.keys[t-1]` and its ref-list stand at position `i` of the
parent, the child `i` is `y` cut to its first `t-1` keys and ref-lists (and first `t`
children), the child `i+1` is a new node with the leaf flag of `y` and the last `t-1` keys
and ref-lists of `y` (and its last `t` children), everything else of the parent is moved
by one place or left, and the in-order sequence of the entries of the subtree of the
parent is the same as before. -/
theorem splitChild_contract (t : Nat) (ht : 1 ≤ t) (keys : List K)
    (values : List (List Ref)) (children : List (Node K Ref)) (i : Nat) (yleaf : Bool)
    (ykeys : List K) (yvalues : List (List Ref)) (ychildren : List (Node K Ref))
    (hpv : values.length = keys.length) (hpc : children.length = keys.length + 1)
    (hci : children[i]? = some (.mk yleaf ykeys yvalues ychildren))
    (hfull : ykeys.length = 2 * t - 1) (hyv : yvalues.length = ykeys.length)
    (hyc : if yleaf then ychildren = [] else ychildren.length = ykeys.length + 1) :
    ∃ mk mv, ykeys[t - 1]? = some mk ∧ yvalues[t - 1]? = some mv ∧
      SplitChild t (.mk false keys values children) i
        = some (.mk false (insertAt i mk keys) (insertAt i mv values)
            (insertAt (i + 1)
              (.mk yleaf (ykeys.drop t) (yvalues.drop t) (ychildren.drop t))
              (setAt i (.mk yleaf (ykeys.take (t - 1)) (yvalues.take (t - 1))
                (ychildren.take t)) children))) ∧
      (insertAt i mk keys)[i]? = some mk ∧ (insertAt i mv values)[i]? = some mv ∧
      (insertAt (i + 1)
          (.mk yleaf (ykeys.drop t) (yvalues.drop t) (ychildren.drop t))
          (setAt i (.mk yleaf (ykeys.take (t - 1)) (yvalues.take (t - 1))
            (ychildren.take t)) children))[i]?
        = some (.mk yleaf (ykeys.take (t - 1)) (yvalues.take (t - 1)) (ychildren.take t)) ∧
      (insertAt (i + 1)
          (.mk yleaf (ykeys.drop t) (yvalues.drop t) (ychildren.drop t))
          (setAt i (.mk yleaf (ykeys.take (t - 1)) (yvalues.take (t - 1))
            (ychildren.take t)) children))[i + 1]?
        = some (.mk yleaf (ykeys.drop t) (yvalues.drop t) (ychildren.drop t)) ∧
      (ykeys.take (t - 1)).length = t - 1 ∧ (ykeys.drop t).length = t - 1 ∧
      (yvalues.take (t - 1)).length = t - 1 ∧ (yvalues.drop t).length = t - 1 ∧
      (yleaf = false → (ychildren.take t).length = t ∧ (ychildren.drop t).length = t) ∧
      (Node.mk false (insertAt i mk keys) (insertAt i mv values)
          (insertAt (i + 1)
            (.mk yleaf (ykeys.drop t) (yvalues.drop t) (ychildren.drop t))
            (setAt i (.mk yleaf (ykeys.take (t - 1)) (yvalues.take (t - 1))
              (ychildren.take t)) children))).inorder
        = (Node.mk false keys values children).inorder := by
  have ht1 : t - 1 + 1 = t := by omega
  have hkm : t - 1 < ykeys.length := by omega
  have hvm : t - 1 < yvalues.length := by omega
  obtain ⟨ykl, mk, ykr, rfl, hykl⟩ := cut_at_lt ykeys (t - 1) hkm
  obtain ⟨yvl, mv, yvr, rfl, hyvl⟩ := cut_at_lt yvalues (t - 1) hvm
  have hykr : ykr.length = t - 1 := by
    simp only [List.length_append, List.length_cons] at hfull; omega
  have hyvr : yvr.length = t - 1 := by
    simp only [List.length_append, List.length_cons] at hyv; omega
  obtain ⟨cl, cr, rfl, hcl⟩ := cut_at_elem children i _ hci
  have hik : i ≤ keys.length := by
    simp only [List.length_append, List.length_cons] at hpc; omega
  obtain ⟨kl, kr, rfl, hkl⟩ := cut_at keys i hik
  obtain ⟨vl, vr, rfl, hvl⟩ := cut_at values i (by omega)
  have hvr : vr.length = kr.length := by
    simp only [List.length_append] at hpv; omega
  have hcr : cr.length = kr.length := by
    simp only [List.length_append, List.length_cons] at hpc; omega
  -- the two halves of `y`
  have hdk : (ykl ++ mk :: ykr).drop t = ykr := by
    rw [← ht1]; exact drop_cut_succ ykl ykr mk hykl
  have hdv : (yvl ++ mv :: yvr).drop t = yvr := by
    rw [← ht1]; exact drop_cut_succ yvl yvr mv hyvl
  have htk : (ykl ++ mk :: ykr).take (t - 1) = ykl := take_cut ykl _ hykl
  have htv : (yvl ++ mv :: yvr).take (t - 1) = yvl := take_cut yvl _ hyvl
  have hyc' : yleaf = false → (ychildren.take t).length = t ∧ (ychildren.drop t).length = t := by
    intro hl
    rw [hl] at hyc
    simp only [Bool.false_eq_true, if_false] at hyc
    simp only [List.length_take, List.length_drop]
    omega
  rw [hdk, hdv, htk, htv]
  refine ⟨mk, mv, getElem?_cut ykl ykr mk hykl, getElem?_cut yvl yvr mv hyvl, ?_⟩
  rw [insertAt_append mk kl kr hkl, insertAt_append mv vl vr hvl,
    setAt_append _ _ cl cr hcl, insertAt_append_succ _ _ cl cr hcl]
  refine ⟨?_,
    getElem?_cut kl kr mk hkl, getElem?_cut vl vr mv hvl, getElem?_cut cl _ _ hcl, ?_,
    hykl, hykr, hyvl, hyvr, hyc', ?_⟩
  · have e1 : (yvl ++ mv :: yvr).take (ykl ++ mk :: ykr).length = yvl ++ mv :: yvr := by
      rw [← hyv]; exact List.take_length _
    have hle : i ≤ (kl ++ kr).length ∧ i ≤ (vl ++ vr).length := by
      simp only [List.length_append]; omega
    cases yleaf with
    | true =>
      simp only [if_true] at hyc
      subst hyc
      simp only [SplitChild, Node.children, Node.keys, Node.values, Node.leaf,
        getElem?_cut cl cr _ hcl, getElem?_cut ykl ykr mk hykl,
        getElem?_cut yvl yvr mv hyvl, hyv, lt_irrefl, if_false, Bool.not_true,
        Bool.false_and, e1, ht1, hdk, hdv, htk, htv, if_true,
        insertAt_append mk kl kr hkl, insertAt_append mv vl vr hvl,
        setAt_append _ _ cl cr hcl, hle, and_self, Bool.false_eq_true,
        insertAt_append_succ _ _ cl cr hcl, List.take_nil, List.drop_nil]
    | false =>
      simp only [Bool.false_eq_true, if_false] at hyc
      have e2 : ¬ (ychildren.length < t) := by omega
      simp only [SplitChild, Node.children, Node.keys, Node.values, Node.leaf,
        getElem?_cut cl cr _ hcl, getElem?_cut ykl ykr mk hykl,
        getElem?_cut yvl yvr mv hyvl, hyv, lt_irrefl, if_false, Bool.not_false,
        Bool.true_and, e1, e2, ht1, decide_False, hdk, hdv, htk, htv,
        insertAt_append mk kl kr hkl, insertAt_append mv vl vr hvl,
        setAt_append _ _ cl cr hcl, hle, and_self, if_true, Bool.false_eq_true,
        insertAt_append_succ _ _ cl cr hcl]
  · have e : cl ++ Node.mk yleaf ykl yvl (ychildren.take t)
          :: Node.mk yleaf ykr yvr (ychildren.drop t) :: cr
        = (cl ++ [Node.mk yleaf ykl yvl (ychildren.take t)])
          ++ Node.mk yleaf ykr yvr (ychildren.drop t) :: cr := by simp
    rw [e]
    exact getElem?_cut _ _ _ (by simp [hcl])
  · have hsplit : (Node.mk yleaf (ykl ++ mk :: ykr) (yvl ++ mv :: yvr) ychildren).inorder
        = (Node.mk yleaf ykl yvl (ychildren.take t)).inorder
          ++ (mk, mv) :: (Node.mk yleaf ykr yvr (ychildren.drop t)).inorder := by
      have := inorder_halves yleaf ykl ykr mk yvl yvr mv (ychildren.take t)
        (ychildren.drop t) (by omega) (fun hl => by rw [(hyc' hl).1]; omega)
      rw [List.take_append_drop] at this
      exact this
    rw [inorder_inner_append kl (mk :: kr) vl (mv :: vr) cl
        (Node.mk yleaf ykr yvr (ychildren.drop t) :: cr) _ (by omega) (by omega)
        (by simp [hvr]) (by simp [hcr]),
      inorder_inner_append kl kr vl vr cl cr _ (by omega) (by omega) hvr hcr, hsplit]
    simp [tailI, List.zip]

/-- C34, instance: the full leaf `[1, 2, 3]` under an empty root, for `t = 2`. -/
theorem splitChild_contract_witness :
    SplitChild 2 (Node.mk false [] [] [Node.mk true [1, 2, 3] [[10], [20], [30]] []] :
        Node Nat Nat) 0
      = some (.mk false [2] [[20]] [.mk true [1] [[10]] [], .mk true [3] [[30]] []]) := by
  obtain ⟨mk, mv, h1, h2, h3, -⟩ := splitChild_contract 2 (by decide) ([] : List Nat)
    ([] : List (List Nat)) [Node.mk true [1, 2, 3] [[10], [20], [30]] []] 0 true [1, 2, 3]
    [[10], [20], [30]] [] rfl rfl rfl rfl rfl rfl
  have e1 : mk = 2 := by simpa using h1.symm
  have e2 : mv = [20] := by simpa using h2.symm
  subst e1 e2
  exact h3

/-! ### The nodes of a well-shaped tree -/

theorem nodesOf_eq (cs : List (Node K Ref)) : nodesOf cs = cs.flatMap Node.nodes := by
  induction cs with
  | nil => rfl
  | cons c cs ih => simp only [nodesOf, List.flatMap_cons, ih]

theorem leafDepthsOf_eq (cs : List (Node K Ref)) :
    leafDepthsOf cs = cs.flatMap Node.leafDepths := by
  induction cs with
  | nil => rfl
  | cons c cs ih => simp only [leafDepthsOf, List.flatMap_cons, ih]

theorem nodes_mk (leaf : Bool) (keys : List K) (values : List (List Ref))
    (children : List (Node K Ref)) :
    (Node.mk leaf keys values children).nodes
      = .mk leaf keys values children :: children.flatMap Node.nodes := by
  rw [Node.nodes, nodesOf_eq]

theorem mem_nodes_self (x : Node K Ref) : x ∈ x.nodes := by
  obtain ⟨leaf, keys, values, children⟩ := x
  rw [nodes_mk]
  exact List.mem_cons_self _ _

/-- Every node of a well-shaped subtree is the top node or a well-shaped node with at least
`t-1` keys. -/
theorem inv_nodes {t m h : Nat} {x : Node K Ref} (hinv : Node.Inv t m h x) :
    ∀ y ∈ x.nodes, (y = x ∧ Node.Inv t m h y) ∨ ∃ h', Node.Inv t (t - 1) h' y := by
  induction hinv with
  | leaf m keys values hvl hne hm hmx =>
    intro y hy
    rw [nodes_mk] at hy
    simp only [List.flatMap_nil, List.mem_singleton] at hy
    subst hy
    exact Or.inl ⟨rfl, .leaf m keys values hvl hne hm hmx⟩
  | inner m h keys values children hvl hne hm hmx hcl hch ih =>
    intro y hy
    rw [nodes_mk] at hy
    rcases List.mem_cons.mp hy with rfl | hy
    · exact Or.inl ⟨rfl, .inner m h keys values children hvl hne hm hmx hcl hch⟩
    · obtain ⟨c, hc, hyc⟩ := List.mem_flatMap.mp hy
      rcases ih c hc y hyc with ⟨rfl, hi⟩ | hr
      · exact Or.inr ⟨h, hi⟩
      · exact Or.inr hr

theorem inv_nodes_children {t m h : Nat} {x : Node K Ref} (hinv : Node.Inv t m h x) :
    ∀ y ∈ nodesOf x.children, ∃ h', Node.Inv t (t - 1) h' y := by
  intro y hy
  rw [nodesOf_eq] at hy
  obtain ⟨c, hc, hyc⟩ := List.mem_flatMap.mp hy
  cases hinv with
  | leaf m keys values hvl hne hm hmx => simp [Node.children] at hc
  | inner m h keys values children hvl hne hm hmx hcl hch =>
    simp only [Node.children] at hc
    rcases inv_nodes (hch c hc) y hyc with ⟨rfl, hi⟩ | hr
    · exact ⟨h, hi⟩
    · exact hr

/-- The shape of one node of a well-shaped tree. -/
theorem inv_local {t m h : Nat} {x : Node K Ref} (hinv : Node.Inv t m h x) :
    m ≤ x.keys.length ∧ x.keys.length ≤ MaxKeys t ∧ x.values.length = x.keys.length ∧
    (∀ v ∈ x.values, v ≠ []) ∧
    (x.leaf = false → x.children.length = x.keys.length + 1) ∧
    (x.leaf = true → x.children = []) := by
  cases hinv with
  | leaf m keys values hvl hne hm hmx =>
    exact ⟨hm, hmx, hvl, hne, fun c => by simp [Node.leaf] at c, fun _ => rfl⟩
  | inner m h keys values children hvl hne hm hmx hcl hch =>
    exact ⟨hm, hmx, hvl, hne, fun _ => hcl, fun c => by simp [Node.leaf] at c⟩

theorem inv_leafDepths {t m h : Nat} {x : Node K Ref} (hinv : Node.Inv t m h x) :
    ∀ d ∈ x.leafDepths, d + 1 = h := by
  induction hinv with
  | leaf m keys values hvl hne hm hmx =>
    intro d hd
    simp only [Node.leafDepths, if_true, List.mem_singleton] at hd
    omega
  | inner m h keys values children hvl hne hm hmx hcl hch ih =>
    intro d hd
    simp only [Node.leafDepths, Bool.false_eq_true, if_false, leafDepthsOf_eq,
      List.mem_map, List.mem_flatMap] at hd
    obtain ⟨d', ⟨c, hc, hd'⟩, rfl⟩ := hd
    have := ih c hc d' hd'
    omega

theorem inv_nodes_sorted [LinearOrder K] {t m h : Nat} {x : Node K Ref}
    (hinv : Node.Inv t m h x) (hs : KeysSorted x.inorder) :
    ∀ y ∈ x.nodes, KeysSorted y.inorder := by
  induction hinv with
  | leaf m keys values hvl hne hm hmx =>
    intro y hy
    rw [nodes_mk] at hy
    simp only [List.flatMap_nil, List.mem_singleton] at hy
    subst hy
    exact hs
  | inner m h keys values children hvl hne hm hmx hcl hch ih =>
    intro y hy
    rw [nodes_mk] at hy
    rcases List.mem_cons.mp hy with rfl | hy
    · exact hs
    · obtain ⟨c, hc, hyc⟩ := List.mem_flatMap.mp hy
      rw [inorder_inner] at hs
      exact ih c hc (keysSorted_child (keys.zip values) children c
        (by simp [hcl, hvl]) hc hs) y hyc

/-! ### Stored keys and in-order keys -/

theorem interleave_perm {α : Type} (es : List α) (cs : List (List α))
    (h : cs.length = es.length + 1) : (interleave es cs).Perm (es ++ cs.flatten) := by
  induction es generalizing cs with
  | nil =>
    match cs, h with
    | [c], _ => simp [interleave]
  | cons e es ih =>
    match cs, h with
    | c :: cs, h =>
      simp only [List.length_cons, Nat.add_right_cancel_iff] at h
      simp only [interleave, List.flatten_cons, List.cons_append]
      have h1 := ih cs h
      exact (List.perm_middle.trans (List.Perm.cons e
        ((List.Perm.append_left c h1).trans (by
          rw [← List.append_assoc, ← List.append_assoc]
          exact List.Perm.append_right _ List.perm_append_comm))))

theorem storedKeys_perm {t m h : Nat} {x : Node K Ref} (hinv : Node.Inv t m h x) :
    (x.nodes.flatMap Node.keys).Perm (x.inorder.map Prod.fst) := by
  induction hinv with
  | leaf m keys values hvl hne hm hmx =>
    rw [nodes_mk, inorder_leaf, map_fst_zip' keys values hvl]
    simp [Node.keys]
  | inner m h keys values children hvl hne hm hmx hcl hch ih =>
    rw [nodes_mk, inorder_inner, List.flatMap_cons, List.flatMap_assoc]
    have h1 : ((interleave (keys.zip values) (children.map Node.inorder)).map Prod.fst).Perm
        (((keys.zip values) ++ (children.map Node.inorder).flatten).map Prod.fst) :=
      (interleave_perm _ _ (by simp [hcl, hvl])).map _
    refine List.Perm.trans ?_ h1.symm
    rw [List.map_append, map_fst_zip' keys values hvl, List.map_flatten, List.map_map]
    refine List.Perm.append_left _ ?_
    rw [← List.flatMap_def]
    exact List.Perm.flatMap_left _ (fun c hc => ih c hc)

theorem mem_storedKeys_iff {t m h : Nat} {x : Node K Ref} (hinv : Node.Inv t m h x)
    (k : K) : (∃ y ∈ x.nodes, k ∈ y.keys) ↔ k ∈ x.inorder.map Prod.fst := by
  rw [← (storedKeys_perm hinv).mem_iff, List.mem_flatMap]

/-! ### Keys of a node and of the subtrees around it -/

theorem mem_headI {α : Type} (es : List α) (cs : List (List α)) (e : α)
    (h : cs.length = es.length) (he : e ∈ es) : e ∈ headI es cs := by
  induction es generalizing cs with
  | nil => cases he
  | cons e0 es ih =>
    match cs, h with
    | c :: cs, h =>
      simp only [List.length_cons, Nat.add_right_cancel_iff] at h
      simp only [headI, List.mem_append, List.mem_cons]
      rcases List.mem_cons.mp he with rfl | he
      · exact Or.inr (Or.inl rfl)
      · exact Or.inr (Or.inr (ih cs h he))

theorem mem_tailI_head {α : Type} (e : α) (es : List α) (cs : List (List α))
    (h : cs.length = (e :: es).length) : e ∈ tailI (e :: es) cs := by
  match cs, h with
  | c :: cs, _ => simp [tailI]

theorem keys_around_children [LinearOrder K] {t m h : Nat} (keys : List K)
    (values : List (List Ref)) (children : List (Node K Ref))
    (hinv : Node.Inv t m h (.mk false keys values children))
    (hs : KeysSorted (Node.mk false keys values children).inorder) (i : Nat) (k : K)
    (hk : keys[i]? = some k) :
    (∀ c, children[i]? = some c → ∀ e ∈ c.inorder, e.1 < k) ∧
    (∀ c, children[i + 1]? = some c → ∀ e ∈ c.inorder, k < e.1) := by
  cases hinv with
  | inner m h keys values children hvl hne hm hmx hcl hch =>
    have hi : i < keys.length := (List.getElem?_eq_some.mp hk).1
    constructor
    · intro c hc e he
      obtain ⟨cl, cr, rfl, hcl'⟩ := cut_at_elem children i c hc
      obtain ⟨kl, kr, rfl, hkl⟩ := cut_at keys i (by omega)
      obtain ⟨vl, vr, rfl, hvl'⟩ := cut_at values i (by omega)
      have hvr : vr.length = kr.length := by
        simp only [List.length_append] at hvl; omega
      have hcr : cr.length = kr.length := by
        simp only [List.length_append, List.length_cons] at hcl; omega
      rw [inorder_inner_append kl kr vl vr cl cr c (by omega) (by omega) hvr hcr] at hs
      rw [getElem?_append_at kl kr hkl] at hk
      cases kr with
      | nil => simp at hk
      | cons k0 kr =>
        simp only [List.head?_cons, Option.some.injEq] at hk
        subst hk
        cases vr with
        | nil => simp at hvr
        | cons v vr =>
          have hmem : (k0, v) ∈ tailI ((k0 :: kr).zip (v :: vr)) (cr.map Node.inorder) := by
            rw [List.zip_cons_cons]
            exact mem_tailI_head _ _ _ (by
              simp only [List.length_map, List.length_cons, List.length_zip] at hcr hvr ⊢
              omega)
          exact (keysSorted_append.mp hs).2.2 e (List.mem_append_right _ he) _ hmem
    · intro c hc e he
      obtain ⟨cl, cr, rfl, hcl'⟩ := cut_at_elem children (i + 1) c hc
      obtain ⟨kl, kr, rfl, hkl⟩ := cut_at keys (i + 1) (by omega)
      obtain ⟨vl, vr, rfl, hvl'⟩ := cut_at values (i + 1) (by omega)
      have hvr : vr.length = kr.length := by
        simp only [List.length_append] at hvl; omega
      have hcr : cr.length = kr.length := by
        simp only [List.length_append, List.length_cons] at hcl; omega
      rw [inorder_inner_append kl kr vl vr cl cr c (by omega) (by omega) hvr hcr] at hs
      have hkm : k ∈ kl := by
        rw [List.getElem?_append_left (by omega)] at hk
        exact List.mem_iff_getElem?.mpr ⟨i, hk⟩
      have hkv : ∃ v, (k, v) ∈ kl.zip vl := by
        have : k ∈ (kl.zip vl).map Prod.fst := by
          rw [map_fst_zip' kl vl (by omega)]; exact hkm
        obtain ⟨e', he', rfl⟩ := List.mem_map.mp this
        exact ⟨e'.2, he'⟩
      obtain ⟨v, hv⟩ := hkv
      have hmem : (k, v) ∈ headI (kl.zip vl) (cl.map Node.inorder) :=
        mem_headI _ _ _ (by simp [hcl', hkl, hvl']) hv
      exact (keysSorted_append.mp (keysSorted_append.mp hs).1).2.2 _ hmem e he

/-! ### Invariants of the trees built by `Insert` -/

theorem reachable_valid [LinearOrder K] (minDegree : Int) (ops : List (K × Ref)) :
    ∃ b, (BTree.new minDegree : BTree K Ref).insertAll ops = some b ∧ b.Valid ∧
      b.t_ = (if minDegree < 2 then 2 else minDegree.toNat) ∧
      b.root_.inorder = upsertAll [] ops := by
  obtain ⟨b, e1, hv, ht, hio⟩ := insertAll_spec ops (BTree.new minDegree) (valid_new minDegree)
  refine ⟨b, e1, hv, ht, ?_⟩
  rw [hio]; simp [BTree.new, inorder_leaf]

/-- C31. In every tree built from `BTree(minDegree)` by `Insert` calls (they all return),
with `t` the degree clamped to at least 2: every node holds at most `2t-1` keys and exactly
one ref-list per key, no ref-list is empty, every internal node has one child more than
keys and every leaf has no child. -/
theorem btree_node_shape [LinearOrder K] (minDegree : Int) (ops : List (K × Ref)) :
    ∃ b, (BTree.new minDegree : BTree K Ref).insertAll ops = some b ∧
      b.t_ = (if minDegree < 2 then 2 else minDegree.toNat) ∧
      ∀ x ∈ b.root_.nodes,
        x.keys.length ≤ 2 * b.t_ - 1 ∧ x.values.length = x.keys.length ∧
        (∀ v ∈ x.values, v ≠ []) ∧
        (x.leaf = false → x.children.length = x.keys.length + 1) ∧
        (x.leaf = true → x.children = []) := by
  obtain ⟨b, e1, ⟨-, ⟨h, hinv⟩, -⟩, ht, -⟩ := reachable_valid minDegree ops
  refine ⟨b, e1, ht, ?_⟩
  intro x hx
  rcases inv_nodes hinv x hx with ⟨-, hi⟩ | ⟨h', hi⟩
  · obtain ⟨-, h2, h3, h4, h5, h6⟩ := inv_local hi
    exact ⟨h2, h3, h4, h5, h6⟩
  · obtain ⟨-, h2, h3, h4, h5, h6⟩ := inv_local hi
    exact ⟨h2, h3, h4, h5, h6⟩

/-- C32. In every tree built from an empty tree by `Insert` calls: the keys of every node
are strictly ascending, and for every internal node and every index `i` of a key, every
key stored in the subtree of `children[i]` is `≤ keys[i]` and `keys[i]` is `≤` every key
stored in the subtree of `children[i+1]` (and none of them equals `keys[i]`). -/
theorem btree_key_order [LinearOrder K] (minDegree : Int) (ops : List (K × Ref)) :
    ∃ b, (BTree.new minDegree : BTree K Ref).insertAll ops = some b ∧
      ∀ x ∈ b.root_.nodes,
        x.keys.Pairwise (fun a b => a < b) ∧
        (x.leaf = false → ∀ i k, x.keys[i]? = some k →
          (∀ c, x.children[i]? = some c →
            ∀ y ∈ c.nodes, ∀ k' ∈ y.keys, k' ≤ k ∧ k' ≠ k) ∧
          (∀ c, x.children[i + 1]? = some c →
            ∀ y ∈ c.nodes, ∀ k' ∈ y.keys, k ≤ k' ∧ k ≠ k')) := by
  obtain ⟨b, e1, ⟨-, ⟨h, hinv⟩, hs⟩, -, -⟩ := reachable_valid minDegree ops
  refine ⟨b, e1, ?_⟩
  intro x hx
  have hsx := inv_nodes_sorted hinv hs x hx
  have hix : ∃ m' h', Node.Inv b.t_ m' h' x := by
    rcases inv_nodes hinv x hx with ⟨-, hi⟩ | ⟨h', hi⟩
    · exact ⟨_, _, hi⟩
    · exact ⟨_, _, hi⟩
  obtain ⟨m', h', hi⟩ := hix
  refine ⟨keys_sorted_of_inv hi hsx, ?_⟩
  intro hleaf i k hk
  obtain ⟨leaf, keys, values, children⟩ := x
  simp only [Node.leaf] at hleaf
  subst hleaf
  simp only [Node.keys] at hk
  obtain ⟨hl, hr⟩ := keys_around_children keys values children hi hsx i k hk
  have hch : ∀ c ∈ children, ∃ hc, Node.Inv b.t_ (b.t_ - 1) hc c := by
    cases hi with
    | inner m h keys values children hvl hne hm hmx hcl hch => exact fun c hc => ⟨_, hch c hc⟩
  constructor
  · intro c hc y hy k' hk'
    obtain ⟨_, hci⟩ := hch c (List.mem_iff_getElem?.mpr ⟨i, hc⟩)
    obtain ⟨e, he, rfl⟩ := List.mem_map.mp ((mem_storedKeys_iff hci k').mp ⟨y, hy, hk'⟩)
    have := hl c hc e he
    exact ⟨le_of_lt this, ne_of_lt this⟩
  · intro c hc y hy k' hk'
    obtain ⟨_, hci⟩ := hch c (List.mem_iff_getElem?.mpr ⟨i + 1, hc⟩)
    obtain ⟨e, he, rfl⟩ := List.mem_map.mp ((mem_storedKeys_iff hci k').mp ⟨y, hy, hk'⟩)
    have := hr c hc e he
    exact ⟨le_of_lt this, ne_of_lt this⟩

theorem Insert_height [LinearOrder K] (b : BTree K Ref) (key : K) (ref : Ref)
    (hb : b.Valid) :
    ∃ b', b.Insert key ref = some b' ∧
      b'.root_.height = (if b.root_.keys.length = MaxKeys b.t_ then b.root_.height + 1
        else b.root_.height) := by
  obtain ⟨t, root⟩ := b
  obtain ⟨ht, ⟨h, hinv⟩, hs⟩ := hb
  simp only at ht hinv hs
  have hmax3 : 1 < MaxKeys t := by unfold MaxKeys; omega
  have hh : root.height = h := height_of_inv hinv
  simp only [BTree.Insert]
  by_cases hfull : root.keys.length = MaxKeys t
  · rw [if_pos hfull, if_pos hfull]
    have hinv' : Node.Inv t (t - 1) h root :=
      inv_mono hinv (by rw [hfull]; unfold MaxKeys; omega)
    obtain ⟨y', z, mk, mv, hsplit, hy', hz, hyio, hy'len, hzlen, hmv⟩ :=
      SplitChild_spec t ht false [] [] [] [] [] [] root 0 h rfl rfl rfl hinv' hfull
    simp only [List.nil_append] at hsplit
    rw [hsplit]
    simp only
    have hrinv : Node.Inv t (min 1 (h + 1 - 1)) (h + 1) (.mk false [mk] [mv] [y', z]) := by
      refine .inner _ h _ _ _ rfl ?_ ?_ ?_ rfl ?_
      · intro w hw
        simp only [List.mem_singleton] at hw
        subst hw; exact hmv
      · simp only [List.length_singleton]; omega
      · simp only [List.length_singleton]; omega
      · intro d hd
        simp only [List.mem_cons, List.mem_singleton, List.not_mem_nil, or_false] at hd
        rcases hd with rfl | rfl
        · exact hy'
        · exact hz
    have hrio : (Node.mk false [mk] [mv] [y', z]).inorder = root.inorder := by
      rw [hyio, inorder_inner]
      simp [interleave]
    obtain ⟨x', e1, e2, -⟩ := InsertNonFull_spec t ht key ref
      (Node.mk false [mk] [mv] [y', z]).height _ _ _ hrinv
      (by simpa [Node.keys] using hmax3) (by rw [hrio]; exact hs)
      (by rw [height_of_inv hrinv])
    rw [e1]
    exact ⟨_, rfl, by rw [height_of_inv e2, hh]⟩
  · rw [if_neg hfull, if_neg hfull]
    simp only
    have hle : root.keys.length ≤ MaxKeys t := by
      cases hinv <;> simpa [Node.keys]
    obtain ⟨x', e1, e2, -⟩ := InsertNonFull_spec t ht key ref root.height _ _ _ hinv
      (lt_of_le_of_ne hle hfull) hs (by rw [height_of_inv hinv])
    rw [e1]
    exact ⟨_, rfl, by rw [height_of_inv e2, hh]⟩

/-- C33. In every tree built from `BTree(minDegree)` by `Insert` calls, with `t` the degree
clamped to at least 2: every node below the root holds at least `t-1` keys, every leaf is
`height - 1` edges below the root (all leaves are at the same depth), and a further
`Insert` returns a tree whose height is one more when the root was full (the root is split
under a new root) and the same otherwise. -/
theorem btree_balance [LinearOrder K] (minDegree : Int) (ops : List (K × Ref)) :
    ∃ b, (BTree.new minDegree : BTree K Ref).insertAll ops = some b ∧
      b.t_ = (if minDegree < 2 then 2 else minDegree.toNat) ∧
      (∀ y ∈ nodesOf b.root_.children, b.t_ - 1 ≤ y.keys.length) ∧
      (∀ d ∈ b.root_.leafDepths, d + 1 = b.root_.height) ∧
      ∀ key ref, ∃ b', b.Insert key ref = some b' ∧
        b'.root_.height = (if b.root_.keys.length = MaxKeys b.t_ then b.root_.height + 1
          else b.root_.height) := by
  obtain ⟨b, e1, hv, ht, -⟩ := reachable_valid minDegree ops
  have hv0 := hv
  obtain ⟨-, ⟨h, hinv⟩, -⟩ := hv
  refine ⟨b, e1, ht, ?_, ?_, fun key ref => Insert_height b key ref hv0⟩
  · intro y hy
    obtain ⟨h', hi⟩ := inv_nodes_children hinv y hy
    exact (inv_local hi).1
  · intro d hd
    rw [height_of_inv hinv]
    exact inv_leafDepths hinv d hd

theorem keys_upsertAll_perm [LinearOrder K] (ops : List (K × Ref)) :
    ((upsertAll ([] : List (K × List Ref)) ops).map Prod.fst).Perm
      (ops.map Prod.fst).dedup := by
  have hs : KeysSorted (upsertAll ([] : List (K × List Ref)) ops) :=
    upsertAll_sorted ops [] keysSorted_nil
  rw [List.perm_ext_iff_of_nodup (hs.imp (fun h => ne_of_lt h)) (List.nodup_dedup _)]
  intro k
  rw [mem_keys_upsertAll, List.mem_dedup]
  simp

/-- C35. In every tree built from an empty tree by `Insert` calls: the list of all stored
keys, one element for every (node, position) of the tree, has no repetition and holds
exactly the inserted keys, so its length is the number of distinct inserted keys; it is a
rearrangement of the in-order key sequence, which is strictly ascending. -/
theorem btree_keys_unique [LinearOrder K] (minDegree : Int) (ops : List (K × Ref)) :
    ∃ b, (BTree.new minDegree : BTree K Ref).insertAll ops = some b ∧
      b.storedKeys.Nodup ∧
      (∀ k, k ∈ b.storedKeys ↔ k ∈ ops.map Prod.fst) ∧
      b.storedKeys.length = (ops.map Prod.fst).dedup.length ∧
      b.storedKeys.Perm (b.root_.inorder.map Prod.fst) ∧
      (b.root_.inorder.map Prod.fst).Pairwise (fun a b => a < b) := by
  obtain ⟨b, e1, ⟨-, ⟨h, hinv⟩, hs⟩, -, hio⟩ := reachable_valid minDegree ops
  have hp : b.storedKeys.Perm (b.root_.inorder.map Prod.fst) := storedKeys_perm hinv
  have hp2 : b.storedKeys.Perm (ops.map Prod.fst).dedup := by
    refine hp.trans ?_
    rw [hio]
    exact keys_upsertAll_perm ops
  refine ⟨b, e1, hp2.nodup_iff.mpr (List.nodup_dedup _), ?_, hp2.length_eq, hp, hs⟩
  intro k
  rw [hp2.mem_iff, List.mem_dedup]

/-! ### Every access of the tree operations is in bounds -/

theorem descendInto_congr (rec1 rec2 : Node K Ref → Option (Node K Ref)) (x : Node K Ref)
    (i : Nat) (c : Node K Ref) (hc : x.children[i]? = some c) (h : rec1 c = rec2 c) :
    descendInto rec1 x i = descendInto rec2 x i := by
  simp only [descendInto, hc, h]

theorem InsertNonFullGuarded_eq [LinearOrder K] (t : Nat) (ht : 2 ≤ t) (key : K) (ref : Ref)
    (fuel : Nat) (x : Node K Ref) (m h : Nat) (hinv : Node.Inv t m h x)
    (hnf : x.keys.length < MaxKeys t) (hs : KeysSorted x.inorder) :
    InsertNonFullGuarded t fuel x key ref = InsertNonFull t fuel x key ref := by
  induction fuel generalizing x m h with
  | zero => simp only [InsertNonFullGuarded, InsertNonFull]
  | succ fuel ih =>
    have hks := keys_sorted_of_inv hinv hs
    have hple := lbIndex_le x.keys key hks
    have hplt := lbIndex_lt x.keys key hks
    rw [InsertNonFullGuarded, InsertNonFull, if_pos hnf]
    generalize lbIndex x.keys key = pos at *
    by_cases hfound : pos < x.keys.length ∧ x.keys[pos]? = some key
    · simp only [if_pos hfound]
    · simp only [if_neg hfound]
      obtain ⟨kl, kr, hkeys, hkl⟩ := cut_at x.keys pos hple
      cases hinv with
      | leaf m keys values hvl hne hm hmx =>
        simp only [Node.leaf, if_true]
      | inner m h keys values children hvl hne hm hmx hcl hch =>
        simp only [Node.keys] at hkeys hnf hple
        subst hkeys
        obtain ⟨vl, vr, rfl, hvl'⟩ := cut_at values pos (by omega)
        have hvr : vr.length = kr.length := by
          simp only [List.length_append] at hvl; omega
        obtain ⟨cl, c, cr, rfl, hcl'⟩ := cut_at_lt children pos (by
          simp only [List.length_append] at hcl ⊢; omega)
        have hcr : cr.length = kr.length := by
          simp only [List.length_append, List.length_cons] at hcl; omega
        have hsx := hs
        rw [inorder_inner_append kl kr vl vr cl cr c (by omega) (by omega) hvr hcr] at hs
        have hsc : KeysSorted c.inorder :=
          (keysSorted_append.mp (keysSorted_append.mp hs).1).2.1
        have hcinv : Node.Inv t (t - 1) h c := hch c (by simp)
        have hcmax : c.keys.length ≤ MaxKeys t := by
          cases hcinv <;> simpa [Node.keys]
        simp only [Node.leaf, Bool.false_eq_true, if_false, Node.children,
          getElem?_cut cl cr c hcl']
        by_cases hfull : c.keys.length = MaxKeys t
        · simp only [if_pos hfull]
          obtain ⟨y', z, mk, mv, hsplit, hy', hz, hyio, hy'len, hzlen, hmv⟩ :=
            SplitChild_spec t ht false kl kr vl vr cl cr c pos h hkl hvl' hcl' hcinv hfull
          rw [hsplit]
          simp only [Node.keys, getElem?_cut kl kr mk hkl]
          have hio : (Node.mk false (kl ++ mk :: kr) (vl ++ mv :: vr)
              (cl ++ y' :: z :: cr)).inorder
              = (Node.mk false (kl ++ kr) (vl ++ vr) (cl ++ c :: cr)).inorder := by
            rw [inorder_inner_append kl (mk :: kr) vl (mv :: vr) cl (z :: cr) y' (by omega)
              (by omega) (by simp [hvr]) (by simp [hcr]),
              inorder_inner_append kl kr vl vr cl cr c (by omega) (by omega) hvr hcr, hyio]
            simp [tailI, List.zip]
          have hsplitS : KeysSorted (Node.mk false (kl ++ mk :: kr) (vl ++ mv :: vr)
              (cl ++ y' :: z :: cr)).inorder := by rw [hio]; exact hsx
          rw [inorder_inner_append kl (mk :: kr) vl (mv :: vr) cl (z :: cr) y' (by omega)
              (by omega) (by simp [hvr]) (by simp [hcr])] at hsplitS
          have hnf' : t - 1 < MaxKeys t := by unfold MaxKeys; omega
          have hsz : KeysSorted z.inorder := by
            have h5 := (keysSorted_append.mp hsplitS).2.1
            simp only [List.zip_cons_cons, List.map_cons, tailI] at h5
            exact (keysSorted_append.mp (keysSorted_cons.mp h5).2).1
          have hsy : KeysSorted y'.inorder :=
            (keysSorted_append.mp (keysSorted_append.mp hsplitS).1).2.1
          have hcz : (Node.mk false (kl ++ mk :: kr) (vl ++ mv :: vr)
              (cl ++ y' :: z :: cr)).children[pos + 1]? = some z := by
            simp only [Node.children]
            rw [show cl ++ y' :: z :: cr = (cl ++ [y']) ++ z :: cr by simp]
            exact getElem?_cut _ _ _ (by simp [hcl'])
          have hcy : (Node.mk false (kl ++ mk :: kr) (vl ++ mv :: vr)
              (cl ++ y' :: z :: cr)).children[pos]? = some y' := by
            simp only [Node.children]
            exact getElem?_cut _ _ _ hcl'
          by_cases hgt : mk < key
          · simp only [gt_iff_lt, if_pos hgt]
            exact descendInto_congr _ _ _ _ z hcz
              (ih z (t - 1) h hz (by omega) hsz)
          · simp only [gt_iff_lt, if_neg hgt]
            by_cases heq : key = mk
            · simp only [if_pos heq]
            · simp only [if_neg heq]
              exact descendInto_congr _ _ _ _ y' hcy
                (ih y' (t - 1) h hy' (by omega) hsy)
        · simp only [if_neg hfull]
          exact descendInto_congr _ _ _ _ c
            (by simp only [Node.children]; exact getElem?_cut cl cr c hcl')
            (ih c (t - 1) h hcinv (lt_of_le_of_ne hcmax hfull) hsc)

theorem InsertGuarded_eq [LinearOrder K] (b : BTree K Ref) (key : K) (ref : Ref)
    (hb : b.Valid) : b.InsertGuarded key ref = b.Insert key ref := by
  obtain ⟨t, root⟩ := b
  obtain ⟨ht, ⟨h, hinv⟩, hs⟩ := hb
  simp only at ht hinv hs
  have hmax3 : 1 < MaxKeys t := by unfold MaxKeys; omega
  simp only [BTree.InsertGuarded, BTree.Insert]
  by_cases hfull : root.keys.length = MaxKeys t
  · rw [if_pos hfull]
    have hinv' : Node.Inv t (t - 1) h root :=
      inv_mono hinv (by rw [hfull]; unfold MaxKeys; omega)
    obtain ⟨y', z, mk, mv, hsplit, hy', hz, hyio, hy'len, hzlen, hmv⟩ :=
      SplitChild_spec t ht false [] [] [] [] [] [] root 0 h rfl rfl rfl hinv' hfull
    simp only [List.nil_append] at hsplit
    rw [hsplit]
    simp only
    have hrinv : Node.Inv t (min 1 (h + 1 - 1)) (h + 1) (.mk false [mk] [mv] [y', z]) := by
      refine .inner _ h _ _ _ rfl ?_ ?_ ?_ rfl ?_
      · intro w hw
        simp only [List.mem_singleton] at hw
        subst hw; exact hmv
      · simp only [List.length_singleton]; omega
      · simp only [List.length_singleton]; omega
      · intro d hd
        simp only [List.mem_cons, List.mem_singleton, List.not_mem_nil, or_false] at hd
        rcases hd with rfl | rfl
        · exact hy'
        · exact hz
    have hrio : (Node.mk false [mk] [mv] [y', z]).inorder = root.inorder := by
      rw [hyio, inorder_inner]
      simp [interleave]
    rw [InsertNonFullGuarded_eq t ht key ref _ _ _ _ hrinv
      (by simpa [Node.keys] using hmax3) (by rw [hrio]; exact hs)]
  · rw [if_neg hfull]
    simp only
    have hle : root.keys.length ≤ MaxKeys t := by
      cases hinv <;> simpa [Node.keys]
    rw [InsertNonFullGuarded_eq t ht key ref _ _ _ _ hinv (lt_of_le_of_ne hle hfull) hs]

/-- C36. In every tree built from `BTree(minDegree)` by `Insert` calls, whatever the
constructor argument (the degree `t` is at least 2): a further `Insert` returns, and so
does the same run with the check that `InsertNonFull` is entered on a node with fewer than
`2t-1` keys, with the same result; `FindEquals` and `FindRange` return. These functions
return only when no vector is read or written out of range: `children[i]` exists where a
node is descended or split at `i`, and `keys[t-1]` exists where `SplitChild` runs. In
particular, in every node the index found by `lbIndex` is at most the number of keys, an
internal node has a child at that index, and a full node has a key at index `t-1`. -/
theorem btree_accesses_in_bounds [LinearOrder K] (minDegree : Int) (ops : List (K × Ref)) :
    ∃ b, (BTree.new minDegree : BTree K Ref).insertAll ops = some b ∧ 2 ≤ b.t_ ∧
      (∀ key ref, ∃ b', b.Insert key ref = some b' ∧ b.InsertGuarded key ref = some b') ∧
      (∀ key, ∃ out, b.FindEquals key = some out) ∧
      (∀ lo hi, ∃ out, b.FindRange lo hi = some out) ∧
      ∀ x ∈ b.root_.nodes,
        (∀ key, lbIndex x.keys key ≤ x.keys.length ∧
          (x.leaf = false → ∃ c, x.children[lbIndex x.keys key]? = some c)) ∧
        (x.keys.length = MaxKeys b.t_ →
          ∃ k v, x.keys[b.t_ - 1]? = some k ∧ x.values[b.t_ - 1]? = some v) := by
  obtain ⟨b, e1, hv, -, -⟩ := reachable_valid minDegree ops
  have hv0 := hv
  obtain ⟨ht, ⟨h, hinv⟩, hs⟩ := hv
  refine ⟨b, e1, ht, ?_, ?_, ?_, ?_⟩
  · intro key ref
    obtain ⟨b', e, -⟩ := Insert_spec b key ref hv0
    exact ⟨b', e, by rw [InsertGuarded_eq b key ref hv0, e]⟩
  · intro key
    exact ⟨_, FindEquals_spec b key hv0⟩
  · intro lo hi
    exact ⟨_, FindRange_spec b lo hi hv0⟩
  · intro x hx
    have hsx := inv_nodes_sorted hinv hs x hx
    have hix : ∃ m' h', Node.Inv b.t_ m' h' x := by
      rcases inv_nodes hinv x hx with ⟨-, hi⟩ | ⟨h', hi⟩
      · exact ⟨_, _, hi⟩
      · exact ⟨_, _, hi⟩
    obtain ⟨m', h', hi⟩ := hix
    obtain ⟨-, -, h3, -, h5, -⟩ := inv_local hi
    constructor
    · intro key
      have hle := lbIndex_le x.keys key (keys_sorted_of_inv hi hsx)
      refine ⟨hle, fun hl => ?_⟩
      have hlt : lbIndex x.keys key < x.children.length := by rw [h5 hl]; omega
      exact ⟨_, List.getElem?_eq_getElem hlt⟩
    · intro hfull
      have hmax : MaxKeys b.t_ = 2 * b.t_ - 1 := rfl
      have h1 : b.t_ - 1 < x.keys.length := by omega
      have h2 : b.t_ - 1 < x.values.length := by omega
      exact ⟨_, _, List.getElem?_eq_getElem h1, List.getElem?_eq_getElem h2⟩

end BTreeInvariantTheory

section StaleIndexTheory

variable {T K : Type}

/-! ### Finds between a delete and the next `BuildIndexes` -/

theorem getRowBySlot_ok_iff (tb : Table T Int) (s : Nat) (r : T) :
    tb.GetRowBySlotOrThrow s = .ok r ↔ tb.IsAliveSlot s = true ∧ tb.records_[s]? = some r := by
  unfold Table.GetRowBySlotOrThrow
  cases h : tb.IsAliveSlot s with
  | false => simp
  | true =>
    cases h2 : tb.records_[s]? with
    | none => simp [Outcome.ofOption]
    | some r' => simp [Outcome.ofOption]

theorem table_delete_stale (tb : Table T Int) (idGetter : T → Int) (hashInt : Int → Nat)
    (hinv : tb.Inv idGetter hashInt) (id : Int) (hc : tb.ContainsId hashInt id = true) :
    ∃ s r, s ∈ tb.GetAliveSlots ∧ tb.records_[s]? = some r ∧ idGetter r = id ∧
      (tb.DeleteById hashInt id).1.GetRowBySlotOrThrow s
        = .throws (.runtime "GetRowBySlot: slot is not alive") ∧
      (∀ s', s' ≠ s → (tb.DeleteById hashInt id).1.GetRowBySlotOrThrow s'
        = tb.GetRowBySlotOrThrow s') ∧
      (∀ s' r', s' ∈ tb.GetAliveSlots → tb.records_[s']? = some r' → idGetter r' = id →
        s' = s ∧ r' = r) := by
  obtain ⟨s, hg⟩ := table_get_some_of_contains hashInt tb id hc
  obtain ⟨hal, hdel⟩ := table_DeleteById_found idGetter hashInt tb hinv id s hg
  have hinv0 := hinv
  obtain ⟨hpk, hlf, hlen, h3, h4, h5, h6, h7⟩ := hinv
  obtain ⟨-, r, hr, hrid⟩ := h3 id s hg
  have hsl : s < tb.alive_.length := (List.getElem?_eq_some.mp hal).1
  have ha : (tb.DeleteById hashInt id).1.alive_ = setAt s false tb.alive_ := by rw [hdel]
  have hrec : (tb.DeleteById hashInt id).1.records_ = tb.records_ := by rw [hdel]
  refine ⟨s, r, ?_, hr, hrid, ?_, ?_, ?_⟩
  · exact (table_mem_aliveSlots tb s).mpr ((table_isAliveSlot_iff tb s).mpr hal)
  · have hd : (tb.DeleteById hashInt id).1.IsAliveSlot s = false := by
      cases h : (tb.DeleteById hashInt id).1.IsAliveSlot s with
      | false => rfl
      | true =>
        rw [table_isAliveSlot_iff, ha, getElem?_setAt _ _ _ _ hsl, if_pos rfl] at h
        cases h
    rw [Table.GetRowBySlotOrThrow, hd]
    rfl
  · intro s' hne
    have hd : (tb.DeleteById hashInt id).1.IsAliveSlot s' = tb.IsAliveSlot s' := by
      apply table_isAliveSlot_eq
      rw [ha, getElem?_setAt _ _ _ _ hsl, if_neg hne]
    rw [Table.GetRowBySlotOrThrow, Table.GetRowBySlotOrThrow, hd, hrec]
  · intro s' r' hs' hr' hid'
    have hg' := table_get_of_alive_record idGetter hashInt tb hinv0 s' r' hs' hr'
    rw [hid', hg] at hg'
    have e : s = s' := Option.some.inj hg'
    subst e
    rw [hr] at hr'
    exact ⟨rfl, (Option.some.inj hr').symm⟩

theorem slotsToIds_stale (tb tb' : Table T Int) (GetId : T → Int) (s : Nat) (e : Exn)
    (hs : tb'.GetRowBySlotOrThrow s = .throws e)
    (hother : ∀ s', s' ≠ s → tb'.GetRowBySlotOrThrow s' = tb.GetRowBySlotOrThrow s')
    (l : List Nat) (hl : ∀ x ∈ l, ∃ r, tb.GetRowBySlotOrThrow x = .ok r) :
    (s ∈ l → SlotsToIds tb' GetId l = .throws e) ∧
    (s ∉ l → SlotsToIds tb' GetId l = SlotsToIds tb GetId l) := by
  induction l with
  | nil => exact ⟨fun h => absurd h (List.not_mem_nil _), fun _ => rfl⟩
  | cons x l ih =>
    obtain ⟨ih1, ih2⟩ := ih (fun y hy => hl y (List.mem_cons_of_mem _ hy))
    by_cases hx : x = s
    · subst hx
      refine ⟨fun _ => ?_, fun h => absurd (List.mem_cons_self _ _) h⟩
      rw [slotsToIds_cons, hs]
    · obtain ⟨r, hr⟩ := hl x (List.mem_cons_self _ _)
      have hr' : tb'.GetRowBySlotOrThrow x = .ok r := by rw [hother x hx, hr]
      constructor
      · intro h
        have hm : s ∈ l := by
          rcases List.mem_cons.mp h with h | h
          · exact absurd h.symm hx
          · exact h
        rw [slotsToIds_cons, hr', ih1 hm]
        rfl
      · intro h
        have hm : s ∉ l := fun h' => h (List.mem_cons_of_mem _ h')
        rw [slotsToIds_cons, slotsToIds_cons, hr', hr, ih2 hm]

theorem slotsToIds_ok_mem (tb : Table T Int) (GetId : T → Int) (l : List Nat) :
    ∀ ids : List Int, SlotsToIds tb GetId l = .ok ids →
      ∀ i ∈ ids, ∃ x ∈ l, ∃ r, tb.GetRowBySlotOrThrow x = .ok r ∧ GetId r = i := by
  induction l with
  | nil =>
    intro ids h i hi
    have e : ids = [] := by
      have h' : (Outcome.ok [] : Outcome (List Int)) = .ok ids := h
      cases h'
      rfl
    rw [e] at hi
    exact absurd hi (List.not_mem_nil _)
  | cons x l ih =>
    intro ids h i hi
    rw [slotsToIds_cons] at h
    cases hx : tb.GetRowBySlotOrThrow x with
    | throws e => rw [hx] at h; cases h
    | undefined => rw [hx] at h; cases h
    | ok r =>
      rw [hx] at h
      cases hl : SlotsToIds tb GetId l with
      | throws e => rw [hl] at h; cases h
      | undefined => rw [hl] at h; cases h
      | ok ids' =>
        rw [hl] at h
        have e : GetId r :: ids' = ids := by
          have h' : (Outcome.ok (GetId r :: ids') : Outcome (List Int)) = .ok ids := h
          cases h'
          rfl
        rw [← e] at hi
        rcases List.mem_cons.mp hi with hi | hi
        · exact ⟨x, List.mem_cons_self _ _, r, hx, hi.symm⟩
        · obtain ⟨y, hy, r', hr', hid⟩ := ih ids' hl i hi
          exact ⟨y, List.mem_cons_of_mem _ hy, r', hr', hid⟩

/-- The finds over a list of slots of alive rows, after the row `r` with the id `id` is
deleted: the find throws when the slot of `r` is in the list, and returns what it returned
before the delete otherwise; the id is never returned. -/
theorem stale_slots (tb : Table T Int) (idGetter : T → Int) (hashInt : Int → Nat)
    (hinv : tb.Inv idGetter hashInt) (id : Int) (hc : tb.ContainsId hashInt id = true)
    (r : T) (hr : r ∈ tb.rows) (hid : idGetter r = id) (l : List Nat) (p : T → Prop)
    (hl : ∀ x ∈ l, x ∈ tb.GetAliveSlots)
    (hmem : ∀ x r', x ∈ tb.GetAliveSlots → tb.records_[x]? = some r' → (x ∈ l ↔ p r')) :
    (p r → SlotsToIds (tb.DeleteById hashInt id).1 idGetter l
      = .throws (.runtime "GetRowBySlot: slot is not alive")) ∧
    (¬ p r → SlotsToIds (tb.DeleteById hashInt id).1 idGetter l = SlotsToIds tb idGetter l) ∧
    (∀ ids, SlotsToIds (tb.DeleteById hashInt id).1 idGetter l = .ok ids → id ∉ ids) := by
  obtain ⟨s, r0, hs, hr0, hid0, hthrow, hother, huniq⟩ :=
    table_delete_stale tb idGetter hashInt hinv id hc
  obtain ⟨x, hx, hxr⟩ := List.mem_filterMap.mp hr
  obtain ⟨e1, e2⟩ := huniq x r hx hxr hid
  subst e1 e2
  have hl' : ∀ y ∈ l, ∃ r', tb.GetRowBySlotOrThrow y = .ok r' := by
    intro y hy
    obtain ⟨hal, r', hr'⟩ := table_alive_facts tb idGetter hashInt hinv y (hl y hy)
    exact ⟨r', (getRowBySlot_ok_iff tb y r').mpr ⟨hal, hr'⟩⟩
  obtain ⟨h1, h2⟩ := slotsToIds_stale tb (tb.DeleteById hashInt id).1 idGetter x _ hthrow
    hother l hl'
  have hiff := hmem x r hx hxr
  refine ⟨fun hp => h1 (hiff.mpr hp), fun hp => h2 (fun h => hp (hiff.mp h)), ?_⟩
  intro ids hok hin
  have hnot : x ∉ l := by
    intro h
    rw [h1 h] at hok
    cases hok
  rw [h2 hnot] at hok
  obtain ⟨y, hy, r', hr', hid'⟩ := slotsToIds_ok_mem tb idGetter l ids hok id hin
  obtain ⟨-, hrec⟩ := (getRowBySlot_ok_iff tb y r').mp hr'
  obtain ⟨e1, -⟩ := huniq y r' (hl y hy) hrec hid'
  rw [e1] at hy
  exact hnot hy

theorem mem_refsOf_keyed [DecidableEq K] (tb : Table T Int) (g : T → K) (key : K) (x : Nat) :
    x ∈ refsOf (tb.keyed g) key
      ↔ x ∈ tb.GetAliveSlots ∧ ∃ r, tb.records_[x]? = some r ∧ g r = key := by
  simp only [refsOf, Table.keyed, List.mem_filterMap, Option.map_eq_some']
  constructor
  · rintro ⟨⟨k, y⟩, ⟨z, hz, r, hr, hp⟩, hif⟩
    cases hp
    by_cases hk : g r = key
    · simp only [hk, if_true, Option.some.injEq] at hif
      subst hif
      exact ⟨hz, r, hr, hk⟩
    · simp only [hk, if_false] at hif
      cases hif
  · rintro ⟨hx, r, hr, hk⟩
    exact ⟨(g r, x), ⟨x, hx, r, hr, rfl⟩, by simp [hk]⟩

theorem stale_hash_query [DecidableEq K] (hash : K → Nat) (idx : HashIndex K Nat)
    (tb : Table T Int) (idGetter : T → Int) (hashInt : Int → Nat)
    (hinv : tb.Inv idGetter hashInt) (g : T → K) (h : idx.Holds hash (tb.keyed g))
    (id : Int) (hc : tb.ContainsId hashInt id = true)
    (r : T) (hr : r ∈ tb.rows) (hid : idGetter r = id) (key : K) :
    (g r = key → SlotsToIds (tb.DeleteById hashInt id).1 idGetter (idx.FindEquals hash key)
      = .throws (.runtime "GetRowBySlot: slot is not alive")) ∧
    (g r ≠ key → SlotsToIds (tb.DeleteById hashInt id).1 idGetter (idx.FindEquals hash key)
      = SlotsToIds tb idGetter (idx.FindEquals hash key)) ∧
    (∀ ids, SlotsToIds (tb.DeleteById hashInt id).1 idGetter (idx.FindEquals hash key)
      = .ok ids → id ∉ ids) := by
  rw [hashIndex_FindEquals_holds hash idx _ h key]
  apply stale_slots tb idGetter hashInt hinv id hc r hr hid _ (fun r' => g r' = key)
  · intro x hx
    exact ((mem_refsOf_keyed tb g key x).mp hx).1
  · intro x r' hx hr'
    rw [mem_refsOf_keyed]
    constructor
    · rintro ⟨-, r'', hr'', hk⟩
      rw [hr'] at hr''
      cases hr''
      exact hk
    · intro hk
      exact ⟨hx, r', hr', hk⟩

theorem stale_range_query [LinearOrder K] (idx : BTreeIndex K Nat)
    (tb : Table T Int) (idGetter : T → Int) (hashInt : Int → Nat)
    (hinv : tb.Inv idGetter hashInt) (g : T → K) (h : idx.Holds (tb.keyed g))
    (id : Int) (hc : tb.ContainsId hashInt id = true)
    (r : T) (hr : r ∈ tb.rows) (hid : idGetter r = id) (lo hi : K) :
    ((lo ≤ g r ∧ g r ≤ hi) →
      (Outcome.ofOption (idx.FindRange lo hi)).andThen
          (SlotsToIds (tb.DeleteById hashInt id).1 idGetter)
        = .throws (.runtime "GetRowBySlot: slot is not alive")) ∧
    (¬ (lo ≤ g r ∧ g r ≤ hi) →
      (Outcome.ofOption (idx.FindRange lo hi)).andThen
          (SlotsToIds (tb.DeleteById hashInt id).1 idGetter)
        = (Outcome.ofOption (idx.FindRange lo hi)).andThen (SlotsToIds tb idGetter)) ∧
    (∀ ids, (Outcome.ofOption (idx.FindRange lo hi)).andThen
          (SlotsToIds (tb.DeleteById hashInt id).1 idGetter) = .ok ids → id ∉ ids) := by
  rw [btreeIndex_FindRange_exact idx _ h lo hi]
  have hm : ∀ x, x ∈ (keysInRange (tb.keyed g) lo hi).flatMap (refsOf (tb.keyed g))
      ↔ x ∈ tb.GetAliveSlots ∧ ∃ r', tb.records_[x]? = some r' ∧ lo ≤ g r' ∧ g r' ≤ hi := by
    intro x
    rw [List.mem_flatMap]
    constructor
    · rintro ⟨k, hk, hx⟩
      obtain ⟨-, hlo, hhi⟩ := (mem_keysInRange _ lo hi k).mp hk
      obtain ⟨hx1, r', hr', hg⟩ := (mem_refsOf_keyed tb g k x).mp hx
      subst hg
      exact ⟨hx1, r', hr', hlo, hhi⟩
    · rintro ⟨hx1, r', hr', hlo, hhi⟩
      have hx2 : x ∈ refsOf (tb.keyed g) (g r') :=
        (mem_refsOf_keyed tb g (g r') x).mpr ⟨hx1, r', hr', rfl⟩
      refine ⟨g r', (mem_keysInRange _ lo hi (g r')).mpr ⟨⟨x, ?_⟩, hlo, hhi⟩, hx2⟩
      simp only [Table.keyed, List.mem_filterMap, Option.map_eq_some']
      exact ⟨x, hx1, r', hr', rfl⟩
  exact stale_slots tb idGetter hashInt hinv id hc r hr hid _
    (fun r' => lo ≤ g r' ∧ g r' ≤ hi)
    (fun x hx => ((hm x).mp hx).1)
    (fun x r' hx hr' => by
      rw [hm]
      constructor
      · rintro ⟨-, r'', hr'', hk⟩
        rw [hr'] at hr''
        cases hr''
        exact hk
      · intro hk
        exact ⟨hx, r', hr', hk⟩)

theorem afterScan_ok_inv (db : Database) (scan : Outcome Unit)
    (rest : Database × Outcome Unit) (h : (afterScan db scan rest).2 = .ok ()) :
    afterScan db scan rest = rest := by
  cases scan with
  | ok u => rfl
  | throws e => cases h
  | undefined => cases h

theorem afterScan_fst (db : Database) (scan : Outcome Unit) (rest : Database × Outcome Unit) :
    (afterScan db scan rest).1 = rest.1 ∨ (afterScan db scan rest).1 = db := by
  cases scan with
  | ok u => exact Or.inl rfl
  | throws e => exact Or.inr rfl
  | undefined => exact Or.inr rfl

theorem notFoundUnless_ok (found : Bool) (what : String) (id : Int)
    (h : notFoundUnless found what id = .ok ()) : found = true := by
  cases found with
  | true => rfl
  | false => cases h

theorem table_delete_ok (tb : Table T Int) (idGetter : T → Int) (hashInt : Int → Nat)
    (hinv : tb.Inv idGetter hashInt) (what : String) (id : Int)
    (h : notFoundUnless (tb.DeleteById hashInt id).2 what id = .ok ()) :
    tb.ContainsId hashInt id = true ∧ ∃ r, r ∈ tb.rows ∧ idGetter r = id := by
  have h1 := notFoundUnless_ok _ _ _ h
  rw [(table_DeleteById_spec idGetter hashInt tb hinv id).2.2.1] at h1
  refine ⟨h1, ?_⟩
  obtain ⟨r, hr, hid⟩ := List.mem_map.mp
    ((table_containsId_rows idGetter hashInt tb hinv id).mp h1)
  exact ⟨r, hr, hid⟩

/-! ### Deletes and the secondary indexes -/

theorem afterScan2_ok_inv (db : Database) (s1 s2 : Outcome Unit)
    (rest : Database × Outcome Unit)
    (h : (afterScan db s1 (afterScan db s2 rest)).2 = .ok ()) :
    afterScan db s1 (afterScan db s2 rest) = rest := by
  have e1 := afterScan_ok_inv db s1 _ h
  rw [e1] at h ⊢
  exact afterScan_ok_inv db s2 _ h

theorem afterScan_cases (P : Database → Prop) (db : Database) (scan : Outcome Unit)
    (rest : Database × Outcome Unit) (h1 : P rest.1) (h0 : P db) :
    P (afterScan db scan rest).1 := by
  cases scan with
  | ok u => exact h1
  | throws e => exact h0
  | undefined => exact h0

theorem database_DeleteAddress_ok (hashInt : Int → Nat) (db : Database) (id : Int)
    (h : (db.DeleteAddress hashInt id).2 = .ok ()) :
    (db.DeleteAddress hashInt id).1
        = { db with addresses_ := (db.addresses_.DeleteById hashInt id).1 } ∧
      notFoundUnless (db.addresses_.DeleteById hashInt id).2
          "Address not found: id=" id = .ok () := by
  have e : db.DeleteAddress hashInt id
      = ({ db with addresses_ := (db.addresses_.DeleteById hashInt id).1 },
          notFoundUnless (db.addresses_.DeleteById hashInt id).2
            "Address not found: id=" id) :=
    afterScan_ok_inv db _ _ h
  rw [e] at h ⊢
  exact ⟨rfl, h⟩

theorem database_DeleteDepartment_ok (hashInt : Int → Nat) (db : Database) (id : Int)
    (h : (db.DeleteDepartment hashInt id).2 = .ok ()) :
    (db.DeleteDepartment hashInt id).1
        = { db with departments_ := (db.departments_.DeleteById hashInt id).1 } ∧
      notFoundUnless (db.departments_.DeleteById hashInt id).2
          "Department not found: id=" id = .ok () := by
  have e : db.DeleteDepartment hashInt id
      = ({ db with departments_ := (db.departments_.DeleteById hashInt id).1 },
          notFoundUnless (db.departments_.DeleteById hashInt id).2
            "Department not found: id=" id) :=
    afterScan2_ok_inv db _ _ _ h
  rw [e] at h ⊢
  exact ⟨rfl, h⟩

theorem database_DeleteEmployee_ok (hashInt : Int → Nat) (db : Database) (id : Int)
    (h : (db.DeleteEmployee hashInt id).2 = .ok ()) :
    (db.DeleteEmployee hashInt id).1
        = { db with employees_ := (db.employees_.DeleteById hashInt id).1 } ∧
      notFoundUnless (db.employees_.DeleteById hashInt id).2
          "Employee not found: id=" id = .ok () := by
  have e : db.DeleteEmployee hashInt id
      = ({ db with employees_ := (db.employees_.DeleteById hashInt id).1 },
          notFoundUnless (db.employees_.DeleteById hashInt id).2
            "Employee not found: id=" id) :=
    rfl
  rw [e] at h ⊢
  exact ⟨rfl, h⟩

theorem database_DeleteSupplier_ok (hashInt : Int → Nat) (db : Database) (id : Int)
    (h : (db.DeleteSupplier hashInt id).2 = .ok ()) :
    (db.DeleteSupplier hashInt id).1
        = { db with suppliers_ := (db.suppliers_.DeleteById hashInt id).1 } ∧
      notFoundUnless (db.suppliers_.DeleteById hashInt id).2
          "Supplier not found: id=" id = .ok () := by
  have e : db.DeleteSupplier hashInt id
      = ({ db with suppliers_ := (db.suppliers_.DeleteById hashInt id).1 },
          notFoundUnless (db.suppliers_.DeleteById hashInt id).2
            "Supplier not found: id=" id) :=
    afterScan2_ok_inv db _ _ _ h
  rw [e] at h ⊢
  exact ⟨rfl, h⟩

theorem database_DeleteProduct_ok (hashInt : Int → Nat) (db : Database) (id : Int)
    (h : (db.DeleteProduct hashInt id).2 = .ok ()) :
    (db.DeleteProduct hashInt id).1
        = { db with products_ := (db.products_.DeleteById hashInt id).1 } ∧
      notFoundUnless (db.products_.DeleteById hashInt id).2
          "Product not found: id=" id = .ok () := by
  have e : db.DeleteProduct hashInt id
      = ({ db with products_ := (db.products_.DeleteById hashInt id).1 },
          notFoundUnless (db.products_.DeleteById hashInt id).2
            "Product not found: id=" id) :=
    afterScan_ok_inv db _ _ h
  rw [e] at h ⊢
  exact ⟨rfl, h⟩

theorem database_DeletePurchase_ok (hashInt : Int → Nat) (db : Database) (id : Int)
    (h : (db.DeletePurchase hashInt id).2 = .ok ()) :
    (db.DeletePurchase hashInt id).1
        = { db with purchases_ := (db.purchases_.DeleteById hashInt id).1 } ∧
      notFoundUnless (db.purchases_.DeleteById hashInt id).2
          "Purchase not found: id=" id = .ok () := by
  have e : db.DeletePurchase hashInt id
      = ({ db with purchases_ := (db.purchases_.DeleteById hashInt id).1 },
          notFoundUnless (db.purchases_.DeleteById hashInt id).2
            "Purchase not found: id=" id) :=
    rfl
  rw [e] at h ⊢
  exact ⟨rfl, h⟩

/-- A delete call leaves the database as it was, or releases one row of its own table;
nothing else changes. -/
theorem database_applyDelete_cases (hashInt : Int → Nat) (db : Database) (op : DeleteOp)
    (P : Database → Prop) (h0 : P db)
    (h_address : ∀ id, op = .address id →
      P { db with addresses_ := (db.addresses_.DeleteById hashInt id).1 })
    (h_department : ∀ id, op = .department id →
      P { db with departments_ := (db.departments_.DeleteById hashInt id).1 })
    (h_employee : ∀ id, op = .employee id →
      P { db with employees_ := (db.employees_.DeleteById hashInt id).1 })
    (h_supplier : ∀ id, op = .supplier id →
      P { db with suppliers_ := (db.suppliers_.DeleteById hashInt id).1 })
    (h_product : ∀ id, op = .product id →
      P { db with products_ := (db.products_.DeleteById hashInt id).1 })
    (h_purchase : ∀ id, op = .purchase id →
      P { db with purchases_ := (db.purchases_.DeleteById hashInt id).1 }) :
    P (db.applyDelete hashInt op).1 := by
  cases op with
  | address id =>
    exact afterScan_cases P db _ _ (h_address id rfl) h0
  | department id =>
    exact afterScan_cases P db _ _ (afterScan_cases P db _ _ (h_department id rfl) h0) h0
  | employee id =>
    exact h_employee id rfl
  | supplier id =>
    exact afterScan_cases P db _ _ (afterScan_cases P db _ _ (h_supplier id rfl) h0) h0
  | product id =>
    exact afterScan_cases P db _ _ (h_product id rfl) h0
  | purchase id =>
    exact h_purchase id rfl

theorem database_applyDelete_indexes (hashInt : Int → Nat) (db : Database) (op : DeleteOp) :
    (db.applyDelete hashInt op).1.addressesByCity_ = db.addressesByCity_ ∧
      (db.applyDelete hashInt op).1.addressesById_ = db.addressesById_ ∧
      (db.applyDelete hashInt op).1.departmentsByName_ = db.departmentsByName_ ∧
      (db.applyDelete hashInt op).1.departmentsByAddressId_ = db.departmentsByAddressId_ ∧
      (db.applyDelete hashInt op).1.employeesByFullName_ = db.employeesByFullName_ ∧
      (db.applyDelete hashInt op).1.employeesByBirthYear_ = db.employeesByBirthYear_ ∧
      (db.applyDelete hashInt op).1.employeesByDeptId_ = db.employeesByDeptId_ ∧
      (db.applyDelete hashInt op).1.suppliersByName_ = db.suppliersByName_ ∧
      (db.applyDelete hashInt op).1.suppliersByCity_ = db.suppliersByCity_ ∧
      (db.applyDelete hashInt op).1.productsByName_ = db.productsByName_ ∧
      (db.applyDelete hashInt op).1.productsByDefaultSupplierId_
        = db.productsByDefaultSupplierId_ ∧
      (db.applyDelete hashInt op).1.purchasesByDate_ = db.purchasesByDate_ ∧
      (db.applyDelete hashInt op).1.purchasesBySupplierId_ = db.purchasesBySupplierId_ ∧
      (db.applyDelete hashInt op).1.purchasesByProductId_ = db.purchasesByProductId_ ∧
      (db.applyDelete hashInt op).1.purchasesByDeptId_ = db.purchasesByDeptId_ :=
  database_applyDelete_cases hashInt db op
    (fun d =>
      d.addressesByCity_ = db.addressesByCity_ ∧ d.addressesById_ = db.addressesById_ ∧
        d.departmentsByName_ = db.departmentsByName_ ∧
        d.departmentsByAddressId_ = db.departmentsByAddressId_ ∧
        d.employeesByFullName_ = db.employeesByFullName_ ∧
        d.employeesByBirthYear_ = db.employeesByBirthYear_ ∧
        d.employeesByDeptId_ = db.employeesByDeptId_ ∧ d.suppliersByName_ = db.suppliersByName_ ∧
        d.suppliersByCity_ = db.suppliersByCity_ ∧ d.productsByName_ = db.productsByName_ ∧
        d.productsByDefaultSupplierId_ = db.productsByDefaultSupplierId_ ∧
        d.purchasesByDate_ = db.purchasesByDate_ ∧
        d.purchasesBySupplierId_ = db.purchasesBySupplierId_ ∧
        d.purchasesByProductId_ = db.purchasesByProductId_ ∧
        d.purchasesByDeptId_ = db.purchasesByDeptId_)
    ⟨rfl, rfl, rfl, rfl, rfl, rfl, rfl, rfl, rfl, rfl, rfl, rfl, rfl, rfl, rfl⟩
    (fun _ _ => ⟨rfl, rfl, rfl, rfl, rfl, rfl, rfl, rfl, rfl, rfl, rfl, rfl, rfl, rfl, rfl⟩)
    (fun _ _ => ⟨rfl, rfl, rfl, rfl, rfl, rfl, rfl, rfl, rfl, rfl, rfl, rfl, rfl, rfl, rfl⟩)
    (fun _ _ => ⟨rfl, rfl, rfl, rfl, rfl, rfl, rfl, rfl, rfl, rfl, rfl, rfl, rfl, rfl, rfl⟩)
    (fun _ _ => ⟨rfl, rfl, rfl, rfl, rfl, rfl, rfl, rfl, rfl, rfl, rfl, rfl, rfl, rfl, rfl⟩)
    (fun _ _ => ⟨rfl, rfl, rfl, rfl, rfl, rfl, rfl, rfl, rfl, rfl, rfl, rfl, rfl, rfl, rfl⟩)
    (fun _ _ => ⟨rfl, rfl, rfl, rfl, rfl, rfl, rfl, rfl, rfl, rfl, rfl, rfl, rfl, rfl, rfl⟩)

theorem database_addresses_finds_frame (hashInt : Int → Nat) (hashString : String → Nat)
    (db : Database) (op : DeleteOp) (hne : ∀ id, op ≠ .address id) :
    (∀ key, (db.applyDelete hashInt op).1.FindAddressIdsByCity hashString key
      = db.FindAddressIdsByCity hashString key) ∧
    (∀ lo hi, (db.applyDelete hashInt op).1.FindAddressIdsByIdRange lo hi
      = db.FindAddressIdsByIdRange lo hi) :=
  database_applyDelete_cases hashInt db op
    (fun d =>
      (∀ key, d.FindAddressIdsByCity hashString key
        = db.FindAddressIdsByCity hashString key) ∧
      (∀ lo hi, d.FindAddressIdsByIdRange lo hi
        = db.FindAddressIdsByIdRange lo hi))
    ⟨fun _ => rfl, fun _ _ => rfl⟩
    (fun id h => absurd h (hne id))
    (fun _ _ => ⟨fun _ => rfl, fun _ _ => rfl⟩)
    (fun _ _ => ⟨fun _ => rfl, fun _ _ => rfl⟩)
    (fun _ _ => ⟨fun _ => rfl, fun _ _ => rfl⟩)
    (fun _ _ => ⟨fun _ => rfl, fun _ _ => rfl⟩)
    (fun _ _ => ⟨fun _ => rfl, fun _ _ => rfl⟩)

theorem database_departments_finds_frame (hashInt : Int → Nat) (hashString : String → Nat)
    (db : Database) (op : DeleteOp) (hne : ∀ id, op ≠ .department id) :
    (∀ key, (db.applyDelete hashInt op).1.FindDepartmentIdsByName hashString key
      = db.FindDepartmentIdsByName hashString key) ∧
    (∀ key, (db.applyDelete hashInt op).1.FindDepartmentIdsByAddressId hashInt key
      = db.FindDepartmentIdsByAddressId hashInt key) :=
  database_applyDelete_cases hashInt db op
    (fun d =>
      (∀ key, d.FindDepartmentIdsByName hashString key
        = db.FindDepartmentIdsByName hashString key) ∧
      (∀ key, d.FindDepartmentIdsByAddressId hashInt key
        = db.FindDepartmentIdsByAddressId hashInt key))
    ⟨fun _ => rfl, fun _ => rfl⟩
    (fun _ _ => ⟨fun _ => rfl, fun _ => rfl⟩)
    (fun id h => absurd h (hne id))
    (fun _ _ => ⟨fun _ => rfl, fun _ => rfl⟩)
    (fun _ _ => ⟨fun _ => rfl, fun _ => rfl⟩)
    (fun _ _ => ⟨fun _ => rfl, fun _ => rfl⟩)
    (fun _ _ => ⟨fun _ => rfl, fun _ => rfl⟩)

theorem database_employees_finds_frame (hashInt : Int → Nat) (hashString : String → Nat)
    (db : Database) (op : DeleteOp) (hne : ∀ id, op ≠ .employee id) :
    (∀ key, (db.applyDelete hashInt op).1.FindEmployeeIdsByFullName hashString key
      = db.FindEmployeeIdsByFullName hashString key) ∧
    (∀ lo hi, (db.applyDelete hashInt op).1.FindEmployeeIdsByBirthYearRange lo hi
      = db.FindEmployeeIdsByBirthYearRange lo hi) ∧
    (∀ key, (db.applyDelete hashInt op).1.FindEmployeeIdsByDeptId hashInt key
      = db.FindEmployeeIdsByDeptId hashInt key) :=
  database_applyDelete_cases hashInt db op
    (fun d =>
      (∀ key, d.FindEmployeeIdsByFullName hashString key
        = db.FindEmployeeIdsByFullName hashString key) ∧
      (∀ lo hi, d.FindEmployeeIdsByBirthYearRange lo hi
        = db.FindEmployeeIdsByBirthYearRange lo hi) ∧
      (∀ key, d.FindEmployeeIdsByDeptId hashInt key
        = db.FindEmployeeIdsByDeptId hashInt key))
    ⟨fun _ => rfl, fun _ _ => rfl, fun _ => rfl⟩
    (fun _ _ => ⟨fun _ => rfl, fun _ _ => rfl, fun _ => rfl⟩)
    (fun _ _ => ⟨fun _ => rfl, fun _ _ => rfl, fun _ => rfl⟩)
    (fun id h => absurd h (hne id))
    (fun _ _ => ⟨fun _ => rfl, fun _ _ => rfl, fun _ => rfl⟩)
    (fun _ _ => ⟨fun _ => rfl, fun _ _ => rfl, fun _ => rfl⟩)
    (fun _ _ => ⟨fun _ => rfl, fun _ _ => rfl, fun _ => rfl⟩)

theorem database_suppliers_finds_frame (hashInt : Int → Nat) (hashString : String → Nat)
    (db : Database) (op : DeleteOp) (hne : ∀ id, op ≠ .supplier id) :
    (∀ key, (db.applyDelete hashInt op).1.FindSupplierIdsByName hashString key
      = db.FindSupplierIdsByName hashString key) ∧
    (∀ key, (db.applyDelete hashInt op).1.FindSupplierIdsByCity hashString key
      = db.FindSupplierIdsByCity hashString key) :=
  database_applyDelete_cases hashInt db op
    (fun d =>
      (∀ key, d.FindSupplierIdsByName hashString key
        = db.FindSupplierIdsByName hashString key) ∧
      (∀ key, d.FindSupplierIdsByCity hashString key
        = db.FindSupplierIdsByCity hashString key))
    ⟨fun _ => rfl, fun _ => rfl⟩
    (fun _ _ => ⟨fun _ => rfl, fun _ => rfl⟩)
    (fun _ _ => ⟨fun _ => rfl, fun _ => rfl⟩)
    (fun _ _ => ⟨fun _ => rfl, fun _ => rfl⟩)
    (fun id h => absurd h (hne id))
    (fun _ _ => ⟨fun _ => rfl, fun _ => rfl⟩)
    (fun _ _ => ⟨fun _ => rfl, fun _ => rfl⟩)

theorem database_products_finds_frame (hashInt : Int → Nat) (hashString : String → Nat)
    (db : Database) (op : DeleteOp) (hne : ∀ id, op ≠ .product id) :
    (∀ key, (db.applyDelete hashInt op).1.FindProductIdsByName hashString key
      = db.FindProductIdsByName hashString key) ∧
    (∀ key, (db.applyDelete hashInt op).1.FindProductIdsByDefaultSupplierId hashInt key
      = db.FindProductIdsByDefaultSupplierId hashInt key) :=
  database_applyDelete_cases hashInt db op
    (fun d =>
      (∀ key, d.FindProductIdsByName hashString key
        = db.FindProductIdsByName hashString key) ∧
      (∀ key, d.FindProductIdsByDefaultSupplierId hashInt key
        = db.FindProductIdsByDefaultSupplierId hashInt key))
    ⟨fun _ => rfl, fun _ => rfl⟩
    (fun _ _ => ⟨fun _ => rfl, fun _ => rfl⟩)
    (fun _ _ => ⟨fun _ => rfl, fun _ => rfl⟩)
    (fun _ _ => ⟨fun _ => rfl, fun _ => rfl⟩)
    (fun _ _ => ⟨fun _ => rfl, fun _ => rfl⟩)
    (fun id h => absurd h (hne id))
    (fun _ _ => ⟨fun _ => rfl, fun _ => rfl⟩)

theorem database_purchases_finds_frame (hashInt : Int → Nat) (db : Database)
    (op : DeleteOp) (hne : ∀ id, op ≠ .purchase id) :
    (∀ lo hi, (db.applyDelete hashInt op).1.FindPurchaseIdsByDateRange lo hi
      = db.FindPurchaseIdsByDateRange lo hi) ∧
    (∀ key, (db.applyDelete hashInt op).1.FindPurchaseIdsBySupplierId hashInt key
      = db.FindPurchaseIdsBySupplierId hashInt key) ∧
    (∀ key, (db.applyDelete hashInt op).1.FindPurchaseIdsByProductId hashInt key
      = db.FindPurchaseIdsByProductId hashInt key) ∧
    (∀ key, (db.applyDelete hashInt op).1.FindPurchaseIdsByDeptId hashInt key
      = db.FindPurchaseIdsByDeptId hashInt key) :=
  database_applyDelete_cases hashInt db op
    (fun d =>
      (∀ lo hi, d.FindPurchaseIdsByDateRange lo hi
        = db.FindPurchaseIdsByDateRange lo hi) ∧
      (∀ key, d.FindPurchaseIdsBySupplierId hashInt key
        = db.FindPurchaseIdsBySupplierId hashInt key) ∧
      (∀ key, d.FindPurchaseIdsByProductId hashInt key
        = db.FindPurchaseIdsByProductId hashInt key) ∧
      (∀ key, d.FindPurchaseIdsByDeptId hashInt key
        = db.FindPurchaseIdsByDeptId hashInt key))
    ⟨fun _ _ => rfl, fun _ => rfl, fun _ => rfl, fun _ => rfl⟩
    (fun _ _ => ⟨fun _ _ => rfl, fun _ => rfl, fun _ => rfl, fun _ => rfl⟩)
    (fun _ _ => ⟨fun _ _ => rfl, fun _ => rfl, fun _ => rfl, fun _ => rfl⟩)
    (fun _ _ => ⟨fun _ _ => rfl, fun _ => rfl, fun _ => rfl, fun _ => rfl⟩)
    (fun _ _ => ⟨fun _ _ => rfl, fun _ => rfl, fun _ => rfl, fun _ => rfl⟩)
    (fun _ _ => ⟨fun _ _ => rfl, fun _ => rfl, fun _ => rfl, fun _ => rfl⟩)
    (fun id h => absurd h (hne id))

/-- C39. Let `db` be a `Database` returned by `LoadFromFiles`, or by `BuildIndexes` in a
state reached from a load by delete calls. (1) No delete call, successful or not, changes
any of the fifteen secondary indexes. (2) After a successful delete of the row `r` with the
id `id`, and without a further `BuildIndexes`: an equality find on the table of `r` whose
key is the attribute of `r`, and a range find whose range holds the attribute of `r`, throw
the `std::runtime_error` "GetRowBySlot: slot is not alive" of `GetRowBySlot`; every other
find on that table returns what it returned before the delete; and no find on that table
that returns a list of ids returns `id`. (3) The finds on the other tables return what they
returned before the delete call. -/
theorem database_stale_finds (hashInt : Int → Nat) (hashString : String → Nat)
    (db : Database)
    (hreach : (∃ (P : RowParsers) (a d e s p u : Option (List String)),
        Database.LoadFromFiles hashInt hashString P a d e s p u = .ok db) ∨
      (∃ (P : RowParsers) (a d e s p u : Option (List String)) (db0 : Database)
        (ops : List DeleteOp),
        Database.LoadFromFiles hashInt hashString P a d e s p u = .ok db0 ∧
        (db0.runDeletes hashInt ops).BuildIndexes hashInt hashString = .ok db)) :
    (∀ op : DeleteOp,
      (db.applyDelete hashInt op).1.addressesByCity_ = db.addressesByCity_ ∧
        (db.applyDelete hashInt op).1.addressesById_ = db.addressesById_ ∧
        (db.applyDelete hashInt op).1.departmentsByName_ = db.departmentsByName_ ∧
        (db.applyDelete hashInt op).1.departmentsByAddressId_ = db.departmentsByAddressId_ ∧
        (db.applyDelete hashInt op).1.employeesByFullName_ = db.employeesByFullName_ ∧
        (db.applyDelete hashInt op).1.employeesByBirthYear_ = db.employeesByBirthYear_ ∧
        (db.applyDelete hashInt op).1.employeesByDeptId_ = db.employeesByDeptId_ ∧
        (db.applyDelete hashInt op).1.suppliersByName_ = db.suppliersByName_ ∧
        (db.applyDelete hashInt op).1.suppliersByCity_ = db.suppliersByCity_ ∧
        (db.applyDelete hashInt op).1.productsByName_ = db.productsByName_ ∧
        (db.applyDelete hashInt op).1.productsByDefaultSupplierId_
          = db.productsByDefaultSupplierId_ ∧
        (db.applyDelete hashInt op).1.purchasesByDate_ = db.purchasesByDate_ ∧
        (db.applyDelete hashInt op).1.purchasesBySupplierId_ = db.purchasesBySupplierId_ ∧
        (db.applyDelete hashInt op).1.purchasesByProductId_ = db.purchasesByProductId_ ∧
        (db.applyDelete hashInt op).1.purchasesByDeptId_ = db.purchasesByDeptId_) ∧
    (∀ id, (db.DeleteAddress hashInt id).2 = .ok () →
      ∃ r, r ∈ db.addresses_.rows ∧ r.GetId = id ∧
        (∀ key,
          (r.GetCity = key →
            (db.DeleteAddress hashInt id).1.FindAddressIdsByCity hashString key
              = .throws (.runtime "GetRowBySlot: slot is not alive")) ∧
          (r.GetCity ≠ key →
            (db.DeleteAddress hashInt id).1.FindAddressIdsByCity hashString key
              = db.FindAddressIdsByCity hashString key) ∧
          (∀ ids,
            (db.DeleteAddress hashInt id).1.FindAddressIdsByCity hashString key
              = .ok ids → id ∉ ids)) ∧
        (∀ lo hi,
          ((lo ≤ r.GetId ∧ r.GetId ≤ hi) →
            (db.DeleteAddress hashInt id).1.FindAddressIdsByIdRange lo hi
              = .throws (.runtime "GetRowBySlot: slot is not alive")) ∧
          (¬ (lo ≤ r.GetId ∧ r.GetId ≤ hi) →
            (db.DeleteAddress hashInt id).1.FindAddressIdsByIdRange lo hi
              = db.FindAddressIdsByIdRange lo hi) ∧
          (∀ ids,
            (db.DeleteAddress hashInt id).1.FindAddressIdsByIdRange lo hi
              = .ok ids → id ∉ ids))) ∧
    (∀ id, (db.DeleteDepartment hashInt id).2 = .ok () →
      ∃ r, r ∈ db.departments_.rows ∧ r.GetId = id ∧
        (∀ key,
          (r.GetName = key →
            (db.DeleteDepartment hashInt id).1.FindDepartmentIdsByName hashString key
              = .throws (.runtime "GetRowBySlot: slot is not alive")) ∧
          (r.GetName ≠ key →
            (db.DeleteDepartment hashInt id).1.FindDepartmentIdsByName hashString key
              = db.FindDepartmentIdsByName hashString key) ∧
          (∀ ids,
            (db.DeleteDepartment hashInt id).1.FindDepartmentIdsByName hashString key
              = .ok ids → id ∉ ids)) ∧
        (∀ key,
          (r.GetAddressId = key →
            (db.DeleteDepartment hashInt id).1.FindDepartmentIdsByAddressId hashInt key
              = .throws (.runtime "GetRowBySlot: slot is not alive")) ∧
          (r.GetAddressId ≠ key →
            (db.DeleteDepartment hashInt id).1.FindDepartmentIdsByAddressId hashInt key
              = db.FindDepartmentIdsByAddressId hashInt key) ∧
          (∀ ids,
            (db.DeleteDepartment hashInt id).1.FindDepartmentIdsByAddressId hashInt key
              = .ok ids → id ∉ ids))) ∧
    (∀ id, (db.DeleteEmployee hashInt id).2 = .ok () →
      ∃ r, r ∈ db.employees_.rows ∧ r.GetId = id ∧
        (∀ key,
          (r.GetFullName = key →
            (db.DeleteEmployee hashInt id).1.FindEmployeeIdsByFullName hashString key
              = .throws (.runtime "GetRowBySlot: slot is not alive")) ∧
          (r.GetFullName ≠ key →
            (db.DeleteEmployee hashInt id).1.FindEmployeeIdsByFullName hashString key
              = db.FindEmployeeIdsByFullName hashString key) ∧
          (∀ ids,
            (db.DeleteEmployee hashInt id).1.FindEmployeeIdsByFullName hashString key
              = .ok ids → id ∉ ids)) ∧
        (∀ lo hi,
          ((lo ≤ r.GetBirthYear ∧ r.GetBirthYear ≤ hi) →
            (db.DeleteEmployee hashInt id).1.FindEmployeeIdsByBirthYearRange lo hi
              = .throws (.runtime "GetRowBySlot: slot is not alive")) ∧
          (¬ (lo ≤ r.GetBirthYear ∧ r.GetBirthYear ≤ hi) →
            (db.DeleteEmployee hashInt id).1.FindEmployeeIdsByBirthYearRange lo hi
              = db.FindEmployeeIdsByBirthYearRange lo hi) ∧
          (∀ ids,
            (db.DeleteEmployee hashInt id).1.FindEmployeeIdsByBirthYearRange lo hi
              = .ok ids → id ∉ ids)) ∧
        (∀ key,
          (r.GetDeptId = key →
            (db.DeleteEmployee hashInt id).1.FindEmployeeIdsByDeptId hashInt key
              = .throws (.runtime "GetRowBySlot: slot is not alive")) ∧
          (r.GetDeptId ≠ key →
            (db.DeleteEmployee hashInt id).1.FindEmployeeIdsByDeptId hashInt key
              = db.FindEmployeeIdsByDeptId hashInt key) ∧
          (∀ ids,
            (db.DeleteEmployee hashInt id).1.FindEmployeeIdsByDeptId hashInt key
              = .ok ids → id ∉ ids))) ∧
    (∀ id, (db.DeleteSupplier hashInt id).2 = .ok () →
      ∃ r, r ∈ db.suppliers_.rows ∧ r.GetId = id ∧
        (∀ key,
          (r.GetName = key →
            (db.DeleteSupplier hashInt id).1.FindSupplierIdsByName hashString key
              = .throws (.runtime "GetRowBySlot: slot is not alive")) ∧
          (r.GetName ≠ key →
            (db.DeleteSupplier hashInt id).1.FindSupplierIdsByName hashString key
              = db.FindSupplierIdsByName hashString key) ∧
          (∀ ids,
            (db.DeleteSupplier hashInt id).1.FindSupplierIdsByName hashString key
              = .ok ids → id ∉ ids)) ∧
        (∀ key,
          (r.GetCity = key →
            (db.DeleteSupplier hashInt id).1.FindSupplierIdsByCity hashString key
              = .throws (.runtime "GetRowBySlot: slot is not alive")) ∧
          (r.GetCity ≠ key →
            (db.DeleteSupplier hashInt id).1.FindSupplierIdsByCity hashString key
              = db.FindSupplierIdsByCity hashString key) ∧
          (∀ ids,
            (db.DeleteSupplier hashInt id).1.FindSupplierIdsByCity hashString key
              = .ok ids → id ∉ ids))) ∧
    (∀ id, (db.DeleteProduct hashInt id).2 = .ok () →
      ∃ r, r ∈ db.products_.rows ∧ r.GetId = id ∧
        (∀ key,
          (r.GetName = key →
            (db.DeleteProduct hashInt id).1.FindProductIdsByName hashString key
              = .throws (.runtime "GetRowBySlot: slot is not alive")) ∧
          (r.GetName ≠ key →
            (db.DeleteProduct hashInt id).1.FindProductIdsByName hashString key
              = db.FindProductIdsByName hashString key) ∧
          (∀ ids,
            (db.DeleteProduct hashInt id).1.FindProductIdsByName hashString key
              = .ok ids → id ∉ ids)) ∧
        (∀ key,
          (r.GetDefaultSupplierId = key →
            (db.DeleteProduct hashInt id).1.FindProductIdsByDefaultSupplierId hashInt key
              = .throws (.runtime "GetRowBySlot: slot is not alive")) ∧
          (r.GetDefaultSupplierId ≠ key →
            (db.DeleteProduct hashInt id).1.FindProductIdsByDefaultSupplierId hashInt key
              = db.FindProductIdsByDefaultSupplierId hashInt key) ∧
          (∀ ids,
            (db.DeleteProduct hashInt id).1.FindProductIdsByDefaultSupplierId hashInt key
              = .ok ids → id ∉ ids))) ∧
    (∀ id, (db.DeletePurchase hashInt id).2 = .ok () →
      ∃ r, r ∈ db.purchases_.rows ∧ r.GetId = id ∧
        (∀ lo hi,
          ((lo ≤ r.GetDate ∧ r.GetDate ≤ hi) →
            (db.DeletePurchase hashInt id).1.FindPurchaseIdsByDateRange lo hi
              = .throws (.runtime "GetRowBySlot: slot is not alive")) ∧
          (¬ (lo ≤ r.GetDate ∧ r.GetDate ≤ hi) →
            (db.DeletePurchase hashInt id).1.FindPurchaseIdsByDateRange lo hi
              = db.FindPurchaseIdsByDateRange lo hi) ∧
          (∀ ids,
            (db.DeletePurchase hashInt id).1.FindPurchaseIdsByDateRange lo hi
              = .ok ids → id ∉ ids)) ∧
        (∀ key,
          (r.GetSupplierId = key →
            (db.DeletePurchase hashInt id).1.FindPurchaseIdsBySupplierId hashInt key
              = .throws (.runtime "GetRowBySlot: slot is not alive")) ∧
          (r.GetSupplierId ≠ key →
            (db.DeletePurchase hashInt id).1.FindPurchaseIdsBySupplierId hashInt key
              = db.FindPurchaseIdsBySupplierId hashInt key) ∧
          (∀ ids,
            (db.DeletePurchase hashInt id).1.FindPurchaseIdsBySupplierId hashInt key
              = .ok ids → id ∉ ids)) ∧
        (∀ key,
          (r.GetProductId = key →
            (db.DeletePurchase hashInt id).1.FindPurchaseIdsByProductId hashInt key
              = .throws (.runtime "GetRowBySlot: slot is not alive")) ∧
          (r.GetProductId ≠ key →
            (db.DeletePurchase hashInt id).1.FindPurchaseIdsByProductId hashInt key
              = db.FindPurchaseIdsByProductId hashInt key) ∧
          (∀ ids,
            (db.DeletePurchase hashInt id).1.FindPurchaseIdsByProductId hashInt key
              = .ok ids → id ∉ ids)) ∧
        (∀ key,
          (r.GetDeptId = key →
            (db.DeletePurchase hashInt id).1.FindPurchaseIdsByDeptId hashInt key
              = .throws (.runtime "GetRowBySlot: slot is not alive")) ∧
          (r.GetDeptId ≠ key →
            (db.DeletePurchase hashInt id).1.FindPurchaseIdsByDeptId hashInt key
              = db.FindPurchaseIdsByDeptId hashInt key) ∧
          (∀ ids,
            (db.DeletePurchase hashInt id).1.FindPurchaseIdsByDeptId hashInt key
              = .ok ids → id ∉ ids))) ∧
    ∀ op : DeleteOp,
      ((∀ id, op ≠ .address id) →
        (∀ key, (db.applyDelete hashInt op).1.FindAddressIdsByCity hashString key
          = db.FindAddressIdsByCity hashString key) ∧
        (∀ lo hi, (db.applyDelete hashInt op).1.FindAddressIdsByIdRange lo hi
          = db.FindAddressIdsByIdRange lo hi)) ∧
      ((∀ id, op ≠ .department id) →
        (∀ key, (db.applyDelete hashInt op).1.FindDepartmentIdsByName hashString key
          = db.FindDepartmentIdsByName hashString key) ∧
        (∀ key, (db.applyDelete hashInt op).1.FindDepartmentIdsByAddressId hashInt key
          = db.FindDepartmentIdsByAddressId hashInt key)) ∧
      ((∀ id, op ≠ .employee id) →
        (∀ key, (db.applyDelete hashInt op).1.FindEmployeeIdsByFullName hashString key
          = db.FindEmployeeIdsByFullName hashString key) ∧
        (∀ lo hi, (db.applyDelete hashInt op).1.FindEmployeeIdsByBirthYearRange lo hi
          = db.FindEmployeeIdsByBirthYearRange lo hi) ∧
        (∀ key, (db.applyDelete hashInt op).1.FindEmployeeIdsByDeptId hashInt key
          = db.FindEmployeeIdsByDeptId hashInt key)) ∧
      ((∀ id, op ≠ .supplier id) →
        (∀ key, (db.applyDelete hashInt op).1.FindSupplierIdsByName hashString key
          = db.FindSupplierIdsByName hashString key) ∧
        (∀ key, (db.applyDelete hashInt op).1.FindSupplierIdsByCity hashString key
          = db.FindSupplierIdsByCity hashString key)) ∧
      ((∀ id, op ≠ .product id) →
        (∀ key, (db.applyDelete hashInt op).1.FindProductIdsByName hashString key
          = db.FindProductIdsByName hashString key) ∧
        (∀ key, (db.applyDelete hashInt op).1.FindProductIdsByDefaultSupplierId hashInt key
          = db.FindProductIdsByDefaultSupplierId hashInt key)) ∧
      ((∀ id, op ≠ .purchase id) →
        (∀ lo hi, (db.applyDelete hashInt op).1.FindPurchaseIdsByDateRange lo hi
          = db.FindPurchaseIdsByDateRange lo hi) ∧
        (∀ key, (db.applyDelete hashInt op).1.FindPurchaseIdsBySupplierId hashInt key
          = db.FindPurchaseIdsBySupplierId hashInt key) ∧
        (∀ key, (db.applyDelete hashInt op).1.FindPurchaseIdsByProductId hashInt key
          = db.FindPurchaseIdsByProductId hashInt key) ∧
        (∀ key, (db.applyDelete hashInt op).1.FindPurchaseIdsByDeptId hashInt key
          = db.FindPurchaseIdsByDeptId hashInt key)) := by
  obtain ⟨hw, hx⟩ := database_indexed_of_reach hashInt hashString db hreach
  refine ⟨fun op => database_applyDelete_indexes hashInt db op, ?_, ?_, ?_, ?_, ?_, ?_,
    fun op => ⟨database_addresses_finds_frame hashInt hashString db op,
      database_departments_finds_frame hashInt hashString db op,
      database_employees_finds_frame hashInt hashString db op,
      database_suppliers_finds_frame hashInt hashString db op,
      database_products_finds_frame hashInt hashString db op,
      database_purchases_finds_frame hashInt db op⟩⟩
  · intro id hok
    obtain ⟨hst, hnf⟩ := database_DeleteAddress_ok hashInt db id hok
    obtain ⟨hc, r, hr, hid⟩ := table_delete_ok db.addresses_ Address.GetId hashInt hw.addresses _ id hnf
    rw [hst]
    refine ⟨r, hr, hid, ?_, ?_⟩
    · exact fun key => stale_hash_query hashString db.addressesByCity_ db.addresses_ Address.GetId hashInt
        hw.addresses Address.GetCity hx.addressesByCity id hc r hr hid key
    · exact fun lo hi => stale_range_query db.addressesById_ db.addresses_ Address.GetId hashInt
        hw.addresses Address.GetId hx.addressesById id hc r hr hid lo hi
  · intro id hok
    obtain ⟨hst, hnf⟩ := database_DeleteDepartment_ok hashInt db id hok
    obtain ⟨hc, r, hr, hid⟩ := table_delete_ok db.departments_ Department.GetId hashInt hw.departments _ id hnf
    rw [hst]
    refine ⟨r, hr, hid, ?_, ?_⟩
    · exact fun key => stale_hash_query hashString db.departmentsByName_ db.departments_ Department.GetId hashInt
        hw.departments Department.GetName hx.departmentsByName id hc r hr hid key
    · exact fun key => stale_hash_query hashInt db.departmentsByAddressId_ db.departments_ Department.GetId hashInt
        hw.departments Department.GetAddressId hx.departmentsByAddressId id hc r hr hid key
  · intro id hok
    obtain ⟨hst, hnf⟩ := database_DeleteEmployee_ok hashInt db id hok
    obtain ⟨hc, r, hr, hid⟩ := table_delete_ok db.employees_ Employee.GetId hashInt hw.employees _ id hnf
    rw [hst]
    refine ⟨r, hr, hid, ?_, ?_, ?_⟩
    · exact fun key => stale_hash_query hashString db.employeesByFullName_ db.employees_ Employee.GetId hashInt
        hw.employees Employee.GetFullName hx.employeesByFullName id hc r hr hid key
    · exact fun lo hi => stale_range_query db.employeesByBirthYear_ db.employees_ Employee.GetId hashInt
        hw.employees Employee.GetBirthYear hx.employeesByBirthYear id hc r hr hid lo hi
    · exact fun key => stale_hash_query hashInt db.employeesByDeptId_ db.employees_ Employee.GetId hashInt
        hw.employees Employee.GetDeptId hx.employeesByDeptId id hc r hr hid key
  · intro id hok
    obtain ⟨hst, hnf⟩ := database_DeleteSupplier_ok hashInt db id hok
    obtain ⟨hc, r, hr, hid⟩ := table_delete_ok db.suppliers_ Supplier.GetId hashInt hw.suppliers _ id hnf
    rw [hst]
    refine ⟨r, hr, hid, ?_, ?_⟩
    · exact fun key => stale_hash_query hashString db.suppliersByName_ db.suppliers_ Supplier.GetId hashInt
        hw.suppliers Supplier.GetName hx.suppliersByName id hc r hr hid key
    · exact fun key => stale_hash_query hashString db.suppliersByCity_ db.suppliers_ Supplier.GetId hashInt
        hw.suppliers Supplier.GetCity hx.suppliersByCity id hc r hr hid key
  · intro id hok
    obtain ⟨hst, hnf⟩ := database_DeleteProduct_ok hashInt db id hok
    obtain ⟨hc, r, hr, hid⟩ := table_delete_ok db.products_ Product.GetId hashInt hw.products _ id hnf
    rw [hst]
    refine ⟨r, hr, hid, ?_, ?_⟩
    · exact fun key => stale_hash_query hashString db.productsByName_ db.products_ Product.GetId hashInt
        hw.products Product.GetName hx.productsByName id hc r hr hid key
    · exact fun key => stale_hash_query hashInt db.productsByDefaultSupplierId_ db.products_ Product.GetId hashInt
        hw.products Product.GetDefaultSupplierId hx.productsByDefaultSupplierId id hc r hr hid key
  · intro id hok
    obtain ⟨hst, hnf⟩ := database_DeletePurchase_ok hashInt db id hok
    obtain ⟨hc, r, hr, hid⟩ := table_delete_ok db.purchases_ Purchase.GetId hashInt hw.purchases _ id hnf
    rw [hst]
    refine ⟨r, hr, hid, ?_, ?_, ?_, ?_⟩
    · exact fun lo hi => stale_range_query db.purchasesByDate_ db.purchases_ Purchase.GetId hashInt
        hw.purchases Purchase.GetDate hx.purchasesByDate id hc r hr hid lo hi
    · exact fun key => stale_hash_query hashInt db.purchasesBySupplierId_ db.purchases_ Purchase.GetId hashInt
        hw.purchases Purchase.GetSupplierId hx.purchasesBySupplierId id hc r hr hid key
    · exact fun key => stale_hash_query hashInt db.purchasesByProductId_ db.purchases_ Purchase.GetId hashInt
        hw.purchases Purchase.GetProductId hx.purchasesByProductId id hc r hr hid key
    · exact fun key => stale_hash_query hashInt db.purchasesByDeptId_ db.purchases_ Purchase.GetId hashInt
        hw.purchases Purchase.GetDeptId hx.purchasesByDeptId id hc r hr hid key

/-- C39, instance: in the database loaded from one address, one department and one employee
of department 1, `DeleteEmployee(1)` succeeds and leaves the index of employees by
department as it was; then `FindEmployeeIdsByDeptId(1)` throws "GetRowBySlot: slot is not
alive", and `FindEmployeeIdsByDeptId(2)` returns what it returned before the delete. -/
theorem database_stale_finds_witness :
    ∃ db : Database,
      Database.LoadFromFiles (fun n => n.toNat) String.length lengthParsers (some ["a"])
        (some ["d"]) (some ["e"]) none none none = .ok db ∧
      (db.DeleteEmployee (fun n => n.toNat) 1).2 = .ok () ∧
      (db.DeleteEmployee (fun n => n.toNat) 1).1.employeesByDeptId_ = db.employeesByDeptId_ ∧
      (db.DeleteEmployee (fun n => n.toNat) 1).1.FindEmployeeIdsByDeptId (fun n => n.toNat) 1
        = .throws (.runtime "GetRowBySlot: slot is not alive") ∧
      (db.DeleteEmployee (fun n => n.toNat) 1).1.FindEmployeeIdsByDeptId (fun n => n.toNat) 2
        = db.FindEmployeeIdsByDeptId (fun n => n.toNat) 2 := by
  obtain ⟨_, db, hload, -, -, hw, -, -, hemp, -⟩ := sample_database
  have hc : db.employees_.ContainsId (fun n => n.toNat) 1 = true :=
    table_contains_of_rows Employee.GetId _ db.employees_ hw.employees 1
      (by rw [hemp]; decide)
  have hok : (db.DeleteEmployee (fun n => n.toNat) 1).2 = .ok () := by
    show notFoundUnless (db.employees_.DeleteById (fun n => n.toNat) 1).2 _ _ = .ok ()
    rw [(table_DeleteById_spec Employee.GetId _ db.employees_ hw.employees 1).2.2.1, hc]
    rfl
  have h := database_stale_finds (fun n => n.toNat) String.length db
    (Or.inl ⟨lengthParsers, some ["a"], some ["d"], some ["e"], none, none, none, hload⟩)
  obtain ⟨r, hr, -, -, -, hq⟩ := h.2.2.2.1 1 hok
  rw [hemp] at hr
  have e : r = ⟨1, "e", "", "", 0, 1⟩ := by simpa using hr
  subst e
  exact ⟨db, hload, hok, (h.1 (.employee 1)).2.2.2.2.2.2.1, (hq 1).1 rfl,
    (hq 2).2.1 (by decide)⟩

end StaleIndexTheory

section LoadParseTheory

variable {T IdT : Type}

/-! ### A line that does not parse -/

theorem table_loadLines_head_throws [DecidableEq IdT] (FromCSV : String → Outcome T)
    (idGetter : T → IdT) (hash : IdT → Nat) (tb : Table T IdT) (rowIndex : Int)
    (line : String) (rest : List String) (e : Exn) (hne : line ≠ "")
    (h : FromCSV line = .throws e) :
    tb.loadLines FromCSV idGetter hash rowIndex (line :: rest) = .throws e := by
  simp only [Table.loadLines, hne, if_false, h]

theorem database_load_product_parse_error (P : RowParsers) (hashInt : Int → Nat)
    (hashString : String → Nat)
    (addresses departments employees suppliers products purchases : Option (List String))
    (A : List Address) (S : List Supplier)
    (ha : fileRows P.Address Address.GetId addresses = some A)
    (hs : fileRows P.Supplier Supplier.GetId suppliers = some S) (e : Exn)
    (hp : Table.LoadFromFile P.Product Product.GetId hashInt products = .throws e) :
    Database.LoadFromFiles hashInt hashString P addresses departments employees suppliers
      products purchases = .throws e := by
  obtain ⟨ta, hA, -, -⟩ := table_LoadFromFile_fileRows P.Address Address.GetId hashInt
    addresses A ha
  obtain ⟨ts, hS, -, -⟩ := table_LoadFromFile_fileRows P.Supplier Supplier.GetId hashInt
    suppliers S hs
  rw [database_LoadFromFiles_eq, andThen_ok _ _ _ hA, andThen_ok _ _ _ hS]
  exact andThen_throws _ _ _ hp

theorem product_fromCSV_short :
    Product.FromCSV "x" = .throws (.runtime "Bad Product CSV line: x") := by
  rfl

theorem product_file_short (hashInt : Int → Nat) :
    Table.LoadFromFile Product.FromCSV Product.GetId hashInt (some ["x"])
      = .throws (.runtime "Bad Product CSV line: x") :=
  table_loadLines_head_throws Product.FromCSV Product.GetId hashInt Table.new 0 "x" []
    _ (by decide) product_fromCSV_short

/-- C20, counterexample: the supplier file holds two lines with the ids 1 and 2 and the
same name `X`, and the product file holds the line `x`, which has fewer than five parts.
Both suppliers are loaded, but `LoadFromFiles` reads the product file before it checks the
supplier names, and `Product::FromCSV` throws: the load fails with the
`std::runtime_error` "Bad Product CSV line: x", which is no constraint error. (No purchase
file is read, so the conversion `std::stod` is never called.) -/
theorem database_load_duplicate_supplier_parse_error :
    (∃ ts, Table.LoadFromFile Supplier.FromCSV Supplier.GetId (fun n => n.toNat)
        (some ["1;X;c;p;e", "2;X;c;p;e"]) = .ok ts ∧
      ts.rows = [⟨1, "X", "c", "p", "e"⟩, ⟨2, "X", "c", "p", "e"⟩]) ∧
    Database.LoadFromFiles (fun n => n.toNat) String.length
        (csvParsers (fun _ => .throws (.runtime "stod"))) none none none
        (some ["1;X;c;p;e", "2;X;c;p;e"]) (some ["x"]) none
      = .throws (.runtime "Bad Product CSV line: x") ∧
    ¬ ∃ e : DbConstraintError,
      Database.LoadFromFiles (fun n => n.toNat) String.length
          (csvParsers (fun _ => .throws (.runtime "stod"))) none none none
          (some ["1;X;c;p;e", "2;X;c;p;e"]) (some ["x"]) none
        = .throws (.constraint e) := by
  have hs : fileRows Supplier.FromCSV Supplier.GetId (some ["1;X;c;p;e", "2;X;c;p;e"])
      = some [⟨1, "X", "c", "p", "e"⟩, ⟨2, "X", "c", "p", "e"⟩] := by decide
  have hload := database_load_product_parse_error
    (csvParsers (fun _ => .throws (.runtime "stod"))) (fun n => n.toNat) String.length
    none none none (some ["1;X;c;p;e", "2;X;c;p;e"]) (some ["x"]) none [] _ rfl hs _
    (product_file_short _)
  obtain ⟨ts, hts, -, hrows⟩ := table_LoadFromFile_fileRows Supplier.FromCSV Supplier.GetId
    (fun n => n.toNat) _ _ hs
  refine ⟨⟨ts, hts, hrows⟩, hload, ?_⟩
  rintro ⟨e, he⟩
  rw [hload] at he
  cases he

/-- C21, counterexample: two suppliers with one name and a department whose address is not
loaded are two constraint violations of the input; the product file holds the line `x`,
which has fewer than five parts. `LoadFromFiles` reads the product file before its first
check, and `Product::FromCSV` throws: the error raised is the `std::runtime_error`
"Bad Product CSV line: x" and none of the violations. (No purchase file is read, so the
conversion `std::stod` is never called.) -/
theorem database_load_violations_parse_error :
    fileRows Address.FromCSV Address.GetId none = some [] ∧
    fileRows Department.FromCSV Department.GetId (some ["1;D;7"]) = some [⟨1, "D", 7⟩] ∧
    fileRows Supplier.FromCSV Supplier.GetId (some ["1;X;c;p;e", "2;X;c;p;e"])
      = some [⟨1, "X", "c", "p", "e"⟩, ⟨2, "X", "c", "p", "e"⟩] ∧
    Database.LoadFromFiles (fun n => n.toNat) String.length
        (csvParsers (fun _ => .throws (.runtime "stod"))) none (some ["1;D;7"]) none
        (some ["1;X;c;p;e", "2;X;c;p;e"]) (some ["x"]) none
      = .throws (.runtime "Bad Product CSV line: x") ∧
    ¬ ∃ e : DbConstraintError,
      Database.LoadFromFiles (fun n => n.toNat) String.length
          (csvParsers (fun _ => .throws (.runtime "stod"))) none (some ["1;D;7"]) none
          (some ["1;X;c;p;e", "2;X;c;p;e"]) (some ["x"]) none
        = .throws (.constraint e) := by
  have hs : fileRows Supplier.FromCSV Supplier.GetId (some ["1;X;c;p;e", "2;X;c;p;e"])
      = some [⟨1, "X", "c", "p", "e"⟩, ⟨2, "X", "c", "p", "e"⟩] := by decide
  have hload := database_load_product_parse_error
    (csvParsers (fun _ => .throws (.runtime "stod"))) (fun n => n.toNat) String.length
    none (some ["1;D;7"]) none (some ["1;X;c;p;e", "2;X;c;p;e"]) (some ["x"]) none [] _ rfl
    hs _ (product_file_short _)
  refine ⟨rfl, by decide, hs, hload, ?_⟩
  rintro ⟨e, he⟩
  rw [hload] at he
  cases he

end LoadParseTheory

end LazyDB
